import Mathlib

/-!
# planetscope_sharpness: kernel estimator core

A shallow embedding of the image container (`image.hpp`), the FFT helper
routines and transforms (`fft.hpp`), the connected-component labeling
(`labeling.hpp`), the kernel utilities (`utils.hpp`), the control skeleton of
the estimator (`estimate_kernel.hpp`, `estimate_kernel.cpp`), the taper weights
(`edgetaper.hpp`) and the command-line helpers of `tvdeconv_20120607/cliio.c`.

Conventions.
* Samples are exact rationals (`ℚ`) in place of `float`; labels and sizes are
  natural numbers, kernel sizes that go through `int` arithmetic are integers.
* A `for (int i = 0; i < n; i++)` loop is `loop n body`.
* A division whose divisor is the kernel sum and is zero has no value in exact
  arithmetic: the function returns `none` there. The same holds for the
  divisions by the channel count and by `max()` in `preprocess_image`.
  `center_kernel_with` states what `center_kernel` leaves for whatever integers
  the conversion of such a quotient yields.
* The transforms are stated over a field with roots of unity; the execution of
  an FFTW plan is the exact DFT.
* Code outside the sources at hand enters as a parameter: the body of the loop
  of the sharp predictor, the resampling routine `zoom2`, the outcome of the
  argument parser, the ramp of the taper.
* A C string is the list of its characters before the terminator.
-/

set_option autoImplicit false

/-! ## Loops -/

/-- The counted loop `for (int i = 0; i < n; i++) s = body(i, s);`. -/
def loop {σ : Type} (n : Nat) (body : Nat → σ → σ) (s : σ) : σ :=
  match n with
  | 0 => s
  | k + 1 => body k (loop k body s)

/-! ## image.hpp -/

/-- The container `img_t<T>`: `w`, `h`, `d` and the channel-interleaved buffer `data`. -/
structure img_t (α : Type) where
  w : Nat
  h : Nat
  d : Nat
  data : List α
deriving DecidableEq

namespace img_t

variable {α : Type}

/-- The field `size`, kept equal to `w*h*d` by every constructor and by `resize`. -/
def size (im : img_t α) : Nat := im.w * im.h * im.d

/-- The container invariant: the buffer holds exactly `size` samples. -/
def wf (im : img_t α) : Prop := im.data.length = im.size

instance (im : img_t α) : Decidable im.wf := by unfold wf; infer_instance

/-- The default constructor `img_t()`. -/
def empty : img_t α := ⟨0, 0, 0, []⟩

/-- The constructor `img_t(w, h, d)`: a value-initialised buffer. -/
def make [Zero α] (w h d : Nat) : img_t α := ⟨w, h, d, List.replicate (w * d * h) 0⟩

/-- The linear index `dd + d*(x + y*w)` of `operator()(x, y, dd)`. -/
def idx (im : img_t α) (x y dd : Nat) : Nat := dd + im.d * (x + y * im.w)

/-- Reading `operator[](i)`. -/
def getI [Zero α] (im : img_t α) (i : Nat) : α := im.data.getD i 0

/-- Writing `operator[](i) = v`. -/
def setI (im : img_t α) (i : Nat) (v : α) : img_t α := { im with data := im.data.set i v }

/-- Reading `operator()(x, y, dd)`. -/
def get [Zero α] (im : img_t α) (x y dd : Nat) : α := im.getI (im.idx x y dd)

/-- Writing `operator()(x, y, dd) = v`. -/
def set (im : img_t α) (x y dd : Nat) (v : α) : img_t α := im.setI (im.idx x y dd) v

/-- The method `set_value(v)`: `std::fill` over the buffer. -/
def set_value (im : img_t α) (v : α) : img_t α :=
  { im with data := List.replicate im.data.length v }

/-- The method `fold(f)`: `std::accumulate(data.begin(), data.end(), T2(), f)`. -/
def fold {β : Type} [Zero β] (im : img_t α) (f : β → α → β) : β := im.data.foldl f 0

/-- The method `sum()`. -/
def sum [Zero α] [Add α] (im : img_t α) : α := im.fold (fun a b => a + b)

/-- The method `max()`: the fold of `a > b ? a : b` from the value-initialised accumulator. -/
def max [Zero α] [LT α] [DecidableRel (fun a b : α => a < b)] (im : img_t α) : α :=
  im.fold (fun a b => if a > b then a else b)

/-- The method `min()`: the fold of `a < b ? a : b` from the value-initialised accumulator. -/
def min [Zero α] [LT α] [DecidableRel (fun a b : α => a < b)] (im : img_t α) : α :=
  im.fold (fun a b => if a < b then a else b)

/-- The method `resize(w, h, d)`: when a dimension changes, the buffer is cut or
    zero-extended to `w*h*d` samples (`std::vector::resize`). -/
def resize [Zero α] (im : img_t α) (w h d : Nat) : img_t α :=
  if im.w ≠ w ∨ im.h ≠ h ∨ im.d ≠ d then
    ⟨w, h, d, im.data.take (w * h * d) ++ List.replicate (w * h * d - im.data.length) 0⟩
  else im

/-- The recurring in-place loop `for (int i = 0; i < n; i++) im[i] = g(i, im[i]);`. -/
def update_each [Zero α] (n : Nat) (g : Nat → α → α) (im : img_t α) : img_t α :=
  loop n (fun i im => im.setI i (g i (im.getI i))) im

/-- The recurring loop nest
    `for (y < ny) for (x < nx) out(x+ox, y+oy, l) = src(x+ix, y+iy, ls);`. -/
def copy_block [Zero α] (out src : img_t α) (nx ny ox oy ix iy l ls : Nat) : img_t α :=
  loop ny (fun y out =>
    loop nx (fun x out => out.set (x + ox) (y + oy) l (src.get (x + ix) (y + iy) ls)) out) out

end img_t

/-! ## fft.hpp: the quadrant swaps -/

namespace fft

/-- The function `fft::shift` (lines 176-209). -/
def shift {α : Type} [Zero α] (inp : img_t α) : img_t α :=
  let out : img_t α := (img_t.empty).resize inp.w inp.h inp.d
  let halfw := (inp.w + 1) / 2
  let halfh := (inp.h + 1) / 2
  let ohalfw := inp.w - halfw
  let ohalfh := inp.h - halfh
  loop inp.d (fun l out =>
    -- out(x, y + ohalfh, l) = in(x + halfw, y, l), y < halfh, x < ohalfw
    let out := img_t.copy_block out inp ohalfw halfh 0 ohalfh halfw 0 l l
    -- out(x + ohalfw, y + ohalfh, l) = in(x, y, l), y < halfh, x < halfw
    let out := img_t.copy_block out inp halfw halfh ohalfw ohalfh 0 0 l l
    -- out(x, y, l) = in(x + halfw, y + halfh, l), y < ohalfh, x < ohalfw
    let out := img_t.copy_block out inp ohalfw ohalfh 0 0 halfw halfh l l
    -- out(x + ohalfw, y, l) = in(x, y + halfh, l), y < ohalfh, x < halfw
    img_t.copy_block out inp halfw ohalfh ohalfw 0 0 halfh l l) out

end fft

namespace ifft

/-- The function `ifft::shift` (lines 287-320). -/
def shift {α : Type} [Zero α] (inp : img_t α) : img_t α :=
  let out : img_t α := (img_t.empty).resize inp.w inp.h inp.d
  let halfw := (inp.w + 1) / 2
  let halfh := (inp.h + 1) / 2
  let ohalfw := inp.w - halfw
  let ohalfh := inp.h - halfh
  loop inp.d (fun l out =>
    -- out(x, y + halfh, l) = in(x + ohalfw, y, l), y < ohalfh, x < halfw
    let out := img_t.copy_block out inp halfw ohalfh 0 halfh ohalfw 0 l l
    -- out(x + halfw, y + halfh, l) = in(x, y, l), y < ohalfh, x < ohalfw
    let out := img_t.copy_block out inp ohalfw ohalfh halfw halfh 0 0 l l
    -- out(x, y, l) = in(x + ohalfw, y + ohalfh, l), y < halfh, x < halfw
    let out := img_t.copy_block out inp halfw halfh 0 0 ohalfw ohalfh l l
    -- out(x + halfw, y, l) = in(x, y + ohalfh, l), y < halfh, x < ohalfw
    img_t.copy_block out inp ohalfw halfh halfw 0 0 ohalfh l l) out

end ifft

/-! ## labeling.hpp -/

namespace labeling

/-- The mutable state of the first pass of `labels`: the label image, the
    table `equiv` and the counter `nblabels`. -/
structure scan_state where
  labels : img_t Nat
  equiv : List Nat
  nblabels : Nat

/-- The body of the pixel loop of `labels` (lines 24-53) at `(x, y, d)`. -/
def visit {α : Type} [Zero α] [DecidableEq α] (img : img_t α) (x y d : Nat)
    (st : scan_state) : scan_state :=
  let val := img.get x y d
  if val = 0 then st
  else
    let tl := if y > 0 ∧ x > 0 then st.labels.get (x - 1) (y - 1) d else 0
    let t := if y > 0 then st.labels.get x (y - 1) d else 0
    let tr := if y > 0 ∧ x < img.w - 1 then st.labels.get (x + 1) (y - 1) d else 0
    let l := if x > 0 then st.labels.get (x - 1) y d else 0
    if tl + t + tr + l = 0 then
      -- no neighbor, add a connected component here
      { labels := st.labels.set x y d (st.nblabels + 1),
        equiv := st.equiv ++ [st.nblabels + 1],
        nblabels := st.nblabels + 1 }
    else
      -- otherwise, get the highest label and connect it
      let mx := Nat.max tl (Nat.max t (Nat.max tr l))
      let equiv := st.equiv
      let equiv := if tl ≠ 0 ∧ tl ≠ mx then equiv.set tl mx else equiv
      let equiv := if t ≠ 0 ∧ t ≠ mx then equiv.set t mx else equiv
      let equiv := if tr ≠ 0 ∧ tr ≠ mx then equiv.set tr mx else equiv
      let equiv := if l ≠ 0 ∧ l ≠ mx then equiv.set l mx else equiv
      { labels := st.labels.set x y d mx, equiv := equiv, nblabels := st.nblabels }

/-- The first pass of `labels` (lines 14-56). -/
def first_pass {α : Type} [Zero α] [DecidableEq α] (img : img_t α) : scan_state :=
  let labels : img_t Nat := ((img_t.empty).resize img.w img.h img.d).set_value 0
  loop img.d (fun d st =>
    loop img.h (fun y st =>
      loop img.w (fun x st => visit img x y d st) st) st)
    { labels := labels, equiv := [0], nblabels := 0 }

/-- The recursive lambda `getroot` (lines 59-63); `fuel` bounds the depth of
    the recursion. -/
def getroot (equiv : List Nat) : Nat → Nat → Nat
  | 0, l => l
  | fuel + 1, l => if l = equiv.getD l 0 then l else getroot equiv fuel (equiv.getD l 0)

/-- The function `labeling::labels`: the label image and the returned `nblabels`.
    The recursion of `getroot` is given as much depth as the table has entries. -/
def labels {α : Type} [Zero α] [DecidableEq α] (img : img_t α) : img_t Nat × Nat :=
  let st := first_pass img
  (img_t.update_each st.labels.size (fun _ l => getroot st.equiv st.equiv.length l) st.labels,
   st.nblabels)

/-- The function `labeling::sum`: the `std::map<int, T>` is a total function
    with the value-initialised default. -/
def sum {α : Type} [Zero α] [Add α] (labels : img_t Nat) (img : img_t α) : Nat → α :=
  loop img.size (fun i s => Function.update s (labels.getI i) (s (labels.getI i) + img.getI i))
    (fun _ => 0)

end labeling

/-! ## utils.hpp -/

/-- The function `std::round`: to the nearest integer, halfway cases away from zero. -/
def cround (x : ℚ) : ℤ := if 0 ≤ x then ⌊x + 1 / 2⌋ else -⌊-x + 1 / 2⌋

/-- The conversion of a floating value to `int`: truncation toward zero. -/
def ctrunc (x : ℚ) : ℤ := if 0 ≤ x then ⌊x⌋ else ⌈x⌉

namespace utils

/-- The size computed by `gaussian_downsample` (lines 25-30):
    `out.resize(std::ceil(in.w/factor), std::ceil(in.h/factor), in.d)`,
    or the input size when `factor == 1`. -/
def gaussian_downsample_size (w h : Nat) (factor : ℚ) : Nat × Nat :=
  if factor = 1 then (w, h) else (⌈(w : ℚ) / factor⌉₊, ⌈(h : ℚ) / factor⌉₊)

/-- The function `add_padding` (lines 47-78). The fields `w`, `h`, `d` of `f`
    are fixed by its constructor: the loops only write samples. -/
def add_padding {α : Type} [Zero α] (_f K : img_t α) : img_t α :=
  let fw := _f.w + K.w - 1
  let fh := _f.h + K.h - 1
  let fd := _f.d
  let f : img_t α := img_t.make fw fh fd
  let f := f.set_value 0
  let f := loop _f.h (fun y f => loop _f.w (fun x f => loop _f.d (fun d f =>
    f.set (x + K.w / 2) (y + K.h / 2) d (_f.get x y d)) f) f) f
  -- replicate borders
  let f := loop (K.h / 2) (fun y f => loop fw (fun x f => loop fd (fun l f =>
    let f := f.set x y l (f.get x (2 * (K.h / 2) - y) l)
    f.set x (fh - 1 - y) l (f.get x (fh - 1 - 2 * (K.h / 2) + y) l)) f) f) f
  loop fh (fun y f => loop (K.w / 2) (fun x f => loop fd (fun l f =>
    let f := f.set x y l (f.get (2 * (K.w / 2) - x) y l)
    f.set (fw - 1 - x) y l (f.get (fw - 1 - 2 * (K.w / 2) + x) y l)) f) f) f

/-- The function `remove_padding` (lines 81-96); both half sizes are taken
    from `K.w`, as in the source. -/
def remove_padding {α : Type} [Zero α] (f K : img_t α) : img_t α :=
  let w2 := K.w / 2
  let h2 := K.w / 2
  let ow := f.w - 2 * w2
  let oh := f.h - 2 * h2
  let out : img_t α := img_t.make ow oh f.d
  loop oh (fun y out => loop ow (fun x out => loop f.d (fun l out =>
    out.set x y l (f.get (x + w2) (y + h2) l)) out) out) out

/-- The moment loop of `center_kernel` (lines 100-108): the pair `(dx, dy)`. -/
def moments (kernel : img_t ℚ) : ℚ × ℚ :=
  loop kernel.h (fun y acc => loop kernel.w (fun x acc =>
    (acc.1 + kernel.get x y 0 * x, acc.2 + kernel.get x y 0 * y)) acc) (0, 0)

/-- The translation loop of `center_kernel` (lines 112-122) for the rounded
    centroid `(dx, dy)`; `kernel.w` and `kernel.h` do not change in the loop. -/
def recenter (kernel : img_t ℚ) (dx dy : ℤ) : img_t ℚ :=
  let copy := kernel
  loop kernel.h (fun y k => loop kernel.w (fun x k =>
    let nx : ℤ := x + dx - (kernel.w / 2 : ℕ)
    let ny : ℤ := y + dy - (kernel.h / 2 : ℕ)
    if nx ≥ 0 ∧ nx < kernel.w ∧ ny ≥ 0 ∧ ny < kernel.h then
      k.set x y 0 (copy.get nx.toNat ny.toNat 0)
    else k) k) (kernel.set_value 0)

/-- The function `center_kernel` (lines 98-123). The quotients `dx / sum` and
    `dy / sum` have no value when `sum` is zero. -/
def center_kernel (kernel : img_t ℚ) : Option (img_t ℚ) :=
  let sum := kernel.sum
  let m := moments kernel
  if sum = 0 then none
  else some (recenter kernel (cround (m.1 / sum)) (cround (m.2 / sum)))

/-- The function `remove_isolated_cc` (lines 127-139). The quotients `k[i] / sum`
    have no value when `sum` is zero. -/
def remove_isolated_cc (k : img_t ℚ) : Option (img_t ℚ) :=
  let sum := k.sum
  if sum = 0 ∧ 0 < k.size then none
  else
    let k := img_t.update_each k.size (fun _ v => v / sum) k
    let lab := (labeling.labels k).1
    let sums := labeling.sum lab k
    some (img_t.update_each k.size (fun i v => if sums (lab.getI i) < 1 / 10 then 0 else v) k)

end utils

/-! ## fft.hpp: the table of FFT-friendly sizes -/

namespace fft

/-- The constant `lut_size` of `get_optimal_table`. -/
def lut_size : Nat := 4096

/-- The loop `for (int e = start; e < lut_size; e *= m) s = body(e, s);`,
    with `fuel` bounding the number of iterations. -/
def mul_loop {σ : Type} (m : Nat) (body : Nat → σ → σ) : Nat → Nat → σ → σ
  | 0, _, s => s
  | fuel + 1, e, s => if e < lut_size then mul_loop m body fuel (e * m) (body e s) else s

/-- The function `get_optimal_table` (lines 211-224): the array `is_optimal`. -/
def get_optimal_table : List Bool :=
  mul_loop 2 (fun e2 t =>
    mul_loop 3 (fun e3 t =>
      mul_loop 5 (fun e5 t =>
        mul_loop 7 (fun e7 t => t.set e7 true) lut_size e5 t) lut_size e3 t) lut_size e2 t)
    lut_size 1 (List.replicate lut_size false)

/-- The loop `for (int i = size; i > 0; i--) if (is_optimal[i]) return i;`. -/
def scan_down (is_optimal : List Bool) : Nat → Option Nat
  | 0 => none
  | i + 1 => if is_optimal.getD (i + 1) false then some (i + 1) else scan_down is_optimal i

/-- The function `get_optimal_size_down` (lines 237-248). -/
def get_optimal_size_down (size : Nat) : Nat :=
  let size := if size ≥ lut_size then lut_size - 1 else size
  match scan_down get_optimal_table size with
  | some i => i
  | none => size

end fft

/-! ## estimate_kernel.hpp -/

/-- The numeric fields of `struct options`. -/
structure options where
  ks : ℤ
  lambda : ℚ
  lambda_ratio : ℚ
  lambda_min : ℚ
  gamma : ℚ
  iterations : ℕ
  multiscale : Bool
  scalefactor : ℚ
  kernel_threshold_max : ℚ
  remove_isolated : Bool

namespace FourierKernelEstimator

/-- Lines 170-173: enforce positivity of the kernel, `k[i] = std::max(T(0), k[i])`. -/
def clamp (k : img_t ℚ) : img_t ℚ :=
  img_t.update_each k.size (fun _ v => if 0 < v then v else 0) k

/-- Lines 175-180: threshold the kernel at some percentage of the max value. -/
def threshold (opts : options) (k : img_t ℚ) : img_t ℚ :=
  if opts.kernel_threshold_max > 0 then
    let th := k.max * opts.kernel_threshold_max
    img_t.update_each k.size (fun _ v => if v < th then 0 else v) k
  else k

/-- Lines 182-185: remove isolated connected components. -/
def prune (opts : options) (k : img_t ℚ) : Option (img_t ℚ) :=
  if opts.remove_isolated then utils.remove_isolated_cc k else some k

/-- Lines 190-196: normalize. -/
def normalize (k : img_t ℚ) : img_t ℚ :=
  let sum := k.sum
  if sum > 0 then img_t.update_each k.size (fun _ v => v / sum) k else k

/-- Lines 170-188: the post-processing of the cropped window up to and
    including `center_kernel`, before the final normalization. -/
def centered (opts : options) (k : img_t ℚ) : Option (img_t ℚ) :=
  (prune opts (threshold opts (clamp k))).bind utils.center_kernel

/-- Lines 170-196 of `FourierKernelEstimator::operator()`: the post-processing
    of the cropped window `k`. -/
def postprocess (opts : options) (k : img_t ℚ) : Option (img_t ℚ) :=
  (centered opts k).map normalize

end FourierKernelEstimator

/-- Lines 315-328 of `preprocess_image`: the crop to FFT-friendly sizes. -/
def preprocess_crop (v : img_t ℚ) : img_t ℚ :=
  let copy := v
  let w := v.w
  let h := v.h
  let nw := fft.get_optimal_size_down v.w
  let nh := fft.get_optimal_size_down v.h
  let offx := (w - nw) / 2
  let offy := (h - nh) / 2
  let v := v.resize nw nh 1
  img_t.copy_block v copy nw nh 0 0 offx offy 0 0

/-- The state of the do-while loop of `multiscale_l0_kernel_estimation`
    (lines 252-269): the sizes of the images pushed on `vs`, the vector
    `kernelSizes`, the size of `vv` and `ks`. -/
structure pyramid_state where
  vs : List (ℕ × ℕ)
  kernelSizes : List ℤ
  vv : ℕ × ℕ
  ks : ℤ
deriving DecidableEq

/-- The body of the do-while loop (lines 259-268). -/
def pyramid_body (scalefactor : ℚ) (st : pyramid_state) : pyramid_state :=
  let vs := st.vs ++ [st.vv]
  let kernelSizes := st.kernelSizes ++ [st.ks]
  let vv := utils.gaussian_downsample_size st.vv.1 st.vv.2 (1 / scalefactor)
  let ks := ctrunc (st.ks * scalefactor)
  let ks := ks + Int.tmod (ks + 1) 2
  { vs := vs, kernelSizes := kernelSizes, vv := vv, ks := ks }

/-- The do-while loop `do { body } while (vv.w > 1 && vv.h > 1 && ks >= 3)`;
    `none` when `fuel` iterations did not reach the exit. -/
def pyramid_loop (scalefactor : ℚ) : ℕ → pyramid_state → Option pyramid_state
  | 0, _ => none
  | fuel + 1, st =>
    let st := pyramid_body scalefactor st
    if st.vv.1 > 1 ∧ st.vv.2 > 1 ∧ st.ks ≥ 3 then pyramid_loop scalefactor fuel st else some st

/-- The pyramid of `multiscale_l0_kernel_estimation` for an image of size
    `w x h` and the options `opts` (lines 255-269). -/
def build_pyramid (fuel : ℕ) (w h : ℕ) (opts : options) : Option pyramid_state :=
  pyramid_loop opts.scalefactor fuel { vs := [], kernelSizes := [], vv := (w, h), ks := opts.ks }

/-! ## Properties of images and kernels used to state the results -/

/-- Two images of the same dimensions and buffer length. -/
def img_t.same_shape {α : Type} (a b : img_t α) : Prop :=
  a.w = b.w ∧ a.h = b.h ∧ a.d = b.d ∧ a.data.length = b.data.length

/-- Every sample of the buffer is non-negative. -/
def img_t.nonneg (im : img_t ℚ) : Prop := ∀ v ∈ im.data, 0 ≤ v

/-- The samples of the region `R` of `o` are those of `o0`. -/
def img_t.agrees_on {α : Type} [Zero α] (R : ℕ → ℕ → Prop) (o0 o : img_t α) : Prop :=
  img_t.same_shape o o0 ∧
  ∀ p q c, p < o0.w → q < o0.h → c < o0.d → R p q → o.get p q c = o0.get p q c

/-- The state of the first pass of `labels` is consistent: the table has one
    entry per label and the entry 0, every entry points to itself or to a
    larger label, and no pixel carries a label beyond `nblabels`. -/
def labeling.table_ok (st : labeling.scan_state) : Prop :=
  st.equiv.length = st.nblabels + 1 ∧
  (∀ i, i < st.equiv.length → i ≤ st.equiv.getD i 0 ∧ st.equiv.getD i 0 ≤ st.nblabels) ∧
  (∀ v ∈ st.labels.data, v ≤ st.nblabels)

/-- Two pixels are 8-adjacent: their coordinates differ by at most one. -/
def adj8 (p q : ℕ × ℕ) : Prop :=
  (p.1 ≤ q.1 + 1 ∧ q.1 ≤ p.1 + 1) ∧ (p.2 ≤ q.2 + 1 ∧ q.2 ≤ p.2 + 1)

/-- The pixel `p` lies in the support of the single-channel kernel `k`. -/
def in_support (k : img_t ℚ) (p : ℕ × ℕ) : Prop :=
  p.1 < k.w ∧ p.2 < k.h ∧ k.get p.1 p.2 0 ≠ 0

/-- The pixel `q` is reached from `p` by a path of 8-adjacent support pixels. -/
def connected8 (k : img_t ℚ) (p q : ℕ × ℕ) : Prop :=
  Relation.ReflTransGen (fun a b => adj8 a b ∧ in_support k b) p q

/-- The support of `k` has at most one 8-connected component. -/
def at_most_one_component (k : img_t ℚ) : Prop :=
  ∀ p q, in_support k p → in_support k q → connected8 k p q

/-- The labels carried by the pixels that are non-zero in `out`. -/
def surviving_labels (lab : img_t ℕ) (out : img_t ℚ) : Finset ℕ :=
  ((Finset.range out.size).filter (fun i => out.getI i ≠ 0)).image (fun i => lab.getI i)

/-- The number `m` is of the form `2^a * 3^b * 5^c * 7^d`. -/
def smooth7 (m : ℕ) : Prop := ∃ a b c d : ℕ, m = 2 ^ a * 3 ^ b * 5 ^ c * 7 ^ d

/-- Divide `n` by `p` as long as `p` divides it, at most `fuel` times. -/
def strip_factor (p : ℕ) : ℕ → ℕ → ℕ
  | 0, n => n
  | fuel + 1, n => if n % p = 0 then strip_factor p fuel (n / p) else n

/-- A test for the form `2^a * 3^b * 5^c * 7^d`: nothing is left of `m` once
    the factors 2, 3, 5 and 7 are divided out. -/
def smooth7_test (m : ℕ) : Bool :=
  strip_factor 7 m (strip_factor 5 m (strip_factor 3 m (strip_factor 2 m m))) == 1

/-- The kernel size that follows `ks` in the pyramid: `ks * scalefactor`
    truncated to an integer, plus one when that integer is even. -/
def next_kernel_size (scalefactor : ℚ) (ks : ℤ) : ℤ :=
  if ctrunc (ks * scalefactor) % 2 = 0 then ctrunc (ks * scalefactor) + 1
  else ctrunc (ks * scalefactor)

/-- The kernel sizes pushed so far, followed by the current one, form a chain
    under `next_kernel_size`, start with the size the loop was entered with
    and are non-negative. -/
def pyramid_chain (sf : ℚ) (ks0 : ℤ) (st : pyramid_state) : Prop :=
  List.Chain' (fun a b => b = next_kernel_size sf a) (st.kernelSizes ++ [st.ks]) ∧
  (st.kernelSizes ++ [st.ks]).head? = some ks0 ∧ 0 ≤ st.ks

/-! ## Concrete inputs -/

/-- The options of the command line with its default values, for `ks = 3`. -/
def default_options : options :=
  { ks := 3, lambda := 4 / 1000, lambda_ratio := 10 / 11, lambda_min := 1 / 10000, gamma := 20,
    iterations := 5, multiscale := true, scalefactor := 1 / 2, kernel_threshold_max := 5 / 100,
    remove_isolated := true }

/-- A 3 x 3 window with two opposite corner pixels of equal value. -/
def corner_window : img_t ℚ := ⟨3, 3, 1, [1, 0, 0, 0, 0, 0, 0, 0, 1]⟩

/-- A 3 x 3 window with negative, small and large entries. -/
def mixed_window : img_t ℚ := ⟨3, 3, 1, [1, 2, 0, 0, -5, 0, 0, 1 / 100, 1]⟩

/-- A 5 x 5 window with mass 3 at the left end and mass 1 at the right end of
    its middle row. -/
def lopsided_window : img_t ℚ :=
  ⟨5, 5, 1, [0, 0, 0, 0, 0, 0, 0, 0, 0, 0, 3, 0, 0, 0, 1, 0, 0, 0, 0, 0, 0, 0, 0, 0, 0]⟩

/-! ## estimate_kernel.hpp: the alternation and the scale loop -/

/-- The mutable state of the loop of `l0_kernel_estimation`: the kernel `k`,
    the sharp image `u`, the options, and the record `passed` of the values of
    `lambda` handed to the sharp predictor so far. -/
structure l0_state (K U : Type) where
  k : K
  u : U
  opts : options
  passed : List ℚ

/-- The function `l0_kernel_estimation` (lines 211-245). The kernel estimator
    (`FourierKernelEstimator::operator()`, which reads the options through a
    `const` reference) and the sharp predictor (`L0ImagePredictor::operator()`,
    which receives `lambda` and `beta_init = 2*lambda` by value) are parameters. -/
def l0_kernel_estimation {K U : Type} (kernel_estimator : K → U → options → K)
    (sharp_predictor : U → K → ℚ → ℚ → U) (k : K) (initu : U) (opts : options) :
    l0_state K U :=
  let u := initu
  -- make sure lambda is not lower than lambda_min
  let opts := { opts with lambda := max opts.lambda opts.lambda_min }
  loop opts.iterations (fun _ s =>
    let k := kernel_estimator s.k s.u s.opts
    let u := sharp_predictor s.u k s.opts.lambda (2 * s.opts.lambda)
    { k := k, u := u,
      opts := { s.opts with
        lambda := max (s.opts.lambda * s.opts.lambda_ratio) s.opts.lambda_min },
      passed := s.passed ++ [s.opts.lambda] })
    { k := k, u := u, opts := opts, passed := [] }

/-- The scale loop of `multiscale_l0_kernel_estimation` (lines 271-290),
    `for (int s = Nscales - 1; s >= 0; s--)`: the calls of
    `l0_kernel_estimation` in the order they are made, each with the level `s`,
    the size of `vs[s]` and the kernel size `kernelSizes[s]` written to `opts.ks`. -/
def multiscale_calls (st : pyramid_state) : List (ℕ × (ℕ × ℕ) × ℤ) :=
  let Nscales := st.vs.length
  loop Nscales (fun i calls =>
    let s := Nscales - 1 - i
    calls ++ [(s, st.vs.getD s (0, 0), st.kernelSizes.getD s 0)]) []

/-! ## estimate_kernel.hpp: the preprocessing before the crop -/

/-- Lines 298-307 of `preprocess_image`: the conversion to grayscale. The
    quotient `v[i] / _v.d` has no value when the image has no channel. -/
def preprocess_gray (_v : img_t ℚ) : Option (img_t ℚ) :=
  let v : img_t ℚ := img_t.make _v.w _v.h 1
  let v := v.set_value 0
  if _v.d = 0 ∧ 0 < v.w * v.h then none
  else some (loop (v.w * v.h) (fun i v =>
    let v := loop _v.d (fun d v => v.setI i (v.getI i + _v.getI (i * _v.d + d))) v
    v.setI i (v.getI i / _v.d)) v)

/-- Lines 309-313 of `preprocess_image`: normalize the input between 0 and 1.
    The quotients `v[i] / max` have no value when `max` is zero. -/
def preprocess_normalize (v : img_t ℚ) : Option (img_t ℚ) :=
  let min := v.min
  let v := img_t.update_each v.size (fun _ x => x - min) v
  let max := v.max
  if max = 0 ∧ 0 < v.size then none
  else some (img_t.update_each v.size (fun _ x => x / max) v)

/-- The options of the lambda schedule scenario: `lambda = 1e-2`,
    `lambda_ratio = 0.5`, `lambda_min = 1e-3`, `iterations = 10`. -/
def schedule_options : options :=
  { default_options with
    lambda := 1 / 100, lambda_ratio := 1 / 2, lambda_min := 1 / 1000, iterations := 10 }

/-- A gray image of two pixels, both positive. -/
def two_positive_pixels : img_t ℚ := ⟨2, 1, 1, [1, 2]⟩

/-- A gray image of two pixels, one of them negative. -/
def signed_pixels : img_t ℚ := ⟨2, 1, 1, [-1, 3]⟩

/-! ## image.hpp: `padcirc` -/

/-- The method `padcirc(o)` (lines 263-293) of an image `self`, with `conv` the
    conversion of a sample of `o` to the sample type of `self`. The loops
    `for (x = ww; x < o.w; x++)` and `for (y = hh; y < o.h; y++)` run over
    `x = ww + i` and `y = hh + j`. The result is `none` when `assert(false)` is
    reached. The coordinates are those of the source when `o` is no larger than
    `self`. -/
def img_t.padcirc {α β : Type} [Zero α] [Zero β] (conv : β → α) (self : img_t α)
    (o : img_t β) : Option (img_t α) :=
  let w := self.w
  let h := self.h
  let d := self.d
  let out := self.set_value 0
  let ww := o.w / 2
  let hh := o.h / 2
  if 0 < d ∧ d ≠ o.d ∧ o.d ≠ 1 then none
  else some (loop d (fun dd out =>
    let od := if d = o.d then dd else 0
    let out := loop hh (fun y out =>
      let out := loop ww (fun x out =>
        out.set (w - ww + x) (h - hh + y) dd (conv (o.get x y od))) out
      loop (o.w - ww) (fun i out =>
        out.set (ww + i - ww) (h - hh + y) dd (conv (o.get (ww + i) y od))) out) out
    loop (o.h - hh) (fun j out =>
      let out := loop ww (fun x out =>
        out.set (w - ww + x) (hh + j - hh) dd (conv (o.get x (hh + j) od))) out
      loop (o.w - ww) (fun i out =>
        out.set (ww + i - ww) (hh + j - hh) dd (conv (o.get (ww + i) (hh + j) od))) out) out) out)

/-- The column (or row) of the kernel that `padcirc` writes at the column (or
    row) `p` of an image of width (or height) `n`, for a kernel of width (or
    height) `kn`. -/
def padcirc_source (n kn p : ℕ) : ℕ := if p < kn - kn / 2 then kn / 2 + p else p - (n - kn / 2)

/-- The columns (or rows) of an image of width (or height) `n` that `padcirc`
    writes for a kernel of width (or height) `kn`. -/
def padcirc_written (n kn p : ℕ) : Prop := p < kn - kn / 2 ∨ n - kn / 2 ≤ p

instance (n kn p : ℕ) : Decidable (padcirc_written n kn p) := by
  unfold padcirc_written; infer_instance

/-- A 3 x 3 kernel with the entries 1 to 9. -/
def counting_kernel : img_t ℚ := ⟨3, 3, 1, [1, 2, 3, 4, 5, 6, 7, 8, 9]⟩

/-- A 4 x 5 single-channel image with arbitrary content. -/
def scratch_image : img_t ℚ := ⟨4, 5, 1, List.replicate 20 7⟩

/-- The column (or row) `(x - floor(kn/2)) mod n` of an image of width (or
    height) `n` at which the column (or row) `x` of a kernel of width (or
    height) `kn` is placed with wrap-around. -/
def padcirc_target (n kn x : ℕ) : ℕ := (((x : ℤ) - ((kn / 2 : ℕ) : ℤ)) % (n : ℤ)).toNat

/-! ## Properties used to state the results on the labeling -/

/-- Two support pixels of `k` joined by a path of 8-adjacent support pixels. -/
def linked (k : img_t ℚ) (p q : ℕ × ℕ) : Prop :=
  in_support k p ∧ in_support k q ∧ connected8 k p q

/-- The state of the first pass of `labels` on the single-channel image `img`
    when the pixels `vis` have been visited: pixels not yet visited carry the
    label 0, a visited pixel carries a non-zero label exactly when it is in the
    support, pixels with the same label are linked, every label is carried by
    some pixel, and the pixels of a label are linked to those of its entry in
    `equiv`; the entry 0 of `equiv` stays 0. -/
structure labeling.scan_inv (img : img_t ℚ) (vis : ℕ → ℕ → Prop)
    (st : labeling.scan_state) : Prop where
  shape : img_t.same_shape st.labels
    (((img_t.empty : img_t ℕ).resize img.w img.h img.d).set_value 0)
  table : labeling.table_ok st
  zero : st.equiv.getD 0 0 = 0
  fresh : ∀ x y, x < img.w → y < img.h → ¬ vis x y → st.labels.get x y 0 = 0
  marked : ∀ x y, x < img.w → y < img.h → vis x y → img.get x y 0 ≠ 0 →
    st.labels.get x y 0 ≠ 0
  support : ∀ x y, x < img.w → y < img.h → st.labels.get x y 0 ≠ 0 → img.get x y 0 ≠ 0
  same : ∀ x y x' y', x < img.w → y < img.h → x' < img.w → y' < img.h →
    st.labels.get x y 0 ≠ 0 → st.labels.get x y 0 = st.labels.get x' y' 0 →
    linked img (x, y) (x', y')
  carried : ∀ l, 1 ≤ l → l ≤ st.nblabels →
    ∃ x y, x < img.w ∧ y < img.h ∧ st.labels.get x y 0 = l
  parent : ∀ l, 1 ≤ l → l ≤ st.nblabels →
    ∀ x y x' y', x < img.w → y < img.h → x' < img.w → y' < img.h →
    st.labels.get x y 0 = l → st.labels.get x' y' 0 = st.equiv.getD l 0 →
    linked img (x, y) (x', y')

/-- A 5 x 5 window whose support is one zigzag of seven pixels; the two
    pixels on the left are light, the other five heavy. -/
def zigzag_window : img_t ℚ :=
  ⟨5, 5, 1, [0, 0, 10, 0, 10,
             1, 0, 10, 0, 10,
             0, 1, 0, 10, 0,
             0, 0, 0, 0, 0,
             0, 0, 0, 0, 0]⟩

/-- A 5 x 5 window with a heavy cluster of two pixels and a light pixel that
    holds 1/20 of the mass. -/
def two_cluster_window : img_t ℚ :=
  ⟨5, 5, 1, [10, 9, 0, 0, 0,
             0, 0, 0, 0, 0,
             0, 0, 0, 0, 0,
             0, 0, 0, 0, 0,
             0, 0, 0, 0, 1]⟩

/-! ## fft.hpp: the transforms -/

/-- Modelled from the spec: the execution of the FFTW plan made by `plan_t`
    (`fftw_plan_many_dft` of rank 2 with `n = (h, w)`, `howmany = d`, stride `d`
    and distance 1), which is library code: the exact unnormalized 2D DFT of
    every channel, `Y(u, v, c) = sum over x, y of X(x, y, c) * ωw^(u*x) * ωh^(v*y)`,
    in a field with the roots of unity `ωw` of order `w` and `ωh` of order `h`
    (for the complex numbers `exp(-2*pi*i/w)` and `exp(-2*pi*i/h)` forward, their
    inverses backward). -/
def dft2 {F : Type} [Field F] (ωw ωh : F) (o : img_t F) : img_t F :=
  { o with data := (List.range o.size).map (fun i =>
      let c := i % o.d
      let u := (i / o.d) % o.w
      let v := (i / o.d) / o.w
      ∑ y in Finset.range o.h, ∑ x in Finset.range o.w,
        o.get x y c * ωw ^ (u * x) * ωh ^ (v * y)) }

/-- The function `fft::c2c` (lines 157-165): `plan->execute_forward` on a copy. -/
def fft.c2c {F : Type} [Field F] (ωw ωh : F) (o : img_t F) : img_t F :=
  let tmp := o
  dft2 ωw ωh tmp

/-- The function `ifft::c2c` (lines 262-275): `plan->execute_backward` on a
    copy, then the division of every sample by `norm = tmp.w * tmp.h`. -/
def ifft.c2c {F : Type} [Field F] (ωw ωh : F) (o : img_t F) : img_t F :=
  let tmp := o
  let tmp := dft2 ωw⁻¹ ωh⁻¹ tmp
  let norm : F := ((tmp.w * tmp.h : ℕ) : F)
  img_t.update_each tmp.size (fun _ v => v / norm) tmp

/-- The function `fft::psf2otf` (lines 250-256), with `conv` the conversion of
    a kernel sample to a complex sample. -/
def fft.psf2otf {F β : Type} [Field F] [Zero β] (conv : β → F) (ωw ωh : F) (out : img_t F)
    (k : img_t β) (w h d : ℕ) : Option (img_t F) :=
  let out := out.resize w h d
  (out.padcirc conv k).map (fun out => fft.c2c ωw ωh out)

/-- An image of size 2 x 2 with two channels. -/
def two_channel_image : img_t ℚ := ⟨2, 2, 2, [1, 2, 3, 4, 5, 6, 7, 8]⟩

/-- A kernel of width 2 with a negative entry. -/
def difference_kernel : img_t ℚ := ⟨2, 1, 1, [1, -1]⟩

/-- A kernel of width 2 with non-negative entries. -/
def average_kernel : img_t ℚ := ⟨2, 1, 1, [1, 3]⟩

/-- The sample at `(x, y)` of the image that `padcirc` makes of the
    single-channel kernel `k` in an image of size `W x H`. -/
def padded_kernel (k : img_t ℚ) (W H x y : ℕ) : ℚ :=
  if padcirc_written W k.w x ∧ padcirc_written H k.h y then
    k.get (padcirc_source W k.w x) (padcirc_source H k.h y) 0
  else 0

/-- The column (or row) of the input that `fft::shift` moves to the column (or
    row) `p` of an image of width (or height) `n`. -/
def shift_source (n p : ℕ) : ℕ :=
  if p < n - (n + 1) / 2 then p + (n + 1) / 2 else p - (n - (n + 1) / 2)

/-! ## estimate_kernel.hpp: the sharp image predictor -/

namespace L0ImagePredictor

/-- The variables of `operator()` that the `while` loop changes: the sharp
    image `u`, `beta`, and the number of passes made so far. -/
structure state where
  u : img_t ℚ
  beta : ℚ
  iterations : ℕ

/-- The loop `while (beta < beta_max) { ...; beta *= beta_rate; }` of
    `operator()` (lines 87-117). `step K lambda beta u` is the image that one
    pass (lines 88-113: gradient, hard thresholding, divergence, solve in the
    Fourier domain) makes of `u`; the spectra it uses are made from `K` and the
    member `v` before the loop. The result is `none` when `fuel` passes did not
    reach the exit. -/
def while_loop (step : img_t ℚ → ℚ → ℚ → img_t ℚ → img_t ℚ) (K : img_t ℚ)
    (lambda beta_rate beta_max : ℚ) : ℕ → state → Option state
  | 0, st => if st.beta < beta_max then none else some st
  | fuel + 1, st =>
    if st.beta < beta_max then
      while_loop step K lambda beta_rate beta_max fuel
        { u := step K lambda st.beta st.u, beta := st.beta * beta_rate,
          iterations := st.iterations + 1 }
    else some st

/-- The method `operator()(u, K, lambda, beta_init, beta_rate, beta_max)`
    (lines 59-118) of a predictor built for the blurry image `v`. The two
    assertions on `K` come first (`none` when one fails); nothing reads `u`
    before the assignment `u = v`. -/
def call (step : img_t ℚ → ℚ → ℚ → img_t ℚ → img_t ℚ) (v : img_t ℚ) (fuel : ℕ)
    (u K : img_t ℚ) (lambda beta_init beta_rate beta_max : ℚ) : Option state :=
  if K.w % 2 = 0 ∨ K.h % 2 = 0 then none
  else
    let st : state := { u := u, beta := 0, iterations := 0 }
    let st := { st with beta := beta_init }
    let st := { st with u := v }
    while_loop step K lambda beta_rate beta_max fuel st

end L0ImagePredictor

/-! ## estimate_kernel.cpp -/

/-- What `parser.ParseCLI(argc, argv)` of the argument library does with a
    command line: it throws `args::Help`, `args::ParseError` or
    `args::ValidationError`, or it fills the positional arguments and the
    flags, here the numeric ones. -/
inductive parse_outcome where
  | help : parse_outcome
  | parse_error : parse_outcome
  | validation_error : parse_outcome
  | values : options → parse_outcome

/-- The function `parse_args` (lines 9-61): the exit code of `exit`, or the
    options it returns. -/
def parse_args (cli : parse_outcome) : Except ℕ options :=
  match cli with
  | parse_outcome.help => Except.error 0
  | parse_outcome.parse_error => Except.error 1
  | parse_outcome.validation_error => Except.error 1
  | parse_outcome.values o => Except.ok o

/-- What `main` hands to the stages after `parse_args`: the `ks` in the options
    given to `preprocess_image`, and the `ks` in the options given to the
    estimation (`multiscale_l0_kernel_estimation` or `l0_kernel_estimation`). -/
structure main_calls where
  preprocess_ks : ℤ
  estimation_ks : ℤ
  multiscale : Bool
deriving DecidableEq

/-- The function `main` of estimate_kernel.cpp (lines 63-82), as far as the
    options go: the exit code of `parse_args`, or the calls it makes. -/
def estimate_kernel.main (cli : parse_outcome) : Except ℕ main_calls :=
  match parse_args cli with
  | Except.error code => Except.error code
  | Except.ok opts =>
    Except.ok { preprocess_ks := opts.ks, estimation_ks := opts.ks, multiscale := opts.multiscale }

/-! ## utils.hpp: `upsample` and its use in the scale loop -/

/-- The default value of the parameter `interp` of `utils::upsample`, which the
    source documents as bilinear. -/
def utils.upsample_default_interp : ℕ := 2

/-- The function `utils::upsample` (lines 14-20). `zoom2` (imscript/upsa.c) is
    not part of the sources: `zoom2 W H pd w h n zt x y` is the buffer it leaves
    in `y` for the input buffer `x`. -/
def utils.upsample (zoom2 : ℕ → ℕ → ℕ → ℕ → ℕ → ℚ → ℕ → List ℚ → List ℚ → List ℚ)
    (out _in : img_t ℚ) (factor : ℚ) (targetw targeth : ℕ) (interp : ℕ) : img_t ℚ :=
  let inp := _in
  let out := out.resize targetw targeth inp.d
  { out with data := zoom2 out.w out.h out.d inp.w inp.h factor interp inp.data out.data }

/-- The arguments of one call of `utils::upsample` in the scale loop. -/
structure upsample_call where
  s : ℕ
  factor : ℚ
  targetw : ℕ
  targeth : ℕ
  interp : ℕ
deriving DecidableEq

/-- The calls `utils::upsample(u, u, 1/opts.scalefactor, nextv.w, nextv.h, 3)`
    of the scale loop of `multiscale_l0_kernel_estimation` (lines 271-290), made
    at every level `s > 0` with `nextv = vs[s-1]`, in the order they are made. -/
def multiscale_upsamples (scalefactor : ℚ) (st : pyramid_state) : List upsample_call :=
  let Nscales := st.vs.length
  loop Nscales (fun i calls =>
    let s := Nscales - 1 - i
    if s > 0 then
      calls ++ [{ s := s, factor := 1 / scalefactor, targetw := (st.vs.getD (s - 1) (0, 0)).1,
                  targeth := (st.vs.getD (s - 1) (0, 0)).2, interp := 3 }]
    else calls) []

/-- The options of the command line with an even kernel size. -/
def even_options : options := { default_options with ks := 4 }

/-- A 3 x 3 window with no positive entry. -/
def dark_window : img_t ℚ := ⟨3, 3, 1, [0, 0, -1, 0, 0, 0, 0, -2, 0]⟩

/-- The state of the pyramid of a 1024 x 512 image with `ks = 31` after the
    do-while loop: four levels. -/
def four_level_pyramid : pyramid_state :=
  { vs := [(1024, 512), (512, 256), (256, 128), (128, 64)], kernelSizes := [31, 15, 7, 3],
    vv := (64, 32), ks := 1 }

/-! ## edgetaper.hpp: the weights -/

namespace edgetaper

/-- The weight `wx` of the column `x` (lines 20-25); `taper t k` stands for
    `std::pow(std::sin(t * M_PI / (k*2 - 1)), 2.)`. -/
def wx {α : Type} [One α] (taper : ℤ → ℤ → α) (in_w kernel_w x : ℤ) : α :=
  if x < kernel_w then taper x kernel_w
  else if x > in_w - kernel_w then taper (in_w - 1 - x) kernel_w
  else 1

/-- The weight `wy` of the row `y` (lines 13-18). -/
def wy {α : Type} [One α] (taper : ℤ → ℤ → α) (in_h kernel_h y : ℤ) : α :=
  if y < kernel_h then taper y kernel_h
  else if y > in_h - kernel_h then taper (in_h - 1 - y) kernel_h
  else 1

/-- The image `weights` of `edgetaper` (lines 11-29). -/
def weights {α : Type} [Zero α] [One α] [Mul α] (taper : ℤ → ℤ → α) (in_w in_h : ℕ)
    (kernel_w kernel_h : ℕ) : img_t α :=
  let weights : img_t α := img_t.make in_w in_h 1
  loop in_h (fun y weights =>
    let wy := wy taper in_h kernel_h y
    loop in_w (fun x weights =>
      let wx := wx taper in_w kernel_w x
      weights.set x y 0 (wx * wy)) weights) weights

end edgetaper

/-! ## tvdeconv_20120607/cliio.c -/

namespace cliio

/-- The terminator of a C string. A string is the list of its characters
    before the terminator. -/
def NUL : Char := Char.ofNat 0

/-- The character `String[i]`: the terminator at the end of the string. -/
def char_at (s : List Char) (i : ℕ) : Char := s.getD i NUL

/-- The function `strcspn`: the length of the initial segment of `s` without a
    character of `reject`. -/
def strcspn (s reject : List Char) : ℕ := (s.takeWhile (fun c => !(reject.contains c))).length

/-- Whether `strchr(s, c)` is not null: `c` occurs in `s` or is the terminator. -/
def strchr (s : List Char) (c : Char) : Bool := s.contains c || c == NUL

/-- The function `GetStrToken` (lines 118-126): the token copied to `Token` and
    the returned length. -/
def GetStrToken (Start : List Char) (MaxLength : ℕ) (Delim : List Char) : List Char × ℕ :=
  let NumChars := strcspn Start Delim
  let NumCopy := if NumChars ≤ MaxLength then NumChars else MaxLength
  (Start.take NumCopy, NumChars)

/-- The loop `for(kread = k + 1; kread < argc; kread++)` of `CliParseArglist`
    (lines 268-281) from `kread` on: the value found and the final `kread`;
    `fuel` bounds the number of passes. -/
def scan_ahead (argv : List (List Char)) (argc : ℕ) (Delimiters : List Char) :
    ℕ → ℕ → Option (List Char) × ℕ
  | 0, kread => (none, kread)
  | fuel + 1, kread =>
    if kread < argc then
      let arg := argv.getD kread []
      if char_at arg 0 = NUL then scan_ahead argv argc Delimiters fuel (kread + 1)
      else if strchr Delimiters (char_at arg 0) = false then (some arg, kread)
      else if char_at arg 1 ≠ NUL then (some (arg.drop 1), kread)
      else scan_ahead argv argc Delimiters fuel (kread + 1)
    else (none, kread)

/-- The function `CliParseArglist` (lines 250-284): `*Param`, `*Value` (`none`
    for a null pointer) and the returned `kread`. -/
def CliParseArglist (MaxLength k : ℕ) (Start : List Char) (argc : ℕ) (argv : List (List Char))
    (Delimiters : List Char) : Option (List Char) × Option (List Char) × ℕ :=
  let tok := GetStrToken Start MaxLength Delimiters
  let TokenBuf := tok.1
  let TokLen := tok.2
  if TokLen > MaxLength then (none, some Start, k)
  else if char_at Start TokLen ≠ NUL ∧ char_at Start (TokLen + 1) ≠ NUL then
    (some TokenBuf, some (Start.drop (TokLen + 1)), k)
  else
    let r := scan_ahead argv argc Delimiters (argc - (k + 1)) (k + 1)
    (some TokenBuf, r.1, r.2)

/-- The function `isspace` in the C locale. -/
def isspace (c : Char) : Bool := c.toNat = 32 || (9 ≤ c.toNat && c.toNat ≤ 13)

/-- The function `isdigit`. -/
def isdigit (c : Char) : Bool := 48 ≤ c.toNat && c.toNat ≤ 57

/-- The value `c - '0'` of a digit. -/
def digit_value (c : Char) : ℕ := c.toNat - 48

/-- The function `ParseDouble` (lines 143-210) on a non-null string: the
    returned count, and the number stored in `*Num` when one is stored. -/
def ParseDouble (String : List Char) : ℕ × Option ℚ :=
  -- eat leading whitespace
  let i := (String.takeWhile isspace).length
  -- read sign
  let s : ℚ × ℕ :=
    if char_at String i = '-' then (-1, i + 1)
    else if char_at String i = '+' then (1, i + 1)
    else (1, i)
  let Sign := s.1
  let i := s.2
  -- read one or more digits appearing left of the decimal point
  if isdigit (char_at String i) = false then (0, none)
  else
    let Accum : ℚ := digit_value (char_at String i)
    let run := (String.drop (i + 1)).takeWhile isdigit
    let Accum := run.foldl (fun a c => 10 * a + (digit_value c : ℚ)) Accum
    let i := i + 1 + run.length
    -- there is a decimal point: read zero or more digits right of it
    let p : ℚ × ℕ :=
      if char_at String i = '.' then
        let frac := (String.drop (i + 1)).takeWhile isdigit
        let r := frac.foldl (fun (a : ℚ × ℚ) c => (a.1 + (digit_value c : ℚ) / (a.2 * 10), a.2 * 10))
          (Accum, 1)
        (r.1, i + 1 + frac.length)
      else (Accum, i)
    let Accum := p.1
    let i := p.2
    -- there is an exponent
    let e : ℚ × ℕ :=
      if char_at String i = 'e' ∨ char_at String i = 'E' then
        let i := i + 1
        let es : ℤ × ℕ :=
          if char_at String i = '-' then (-1, i + 1)
          else if char_at String i = '+' then (1, i + 1)
          else (1, i)
        let ExponentSign := es.1
        let i := es.2
        -- read digits in the exponent
        if isdigit (char_at String i) then
          let Exponent : ℤ := digit_value (char_at String i)
          let run := (String.drop (i + 1)).takeWhile isdigit
          let Exponent := run.foldl (fun a c => 10 * a + (digit_value c : ℤ)) Exponent
          let Exponent := Exponent * ExponentSign
          (Accum * (10 : ℚ) ^ Exponent, i + 1 + run.length)
        else (Accum, i)
      else (Accum, i)
    let Accum := e.1
    let i := e.2
    (i, some (Accum * Sign))

/-- The function `CliGetNum` (lines 287-317) on non-null pointers: the value
    stored when it returns 1, `none` when it returns 0. -/
def CliGetNum (String : List Char) : Option ℚ :=
  let r := ParseDouble String
  let i := r.1
  if i = 0 ∨ char_at String i ≠ NUL then none else r.2

/-- A floating-point number in decimal or scientific notation, as the comments
    of `ParseDouble` describe it: blanks, an optional sign, one or more digits,
    optionally a point and zero or more digits, optionally `e` or `E` with an
    optional sign and one or more digits, and nothing after that. -/
def is_number (s : List Char) : Bool :=
  let s := s.dropWhile isspace
  let s := match s with
    | '-' :: t => t
    | '+' :: t => t
    | _ => s
  match s with
  | [] => false
  | c :: t =>
    isdigit c &&
      (let t := t.dropWhile isdigit
       let t := match t with
         | '.' :: r => r.dropWhile isdigit
         | _ => t
       match t with
       | [] => true
       | x :: r =>
         (x == 'e' || x == 'E') &&
           (let r := match r with
              | '-' :: q => q
              | '+' :: q => q
              | _ => r
            match r with
            | [] => false
            | d :: q => isdigit d && (q.dropWhile isdigit).isEmpty))

end cliio

/-! ## The mirror padding of `add_padding` -/

/-- The image `o` has the dimensions of `o0`; its samples outside the pixels
    `tgt` are those of `o0`, and each sample of `vis` at a pixel of `tgt` is
    the sample of `o0` at the pixel `(srcx, srcy)`. -/
def img_t.gathered {α : Type} [Zero α] (tgt : ℕ → ℕ → Prop) (srcx srcy : ℕ → ℕ → ℕ)
    (vis : ℕ → ℕ → ℕ → Prop) (o0 o : img_t α) : Prop :=
  img_t.same_shape o o0 ∧
  (∀ X Y c, X < o0.w → Y < o0.h → c < o0.d → ¬ tgt X Y → o.get X Y c = o0.get X Y c) ∧
  (∀ X Y c, X < o0.w → Y < o0.h → c < o0.d → tgt X Y → vis X Y c →
    o.get X Y c = o0.get (srcx X Y) (srcy X Y) c)

/-- The coordinate `t` of an image padded by `p` on both sides of `n` samples,
    reflected into the image about its first or its last sample; the border
    sample itself is not repeated. -/
def utils.mirror (t p n : ℕ) : ℕ :=
  if t < p then p - t else if t < p + n then t - p else 2 * (n - 1) - (t - p)

/-- The coordinate `t` of an image padded by `p` on both sides of `n` samples,
    clamped into the image. -/
def utils.clamped (t p n : ℕ) : ℕ :=
  if t < p then 0 else if t < p + n then t - p else n - 1

/-- A row of three samples. -/
def three_samples : img_t ℚ := ⟨3, 1, 1, [1, 2, 3]⟩

/-- A `3 x 2` image. -/
def six_samples : img_t ℚ := ⟨3, 2, 1, [1, 2, 3, 4, 5, 6]⟩

/-! ## Further concrete inputs -/

/-- A 7 x 7 window with eleven pixels of value 1, no two of them 8-adjacent
    (both coordinates even). -/
def eleven_pixels : img_t ℚ :=
  ⟨7, 7, 1, [1, 0, 1, 0, 1, 0, 1,
             0, 0, 0, 0, 0, 0, 0,
             1, 0, 1, 0, 1, 0, 1,
             0, 0, 0, 0, 0, 0, 0,
             1, 0, 1, 0, 1, 0, 0,
             0, 0, 0, 0, 0, 0, 0,
             0, 0, 0, 0, 0, 0, 0]⟩

/-! ## estimate_kernel.hpp: the scale loop with its options -/

/-- The state of the scale loop of `multiscale_l0_kernel_estimation`: the
    kernel `k`, the sharp image `u`, the options, which the function holds by
    reference, and the record `passed` of the values of `lambda` handed to the
    sharp predictor so far. -/
structure multiscale_state (K U : Type) where
  k : K
  u : U
  opts : options
  passed : List ℚ

/-- The body of the scale loop of `multiscale_l0_kernel_estimation` (lines
    272-289) in its pass `i`, at the level `s = Nscales - 1 - i` of the pyramid
    `st`. The images `vs[s]` of the pyramid, the kernel estimator and the sharp
    predictor built for the image of the level `s`, and `utils::upsample` are
    parameters. -/
def multiscale_level {K U : Type} (vs : ℕ → U)
    (kernel_estimator : ℕ → K → U → options → K)
    (sharp_predictor : ℕ → U → K → ℚ → ℚ → U) (upsample : U → ℚ → ℕ → ℕ → ℕ → U)
    (st : pyramid_state) (i : ℕ) (m : multiscale_state K U) : multiscale_state K U :=
  let Nscales := st.vs.length
  let s := Nscales - 1 - i
  let ks := st.kernelSizes.getD s 0
  let u := if s = Nscales - 1 then vs s else m.u
  let opts := { m.opts with ks := ks }
  let r := l0_kernel_estimation (kernel_estimator s) (sharp_predictor s) m.k u opts
  let u :=
    if s > 0 then
      upsample r.u (1 / r.opts.scalefactor) (st.vs.getD (s - 1) (0, 0)).1
        (st.vs.getD (s - 1) (0, 0)).2 3
    else r.u
  { k := r.k, u := u, opts := r.opts, passed := m.passed ++ r.passed }

/-- The scale loop of `multiscale_l0_kernel_estimation` (lines 271-290),
    `for (int s = Nscales - 1; s >= 0; s--)`, on the pyramid `st`. -/
def multiscale_scale_loop {K U : Type} (vs : ℕ → U)
    (kernel_estimator : ℕ → K → U → options → K)
    (sharp_predictor : ℕ → U → K → ℚ → ℚ → U) (upsample : U → ℚ → ℕ → ℕ → ℕ → U)
    (st : pyramid_state) (k : K) (u : U) (opts : options) : multiscale_state K U :=
  loop st.vs.length (fun i m => multiscale_level vs kernel_estimator sharp_predictor upsample st i m)
    { k := k, u := u, opts := opts, passed := [] }

/-! ## estimate_kernel.hpp: the crop of the kernel -/

/-- Lines 161-168 of `FourierKernelEstimator::operator()`: crop the center of
    the otf to get the kernel. The offsets `left` and `top` are `int`s; the
    theorems state the range of the indices `left + x` and `top + y`. -/
def FourierKernelEstimator.crop (k otf : img_t ℚ) : img_t ℚ :=
  let left : ℤ := ((otf.w / 2 : ℕ) : ℤ) - ((k.w / 2 : ℕ) : ℤ)
  let top : ℤ := ((otf.h / 2 : ℕ) : ℤ) - ((k.h / 2 : ℕ) : ℤ)
  loop k.h (fun y o => loop k.w (fun x o =>
    o.set x y 0 (otf.get (left + x).toNat (top + y).toNat 0)) o) k

/-! ## utils.hpp: circular gradients and divergence -/

/-- The function `circular_gradients` (lines 142-159): the pair
    `(out[0], out[1])` of forward differences. -/
def utils.circular_gradients (out0 out1 inp : img_t ℚ) : img_t ℚ × img_t ℚ :=
  let out0 := out0.resize inp.w inp.h inp.d
  let out1 := out1.resize inp.w inp.h inp.d
  let w := inp.w
  let h := inp.h
  let d := inp.d
  loop d (fun l (out : img_t ℚ × img_t ℚ) =>
    let o0 := loop h (fun y o => loop w (fun x o =>
      o.set x y l (inp.get ((x + 1) % w) y l - inp.get x y l)) o) out.1
    let o1 := loop h (fun y o => loop w (fun x o =>
      o.set x y l (inp.get x ((y + 1) % h) l - inp.get x y l)) o) out.2
    (o0, o1)) (out0, out1)

/-- The index `(x - 1 + w) % w` of `circular_divergence`, computed on `int`s. -/
def utils.circular_pred (x w : ℕ) : ℕ := (((x : ℤ) - 1 + (w : ℤ)) % (w : ℤ)).toNat

/-- The function `circular_divergence` (lines 162-175): the backward
    differences of the field `(in0, in1)`. -/
def utils.circular_divergence (out in0 in1 : img_t ℚ) : img_t ℚ :=
  let out := out.resize in0.w in0.h in0.d
  let w := out.w
  let h := out.h
  let d := out.d
  loop d (fun l out => loop h (fun y out => loop w (fun x out =>
    out.set x y l (in0.get x y l - in0.get (utils.circular_pred x w) y l
      + in1.get x y l - in1.get x (utils.circular_pred y h) l)) out) out) out

/-- A `2 x 3` image with two channels. -/
def twelve_samples : img_t ℚ := ⟨2, 3, 2, [1, 2, 3, 4, 5, 6, 7, 8, 9, 10, 11, 12]⟩

/-- A `3 x 3` kernel with its mass in its upper left corner. -/
def corner_mass : img_t ℚ := ⟨3, 3, 1, [4, 1, 0, 1, 0, 0, 0, 0, 0]⟩

/-! ## estimate_kernel.hpp: the post-processing with the conversion made explicit -/

/-- The function `center_kernel` (lines 98-123) with the conversion to `int`
    made explicit: `nan` stands for the integers that `(int)dx` and `(int)dy`
    hold when the sum is zero and the quotients `dx / sum`, `dy / sum` have no
    value; whatever they are, the translation loop runs with them. For a
    non-zero sum this is the kernel of `center_kernel`. -/
def utils.center_kernel_with (nan : ℤ × ℤ) (kernel : img_t ℚ) : img_t ℚ :=
  let sum := kernel.sum
  let m := utils.moments kernel
  if sum = 0 then utils.recenter kernel nan.1 nan.2
  else utils.recenter kernel (cround (m.1 / sum)) (cround (m.2 / sum))

/-- Lines 170-196 of `FourierKernelEstimator::operator()` with
    `center_kernel_with` as its re-centring step. -/
def FourierKernelEstimator.postprocess_with (nan : ℤ × ℤ) (opts : options) (k : img_t ℚ) :
    Option (img_t ℚ) :=
  (FourierKernelEstimator.prune opts
    (FourierKernelEstimator.threshold opts (FourierKernelEstimator.clamp k))).map
    (fun c => FourierKernelEstimator.normalize (utils.center_kernel_with nan c))

/-! ## Loop and buffer lemmas -/

theorem loop_succ {σ : Type} (n : Nat) (body : Nat → σ → σ) (s : σ) :
    loop (n + 1) body s = body n (loop n body s) := rfl

theorem loop_invariant {σ : Type} (P : Nat → σ → Prop) (n : Nat) (body : Nat → σ → σ) (s : σ)
    (h0 : P 0 s) (hstep : ∀ i, i < n → ∀ t, P i t → P (i + 1) (body i t)) :
    P n (loop n body s) := by
  induction n with
  | zero => exact h0
  | succ k ih =>
    rw [loop_succ]
    exact hstep k (Nat.lt_succ_self k) _ (ih (fun i hi t ht => hstep i (Nat.lt_succ_of_lt hi) t ht))

namespace img_t

variable {α : Type}

theorem same_shape_refl (a : img_t α) : same_shape a a := ⟨rfl, rfl, rfl, rfl⟩

theorem same_shape_trans {a b c : img_t α} (h1 : same_shape a b) (h2 : same_shape b c) :
    same_shape a c :=
  ⟨h1.1.trans h2.1, h1.2.1.trans h2.2.1, h1.2.2.1.trans h2.2.2.1, h1.2.2.2.trans h2.2.2.2⟩

theorem same_shape_setI (im : img_t α) (i : Nat) (v : α) : same_shape (im.setI i v) im :=
  ⟨rfl, rfl, rfl, by simp [setI]⟩

theorem same_shape_set (im : img_t α) (x y dd : Nat) (v : α) : same_shape (im.set x y dd v) im :=
  same_shape_setI im _ v

theorem same_shape_wf {a b : img_t α} (h : same_shape a b) (hb : b.wf) : a.wf := by
  unfold wf size at *
  rw [h.1, h.2.1, h.2.2.1, h.2.2.2, hb]

theorem same_shape_idx {a b : img_t α} (h : same_shape a b) (x y dd : Nat) :
    a.idx x y dd = b.idx x y dd := by
  unfold idx; rw [h.1, h.2.2.1]

theorem getI_setI [Zero α] (im : img_t α) (i j : Nat) (v : α) :
    (im.setI i v).getI j = if i = j ∧ i < im.data.length then v else im.getI j := by
  unfold getI setI
  simp only [List.getD_eq_getElem?_getD, List.getElem?_set]
  by_cases hij : i = j
  · subst hij
    by_cases hl : i < im.data.length
    · simp [hl]
    · simp [hl, List.getElem?_eq_none (Nat.le_of_not_lt hl)]
  · simp [hij]

theorem idx_lt (im : img_t α) {x y dd : Nat} (hx : x < im.w) (hy : y < im.h) (hd : dd < im.d) :
    im.idx x y dd < im.size := by
  unfold idx size
  have h1 : x + y * im.w + 1 ≤ im.w * im.h := by
    have : (y + 1) * im.w ≤ im.h * im.w := Nat.mul_le_mul_right _ hy
    nlinarith
  calc dd + im.d * (x + y * im.w) < im.d * (x + y * im.w + 1) := by nlinarith
    _ ≤ im.d * (im.w * im.h) := Nat.mul_le_mul_left _ h1
    _ = im.w * im.h * im.d := by ring

theorem idx_inj (im : img_t α) {x y dd x' y' dd' : Nat} (hx : x < im.w) (hx' : x' < im.w)
    (hd : dd < im.d) (hd' : dd' < im.d) (h : im.idx x y dd = im.idx x' y' dd') :
    x = x' ∧ y = y' ∧ dd = dd' := by
  unfold idx at h
  have e1 : (dd + im.d * (x + y * im.w)) % im.d = dd := by
    rw [Nat.add_mul_mod_self_left]; exact Nat.mod_eq_of_lt hd
  have e2 : (dd' + im.d * (x' + y' * im.w)) % im.d = dd' := by
    rw [Nat.add_mul_mod_self_left]; exact Nat.mod_eq_of_lt hd'
  have hdd : dd = dd' := by rw [← e1, ← e2, h]
  subst hdd
  have hpos : 0 < im.d := Nat.lt_of_le_of_lt (Nat.zero_le _) hd
  have h2 : x + y * im.w = x' + y' * im.w := by
    have := Nat.add_left_cancel h
    exact Nat.eq_of_mul_eq_mul_left hpos this
  have e3 : (x + y * im.w) % im.w = x := by
    rw [Nat.add_mul_mod_self_right]; exact Nat.mod_eq_of_lt hx
  have e4 : (x' + y' * im.w) % im.w = x' := by
    rw [Nat.add_mul_mod_self_right]; exact Nat.mod_eq_of_lt hx'
  have hxx : x = x' := by rw [← e3, ← e4, h2]
  subst hxx
  have hwpos : 0 < im.w := Nat.lt_of_le_of_lt (Nat.zero_le _) hx
  have h3 : y * im.w = y' * im.w := Nat.add_left_cancel h2
  exact ⟨rfl, Nat.eq_of_mul_eq_mul_right hwpos h3, rfl⟩

theorem get_set [Zero α] (im : img_t α) (hwf : im.wf) {x y dd p q c : Nat} (v : α)
    (hx : x < im.w) (hy : y < im.h) (hd : dd < im.d) (hp : p < im.w) (hc : c < im.d) :
    (im.set x y dd v).get p q c = if p = x ∧ q = y ∧ c = dd then v else im.get p q c := by
  unfold get set
  rw [same_shape_idx (same_shape_setI im _ v), getI_setI]
  have hlt : im.idx x y dd < im.data.length := by rw [hwf]; exact idx_lt im hx hy hd
  by_cases hpq : p = x ∧ q = y ∧ c = dd
  · obtain ⟨rfl, rfl, rfl⟩ := hpq
    simp [hlt]
  · have : ¬ (im.idx x y dd = im.idx p q c) := by
      intro he
      obtain ⟨h1, h2, h3⟩ := idx_inj im hx hp hd hc he
      exact hpq ⟨h1.symm, h2.symm, h3.symm⟩
    simp [this, hpq]

end img_t

namespace img_t

variable {α : Type}

/-- What one row of `copy_block` leaves behind. -/
theorem copy_row_spec [Zero α] (out src : img_t α) (nx y ox oy ix iy l ls : Nat)
    (hwf : out.wf) (hx : ox + nx ≤ out.w) (hy : y + oy < out.h) (hl : l < out.d) :
    let r := loop nx (fun x o => o.set (x + ox) (y + oy) l (src.get (x + ix) (y + iy) ls)) out
    same_shape r out ∧ ∀ p q c, p < out.w → q < out.h → c < out.d →
      r.get p q c = if c = l ∧ q = y + oy ∧ ox ≤ p ∧ p < ox + nx
        then src.get (p - ox + ix) (y + iy) ls else out.get p q c := by
  intro r
  have key := loop_invariant
    (fun i (o : img_t α) => i ≤ nx → (same_shape o out ∧ ∀ p q c, p < out.w → q < out.h → c < out.d →
      o.get p q c = if c = l ∧ q = y + oy ∧ ox ≤ p ∧ p < ox + i
        then src.get (p - ox + ix) (y + iy) ls else out.get p q c))
    nx (fun x o => o.set (x + ox) (y + oy) l (src.get (x + ix) (y + iy) ls)) out
    (by
      intro _
      refine ⟨same_shape_refl out, ?_⟩
      intro p q c _ _ _
      have : ¬ (c = l ∧ q = y + oy ∧ ox ≤ p ∧ p < ox + 0) := by omega
      rw [if_neg this])
    (by
      intro i hi t ht hle
      obtain ⟨hs, hg⟩ := ht (Nat.le_of_lt hi)
      refine ⟨same_shape_trans (same_shape_set t _ _ _ _) hs, ?_⟩
      intro p q c hp hq hc
      have twf : t.wf := same_shape_wf hs hwf
      rw [get_set t twf _ (by rw [hs.1]; omega) (by rw [hs.2.1]; exact hy) (by rw [hs.2.2.1]; exact hl)
        (by rw [hs.1]; exact hp) (by rw [hs.2.2.1]; exact hc), hg p q c hp hq hc]
      by_cases h1 : p = i + ox ∧ q = y + oy ∧ c = l
      · have h3 : c = l ∧ q = y + oy ∧ ox ≤ p ∧ p < ox + (i + 1) := by omega
        have h4 : p - ox = i := by omega
        rw [if_pos h1, if_pos h3, h4]
      · by_cases h2 : c = l ∧ q = y + oy ∧ ox ≤ p ∧ p < ox + i
        · have h3 : c = l ∧ q = y + oy ∧ ox ≤ p ∧ p < ox + (i + 1) := by omega
          rw [if_neg h1, if_pos h2, if_pos h3]
        · have h3 : ¬ (c = l ∧ q = y + oy ∧ ox ≤ p ∧ p < ox + (i + 1)) := by omega
          rw [if_neg h1, if_neg h2, if_neg h3])
  exact key (Nat.le_refl nx)

/-- What `copy_block` leaves behind: the target rectangle holds the source
    rectangle and every other sample is untouched. -/
theorem copy_block_spec [Zero α] (out src : img_t α) (nx ny ox oy ix iy l ls : Nat)
    (hwf : out.wf) (hx : ox + nx ≤ out.w) (hy : oy + ny ≤ out.h) (hl : l < out.d) :
    same_shape (copy_block out src nx ny ox oy ix iy l ls) out ∧
    ∀ p q c, p < out.w → q < out.h → c < out.d →
      (copy_block out src nx ny ox oy ix iy l ls).get p q c =
        if c = l ∧ ox ≤ p ∧ p < ox + nx ∧ oy ≤ q ∧ q < oy + ny
        then src.get (p - ox + ix) (q - oy + iy) ls else out.get p q c := by
  unfold copy_block
  have key := loop_invariant
    (fun j (o : img_t α) => j ≤ ny → (same_shape o out ∧ ∀ p q c, p < out.w → q < out.h → c < out.d →
      o.get p q c = if c = l ∧ ox ≤ p ∧ p < ox + nx ∧ oy ≤ q ∧ q < oy + j
        then src.get (p - ox + ix) (q - oy + iy) ls else out.get p q c))
    ny (fun y o => loop nx (fun x o => o.set (x + ox) (y + oy) l (src.get (x + ix) (y + iy) ls)) o) out
    (by
      intro _
      refine ⟨same_shape_refl out, ?_⟩
      intro p q c _ _ _
      have : ¬ (c = l ∧ ox ≤ p ∧ p < ox + nx ∧ oy ≤ q ∧ q < oy + 0) := by omega
      rw [if_neg this])
    (by
      intro j hj t ht hle
      obtain ⟨hs, hg⟩ := ht (Nat.le_of_lt hj)
      have twf : t.wf := same_shape_wf hs hwf
      obtain ⟨rs, rg⟩ := copy_row_spec t src nx j ox oy ix iy l ls twf
        (by rw [hs.1]; exact hx) (by rw [hs.2.1]; omega) (by rw [hs.2.2.1]; exact hl)
      refine ⟨same_shape_trans rs hs, ?_⟩
      intro p q c hp hq hc
      rw [rg p q c (by rw [hs.1]; exact hp) (by rw [hs.2.1]; exact hq) (by rw [hs.2.2.1]; exact hc),
        hg p q c hp hq hc]
      by_cases h1 : c = l ∧ q = j + oy ∧ ox ≤ p ∧ p < ox + nx
      · have h3 : c = l ∧ ox ≤ p ∧ p < ox + nx ∧ oy ≤ q ∧ q < oy + (j + 1) := by omega
        have h4 : q - oy = j := by omega
        rw [if_pos h1, if_pos h3, h4]
      · by_cases h2 : c = l ∧ ox ≤ p ∧ p < ox + nx ∧ oy ≤ q ∧ q < oy + j
        · have h3 : c = l ∧ ox ≤ p ∧ p < ox + nx ∧ oy ≤ q ∧ q < oy + (j + 1) := by omega
          rw [if_neg h1, if_pos h2, if_pos h3]
        · have h3 : ¬ (c = l ∧ ox ≤ p ∧ p < ox + nx ∧ oy ≤ q ∧ q < oy + (j + 1)) := by omega
          rw [if_neg h1, if_neg h2, if_neg h3])
  exact key (Nat.le_refl ny)

/-- Every linear index below `size` is the index of one pixel and channel. -/
theorem idx_surj (im : img_t α) {i : Nat} (hi : i < im.size) :
    ∃ x y dd, x < im.w ∧ y < im.h ∧ dd < im.d ∧ im.idx x y dd = i := by
  unfold size at hi
  have hd : 0 < im.d := by
    rcases Nat.eq_zero_or_pos im.d with h | h
    · rw [h] at hi; simp at hi
    · exact h
  have hw : 0 < im.w := by
    rcases Nat.eq_zero_or_pos im.w with h | h
    · rw [h] at hi; simp at hi
    · exact h
  refine ⟨(i / im.d) % im.w, (i / im.d) / im.w, i % im.d, Nat.mod_lt _ hw, ?_, Nat.mod_lt _ hd, ?_⟩
  · rw [Nat.div_div_eq_div_mul, Nat.div_lt_iff_lt_mul (Nat.mul_pos hd hw)]
    calc i < im.w * im.h * im.d := hi
      _ = im.h * (im.d * im.w) := by ring
  · unfold idx
    have h1 : i / im.d % im.w + i / im.d / im.w * im.w = i / im.d := by
      rw [Nat.mul_comm]; exact Nat.mod_add_div _ _
    rw [h1]
    exact Nat.mod_add_div _ _

/-- Two well-formed images of the same dimensions that agree at every pixel and
    channel are equal. -/
theorem ext_get [Zero α] {a b : img_t α} (ha : a.wf) (hb : b.wf)
    (hw : a.w = b.w) (hh : a.h = b.h) (hd : a.d = b.d)
    (hg : ∀ x y dd, x < a.w → y < a.h → dd < a.d → a.get x y dd = b.get x y dd) : a = b := by
  have hsize : a.size = b.size := by unfold size; rw [hw, hh, hd]
  have hlen : a.data.length = b.data.length := by rw [ha, hb, hsize]
  have hdata : a.data = b.data := by
    apply List.ext_getElem hlen
    intro i h1 h2
    obtain ⟨x, y, dd, hx, hy, hdd, hi⟩ := idx_surj a (by rw [← ha]; exact h1)
    have := hg x y dd hx hy hdd
    unfold get getI at this
    have hib : b.idx x y dd = i := by rw [← hi]; unfold idx; rw [hw, hd]
    rw [hi, hib] at this
    rw [List.getD_eq_getElem _ _ h1, List.getD_eq_getElem _ _ h2] at this
    exact this
  cases a; cases b; simp_all

theorem resize_empty [Zero α] (w h d : Nat) :
    ((img_t.empty : img_t α).resize w h d).w = w ∧ ((img_t.empty : img_t α).resize w h d).h = h ∧
    ((img_t.empty : img_t α).resize w h d).d = d ∧ ((img_t.empty : img_t α).resize w h d).wf := by
  unfold resize empty wf size
  by_cases hc : (0 ≠ w ∨ 0 ≠ h ∨ 0 ≠ d)
  · simp [hc]
  · have : w = 0 ∧ h = 0 ∧ d = 0 := by omega
    obtain ⟨rfl, rfl, rfl⟩ := this
    simp

end img_t

/-! ## The quadrant swaps -/

/-- The four block copies both `shift` functions execute for one channel, with
    the image split into columns `A + B` and rows `Ah + Bh`. -/
theorem quadrants_spec {α : Type} [Zero α] (out inp : img_t α) (A B Ah Bh l : Nat)
    (hwf : out.wf) (hw : A + B = out.w) (hh : Ah + Bh = out.h) (hl : l < out.d) :
    let r := img_t.copy_block (img_t.copy_block (img_t.copy_block (img_t.copy_block out inp
        B Ah 0 Bh A 0 l l) inp A Ah B Bh 0 0 l l) inp B Bh 0 0 A Ah l l) inp A Bh B 0 0 Ah l l
    img_t.same_shape r out ∧ ∀ p q c, p < out.w → q < out.h → c < out.d →
      r.get p q c = if c = l
        then inp.get (if p < B then p + A else p - B) (if q < Bh then q + Ah else q - Bh) l
        else out.get p q c := by
  intro r
  obtain ⟨s1, g1⟩ := img_t.copy_block_spec out inp B Ah 0 Bh A 0 l l hwf (by omega) (by omega) hl
  have w1 := img_t.same_shape_wf s1 hwf
  obtain ⟨s2, g2⟩ := img_t.copy_block_spec _ inp A Ah B Bh 0 0 l l w1
    (by rw [s1.1]; omega) (by rw [s1.2.1]; omega) (by rw [s1.2.2.1]; exact hl)
  have s2' := img_t.same_shape_trans s2 s1
  have w2 := img_t.same_shape_wf s2' hwf
  obtain ⟨s3, g3⟩ := img_t.copy_block_spec _ inp B Bh 0 0 A Ah l l w2
    (by rw [s2'.1]; omega) (by rw [s2'.2.1]; omega) (by rw [s2'.2.2.1]; exact hl)
  have s3' := img_t.same_shape_trans s3 s2'
  have w3 := img_t.same_shape_wf s3' hwf
  obtain ⟨s4, g4⟩ := img_t.copy_block_spec _ inp A Bh B 0 0 Ah l l w3
    (by rw [s3'.1]; omega) (by rw [s3'.2.1]; omega) (by rw [s3'.2.2.1]; exact hl)
  have s4' := img_t.same_shape_trans s4 s3'
  refine ⟨s4', ?_⟩
  intro p q c hp hq hc
  have e4 := g4 p q c (by rw [s3'.1]; exact hp) (by rw [s3'.2.1]; exact hq) (by rw [s3'.2.2.1]; exact hc)
  have e3 := g3 p q c (by rw [s2'.1]; exact hp) (by rw [s2'.2.1]; exact hq) (by rw [s2'.2.2.1]; exact hc)
  have e2 := g2 p q c (by rw [s1.1]; exact hp) (by rw [s1.2.1]; exact hq) (by rw [s1.2.2.1]; exact hc)
  have e1 := g1 p q c hp hq hc
  show r.get p q c = _
  rw [e4, e3, e2, e1]
  by_cases hcl : c = l
  · rw [if_pos hcl]
    by_cases hpB : p < B <;> by_cases hqB : q < Bh
    · rw [if_neg (by omega), if_pos (by omega), if_pos hpB, if_pos hqB]
      simp only [Nat.sub_zero, Nat.add_zero]
    · rw [if_neg (by omega), if_neg (by omega), if_neg (by omega), if_pos (by omega),
        if_pos hpB, if_neg hqB]
      simp only [Nat.sub_zero, Nat.add_zero]
    · rw [if_pos (by omega), if_neg hpB, if_pos hqB]
      simp only [Nat.sub_zero, Nat.add_zero]
    · rw [if_neg (by omega), if_neg (by omega), if_pos (by omega), if_neg hpB, if_neg hqB]
      simp only [Nat.sub_zero, Nat.add_zero]
  · rw [if_neg (by omega), if_neg (by omega), if_neg (by omega), if_neg (by omega), if_neg hcl]

/-- The channel loop around the four block copies. -/
theorem quadrant_loop_spec {α : Type} [Zero α] (out inp : img_t α) (A B Ah Bh n : Nat)
    (hwf : out.wf) (hw : A + B = out.w) (hh : Ah + Bh = out.h) (hn : n ≤ out.d) :
    let r := loop n (fun l o =>
      img_t.copy_block (img_t.copy_block (img_t.copy_block (img_t.copy_block o inp
        B Ah 0 Bh A 0 l l) inp A Ah B Bh 0 0 l l) inp B Bh 0 0 A Ah l l) inp A Bh B 0 0 Ah l l) out
    img_t.same_shape r out ∧ ∀ p q c, p < out.w → q < out.h → c < n →
      r.get p q c = inp.get (if p < B then p + A else p - B) (if q < Bh then q + Ah else q - Bh) c := by
  intro r
  have key := loop_invariant
    (fun i (o : img_t α) => i ≤ n → (img_t.same_shape o out ∧ ∀ p q c, p < out.w → q < out.h →
      c < out.d → o.get p q c = if c < i
        then inp.get (if p < B then p + A else p - B) (if q < Bh then q + Ah else q - Bh) c
        else out.get p q c))
    n (fun l o =>
      img_t.copy_block (img_t.copy_block (img_t.copy_block (img_t.copy_block o inp
        B Ah 0 Bh A 0 l l) inp A Ah B Bh 0 0 l l) inp B Bh 0 0 A Ah l l) inp A Bh B 0 0 Ah l l) out
    (by
      intro _
      refine ⟨img_t.same_shape_refl out, ?_⟩
      intro p q c _ _ _
      rw [if_neg (by omega)])
    (by
      intro i hi t ht hle
      obtain ⟨hs, hg⟩ := ht (Nat.le_of_lt hi)
      have twf := img_t.same_shape_wf hs hwf
      obtain ⟨qs, qg⟩ := quadrants_spec t inp A B Ah Bh i twf (by rw [hs.1]; exact hw)
        (by rw [hs.2.1]; exact hh) (by rw [hs.2.2.1]; omega)
      refine ⟨img_t.same_shape_trans qs hs, ?_⟩
      intro p q c hp hq hc
      rw [qg p q c (by rw [hs.1]; exact hp) (by rw [hs.2.1]; exact hq) (by rw [hs.2.2.1]; exact hc),
        hg p q c hp hq hc]
      by_cases h1 : c = i
      · rw [if_pos h1, if_pos (show c < i + 1 by omega), h1]
      · by_cases h2 : c < i
        · rw [if_neg h1, if_pos h2, if_pos (show c < i + 1 by omega)]
        · rw [if_neg h1, if_neg h2, if_neg (show ¬ c < i + 1 by omega)])
  obtain ⟨ks, kg⟩ := key (Nat.le_refl n)
  refine ⟨ks, ?_⟩
  intro p q c hp hq hc
  have := kg p q c hp hq (by omega)
  rw [if_pos hc] at this
  exact this

/-- Where `fft::shift` takes each output sample from. -/
theorem fft_shift_spec {α : Type} [Zero α] (inp : img_t α) :
    (fft.shift inp).w = inp.w ∧ (fft.shift inp).h = inp.h ∧ (fft.shift inp).d = inp.d ∧
    (fft.shift inp).wf ∧ ∀ p q c, p < inp.w → q < inp.h → c < inp.d →
      (fft.shift inp).get p q c =
        inp.get (if p < inp.w - (inp.w + 1) / 2 then p + (inp.w + 1) / 2
                 else p - (inp.w - (inp.w + 1) / 2))
                (if q < inp.h - (inp.h + 1) / 2 then q + (inp.h + 1) / 2
                 else q - (inp.h - (inp.h + 1) / 2)) c := by
  obtain ⟨rw_, rh, rd, rwf⟩ := img_t.resize_empty (α := α) inp.w inp.h inp.d
  obtain ⟨hs, hg⟩ := quadrant_loop_spec ((img_t.empty : img_t α).resize inp.w inp.h inp.d) inp
    ((inp.w + 1) / 2) (inp.w - (inp.w + 1) / 2) ((inp.h + 1) / 2) (inp.h - (inp.h + 1) / 2) inp.d
    rwf (by rw [rw_]; omega) (by rw [rh]; omega) (by rw [rd])
  refine ⟨hs.1.trans rw_, hs.2.1.trans rh, hs.2.2.1.trans rd, img_t.same_shape_wf hs rwf, ?_⟩
  intro p q c hp hq hc
  exact hg p q c (by rw [rw_]; exact hp) (by rw [rh]; exact hq) hc

/-- Where `ifft::shift` takes each output sample from. -/
theorem ifft_shift_spec {α : Type} [Zero α] (inp : img_t α) :
    (ifft.shift inp).w = inp.w ∧ (ifft.shift inp).h = inp.h ∧ (ifft.shift inp).d = inp.d ∧
    (ifft.shift inp).wf ∧ ∀ p q c, p < inp.w → q < inp.h → c < inp.d →
      (ifft.shift inp).get p q c =
        inp.get (if p < (inp.w + 1) / 2 then p + (inp.w - (inp.w + 1) / 2)
                 else p - (inp.w + 1) / 2)
                (if q < (inp.h + 1) / 2 then q + (inp.h - (inp.h + 1) / 2)
                 else q - (inp.h + 1) / 2) c := by
  obtain ⟨rw_, rh, rd, rwf⟩ := img_t.resize_empty (α := α) inp.w inp.h inp.d
  obtain ⟨hs, hg⟩ := quadrant_loop_spec ((img_t.empty : img_t α).resize inp.w inp.h inp.d) inp
    (inp.w - (inp.w + 1) / 2) ((inp.w + 1) / 2) (inp.h - (inp.h + 1) / 2) ((inp.h + 1) / 2) inp.d
    rwf (by rw [rw_]; omega) (by rw [rh]; omega) (by rw [rd])
  refine ⟨hs.1.trans rw_, hs.2.1.trans rh, hs.2.2.1.trans rd, img_t.same_shape_wf hs rwf, ?_⟩
  intro p q c hp hq hc
  exact hg p q c (by rw [rw_]; exact hp) (by rw [rh]; exact hq) hc

/-- C5: `fft::shift(ifft::shift(img)) = img` for every image, of any width,
    height (odd or even) and channel count, whose buffer holds `w*h*d` samples. -/
theorem fft_shift_ifft_shift {α : Type} [Zero α] (img : img_t α) (hwf : img.wf) :
    fft.shift (ifft.shift img) = img := by
  obtain ⟨iw, ih, id_, iwf, ig⟩ := ifft_shift_spec img
  obtain ⟨fw, fh, fd, fwf, fg⟩ := fft_shift_spec (ifft.shift img)
  apply img_t.ext_get fwf hwf (fw.trans iw) (fh.trans ih) (fd.trans id_)
  intro x y dd hx hy hd
  rw [fw, iw] at hx
  rw [fh, ih] at hy
  rw [fd, id_] at hd
  rw [fg x y dd (by rw [iw]; exact hx) (by rw [ih]; exact hy) (by rw [id_]; exact hd)]
  rw [iw, ih]
  rw [ig _ _ dd (by split <;> omega) (by split <;> omega) hd]
  congr 1
  · split <;> split <;> omega
  · split <;> split <;> omega

theorem fft_shift_ifft_shift_witness :
    (⟨3, 2, 2, [1, 2, 3, 4, 5, 6, 7, 8, 9, 10, 11, 12]⟩ : img_t ℚ).wf ∧
    fft.shift (ifft.shift (⟨3, 2, 2, [1, 2, 3, 4, 5, 6, 7, 8, 9, 10, 11, 12]⟩ : img_t ℚ)) =
      ⟨3, 2, 2, [1, 2, 3, 4, 5, 6, 7, 8, 9, 10, 11, 12]⟩ :=
  ⟨by decide, fft_shift_ifft_shift _ (by decide)⟩

/-! ## Entrywise loops, sums and the sign of the kernel -/

theorem loop_preserves {σ : Type} (P : σ → Prop) (n : Nat) (body : Nat → σ → σ) (s : σ)
    (h0 : P s) (hstep : ∀ i, i < n → ∀ t, P t → P (body i t)) : P (loop n body s) :=
  loop_invariant (fun _ t => P t) n body s h0 hstep

namespace img_t

theorem getI_eq {α : Type} [Zero α] (im : img_t α) (i : Nat) :
    im.getI i = (im.data[i]?).getD 0 := List.getD_eq_getElem?_getD _ _ _

/-- The buffer left by `update_each`: entry `j < n` holds `g j` of the old entry. -/
theorem update_each_getElem? {α : Type} [Zero α] (n : Nat) (g : Nat → α → α) (im : img_t α) :
    same_shape (update_each n g im) im ∧
    ∀ j, (update_each n g im).data[j]? = if j < n then (im.data[j]?).map (g j) else im.data[j]? := by
  unfold update_each
  induction n with
  | zero =>
    refine ⟨same_shape_refl im, ?_⟩
    intro j
    rw [if_neg (Nat.not_lt_zero j)]
    rfl
  | succ k ih =>
    obtain ⟨hs, hg⟩ := ih
    rw [loop_succ]
    refine ⟨same_shape_trans (same_shape_setI _ _ _) hs, ?_⟩
    intro j
    show (List.set _ k _)[j]? = _
    rw [List.getElem?_set]
    by_cases hkj : k = j
    · subst hkj
      rw [if_pos rfl, if_pos (Nat.lt_succ_self k)]
      have hk := hg k
      rw [if_neg (Nat.lt_irrefl k)] at hk
      by_cases hlt : k < im.data.length
      · rw [if_pos (by rw [hs.2.2.2]; exact hlt)]
        rw [getI_eq, hk, List.getElem?_eq_getElem hlt]
        rfl
      · rw [if_neg (by rw [hs.2.2.2]; exact hlt), List.getElem?_eq_none (Nat.le_of_not_lt hlt)]
        rfl
    · rw [if_neg hkj, hg j]
      by_cases hjk : j < k
      · rw [if_pos hjk, if_pos (Nat.lt_succ_of_lt hjk)]
      · rw [if_neg hjk, if_neg (by omega)]

/-- On a well-formed image the loop `for (i < size) im[i] = f(im[i])` maps `f`
    over the buffer. -/
theorem update_each_map {α : Type} [Zero α] (f : α → α) (im : img_t α) (hwf : im.wf) :
    (update_each im.size (fun _ v => f v) im).data = im.data.map f := by
  obtain ⟨_, hg⟩ := update_each_getElem? im.size (fun _ v => f v) im
  apply List.ext_getElem?
  intro j
  rw [hg j, List.getElem?_map]
  by_cases hj : j < im.size
  · rw [if_pos hj]
  · rw [if_neg hj, List.getElem?_eq_none (by rw [hwf]; omega)]
    rfl

theorem setI_nonneg {im : img_t ℚ} (h : im.nonneg) (i : Nat) {v : ℚ} (hv : 0 ≤ v) :
    (im.setI i v).nonneg := by
  intro u hu
  rcases List.mem_or_eq_of_mem_set hu with h1 | h1
  · exact h u h1
  · rw [h1]; exact hv

theorem getI_nonneg {im : img_t ℚ} (h : im.nonneg) (i : Nat) : 0 ≤ im.getI i := by
  rw [getI_eq]
  cases hi : im.data[i]? with
  | none => simp
  | some v => exact h v (List.mem_iff_getElem?.mpr ⟨i, hi⟩)

theorem update_each_nonneg {im : img_t ℚ} (h : im.nonneg) (n : Nat) (g : Nat → ℚ → ℚ)
    (hg : ∀ i v, 0 ≤ v → 0 ≤ g i v) : (update_each n g im).nonneg :=
  loop_preserves nonneg n _ im h (fun i _ _ ht => setI_nonneg ht i (hg i _ (getI_nonneg ht i)))

theorem set_value_zero_nonneg (im : img_t ℚ) : (im.set_value 0).nonneg := by
  intro v hv
  have := (List.mem_replicate.mp hv).2
  rw [this]

theorem sum_eq (im : img_t ℚ) : im.sum = im.data.sum := by
  unfold sum fold
  exact List.sum_eq_foldl.symm

theorem sum_nonneg {im : img_t ℚ} (h : im.nonneg) : 0 ≤ im.sum := by
  rw [sum_eq]; exact List.sum_nonneg h

/-- The fold of `max()` bounds every sample and is zero or one of the samples. -/
theorem max_spec (im : img_t ℚ) :
    (∀ v ∈ im.data, v ≤ im.max) ∧ 0 ≤ im.max ∧ (im.max = 0 ∨ im.max ∈ im.data) := by
  unfold max fold
  suffices H : ∀ (l : List ℚ) (a : ℚ),
      (∀ v ∈ l, v ≤ l.foldl (fun a b => if a > b then a else b) a) ∧
      a ≤ l.foldl (fun a b => if a > b then a else b) a ∧
      (l.foldl (fun a b => if a > b then a else b) a = a ∨
        l.foldl (fun a b => if a > b then a else b) a ∈ l) by
    obtain ⟨h1, h2, h3⟩ := H im.data 0
    exact ⟨h1, h2, h3⟩
  intro l
  induction l with
  | nil => intro a; simp
  | cons b t ih =>
    intro a
    obtain ⟨h1, h2, h3⟩ := ih (if a > b then a else b)
    simp only [List.foldl_cons]
    have hb : b ≤ (if a > b then a else b) := by split <;> [exact le_of_lt (by assumption); exact le_refl _]
    have ha : a ≤ (if a > b then a else b) := by
      split
      · exact le_refl _
      · exact not_lt.mp (by assumption)
    refine ⟨?_, le_trans ha h2, ?_⟩
    · intro v hv
      rcases List.mem_cons.mp hv with hv | hv
      · rw [hv]; exact le_trans hb h2
      · exact h1 v hv
    · rcases h3 with h3 | h3
      · rw [h3]
        by_cases hab : a > b
        · left; rw [if_pos hab]
        · right; rw [if_neg hab]; exact List.mem_cons_self _ _
      · right; exact List.mem_cons_of_mem _ h3

end img_t

/-! ## The stages of the kernel post-processing -/

namespace img_t

theorem update_each_same_shape {α : Type} [Zero α] (n : Nat) (g : Nat → α → α) (im : img_t α) :
    same_shape (update_each n g im) im := (update_each_getElem? n g im).1

theorem set_value_same_shape {α : Type} (im : img_t α) (v : α) :
    same_shape (im.set_value v) im := ⟨rfl, rfl, rfl, by simp [set_value]⟩

theorem same_shape_symm {α : Type} {a b : img_t α} (h : same_shape a b) : same_shape b a :=
  ⟨h.1.symm, h.2.1.symm, h.2.2.1.symm, h.2.2.2.symm⟩

theorem same_shape_size {α : Type} {a b : img_t α} (h : same_shape a b) : a.size = b.size := by
  unfold size; rw [h.1, h.2.1, h.2.2.1]

end img_t

namespace utils

theorem recenter_same_shape (kernel : img_t ℚ) (dx dy : ℤ) :
    img_t.same_shape (recenter kernel dx dy) kernel := by
  unfold recenter
  apply loop_preserves (fun o => img_t.same_shape o kernel)
  · exact img_t.set_value_same_shape kernel 0
  · intro y _ t ht
    apply loop_preserves (fun o => img_t.same_shape o kernel) _ _ _ ht
    intro x _ t2 ht2
    dsimp only
    split
    · exact img_t.same_shape_trans (img_t.same_shape_set _ _ _ _ _) ht2
    · exact ht2

theorem recenter_nonneg {kernel : img_t ℚ} (h : kernel.nonneg) (dx dy : ℤ) :
    (recenter kernel dx dy).nonneg := by
  unfold recenter
  apply loop_preserves img_t.nonneg
  · exact img_t.set_value_zero_nonneg kernel
  · intro y _ t ht
    apply loop_preserves img_t.nonneg _ _ _ ht
    intro x _ t2 ht2
    dsimp only
    split
    · exact img_t.setI_nonneg ht2 _ (img_t.getI_nonneg h _)
    · exact ht2

theorem center_kernel_some {kernel out : img_t ℚ} (h : center_kernel kernel = some out) :
    kernel.sum ≠ 0 ∧
    out = recenter kernel (cround ((moments kernel).1 / kernel.sum))
      (cround ((moments kernel).2 / kernel.sum)) := by
  unfold center_kernel at h
  by_cases hs : kernel.sum = 0
  · simp [hs] at h
  · simp only [hs, if_false, Option.some.injEq] at h
    exact ⟨hs, h.symm⟩

theorem remove_isolated_cc_some {k out : img_t ℚ} (h : remove_isolated_cc k = some out) :
    ¬ (k.sum = 0 ∧ 0 < k.size) ∧
    out = img_t.update_each (img_t.update_each k.size (fun _ v => v / k.sum) k).size
      (fun i v =>
        if labeling.sum (labeling.labels (img_t.update_each k.size (fun _ v => v / k.sum) k)).1
            (img_t.update_each k.size (fun _ v => v / k.sum) k)
            ((labeling.labels (img_t.update_each k.size (fun _ v => v / k.sum) k)).1.getI i) < 1 / 10
        then 0 else v)
      (img_t.update_each k.size (fun _ v => v / k.sum) k) := by
  unfold remove_isolated_cc at h
  by_cases hs : k.sum = 0 ∧ 0 < k.size
  · simp [hs] at h
  · simp only [hs, if_false, Option.some.injEq] at h
    exact ⟨hs, h.symm⟩

theorem remove_isolated_cc_nonneg {k out : img_t ℚ} (hk : k.nonneg)
    (h : remove_isolated_cc k = some out) : out.nonneg ∧ img_t.same_shape out k := by
  obtain ⟨_, rfl⟩ := remove_isolated_cc_some h
  have hsum := img_t.sum_nonneg hk
  have h1 : (img_t.update_each k.size (fun _ v => v / k.sum) k).nonneg :=
    img_t.update_each_nonneg hk _ _ (fun _ v hv => div_nonneg hv hsum)
  refine ⟨img_t.update_each_nonneg h1 _ _ (fun i v hv => ?_), ?_⟩
  · dsimp only
    split
    · exact le_refl 0
    · exact hv
  · exact img_t.same_shape_trans (img_t.update_each_same_shape _ _ _)
      (img_t.update_each_same_shape _ _ _)

end utils

namespace FourierKernelEstimator

/-- The sum after the final normalization: one when the sum before it is
    positive, and otherwise the kernel is left as it is, with sum zero. -/
theorem normalize_sum {c : img_t ℚ} (hn : c.nonneg) (hwf : c.wf) :
    (0 < c.sum → (normalize c).sum = 1) ∧ (¬ 0 < c.sum → normalize c = c ∧ (normalize c).sum = 0) := by
  constructor
  · intro hs
    unfold normalize
    simp only [gt_iff_lt, hs, if_true]
    rw [img_t.sum_eq, img_t.update_each_map _ c hwf]
    have : (c.data.map (fun v => v / c.sum)).sum = c.data.sum / c.sum := by
      simp only [div_eq_mul_inv]
      rw [List.sum_map_mul_right]
      simp
    rw [this, ← img_t.sum_eq]
    exact div_self (ne_of_gt hs)
  · intro hs
    have h0 : c.sum = 0 := le_antisymm (not_lt.mp hs) (img_t.sum_nonneg hn)
    unfold normalize
    simp only [gt_iff_lt, hs, if_false]
    exact ⟨trivial, h0⟩

end FourierKernelEstimator

theorem list_sum_eq_sum_range (l : List ℚ) :
    l.sum = ∑ i in Finset.range l.length, l.getD i 0 := by
  induction l with
  | nil => simp
  | cons a t ih =>
    rw [List.sum_cons, List.length_cons, Finset.sum_range_succ', ih]
    simp [add_comm]

theorem img_t.sum_eq_sum_range (im : img_t ℚ) (hwf : im.wf) :
    im.sum = ∑ i in Finset.range im.size, im.getI i := by
  rw [img_t.sum_eq, list_sum_eq_sum_range, hwf]
  rfl

/-- The map built by `labeling::sum` holds, for each label, the sum of the
    samples that carry it. -/
theorem labeling.sum_spec (lab : img_t ℕ) (img : img_t ℚ) (l : ℕ) :
    labeling.sum lab img l =
      ∑ i in Finset.range img.size, if lab.getI i = l then img.getI i else 0 := by
  unfold labeling.sum
  generalize img.size = n
  induction n with
  | zero => simp [loop]
  | succ k ih =>
    rw [loop_succ, Finset.sum_range_succ, ← ih]
    by_cases h : lab.getI k = l
    · subst h
      simp [Function.update_same]
    · rw [Function.update_noteq (Ne.symm h), if_neg h, add_zero]

/-- The samples left by the two loops of `remove_isolated_cc`. -/
theorem utils.remove_isolated_cc_getI {k out : img_t ℚ} (hwf : k.wf)
    (h : utils.remove_isolated_cc k = some out) (i : ℕ) (hi : i < k.size) :
    out.getI i =
      if labeling.sum (labeling.labels (img_t.update_each k.size (fun _ v => v / k.sum) k)).1
          (img_t.update_each k.size (fun _ v => v / k.sum) k)
          ((labeling.labels (img_t.update_each k.size (fun _ v => v / k.sum) k)).1.getI i) < 1 / 10
      then 0 else k.getI i / k.sum := by
  obtain ⟨_, rfl⟩ := utils.remove_isolated_cc_some h
  have hs := img_t.update_each_same_shape k.size (fun _ v => v / k.sum) k
  have hlen : i < k.data.length := by rw [hwf]; exact hi
  rw [img_t.getI_eq, (img_t.update_each_getElem? _ _ _).2 i, if_pos (by rw [img_t.same_shape_size hs]; exact hi),
    (img_t.update_each_getElem? _ _ _).2 i, if_pos hi, List.getElem?_eq_getElem hlen]
  simp only [Option.map_some', Option.getD_some]
  have e : k.getI i = k.data[i] := by
    rw [img_t.getI_eq k i, List.getElem?_eq_getElem hlen]; rfl
  rw [e]

/-- C3 (amended): with `remove_isolated` on, the pruning step leaves non-zero
    only pixels whose label class holds at least 0.1 of the kernel mass, each
    of them equal to its input value divided by the kernel sum, so at most ten
    label classes survive (not at most one component). -/
theorem prune_keeps_heavy_classes (opts : options) (k out : img_t ℚ) (hwf : k.wf)
    (hk : ∀ v ∈ k.data, 0 ≤ v) (hri : opts.remove_isolated = true)
    (h : FourierKernelEstimator.prune opts k = some out) :
    (∀ i, i < k.size → out.getI i ≠ 0 →
      1 / 10 ≤ labeling.sum (labeling.labels (img_t.update_each k.size (fun _ v => v / k.sum) k)).1
          (img_t.update_each k.size (fun _ v => v / k.sum) k)
          ((labeling.labels (img_t.update_each k.size (fun _ v => v / k.sum) k)).1.getI i) ∧
      out.getI i = k.getI i / k.sum) ∧
    (surviving_labels (labeling.labels (img_t.update_each k.size (fun _ v => v / k.sum) k)).1
      out).card ≤ 10 := by
  unfold FourierKernelEstimator.prune at h
  rw [if_pos hri] at h
  have hkn : k.nonneg := hk
  obtain ⟨hdef, _⟩ := utils.remove_isolated_cc_some h
  obtain ⟨_, hshape⟩ := utils.remove_isolated_cc_nonneg hkn h
  have hg := utils.remove_isolated_cc_getI hwf h
  generalize hkn' : img_t.update_each k.size (fun _ v => v / k.sum) k = kn at hg ⊢
  generalize hlab : (labeling.labels kn).1 = lab at hg ⊢
  have hknshape : img_t.same_shape kn k := by
    rw [← hkn']; exact img_t.update_each_same_shape _ _ _
  have hknwf : kn.wf := img_t.same_shape_wf hknshape hwf
  have hknn : kn.nonneg := by
    rw [← hkn']
    exact img_t.update_each_nonneg hkn _ _ (fun _ v hv => div_nonneg hv (img_t.sum_nonneg hkn))
  have part1 : ∀ i, i < k.size → out.getI i ≠ 0 →
      1 / 10 ≤ labeling.sum lab kn (lab.getI i) ∧ out.getI i = k.getI i / k.sum := by
    intro i hi hne
    have e := hg i hi
    by_cases hlt : labeling.sum lab kn (lab.getI i) < 1 / 10
    · rw [if_pos hlt] at e
      exact absurd e hne
    · rw [if_neg hlt] at e
      exact ⟨not_lt.mp hlt, e⟩
  refine ⟨part1, ?_⟩
  -- the surviving classes are disjoint parts of a kernel of total mass at most one
  have hsize : out.size = k.size := img_t.same_shape_size hshape
  have hknsize : kn.size = k.size := img_t.same_shape_size hknshape
  have htotal : kn.sum ≤ 1 := by
    rw [img_t.sum_eq, ← hkn', img_t.update_each_map _ k hwf]
    have : (k.data.map (fun v => v / k.sum)).sum = k.data.sum / k.sum := by
      simp only [div_eq_mul_inv]
      rw [List.sum_map_mul_right]
      simp
    rw [this, ← img_t.sum_eq]
    by_cases h0 : k.sum = 0
    · rw [h0]; simp
    · rw [div_self h0]
  have hheavy : ∀ l ∈ surviving_labels lab out, 1 / 10 ≤ labeling.sum lab kn l := by
    intro l hl
    unfold surviving_labels at hl
    obtain ⟨i, hi, rfl⟩ := Finset.mem_image.mp hl
    obtain ⟨hi1, hi2⟩ := Finset.mem_filter.mp hi
    rw [Finset.mem_range, hsize] at hi1
    exact (part1 i hi1 hi2).1
  have hsum_le : ∑ l in surviving_labels lab out, labeling.sum lab kn l ≤ kn.sum := by
    rw [img_t.sum_eq_sum_range kn hknwf]
    have e1 : ∑ l in surviving_labels lab out, labeling.sum lab kn l =
        ∑ l in surviving_labels lab out,
          ∑ i in Finset.range kn.size, if lab.getI i = l then kn.getI i else 0 :=
      Finset.sum_congr rfl (fun l _ => labeling.sum_spec lab kn l)
    rw [e1, Finset.sum_comm]
    apply Finset.sum_le_sum
    intro i _
    have hnn : 0 ≤ kn.getI i := img_t.getI_nonneg hknn i
    by_cases hmem : lab.getI i ∈ surviving_labels lab out
    · rw [Finset.sum_ite_eq (surviving_labels lab out) (lab.getI i) (fun _ => kn.getI i), if_pos hmem]
    · rw [Finset.sum_ite_eq (surviving_labels lab out) (lab.getI i) (fun _ => kn.getI i), if_neg hmem]
      exact hnn
  have hcard : ((surviving_labels lab out).card : ℚ) * (1 / 10) ≤
      ∑ l in surviving_labels lab out, labeling.sum lab kn l := by
    have := Finset.card_nsmul_le_sum (surviving_labels lab out) (fun l => labeling.sum lab kn l)
      (1 / 10) hheavy
    rwa [nsmul_eq_mul] at this
  have hfin : ((surviving_labels lab out).card : ℚ) ≤ 10 := by linarith
  exact_mod_cast hfin

/-- C3 (as stated) fails: the window with two opposite corner pixels of equal
    value is returned with both corners at 1/2, and they are not 8-connected. -/
theorem one_component_counterexample :
    ¬ (∀ (opts : options) (k out : img_t ℚ), k.wf → opts.remove_isolated = true →
        FourierKernelEstimator.postprocess opts k = some out → at_most_one_component out) := by
  intro H
  have hpost : FourierKernelEstimator.postprocess default_options corner_window =
      some ⟨3, 3, 1, [1 / 2, 0, 0, 0, 0, 0, 0, 0, 1 / 2]⟩ := by decide!
  have hc := H _ _ _ (by decide) rfl hpost (0, 0) (2, 2)
    ⟨by decide, by decide, by decide!⟩ ⟨by decide, by decide, by decide!⟩
  have inv : ∀ q, connected8 ⟨3, 3, 1, [1 / 2, 0, 0, 0, 0, 0, 0, 0, 1 / 2]⟩ (0, 0) q → q = (0, 0) := by
    intro q hq
    induction hq with
    | refl => rfl
    | @tail b c _ hstep ih =>
      subst ih
      obtain ⟨⟨⟨_, h1⟩, ⟨_, h2⟩⟩, _, _, hne⟩ := hstep
      obtain ⟨c1, c2⟩ := c
      simp only at h1 h2 hne
      have hc1 : c1 = 0 ∨ c1 = 1 := by omega
      have hc2 : c2 = 0 ∨ c2 = 1 := by omega
      rcases hc1 with rfl | rfl <;> rcases hc2 with rfl | rfl
      · rfl
      · exact absurd (by decide! : (⟨3, 3, 1, [1 / 2, 0, 0, 0, 0, 0, 0, 0, 1 / 2]⟩ : img_t ℚ).get 0 1 0 = 0) hne
      · exact absurd (by decide! : (⟨3, 3, 1, [1 / 2, 0, 0, 0, 0, 0, 0, 0, 1 / 2]⟩ : img_t ℚ).get 1 0 0 = 0) hne
      · exact absurd (by decide! : (⟨3, 3, 1, [1 / 2, 0, 0, 0, 0, 0, 0, 0, 1 / 2]⟩ : img_t ℚ).get 1 1 0 = 0) hne
  have := inv (2, 2) hc
  exact absurd this (by decide)

theorem prune_keeps_heavy_classes_witness :
    corner_window.wf ∧
    FourierKernelEstimator.prune default_options corner_window =
      some ⟨3, 3, 1, [1 / 2, 0, 0, 0, 0, 0, 0, 0, 1 / 2]⟩ ∧
    (surviving_labels
      (labeling.labels (img_t.update_each corner_window.size (fun _ v => v / corner_window.sum)
        corner_window)).1
      ⟨3, 3, 1, [1 / 2, 0, 0, 0, 0, 0, 0, 0, 1 / 2]⟩).card ≤ 10 :=
  ⟨by decide, by decide!,
    (prune_keeps_heavy_classes default_options corner_window
      ⟨3, 3, 1, [1 / 2, 0, 0, 0, 0, 0, 0, 0, 1 / 2]⟩
      (by decide) (by decide!) rfl (by decide!)).2⟩

/-! ## Loop nests that rewrite one pixel per iteration -/

/-- One row of a pixel loop: the body at `(x, y)` rewrites the channels `C` of
    the pixel `(x + ox, y + oy)` only, with `W x y c` of the old sample. -/
theorem pixel_row_spec {α : Type} [Zero α] (B : ℕ → ℕ → img_t α → img_t α)
    (C : ℕ → Prop) [DecidablePred C] (W : ℕ → ℕ → ℕ → α → α) (o0 o1 : img_t α) (nx y ox oy : ℕ)
    (hs1 : img_t.same_shape o1 o0)
    (hB : ∀ x o, x < nx → img_t.same_shape o o0 →
      img_t.same_shape (B x y o) o ∧ ∀ p q c, p < o0.w → q < o0.h → c < o0.d →
        (B x y o).get p q c =
          if p = x + ox ∧ q = y + oy ∧ C c then W x y c (o.get p q c) else o.get p q c) :
    img_t.same_shape (loop nx (fun x o => B x y o) o1) o0 ∧
    ∀ p q c, p < o0.w → q < o0.h → c < o0.d →
      (loop nx (fun x o => B x y o) o1).get p q c =
        if (ox ≤ p ∧ p < nx + ox) ∧ q = y + oy ∧ C c then W (p - ox) y c (o1.get p q c)
        else o1.get p q c := by
  have key := loop_invariant
    (fun i (o : img_t α) => i ≤ nx → (img_t.same_shape o o0 ∧ ∀ p q c, p < o0.w → q < o0.h →
      c < o0.d → o.get p q c =
        if (ox ≤ p ∧ p < i + ox) ∧ q = y + oy ∧ C c then W (p - ox) y c (o1.get p q c)
        else o1.get p q c))
    nx (fun x o => B x y o) o1
    (by
      intro _
      refine ⟨hs1, ?_⟩
      intro p q c _ _ _
      rw [if_neg (by omega)])
    (by
      intro i hi t ht _
      obtain ⟨hs, hg⟩ := ht (Nat.le_of_lt hi)
      obtain ⟨bs, bg⟩ := hB i t hi hs
      refine ⟨img_t.same_shape_trans bs hs, ?_⟩
      intro p q c hp hq hc
      rw [bg p q c hp hq hc, hg p q c hp hq hc]
      by_cases h1 : p = i + ox ∧ q = y + oy ∧ C c
      · have h2 : ¬ ((ox ≤ p ∧ p < i + ox) ∧ q = y + oy ∧ C c) := by omega
        have h3 : (ox ≤ p ∧ p < i + 1 + ox) ∧ q = y + oy ∧ C c := ⟨by omega, h1.2.1, h1.2.2⟩
        have h4 : p - ox = i := by omega
        rw [if_pos h1, if_neg h2, if_pos h3, h4]
      · by_cases h2 : (ox ≤ p ∧ p < i + ox) ∧ q = y + oy ∧ C c
        · have h3 : (ox ≤ p ∧ p < i + 1 + ox) ∧ q = y + oy ∧ C c := ⟨by omega, h2.2.1, h2.2.2⟩
          rw [if_neg h1, if_pos h2, if_pos h3]
        · have h3 : ¬ ((ox ≤ p ∧ p < i + 1 + ox) ∧ q = y + oy ∧ C c) := by
            intro h
            by_cases hpi : p = i + ox
            · exact h1 ⟨hpi, h.2.1, h.2.2⟩
            · exact h2 ⟨by omega, h.2.1, h.2.2⟩
          rw [if_neg h1, if_neg h2, if_neg h3])
  exact key (Nat.le_refl nx)

/-- A loop nest over `(x, y)`, `x < nx`, `y < ny`, whose body rewrites the
    channels `C` of the pixel `(x + ox, y + oy)` only. -/
theorem pixel_loop_spec {α : Type} [Zero α] (B : ℕ → ℕ → img_t α → img_t α)
    (C : ℕ → Prop) [DecidablePred C] (W : ℕ → ℕ → ℕ → α → α) (o0 : img_t α) (nx ny ox oy : ℕ)
    (hB : ∀ x y o, x < nx → y < ny → img_t.same_shape o o0 →
      img_t.same_shape (B x y o) o ∧ ∀ p q c, p < o0.w → q < o0.h → c < o0.d →
        (B x y o).get p q c =
          if p = x + ox ∧ q = y + oy ∧ C c then W x y c (o.get p q c) else o.get p q c) :
    img_t.same_shape (loop ny (fun y o => loop nx (fun x o => B x y o) o) o0) o0 ∧
    ∀ p q c, p < o0.w → q < o0.h → c < o0.d →
      (loop ny (fun y o => loop nx (fun x o => B x y o) o) o0).get p q c =
        if (ox ≤ p ∧ p < nx + ox) ∧ (oy ≤ q ∧ q < ny + oy) ∧ C c
        then W (p - ox) (q - oy) c (o0.get p q c) else o0.get p q c := by
  have key := loop_invariant
    (fun j (o : img_t α) => j ≤ ny → (img_t.same_shape o o0 ∧ ∀ p q c, p < o0.w → q < o0.h →
      c < o0.d → o.get p q c =
        if (ox ≤ p ∧ p < nx + ox) ∧ (oy ≤ q ∧ q < j + oy) ∧ C c
        then W (p - ox) (q - oy) c (o0.get p q c) else o0.get p q c))
    ny (fun y o => loop nx (fun x o => B x y o) o) o0
    (by
      intro _
      refine ⟨img_t.same_shape_refl o0, ?_⟩
      intro p q c _ _ _
      rw [if_neg (by omega)])
    (by
      intro j hj t ht _
      obtain ⟨hs, hg⟩ := ht (Nat.le_of_lt hj)
      obtain ⟨rs, rg⟩ := pixel_row_spec B C W o0 t nx j ox oy hs
        (fun x o hx ho => hB x j o hx hj ho)
      refine ⟨rs, ?_⟩
      intro p q c hp hq hc
      rw [rg p q c hp hq hc, hg p q c hp hq hc]
      by_cases h1 : (ox ≤ p ∧ p < nx + ox) ∧ q = j + oy ∧ C c
      · have h2 : ¬ ((ox ≤ p ∧ p < nx + ox) ∧ (oy ≤ q ∧ q < j + oy) ∧ C c) := by omega
        have h3 : (ox ≤ p ∧ p < nx + ox) ∧ (oy ≤ q ∧ q < j + 1 + oy) ∧ C c :=
          ⟨h1.1, by omega, h1.2.2⟩
        have h4 : q - oy = j := by omega
        rw [if_pos h1, if_neg h2, if_pos h3, h4]
      · by_cases h2 : (ox ≤ p ∧ p < nx + ox) ∧ (oy ≤ q ∧ q < j + oy) ∧ C c
        · have h3 : (ox ≤ p ∧ p < nx + ox) ∧ (oy ≤ q ∧ q < j + 1 + oy) ∧ C c :=
            ⟨h2.1, by omega, h2.2.2⟩
          rw [if_neg h1, if_pos h2, if_pos h3]
        · have h3 : ¬ ((ox ≤ p ∧ p < nx + ox) ∧ (oy ≤ q ∧ q < j + 1 + oy) ∧ C c) := by
            intro h
            by_cases hqj : q = j + oy
            · exact h1 ⟨h.1, hqj, h.2.2⟩
            · exact h2 ⟨h.1, by omega, h.2.2⟩
          rw [if_neg h1, if_neg h2, if_neg h3])
  exact key (Nat.le_refl ny)

/-- The channel loop `for (l < nd) o(X, Y, l) = V(l)`. -/
theorem channel_loop_spec {α : Type} [Zero α] (o : img_t α) (X Y nd : ℕ) (V : ℕ → α)
    (hwf : o.wf) (hX : X < o.w) (hY : Y < o.h) (hnd : nd ≤ o.d) :
    img_t.same_shape (loop nd (fun l o => o.set X Y l (V l)) o) o ∧
    ∀ p q c, p < o.w → q < o.h → c < o.d →
      (loop nd (fun l o => o.set X Y l (V l)) o).get p q c =
        if p = X ∧ q = Y ∧ c < nd then V c else o.get p q c := by
  have key := loop_invariant
    (fun i (t : img_t α) => i ≤ nd → (img_t.same_shape t o ∧ ∀ p q c, p < o.w → q < o.h →
      c < o.d → t.get p q c = if p = X ∧ q = Y ∧ c < i then V c else o.get p q c))
    nd (fun l o => o.set X Y l (V l)) o
    (by
      intro _
      refine ⟨img_t.same_shape_refl o, ?_⟩
      intro p q c _ _ _
      rw [if_neg (by omega)])
    (by
      intro i hi t ht _
      obtain ⟨hs, hg⟩ := ht (Nat.le_of_lt hi)
      refine ⟨img_t.same_shape_trans (img_t.same_shape_set _ _ _ _ _) hs, ?_⟩
      intro p q c hp hq hc
      have twf := img_t.same_shape_wf hs hwf
      rw [img_t.get_set t twf _ (by rw [hs.1]; exact hX) (by rw [hs.2.1]; exact hY)
        (by rw [hs.2.2.1]; omega) (by rw [hs.1]; exact hp) (by rw [hs.2.2.1]; exact hc),
        hg p q c hp hq hc]
      by_cases h1 : p = X ∧ q = Y ∧ c = i
      · have h3 : p = X ∧ q = Y ∧ c < i + 1 := by omega
        rw [if_pos h1, if_pos h3, h1.2.2]
      · by_cases h2 : p = X ∧ q = Y ∧ c < i
        · have h3 : p = X ∧ q = Y ∧ c < i + 1 := by omega
          rw [if_neg h1, if_pos h2, if_pos h3]
        · have h3 : ¬ (p = X ∧ q = Y ∧ c < i + 1) := by omega
          rw [if_neg h1, if_neg h2, if_neg h3])
  exact key (Nat.le_refl nd)

/-- The loop nest `for (y < ny) for (x < nx) for (l < nd)
    out(x+ox, y+oy, l) = src(x+ix, y+iy, l)`, the channel loop innermost. -/
theorem copy_pixels_spec {α : Type} [Zero α] (out src : img_t α) (nx ny nd ox oy ix iy : ℕ)
    (hwf : out.wf) (hx : nx + ox ≤ out.w) (hy : ny + oy ≤ out.h) (hd : nd ≤ out.d) :
    img_t.same_shape (loop ny (fun y o => loop nx (fun x o => loop nd (fun l o =>
      o.set (x + ox) (y + oy) l (src.get (x + ix) (y + iy) l)) o) o) out) out ∧
    ∀ p q c, p < out.w → q < out.h → c < out.d →
      (loop ny (fun y o => loop nx (fun x o => loop nd (fun l o =>
        o.set (x + ox) (y + oy) l (src.get (x + ix) (y + iy) l)) o) o) out).get p q c =
        if (ox ≤ p ∧ p < nx + ox) ∧ (oy ≤ q ∧ q < ny + oy) ∧ c < nd
        then src.get (p - ox + ix) (q - oy + iy) c else out.get p q c := by
  exact pixel_loop_spec
    (fun x y o => loop nd (fun l o => o.set (x + ox) (y + oy) l (src.get (x + ix) (y + iy) l)) o)
    (fun c => c < nd) (fun x y c _ => src.get (x + ix) (y + iy) c) out nx ny ox oy
    (by
      intro x y o hx' hy' ho
      have owf := img_t.same_shape_wf ho hwf
      obtain ⟨cs, cg⟩ := channel_loop_spec o (x + ox) (y + oy) nd
        (fun l => src.get (x + ix) (y + iy) l) owf (by rw [ho.1]; omega) (by rw [ho.2.1]; omega)
        (by rw [ho.2.2.1]; exact hd)
      refine ⟨cs, ?_⟩
      intro p q c hp hq hc
      exact cg p q c (by rw [ho.1]; exact hp) (by rw [ho.2.1]; exact hq) (by rw [ho.2.2.1]; exact hc))

theorem img_t.set_value_get {α : Type} [Zero α] (im : img_t α) (x y dd : ℕ) :
    (im.set_value 0).get x y dd = 0 := by
  unfold img_t.get
  rw [img_t.getI_eq]
  show ((List.replicate im.data.length (0 : α))[_]?).getD 0 = 0
  cases h : (List.replicate im.data.length (0 : α))[(im.set_value 0).idx x y dd]? with
  | none => rfl
  | some v =>
    have := List.mem_iff_getElem?.mpr ⟨_, h⟩
    rw [(List.mem_replicate.mp this).2]
    rfl

/-- Where `center_kernel` takes each sample of the re-centred kernel from. -/
theorem utils.recenter_get (kernel : img_t ℚ) (dx dy : ℤ) (hwf : kernel.wf) (hd : kernel.d = 1)
    (x y : ℕ) (hx : x < kernel.w) (hy : y < kernel.h) :
    (utils.recenter kernel dx dy).get x y 0 =
      if (x : ℤ) + dx - (kernel.w / 2 : ℕ) ≥ 0 ∧ (x : ℤ) + dx - (kernel.w / 2 : ℕ) < kernel.w ∧
          (y : ℤ) + dy - (kernel.h / 2 : ℕ) ≥ 0 ∧ (y : ℤ) + dy - (kernel.h / 2 : ℕ) < kernel.h
      then kernel.get ((x : ℤ) + dx - (kernel.w / 2 : ℕ)).toNat
        ((y : ℤ) + dy - (kernel.h / 2 : ℕ)).toNat 0
      else 0 := by
  have hs0 := img_t.set_value_same_shape kernel 0
  have hwf0 : (kernel.set_value 0).wf := img_t.same_shape_wf hs0 hwf
  obtain ⟨_, hg⟩ := pixel_loop_spec
    (fun x y (k : img_t ℚ) =>
      if (x : ℤ) + dx - (kernel.w / 2 : ℕ) ≥ 0 ∧ (x : ℤ) + dx - (kernel.w / 2 : ℕ) < kernel.w ∧
          (y : ℤ) + dy - (kernel.h / 2 : ℕ) ≥ 0 ∧ (y : ℤ) + dy - (kernel.h / 2 : ℕ) < kernel.h
      then k.set x y 0 (kernel.get ((x : ℤ) + dx - (kernel.w / 2 : ℕ)).toNat
        ((y : ℤ) + dy - (kernel.h / 2 : ℕ)).toNat 0)
      else k)
    (fun c => c = 0)
    (fun x y _ old =>
      if (x : ℤ) + dx - (kernel.w / 2 : ℕ) ≥ 0 ∧ (x : ℤ) + dx - (kernel.w / 2 : ℕ) < kernel.w ∧
          (y : ℤ) + dy - (kernel.h / 2 : ℕ) ≥ 0 ∧ (y : ℤ) + dy - (kernel.h / 2 : ℕ) < kernel.h
      then kernel.get ((x : ℤ) + dx - (kernel.w / 2 : ℕ)).toNat
        ((y : ℤ) + dy - (kernel.h / 2 : ℕ)).toNat 0
      else old)
    (kernel.set_value 0) kernel.w kernel.h 0 0
    (by
      intro x y o hx hy ho
      dsimp only
      split
      · refine ⟨img_t.same_shape_set _ _ _ _ _, ?_⟩
        intro p q c hp hq hc
        have owf := img_t.same_shape_wf ho hwf0
        rw [img_t.get_set o owf _ (by rw [ho.1]; exact hx) (by rw [ho.2.1]; exact hy)
          (by rw [ho.2.2.1]; show 0 < kernel.d; omega) (by rw [ho.1]; exact hp)
          (by rw [ho.2.2.1]; exact hc)]
        simp only [Nat.add_zero]
      · refine ⟨img_t.same_shape_refl _, ?_⟩
        intro p q c _ _ _
        split <;> rfl)
  have := hg x y 0 hx hy (by show 0 < kernel.d; omega)
  rw [if_pos ⟨⟨Nat.zero_le _, hx⟩, ⟨Nat.zero_le _, hy⟩, rfl⟩, img_t.set_value_get] at this
  exact this

/-! ## Moments, sums over the pixel grid and the re-centring translation -/

theorem sum_range_mul (f : ℕ → ℚ) (w h : ℕ) :
    ∑ i in Finset.range (w * h), f i = ∑ y in Finset.range h, ∑ x in Finset.range w, f (x + y * w) := by
  induction h with
  | zero => simp
  | succ k ih =>
    rw [Nat.mul_succ, Finset.sum_range_add, ih, Finset.sum_range_succ]
    congr 1
    apply Finset.sum_congr rfl
    intro x _
    rw [Nat.add_comm, Nat.mul_comm]

/-- The sum of a well-formed single-channel image, pixel by pixel. -/
theorem img_t.sum_eq_sum_grid (im : img_t ℚ) (hwf : im.wf) (hd : im.d = 1) :
    im.sum = ∑ y in Finset.range im.h, ∑ x in Finset.range im.w, im.get x y 0 := by
  rw [img_t.sum_eq_sum_range im hwf]
  have hsize : im.size = im.w * im.h := by unfold img_t.size; rw [hd, Nat.mul_one]
  rw [hsize, sum_range_mul]
  apply Finset.sum_congr rfl
  intro y _
  apply Finset.sum_congr rfl
  intro x _
  unfold img_t.get img_t.idx
  rw [hd, Nat.one_mul, Nat.zero_add]

theorem loop_pair_sum (n : ℕ) (g g' : ℕ → ℚ) (acc : ℚ × ℚ) :
    loop n (fun x acc => (acc.1 + g x, acc.2 + g' x)) acc =
      (acc.1 + ∑ x in Finset.range n, g x, acc.2 + ∑ x in Finset.range n, g' x) := by
  induction n with
  | zero => simp [loop]
  | succ k ih =>
    rw [loop_succ, ih, Finset.sum_range_succ, Finset.sum_range_succ]
    simp only [add_assoc]

/-- The moment loop of `center_kernel` computes the two first moments. -/
theorem utils.moments_spec (k : img_t ℚ) :
    utils.moments k =
      (∑ y in Finset.range k.h, ∑ x in Finset.range k.w, k.get x y 0 * x,
       ∑ y in Finset.range k.h, ∑ x in Finset.range k.w, k.get x y 0 * y) := by
  unfold utils.moments
  have inner : ∀ y (acc : ℚ × ℚ),
      loop k.w (fun x acc => (acc.1 + k.get x y 0 * x, acc.2 + k.get x y 0 * y)) acc =
      (acc.1 + ∑ x in Finset.range k.w, k.get x y 0 * x,
       acc.2 + ∑ x in Finset.range k.w, k.get x y 0 * y) :=
    fun y acc => loop_pair_sum k.w (fun x => k.get x y 0 * x) (fun x => k.get x y 0 * y) acc
  have outer : ∀ n, loop n (fun y acc =>
      loop k.w (fun x acc => (acc.1 + k.get x y 0 * x, acc.2 + k.get x y 0 * y)) acc) ((0 : ℚ), (0 : ℚ)) =
      (∑ y in Finset.range n, ∑ x in Finset.range k.w, k.get x y 0 * x,
       ∑ y in Finset.range n, ∑ x in Finset.range k.w, k.get x y 0 * y) := by
    intro n
    induction n with
    | zero => simp [loop]
    | succ m ih =>
      rw [loop_succ, ih, inner, Finset.sum_range_succ, Finset.sum_range_succ]
  exact outer k.h

/-- The rounding of `std::round` moves a value by at most one half. -/
theorem cround_abs (x : ℚ) : |x - (cround x : ℚ)| ≤ 1 / 2 := by
  unfold cround
  split
  · have h1 := Int.floor_le (x + 1 / 2)
    have h2 := Int.lt_floor_add_one (x + 1 / 2)
    rw [abs_le]
    constructor <;> linarith
  · have h1 := Int.floor_le (-x + 1 / 2)
    have h2 := Int.lt_floor_add_one (-x + 1 / 2)
    rw [abs_le]
    push_cast
    constructor <;> linarith

/-- The re-centring is a translation: when no non-zero sample leaves the
    window, a weighted sum over the new kernel is the sum over the old one with
    the weight taken at the translated position. -/
theorem utils.recenter_sum (c : img_t ℚ) (dx dy : ℤ) (hwf : c.wf) (hd : c.d = 1)
    (G : ℤ → ℤ → ℚ)
    (hkeep : ∀ u v, u < c.w → v < c.h → c.get u v 0 ≠ 0 →
      0 ≤ (u : ℤ) - dx + (c.w / 2 : ℕ) ∧ (u : ℤ) - dx + (c.w / 2 : ℕ) < c.w ∧
      0 ≤ (v : ℤ) - dy + (c.h / 2 : ℕ) ∧ (v : ℤ) - dy + (c.h / 2 : ℕ) < c.h) :
    ∑ y in Finset.range c.h, ∑ x in Finset.range c.w, (utils.recenter c dx dy).get x y 0 * G x y =
    ∑ v in Finset.range c.h, ∑ u in Finset.range c.w,
      c.get u v 0 * G ((u : ℤ) - dx + (c.w / 2 : ℕ)) ((v : ℤ) - dy + (c.h / 2 : ℕ)) := by
  rw [← Finset.sum_product' (Finset.range c.h) (Finset.range c.w)
      (fun y x => (utils.recenter c dx dy).get x y 0 * G x y),
    ← Finset.sum_product' (Finset.range c.h) (Finset.range c.w)
      (fun v u => c.get u v 0 * G ((u : ℤ) - dx + (c.w / 2 : ℕ)) ((v : ℤ) - dy + (c.h / 2 : ℕ)))]
  have hval : ∀ a : ℕ × ℕ, a ∈ Finset.range c.h ×ˢ Finset.range c.w →
      (utils.recenter c dx dy).get a.2 a.1 0 * G a.2 a.1 ≠ 0 →
      ((a.2 : ℤ) + dx - (c.w / 2 : ℕ) ≥ 0 ∧ (a.2 : ℤ) + dx - (c.w / 2 : ℕ) < c.w ∧
        (a.1 : ℤ) + dy - (c.h / 2 : ℕ) ≥ 0 ∧ (a.1 : ℤ) + dy - (c.h / 2 : ℕ) < c.h) ∧
      (utils.recenter c dx dy).get a.2 a.1 0 =
        c.get ((a.2 : ℤ) + dx - (c.w / 2 : ℕ)).toNat ((a.1 : ℤ) + dy - (c.h / 2 : ℕ)).toNat 0 := by
    intro a ha hne
    obtain ⟨ha1, ha2⟩ := Finset.mem_product.mp ha
    rw [Finset.mem_range] at ha1 ha2
    have e := utils.recenter_get c dx dy hwf hd a.2 a.1 ha2 ha1
    by_cases hcond : ((a.2 : ℤ) + dx - (c.w / 2 : ℕ) ≥ 0 ∧ (a.2 : ℤ) + dx - (c.w / 2 : ℕ) < c.w ∧
        (a.1 : ℤ) + dy - (c.h / 2 : ℕ) ≥ 0 ∧ (a.1 : ℤ) + dy - (c.h / 2 : ℕ) < c.h)
    · rw [if_pos hcond] at e
      exact ⟨hcond, e⟩
    · rw [if_neg hcond] at e
      rw [e, zero_mul] at hne
      exact absurd rfl hne
  apply Finset.sum_bij_ne_zero
    (fun a _ _ => (((a.1 : ℤ) + dy - (c.h / 2 : ℕ)).toNat, ((a.2 : ℤ) + dx - (c.w / 2 : ℕ)).toNat))
  · intro a ha hne
    obtain ⟨⟨h1, h2, h3, h4⟩, _⟩ := hval a ha hne
    rw [Finset.mem_product, Finset.mem_range, Finset.mem_range]
    constructor <;> omega
  · intro a ha hne b hb hneb hab
    obtain ⟨⟨h1, h2, h3, h4⟩, _⟩ := hval a ha hne
    obtain ⟨⟨k1, k2, k3, k4⟩, _⟩ := hval b hb hneb
    simp only [Prod.mk.injEq] at hab
    obtain ⟨e1, e2⟩ := hab
    apply Prod.ext <;> omega
  · intro b hb hneb
    obtain ⟨hb1, hb2⟩ := Finset.mem_product.mp hb
    rw [Finset.mem_range] at hb1 hb2
    have hcne : c.get b.2 b.1 0 ≠ 0 := left_ne_zero_of_mul hneb
    obtain ⟨h1, h2, h3, h4⟩ := hkeep b.2 b.1 hb2 hb1 hcne
    have ha : (((b.1 : ℤ) - dy + (c.h / 2 : ℕ)).toNat, ((b.2 : ℤ) - dx + (c.w / 2 : ℕ)).toNat) ∈
        Finset.range c.h ×ˢ Finset.range c.w := by
      rw [Finset.mem_product, Finset.mem_range, Finset.mem_range]
      constructor <;> omega
    have ex : ((((b.2 : ℤ) - dx + (c.w / 2 : ℕ)).toNat : ℕ) : ℤ) = (b.2 : ℤ) - dx + (c.w / 2 : ℕ) :=
      Int.toNat_of_nonneg h1
    have ey : ((((b.1 : ℤ) - dy + (c.h / 2 : ℕ)).toNat : ℕ) : ℤ) = (b.1 : ℤ) - dy + (c.h / 2 : ℕ) :=
      Int.toNat_of_nonneg h3
    have hr := utils.recenter_get c dx dy hwf hd _ _ (Finset.mem_range.mp (Finset.mem_product.mp ha).2)
      (Finset.mem_range.mp (Finset.mem_product.mp ha).1)
    rw [if_pos (by rw [ex, ey]; omega)] at hr
    have tx : ((((((b.2 : ℤ) - dx + (c.w / 2 : ℕ)).toNat : ℕ) : ℤ)) + dx - (c.w / 2 : ℕ)).toNat = b.2 := by
      rw [ex]; omega
    have ty : ((((((b.1 : ℤ) - dy + (c.h / 2 : ℕ)).toNat : ℕ) : ℤ)) + dy - (c.h / 2 : ℕ)).toNat = b.1 := by
      rw [ey]; omega
    rw [tx, ty] at hr
    refine ⟨_, ha, ?_, ?_⟩
    · show (utils.recenter c dx dy).get _ _ 0 * G _ _ ≠ 0
      rw [hr, ex, ey]
      exact hneb
    · exact Prod.ext ty tx
  · intro a ha hne
    obtain ⟨⟨h1, h2, h3, h4⟩, e⟩ := hval a ha hne
    show (utils.recenter c dx dy).get a.2 a.1 0 * G a.2 a.1 =
      c.get ((a.2 : ℤ) + dx - (c.w / 2 : ℕ)).toNat ((a.1 : ℤ) + dy - (c.h / 2 : ℕ)).toNat 0 *
        G (((((a.2 : ℤ) + dx - (c.w / 2 : ℕ)).toNat : ℕ) : ℤ) - dx + (c.w / 2 : ℕ))
          (((((a.1 : ℤ) + dy - (c.h / 2 : ℕ)).toNat : ℕ) : ℤ) - dy + (c.h / 2 : ℕ))
    rw [e, Int.toNat_of_nonneg h1, Int.toNat_of_nonneg h3]
    congr 2 <;> ring

theorem img_t.update_each_get (f : ℚ → ℚ) (im : img_t ℚ) (hwf : im.wf) (x y dd : ℕ)
    (hx : x < im.w) (hy : y < im.h) (hd : dd < im.d) :
    (img_t.update_each im.size (fun _ v => f v) im).get x y dd = f (im.get x y dd) := by
  have hs := img_t.update_each_same_shape im.size (fun _ v => f v) im
  unfold img_t.get
  rw [img_t.same_shape_idx hs, img_t.getI_eq, img_t.getI_eq,
    (img_t.update_each_getElem? _ _ _).2 _, if_pos (img_t.idx_lt im hx hy hd),
    List.getElem?_eq_getElem (by rw [hwf]; exact img_t.idx_lt im hx hy hd)]
  rfl

/-- Sum and first moments of the re-centred kernel when no non-zero sample
    leaves the window. -/
theorem utils.recenter_totals (c : img_t ℚ) (dx dy : ℤ) (hwf : c.wf) (hd : c.d = 1)
    (hkeep : ∀ u v, u < c.w → v < c.h → c.get u v 0 ≠ 0 →
      0 ≤ (u : ℤ) - dx + (c.w / 2 : ℕ) ∧ (u : ℤ) - dx + (c.w / 2 : ℕ) < c.w ∧
      0 ≤ (v : ℤ) - dy + (c.h / 2 : ℕ) ∧ (v : ℤ) - dy + (c.h / 2 : ℕ) < c.h) :
    (utils.recenter c dx dy).sum = c.sum ∧
    (utils.moments (utils.recenter c dx dy)).1 =
      (utils.moments c).1 - ((dx : ℚ) - ((c.w / 2 : ℕ) : ℚ)) * c.sum ∧
    (utils.moments (utils.recenter c dx dy)).2 =
      (utils.moments c).2 - ((dy : ℚ) - ((c.h / 2 : ℕ) : ℚ)) * c.sum := by
  have hs := utils.recenter_same_shape c dx dy
  have rwf := img_t.same_shape_wf hs hwf
  have rd : (utils.recenter c dx dy).d = 1 := hs.2.2.1.trans hd
  have hsum : (utils.recenter c dx dy).sum = c.sum := by
    rw [img_t.sum_eq_sum_grid _ rwf rd, img_t.sum_eq_sum_grid c hwf hd, hs.1, hs.2.1]
    have := utils.recenter_sum c dx dy hwf hd (fun _ _ => 1) hkeep
    simpa using this
  refine ⟨hsum, ?_, ?_⟩
  · rw [utils.moments_spec, utils.moments_spec, img_t.sum_eq_sum_grid c hwf hd, hs.1, hs.2.1]
    have := utils.recenter_sum c dx dy hwf hd (fun x _ => (x : ℚ)) hkeep
    simp only [Int.cast_natCast] at this
    rw [this, Finset.mul_sum, ← Finset.sum_sub_distrib]
    dsimp only
    apply Finset.sum_congr rfl
    intro v _
    rw [Finset.mul_sum, ← Finset.sum_sub_distrib]
    apply Finset.sum_congr rfl
    intro u _
    simp only [Int.cast_sub, Int.cast_add, Int.cast_natCast]
    ring
  · rw [utils.moments_spec, utils.moments_spec, img_t.sum_eq_sum_grid c hwf hd, hs.1, hs.2.1]
    have := utils.recenter_sum c dx dy hwf hd (fun _ y => (y : ℚ)) hkeep
    simp only [Int.cast_natCast] at this
    rw [this, Finset.mul_sum, ← Finset.sum_sub_distrib]
    dsimp only
    apply Finset.sum_congr rfl
    intro v _
    rw [Finset.mul_sum, ← Finset.sum_sub_distrib]
    apply Finset.sum_congr rfl
    intro u _
    simp only [Int.cast_sub, Int.cast_add, Int.cast_natCast]
    ring

theorem img_t.make_spec {α : Type} [Zero α] (w h d : ℕ) :
    (img_t.make w h d : img_t α).w = w ∧ (img_t.make w h d : img_t α).h = h ∧
    (img_t.make w h d : img_t α).d = d ∧ (img_t.make w h d : img_t α).wf := by
  refine ⟨rfl, rfl, rfl, ?_⟩
  unfold img_t.wf img_t.size img_t.make
  simp only [List.length_replicate]
  ring

/-- A write to another pixel or channel leaves a sample as it is. -/
theorem img_t.get_set_of_ne {α : Type} [Zero α] (im : img_t α) {x y dd p q c : ℕ} (v : α)
    (hx : x < im.w) (hd : dd < im.d) (hp : p < im.w) (hc : c < im.d)
    (hne : ¬ (p = x ∧ q = y ∧ c = dd)) : (im.set x y dd v).get p q c = im.get p q c := by
  unfold img_t.get img_t.set
  rw [img_t.same_shape_idx (img_t.same_shape_setI im _ v), img_t.getI_setI]
  have : ¬ (im.idx x y dd = im.idx p q c) := by
    intro he
    obtain ⟨h1, h2, h3⟩ := img_t.idx_inj im hx hp hd hc he
    exact hne ⟨h1.symm, h2.symm, h3.symm⟩
  rw [if_neg (fun h => this h.1)]

theorem img_t.agrees_on_set {α : Type} [Zero α] {R : ℕ → ℕ → Prop} {o0 o : img_t α}
    (h : img_t.agrees_on R o0 o) {x y l : ℕ} (v : α) (hx : x < o0.w) (hl : l < o0.d)
    (hR : ¬ R x y) : img_t.agrees_on R o0 (o.set x y l v) := by
  obtain ⟨hs, hg⟩ := h
  refine ⟨img_t.same_shape_trans (img_t.same_shape_set _ _ _ _ _) hs, ?_⟩
  intro p q c hp hq hc hpq
  rw [img_t.get_set_of_ne o v (by rw [hs.1]; exact hx) (by rw [hs.2.2.1]; exact hl)
    (by rw [hs.1]; exact hp) (by rw [hs.2.2.1]; exact hc)
    (by intro he; rw [he.1, he.2.1] at hpq; exact hR hpq)]
  exact hg p q c hp hq hc hpq

/-- The image `add_padding` builds holds `f` at offset `(K.w/2, K.h/2)`, for a
    kernel of odd width and height. -/
theorem utils.add_padding_interior {α : Type} [Zero α] (f K : img_t α)
    (hw : K.w % 2 = 1) (hh : K.h % 2 = 1) :
    (utils.add_padding f K).w = f.w + K.w - 1 ∧ (utils.add_padding f K).h = f.h + K.h - 1 ∧
    (utils.add_padding f K).d = f.d ∧ (utils.add_padding f K).wf ∧
    ∀ x y l, x < f.w → y < f.h → l < f.d →
      (utils.add_padding f K).get (x + K.w / 2) (y + K.h / 2) l = f.get x y l := by
  obtain ⟨mw, mh, md, mwf⟩ := img_t.make_spec (α := α) (f.w + K.w - 1) (f.h + K.h - 1) f.d
  have s0 := img_t.set_value_same_shape (img_t.make (f.w + K.w - 1) (f.h + K.h - 1) f.d : img_t α) 0
  have w0 := img_t.same_shape_wf s0 mwf
  -- the copy of `_f`
  obtain ⟨s1, g1⟩ := copy_pixels_spec
    ((img_t.make (f.w + K.w - 1) (f.h + K.h - 1) f.d : img_t α).set_value 0) f
    f.w f.h f.d (K.w / 2) (K.h / 2) 0 0 w0
    (by rw [s0.1, mw]; omega) (by rw [s0.2.1, mh]; omega) (by rw [s0.2.2.1, md])
  have s1' := img_t.same_shape_trans s1 s0
  generalize hB : loop f.h (fun y o => loop f.w (fun x o => loop f.d (fun l o =>
      o.set (x + K.w / 2) (y + K.h / 2) l (f.get (x + 0) (y + 0) l)) o) o)
      ((img_t.make (f.w + K.w - 1) (f.h + K.h - 1) f.d : img_t α).set_value 0) = B at s1 g1 s1'
  have hBw : B.w = f.w + K.w - 1 := s1'.1.trans mw
  have hBh : B.h = f.h + K.h - 1 := s1'.2.1.trans mh
  have hBd : B.d = f.d := s1'.2.2.1.trans md
  -- the two border loops leave the interior alone
  have a1 : img_t.agrees_on (fun p q => (K.w / 2 ≤ p ∧ p < f.w + K.w / 2) ∧
      (K.h / 2 ≤ q ∧ q < f.h + K.h / 2)) B
      (loop (K.h / 2) (fun y f' => loop (f.w + K.w - 1) (fun x f' => loop f.d (fun l f' =>
        (f'.set x y l (f'.get x (2 * (K.h / 2) - y) l)).set x (f.h + K.h - 1 - 1 - y) l
          ((f'.set x y l (f'.get x (2 * (K.h / 2) - y) l)).get x
            (f.h + K.h - 1 - 1 - 2 * (K.h / 2) + y) l)) f') f') B) := by
    apply loop_preserves (img_t.agrees_on _ B)
    · exact ⟨img_t.same_shape_refl B, fun _ _ _ _ _ _ _ => rfl⟩
    · intro y hy t ht
      apply loop_preserves (img_t.agrees_on _ B) _ _ _ ht
      intro x hx t2 ht2
      apply loop_preserves (img_t.agrees_on _ B) _ _ _ ht2
      intro l hl t3 ht3
      apply img_t.agrees_on_set _ _ (by rw [hBw]; exact hx) (by rw [hBd]; exact hl) (by omega)
      exact img_t.agrees_on_set ht3 _ (by rw [hBw]; exact hx) (by rw [hBd]; exact hl) (by omega)
  generalize hC : (loop (K.h / 2) (fun y f' => loop (f.w + K.w - 1) (fun x f' => loop f.d (fun l f' =>
        (f'.set x y l (f'.get x (2 * (K.h / 2) - y) l)).set x (f.h + K.h - 1 - 1 - y) l
          ((f'.set x y l (f'.get x (2 * (K.h / 2) - y) l)).get x
            (f.h + K.h - 1 - 1 - 2 * (K.h / 2) + y) l)) f') f') B) = Cimg at a1
  have a2 : img_t.agrees_on (fun p q => (K.w / 2 ≤ p ∧ p < f.w + K.w / 2) ∧
      (K.h / 2 ≤ q ∧ q < f.h + K.h / 2)) B
      (loop (f.h + K.h - 1) (fun y f' => loop (K.w / 2) (fun x f' => loop f.d (fun l f' =>
        (f'.set x y l (f'.get (2 * (K.w / 2) - x) y l)).set (f.w + K.w - 1 - 1 - x) y l
          ((f'.set x y l (f'.get (2 * (K.w / 2) - x) y l)).get
            (f.w + K.w - 1 - 1 - 2 * (K.w / 2) + x) y l)) f') f') Cimg) := by
    apply loop_preserves (img_t.agrees_on _ B)
    · exact a1
    · intro y hy t ht
      apply loop_preserves (img_t.agrees_on _ B) _ _ _ ht
      intro x hx t2 ht2
      apply loop_preserves (img_t.agrees_on _ B) _ _ _ ht2
      intro l hl t3 ht3
      apply img_t.agrees_on_set _ _ (by rw [hBw]; omega) (by rw [hBd]; exact hl) (by omega)
      exact img_t.agrees_on_set ht3 _ (by rw [hBw]; omega) (by rw [hBd]; exact hl) (by omega)
  have hdef : utils.add_padding f K =
      (loop (f.h + K.h - 1) (fun y f' => loop (K.w / 2) (fun x f' => loop f.d (fun l f' =>
        (f'.set x y l (f'.get (2 * (K.w / 2) - x) y l)).set (f.w + K.w - 1 - 1 - x) y l
          ((f'.set x y l (f'.get (2 * (K.w / 2) - x) y l)).get
            (f.w + K.w - 1 - 1 - 2 * (K.w / 2) + x) y l)) f') f') Cimg) := by
    rw [← hC, ← hB]
    rfl
  rw [hdef]
  obtain ⟨as, ag⟩ := a2
  refine ⟨as.1.trans hBw, as.2.1.trans hBh, as.2.2.1.trans hBd,
    img_t.same_shape_wf (img_t.same_shape_trans as s1') mwf, ?_⟩
  intro x y l hx hy hl
  rw [ag _ _ l (by rw [hBw]; omega) (by rw [hBh]; omega) (by rw [hBd]; exact hl)
    ⟨⟨by omega, by omega⟩, ⟨by omega, by omega⟩⟩]
  rw [g1 _ _ l (by rw [s0.1, mw]; omega) (by rw [s0.2.1, mh]; omega) (by rw [s0.2.2.1, md]; exact hl)]
  rw [if_pos ⟨⟨by omega, by omega⟩, ⟨by omega, by omega⟩, hl⟩]
  congr 1 <;> omega

/-- Where `remove_padding` takes its samples from. -/
theorem utils.remove_padding_spec {α : Type} [Zero α] (f K : img_t α) :
    (utils.remove_padding f K).w = f.w - 2 * (K.w / 2) ∧
    (utils.remove_padding f K).h = f.h - 2 * (K.w / 2) ∧
    (utils.remove_padding f K).d = f.d ∧ (utils.remove_padding f K).wf ∧
    ∀ x y l, x < f.w - 2 * (K.w / 2) → y < f.h - 2 * (K.w / 2) → l < f.d →
      (utils.remove_padding f K).get x y l = f.get (x + K.w / 2) (y + K.w / 2) l := by
  obtain ⟨mw, mh, md, mwf⟩ := img_t.make_spec (α := α) (f.w - 2 * (K.w / 2)) (f.h - 2 * (K.w / 2)) f.d
  obtain ⟨s1, g1⟩ := copy_pixels_spec
    (img_t.make (f.w - 2 * (K.w / 2)) (f.h - 2 * (K.w / 2)) f.d : img_t α) f
    (f.w - 2 * (K.w / 2)) (f.h - 2 * (K.w / 2)) f.d 0 0 (K.w / 2) (K.w / 2) mwf
    (by rw [mw]; omega) (by rw [mh]; omega) (by rw [md])
  refine ⟨s1.1.trans mw, s1.2.1.trans mh, s1.2.2.1.trans md, img_t.same_shape_wf s1 mwf, ?_⟩
  intro x y l hx hy hl
  have := g1 x y l (by rw [mw]; exact hx) (by rw [mh]; exact hy) (by rw [md]; exact hl)
  rw [if_pos ⟨⟨by omega, by omega⟩, ⟨by omega, by omega⟩, hl⟩] at this
  exact this

/-- C6 (amended): for every image `f` and every kernel `K` of odd width whose
    height equals its width, `remove_padding(add_padding(f, K), K)` has the
    dimensions of `f` and equals `f` at every pixel and channel. -/
theorem remove_padding_add_padding {α : Type} [Zero α] (f K : img_t α) (hwf : f.wf)
    (hodd : K.w % 2 = 1) (hsq : K.h = K.w) :
    utils.remove_padding (utils.add_padding f K) K = f := by
  obtain ⟨aw, ah, ad, awf, ag⟩ := utils.add_padding_interior f K hodd (by rw [hsq]; exact hodd)
  obtain ⟨rw_, rh, rd, rwf, rg⟩ := utils.remove_padding_spec (utils.add_padding f K) K
  have hw : (utils.remove_padding (utils.add_padding f K) K).w = f.w := by rw [rw_, aw]; omega
  have hh : (utils.remove_padding (utils.add_padding f K) K).h = f.h := by rw [rh, ah, hsq]; omega
  have hd : (utils.remove_padding (utils.add_padding f K) K).d = f.d := by rw [rd, ad]
  apply img_t.ext_get rwf hwf hw hh hd
  intro x y l hx hy hl
  rw [hw] at hx
  rw [hh] at hy
  rw [hd] at hl
  rw [rg x y l (by rw [aw]; omega) (by rw [ah, hsq]; omega) (by rw [ad]; exact hl)]
  have := ag x y l hx hy hl
  rw [hsq] at this
  exact this

theorem remove_padding_add_padding_witness :
    (⟨2, 2, 1, [1, 2, 3, 4]⟩ : img_t ℚ).wf ∧
    utils.remove_padding (utils.add_padding (⟨2, 2, 1, [1, 2, 3, 4]⟩ : img_t ℚ) (img_t.make 3 3 1))
      (img_t.make 3 3 1) = ⟨2, 2, 1, [1, 2, 3, 4]⟩ :=
  ⟨by decide, remove_padding_add_padding _ _ (by decide) (by decide) (by decide)⟩

/-- C6 (as stated) fails: for a `2 x 2` kernel the result of
    `remove_padding(add_padding(f, K), K)` on a `1 x 1` image is empty, and
    for a kernel of width 1 and height 3 it has height 3. -/
theorem remove_padding_add_padding_counterexample :
    (utils.remove_padding (utils.add_padding (⟨1, 1, 1, [7]⟩ : img_t ℚ) (img_t.make 2 2 1))
      (img_t.make 2 2 1)).w ≠ 1 ∧
    (utils.remove_padding (utils.add_padding (⟨1, 1, 1, [7]⟩ : img_t ℚ) (img_t.make 1 3 1))
      (img_t.make 1 3 1)).h ≠ 1 := by
  constructor <;> decide!

/-! ## The table of FFT-friendly sizes -/

namespace fft

/-- What holds of the counter values and of the state is kept by `mul_loop`. -/
theorem mul_loop_invariant {σ : Type} (m : ℕ) (body : ℕ → σ → σ) (P : σ → Prop) (Q : ℕ → Prop)
    (hbody : ∀ e s, Q e → e < lut_size → P s → P (body e s)) (hQ : ∀ e, Q e → Q (e * m))
    (fuel e : ℕ) (s : σ) (hQe : Q e) (hP : P s) : P (mul_loop m body fuel e s) := by
  induction fuel generalizing e s with
  | zero => exact hP
  | succ k ih =>
    unfold mul_loop
    split
    · exact ih (e * m) (body e s) (hQ e hQe) (hbody e s hQe (by assumption) hP)
    · exact hP

/-- A property that every iteration keeps and that the iteration at `e * m^j`
    establishes holds at the end of `mul_loop`, when the loop reaches that
    iteration. -/
theorem mul_loop_hits {σ : Type} (m : ℕ) (body : ℕ → σ → σ) (Inv R : σ → Prop)
    (hInv : ∀ e s, Inv s → Inv (body e s)) (hR : ∀ e s, Inv s → R s → R (body e s))
    (hm : 1 ≤ m) (j : ℕ) :
    ∀ (fuel e : ℕ) (s : σ), 1 ≤ e → e * m ^ j < lut_size → j < fuel → Inv s →
      (∀ t, Inv t → R (body (e * m ^ j) t)) → R (mul_loop m body fuel e s) := by
  induction j with
  | zero =>
    intro fuel e s _ hlt hfuel hI hhit
    obtain ⟨k, rfl⟩ : ∃ k, fuel = k + 1 := ⟨fuel - 1, by omega⟩
    rw [pow_zero, Nat.mul_one] at hlt hhit
    unfold mul_loop
    rw [if_pos hlt]
    have h := mul_loop_invariant m body (fun t => Inv t ∧ R t) (fun _ => True)
      (fun e' t _ _ ht => ⟨hInv e' t ht.1, hR e' t ht.1 ht.2⟩) (fun _ _ => trivial)
      k (e * m) (body e s) trivial ⟨hInv e s hI, hhit s hI⟩
    exact h.2
  | succ i ih =>
    intro fuel e s he hlt hfuel hI hhit
    obtain ⟨k, rfl⟩ : ∃ k, fuel = k + 1 := ⟨fuel - 1, by omega⟩
    have hpow : e * m ^ (i + 1) = e * m * m ^ i := by rw [pow_succ]; ring
    have hmi : 1 ≤ m ^ i := Nat.one_le_pow _ _ hm
    have hle : e ≤ e * m ^ (i + 1) := by
      rw [hpow]
      calc e = e * 1 * 1 := by ring
        _ ≤ e * m * m ^ i := Nat.mul_le_mul (Nat.mul_le_mul_left e hm) hmi
    unfold mul_loop
    rw [if_pos (lt_of_le_of_lt hle hlt)]
    apply ih k (e * m) (body e s) (by nlinarith) (by rw [← hpow]; exact hlt) (by omega)
      (hInv e s hI)
    rw [← hpow]
    exact hhit

theorem getD_set_true (t : List Bool) (i k : ℕ) :
    (t.set i true).getD k false = true ↔ t.getD k false = true ∨ (k = i ∧ i < t.length) := by
  rw [List.getD_eq_getElem?_getD, List.getD_eq_getElem?_getD, List.getElem?_set]
  by_cases hik : i = k
  · subst hik
    by_cases hl : i < t.length
    · simp [hl]
    · simp [hl, List.getElem?_eq_none (Nat.le_of_not_lt hl)]
  · rw [if_neg hik]
    constructor
    · exact fun h => Or.inl h
    · rintro (h | ⟨h, _⟩)
      · exact h
      · exact absurd h.symm hik

end fft

theorem smooth7_one : smooth7 1 := ⟨0, 0, 0, 0, by norm_num⟩

theorem smooth7_mul_two {m : ℕ} (h : smooth7 m) : smooth7 (m * 2) := by
  obtain ⟨a, b, c, d, rfl⟩ := h
  exact ⟨a + 1, b, c, d, by ring⟩

theorem smooth7_mul_three {m : ℕ} (h : smooth7 m) : smooth7 (m * 3) := by
  obtain ⟨a, b, c, d, rfl⟩ := h
  exact ⟨a, b + 1, c, d, by ring⟩

theorem smooth7_mul_five {m : ℕ} (h : smooth7 m) : smooth7 (m * 5) := by
  obtain ⟨a, b, c, d, rfl⟩ := h
  exact ⟨a, b, c + 1, d, by ring⟩

theorem smooth7_mul_seven {m : ℕ} (h : smooth7 m) : smooth7 (m * 7) := by
  obtain ⟨a, b, c, d, rfl⟩ := h
  exact ⟨a, b, c, d + 1, by ring⟩

namespace fft

/-- The innermost loop body of `get_optimal_table` and the three loops around it. -/
theorem table_length_set (e : ℕ) (t : List Bool) (h : t.length = lut_size) :
    (t.set e true).length = lut_size := by rw [List.length_set]; exact h

theorem table_inner_length (m : ℕ) (body : ℕ → List Bool → List Bool)
    (hbody : ∀ e t, t.length = lut_size → (body e t).length = lut_size) (fuel e : ℕ)
    (t : List Bool) (h : t.length = lut_size) : (mul_loop m body fuel e t).length = lut_size :=
  mul_loop_invariant m body (fun t => t.length = lut_size) (fun _ => True)
    (fun e t _ _ ht => hbody e t ht) (fun _ _ => trivial) fuel e t trivial h

/-- Every index the table marks is below `lut_size` and of the form
    `2^a * 3^b * 5^c * 7^d`. -/
theorem table_sound (k : ℕ) (h : get_optimal_table.getD k false = true) :
    smooth7 k ∧ k < lut_size := by
  have h7 : ∀ e (t : List Bool), smooth7 e → e < lut_size →
      (t.length = lut_size ∧ ∀ k, t.getD k false = true → smooth7 k ∧ k < lut_size) →
      ((t.set e true).length = lut_size ∧
        ∀ k, (t.set e true).getD k false = true → smooth7 k ∧ k < lut_size) := by
    intro e7 t h7 hlt ht
    refine ⟨table_length_set e7 t ht.1, ?_⟩
    intro k hk
    rcases (getD_set_true t e7 k).mp hk with h | ⟨rfl, _⟩
    · exact ht.2 k h
    · exact ⟨h7, hlt⟩
  have h5 := fun e (t : List Bool) (he : smooth7 e) (_ : e < lut_size)
      (ht : t.length = lut_size ∧ ∀ k, t.getD k false = true → smooth7 k ∧ k < lut_size) =>
    mul_loop_invariant 7 (fun e7 t => t.set e7 true)
      (fun t => t.length = lut_size ∧ ∀ k, t.getD k false = true → smooth7 k ∧ k < lut_size)
      smooth7 h7 (fun e he => smooth7_mul_seven he) lut_size e t he ht
  have h3 := fun e (t : List Bool) (he : smooth7 e) (_ : e < lut_size)
      (ht : t.length = lut_size ∧ ∀ k, t.getD k false = true → smooth7 k ∧ k < lut_size) =>
    mul_loop_invariant 5 (fun e5 t => mul_loop 7 (fun e7 t => t.set e7 true) lut_size e5 t)
      (fun t => t.length = lut_size ∧ ∀ k, t.getD k false = true → smooth7 k ∧ k < lut_size)
      smooth7 h5 (fun e he => smooth7_mul_five he) lut_size e t he ht
  have h2 := fun e (t : List Bool) (he : smooth7 e) (_ : e < lut_size)
      (ht : t.length = lut_size ∧ ∀ k, t.getD k false = true → smooth7 k ∧ k < lut_size) =>
    mul_loop_invariant 3 (fun e3 t => mul_loop 5 (fun e5 t =>
        mul_loop 7 (fun e7 t => t.set e7 true) lut_size e5 t) lut_size e3 t)
      (fun t => t.length = lut_size ∧ ∀ k, t.getD k false = true → smooth7 k ∧ k < lut_size)
      smooth7 h3 (fun e he => smooth7_mul_three he) lut_size e t he ht
  have h0 : (List.replicate lut_size false).length = lut_size ∧
      ∀ k, (List.replicate lut_size false).getD k false = true → smooth7 k ∧ k < lut_size := by
    refine ⟨by simp, ?_⟩
    intro k hk
    rw [List.getD_eq_getElem?_getD] at hk
    by_cases hl : k < lut_size
    · rw [List.getElem?_eq_getElem (by simp; exact hl)] at hk
      simp at hk
    · rw [List.getElem?_eq_none (by simp; omega)] at hk
      simp at hk
  have key := mul_loop_invariant 2 (fun e2 t => mul_loop 3 (fun e3 t => mul_loop 5 (fun e5 t =>
        mul_loop 7 (fun e7 t => t.set e7 true) lut_size e5 t) lut_size e3 t) lut_size e2 t)
      (fun t => t.length = lut_size ∧ ∀ k, t.getD k false = true → smooth7 k ∧ k < lut_size)
      smooth7 h2 (fun e he => smooth7_mul_two he) lut_size 1 (List.replicate lut_size false)
      smooth7_one h0
  exact key.2 k h

theorem lt_two_pow_of_mul_lt {e m j : ℕ} (he : 1 ≤ e) (hm : 2 ≤ m) (h : e * m ^ j < lut_size) :
    j < lut_size := by
  have h1 : j < 2 ^ j := Nat.lt_two_pow j
  have h2 : 2 ^ j ≤ m ^ j := Nat.pow_le_pow_left hm j
  have h3 : m ^ j ≤ e * m ^ j := Nat.le_mul_of_pos_left _ he
  omega

/-- Every number below `lut_size` of the form `2^a * 3^b * 5^c * 7^d` is marked. -/
theorem table_complete (a b c d : ℕ) (h : 2 ^ a * 3 ^ b * 5 ^ c * 7 ^ d < lut_size) :
    get_optimal_table.getD (2 ^ a * 3 ^ b * 5 ^ c * 7 ^ d) false = true := by
  have p2 : 1 ≤ 2 ^ a := Nat.one_le_pow _ _ (by norm_num)
  have p3 : 1 ≤ 3 ^ b := Nat.one_le_pow _ _ (by norm_num)
  have p5 : 1 ≤ 5 ^ c := Nat.one_le_pow _ _ (by norm_num)
  have p7 : 1 ≤ 7 ^ d := Nat.one_le_pow _ _ (by norm_num)
  have q3 : 1 ≤ 2 ^ a * 3 ^ b := Nat.mul_pos p2 p3
  have q5 : 1 ≤ 2 ^ a * 3 ^ b * 5 ^ c := Nat.mul_pos q3 p5
  have l5 : 2 ^ a * 3 ^ b * 5 ^ c < lut_size :=
    lt_of_le_of_lt (Nat.le_mul_of_pos_right _ p7) h
  have l3 : 2 ^ a * 3 ^ b < lut_size := lt_of_le_of_lt (Nat.le_mul_of_pos_right _ p5) l5
  have l2 : 2 ^ a < lut_size := lt_of_le_of_lt (Nat.le_mul_of_pos_right _ p3) l3
  -- the property carried to the end of the loops
  have hset : ∀ e (t : List Bool), t.length = lut_size →
      t.getD (2 ^ a * 3 ^ b * 5 ^ c * 7 ^ d) false = true →
      (t.set e true).getD (2 ^ a * 3 ^ b * 5 ^ c * 7 ^ d) false = true :=
    fun e t _ ht => (getD_set_true t e _).mpr (Or.inl ht)
  have len7 : ∀ e (t : List Bool), t.length = lut_size → (t.set e true).length = lut_size :=
    fun e t ht => table_length_set e t ht
  have len5 : ∀ e (t : List Bool), t.length = lut_size →
      (mul_loop 7 (fun e7 t => t.set e7 true) lut_size e t).length = lut_size :=
    fun e t ht => table_inner_length 7 _ len7 _ e t ht
  have len3 : ∀ e (t : List Bool), t.length = lut_size →
      (mul_loop 5 (fun e5 t => mul_loop 7 (fun e7 t => t.set e7 true) lut_size e5 t)
        lut_size e t).length = lut_size :=
    fun e t ht => table_inner_length 5 _ len5 _ e t ht
  have len2 : ∀ e (t : List Bool), t.length = lut_size →
      (mul_loop 3 (fun e3 t => mul_loop 5 (fun e5 t =>
        mul_loop 7 (fun e7 t => t.set e7 true) lut_size e5 t) lut_size e3 t)
        lut_size e t).length = lut_size :=
    fun e t ht => table_inner_length 3 _ len3 _ e t ht
  have keep7 : ∀ e (t : List Bool), t.length = lut_size →
      t.getD (2 ^ a * 3 ^ b * 5 ^ c * 7 ^ d) false = true →
      (mul_loop 7 (fun e7 t => t.set e7 true) lut_size e t).getD
        (2 ^ a * 3 ^ b * 5 ^ c * 7 ^ d) false = true := by
    intro e t hl ht
    have := mul_loop_invariant 7 (fun e7 t => t.set e7 true)
      (fun t => t.length = lut_size ∧ t.getD (2 ^ a * 3 ^ b * 5 ^ c * 7 ^ d) false = true)
      (fun _ => True) (fun e' t' _ _ h' => ⟨len7 e' t' h'.1, hset e' t' h'.1 h'.2⟩)
      (fun _ _ => trivial) lut_size e t trivial ⟨hl, ht⟩
    exact this.2
  have keep5 : ∀ e (t : List Bool), t.length = lut_size →
      t.getD (2 ^ a * 3 ^ b * 5 ^ c * 7 ^ d) false = true →
      (mul_loop 5 (fun e5 t => mul_loop 7 (fun e7 t => t.set e7 true) lut_size e5 t)
        lut_size e t).getD (2 ^ a * 3 ^ b * 5 ^ c * 7 ^ d) false = true := by
    intro e t hl ht
    have := mul_loop_invariant 5
      (fun e5 t => mul_loop 7 (fun e7 t => t.set e7 true) lut_size e5 t)
      (fun t => t.length = lut_size ∧ t.getD (2 ^ a * 3 ^ b * 5 ^ c * 7 ^ d) false = true)
      (fun _ => True) (fun e' t' _ _ h' => ⟨len5 e' t' h'.1, keep7 e' t' h'.1 h'.2⟩)
      (fun _ _ => trivial) lut_size e t trivial ⟨hl, ht⟩
    exact this.2
  have keep3 : ∀ e (t : List Bool), t.length = lut_size →
      t.getD (2 ^ a * 3 ^ b * 5 ^ c * 7 ^ d) false = true →
      (mul_loop 3 (fun e3 t => mul_loop 5 (fun e5 t =>
        mul_loop 7 (fun e7 t => t.set e7 true) lut_size e5 t) lut_size e3 t)
        lut_size e t).getD (2 ^ a * 3 ^ b * 5 ^ c * 7 ^ d) false = true := by
    intro e t hl ht
    have := mul_loop_invariant 3
      (fun e3 t => mul_loop 5 (fun e5 t =>
        mul_loop 7 (fun e7 t => t.set e7 true) lut_size e5 t) lut_size e3 t)
      (fun t => t.length = lut_size ∧ t.getD (2 ^ a * 3 ^ b * 5 ^ c * 7 ^ d) false = true)
      (fun _ => True) (fun e' t' _ _ h' => ⟨len3 e' t' h'.1, keep5 e' t' h'.1 h'.2⟩)
      (fun _ _ => trivial) lut_size e t trivial ⟨hl, ht⟩
    exact this.2
  unfold get_optimal_table
  have hit := mul_loop_hits 2 _ (fun t : List Bool => t.length = lut_size)
    (fun t => t.getD (2 ^ a * 3 ^ b * 5 ^ c * 7 ^ d) false = true)
    len2 keep3 (by norm_num) a lut_size 1 (List.replicate lut_size false) (le_refl 1)
    (by rw [Nat.one_mul]; exact l2)
    (lt_two_pow_of_mul_lt (le_refl 1) (le_refl 2) (by rw [Nat.one_mul]; exact l2))
    (by simp)
  apply hit
  intro t ht
  rw [Nat.one_mul]
  apply mul_loop_hits 3 _ (fun t : List Bool => t.length = lut_size)
    (fun t => t.getD (2 ^ a * 3 ^ b * 5 ^ c * 7 ^ d) false = true)
    len3 keep5 (by norm_num) b lut_size (2 ^ a) t p2 l3
    (lt_two_pow_of_mul_lt p2 (by norm_num) l3) ht
  intro t ht
  apply mul_loop_hits 5 _ (fun t : List Bool => t.length = lut_size)
    (fun t => t.getD (2 ^ a * 3 ^ b * 5 ^ c * 7 ^ d) false = true)
    len5 keep7 (by norm_num) c lut_size (2 ^ a * 3 ^ b) t q3 l5
    (lt_two_pow_of_mul_lt q3 (by norm_num) l5) ht
  intro t ht
  apply mul_loop_hits 7 _ (fun t : List Bool => t.length = lut_size)
    (fun t => t.getD (2 ^ a * 3 ^ b * 5 ^ c * 7 ^ d) false = true)
    len7 hset (by norm_num) d lut_size (2 ^ a * 3 ^ b * 5 ^ c) t q5 h
    (lt_two_pow_of_mul_lt q5 (by norm_num) h) ht
  intro t ht
  exact (getD_set_true t _ _).mpr (Or.inr ⟨rfl, by rw [ht]; exact h⟩)

end fft

namespace fft

/-- With `lut_size` iterations allowed, `mul_loop` leaves by its loop
    condition: more fuel gives the same result. -/
theorem mul_loop_fuel {σ : Type} (m : ℕ) (body : ℕ → σ → σ) (hm : 2 ≤ m) (fuel1 : ℕ) :
    ∀ (fuel2 e : ℕ) (s : σ), 1 ≤ e → lut_size ≤ e + fuel1 → lut_size ≤ e + fuel2 →
      mul_loop m body fuel1 e s = mul_loop m body fuel2 e s := by
  induction fuel1 with
  | zero =>
    intro fuel2 e s _ h1 _
    cases fuel2 with
    | zero => rfl
    | succ k =>
      unfold mul_loop
      rw [if_neg (by omega)]
  | succ k ih =>
    intro fuel2 e s he h1 h2
    by_cases hlt : e < lut_size
    · obtain ⟨k2, rfl⟩ : ∃ k2, fuel2 = k2 + 1 := ⟨fuel2 - 1, by omega⟩
      unfold mul_loop
      rw [if_pos hlt, if_pos hlt]
      have hem : e + 1 ≤ e * m := by nlinarith
      exact ih k2 (e * m) (body e s) (by omega) (by omega) (by omega)
    · cases fuel2 with
      | zero =>
        unfold mul_loop
        rw [if_neg hlt]
      | succ k2 =>
        unfold mul_loop
        rw [if_neg hlt, if_neg hlt]

/-- The downward scan returns the largest marked index in `1..n`, if any. -/
theorem scan_down_spec (tab : List Bool) (n : ℕ) :
    (∀ i, scan_down tab n = some i →
      1 ≤ i ∧ i ≤ n ∧ tab.getD i false = true ∧ ∀ j, i < j → j ≤ n → tab.getD j false = false) ∧
    (scan_down tab n = none → ∀ j, 1 ≤ j → j ≤ n → tab.getD j false = false) := by
  induction n with
  | zero =>
    constructor
    · intro i h; unfold scan_down at h; exact absurd h (by simp)
    · intro _ j h1 h2; omega
  | succ k ih =>
    unfold scan_down
    by_cases hk : tab.getD (k + 1) false = true
    · rw [if_pos hk]
      constructor
      · intro i hi
        simp only [Option.some.injEq] at hi
        subst hi
        exact ⟨by omega, le_refl _, hk, fun j h1 h2 => by omega⟩
      · intro h; exact absurd h (by simp)
    · rw [if_neg hk]
      have hk' : tab.getD (k + 1) false = false := by
        cases h : tab.getD (k + 1) false
        · rfl
        · exact absurd h hk
      constructor
      · intro i hi
        obtain ⟨h1, h2, h3, h4⟩ := ih.1 i hi
        refine ⟨h1, by omega, h3, ?_⟩
        intro j hj1 hj2
        by_cases hjk : j = k + 1
        · rw [hjk]; exact hk'
        · exact h4 j hj1 (by omega)
      · intro hn j hj1 hj2
        by_cases hjk : j = k + 1
        · rw [hjk]; exact hk'
        · exact ih.2 hn j hj1 (by omega)

theorem get_optimal_size_down_eq (n : ℕ) :
    get_optimal_size_down n =
      (scan_down get_optimal_table (if n ≥ lut_size then lut_size - 1 else n)).getD
        (if n ≥ lut_size then lut_size - 1 else n) := by
  unfold get_optimal_size_down
  dsimp only
  cases scan_down get_optimal_table (if n ≥ lut_size then lut_size - 1 else n) <;> rfl

/-- The value `get_optimal_size_down` returns for `n >= 1`: the largest
    number of the form `2^a * 3^b * 5^c * 7^d` that is at most `n` and at most
    `lut_size - 1`. -/
theorem get_optimal_size_down_spec (n : ℕ) (hn : 1 ≤ n) :
    smooth7 (get_optimal_size_down n) ∧ 1 ≤ get_optimal_size_down n ∧
    get_optimal_size_down n ≤ n ∧ get_optimal_size_down n ≤ lut_size - 1 ∧
    ∀ m, smooth7 m → m ≤ n → m ≤ lut_size - 1 → m ≤ get_optimal_size_down n := by
  have hlut : lut_size = 4096 := rfl
  have hone : get_optimal_table.getD 1 false = true := by
    have := table_complete 0 0 0 0 (by rw [hlut]; norm_num)
    simpa using this
  rw [get_optimal_size_down_eq]
  generalize hc : (if n ≥ lut_size then lut_size - 1 else n) = c
  have hc1 : 1 ≤ c := by rw [← hc]; split <;> omega
  have hcn : c ≤ n := by rw [← hc]; split <;> omega
  have hcl : c ≤ lut_size - 1 := by rw [← hc]; split <;> omega
  have hcmin : ∀ m, m ≤ n → m ≤ lut_size - 1 → m ≤ c := by
    intro m h1 h2; rw [← hc]; split <;> omega
  obtain ⟨hsome, hnone⟩ := scan_down_spec get_optimal_table c
  cases hs : scan_down get_optimal_table c with
  | none =>
    have := hnone hs 1 (le_refl 1) hc1
    rw [hone] at this
    exact absurd this (by simp)
  | some i =>
    obtain ⟨h1, h2, h3, h4⟩ := hsome i hs
    rw [Option.getD_some]
    refine ⟨(table_sound i h3).1, h1, by omega, by omega, ?_⟩
    intro m hm hmn hml
    by_contra hlt
    have hmc := hcmin m hmn hml
    have hfalse := h4 m (by omega) hmc
    obtain ⟨a, b, c', d, rfl⟩ := hm
    rw [table_complete a b c' d (by omega)] at hfalse
    exact absurd hfalse (by simp)

theorem get_optimal_size_down_clamp (n : ℕ) (h : n ≥ lut_size) :
    get_optimal_size_down n = get_optimal_size_down (lut_size - 1) := by
  have h1 : ¬ (lut_size - 1 ≥ lut_size) := by unfold lut_size; omega
  rw [get_optimal_size_down_eq n, get_optimal_size_down_eq (lut_size - 1), if_pos h, if_neg h1]

theorem strip_factor_pow (p r : ℕ) (hp : 2 ≤ p) (hr : ¬ p ∣ r) (a : ℕ) :
    ∀ fuel, a ≤ fuel → strip_factor p fuel (p ^ a * r) = r := by
  induction a with
  | zero =>
    intro fuel _
    rw [pow_zero, Nat.one_mul]
    cases fuel with
    | zero => rfl
    | succ k =>
      unfold strip_factor
      rw [if_neg (fun h => hr (Nat.dvd_of_mod_eq_zero h))]
  | succ b ih =>
    intro fuel hf
    obtain ⟨k, rfl⟩ : ∃ k, fuel = k + 1 := ⟨fuel - 1, by omega⟩
    unfold strip_factor
    have e : p ^ (b + 1) * r = p * (p ^ b * r) := by rw [pow_succ]; ring
    rw [e, if_pos (Nat.mul_mod_right _ _), Nat.mul_div_cancel_left _ (by omega)]
    exact ih k (by omega)

theorem exponent_le {p a m : ℕ} (hp : 2 ≤ p) (h : p ^ a ≤ m) : a ≤ m := by
  have h1 : a < 2 ^ a := Nat.lt_two_pow a
  have h2 : 2 ^ a ≤ p ^ a := Nat.pow_le_pow_left hp a
  omega

/-- Every number of the form `2^a * 3^b * 5^c * 7^d` passes `smooth7_test`. -/
theorem smooth7_test_of_smooth7 {m : ℕ} (h : smooth7 m) : smooth7_test m = true := by
  obtain ⟨a, b, c, d, rfl⟩ := h
  have p2 : 1 ≤ 2 ^ a := Nat.one_le_pow _ _ (by norm_num)
  have p3 : 1 ≤ 3 ^ b := Nat.one_le_pow _ _ (by norm_num)
  have p5 : 1 ≤ 5 ^ c := Nat.one_le_pow _ _ (by norm_num)
  have p7 : 1 ≤ 7 ^ d := Nat.one_le_pow _ _ (by norm_num)
  have pr7 : Nat.Prime 7 := by norm_num
  have n2 : ¬ 2 ∣ 3 ^ b * 5 ^ c * 7 ^ d := by
    intro hdiv
    rcases (Nat.Prime.dvd_mul Nat.prime_two).mp hdiv with h1 | h1
    · rcases (Nat.Prime.dvd_mul Nat.prime_two).mp h1 with h2 | h2
      · exact absurd (Nat.Prime.dvd_of_dvd_pow Nat.prime_two h2) (by decide)
      · exact absurd (Nat.Prime.dvd_of_dvd_pow Nat.prime_two h2) (by decide)
    · exact absurd (Nat.Prime.dvd_of_dvd_pow Nat.prime_two h1) (by decide)
  have n3 : ¬ 3 ∣ 5 ^ c * 7 ^ d := by
    intro hdiv
    rcases (Nat.Prime.dvd_mul Nat.prime_three).mp hdiv with h1 | h1
    · exact absurd (Nat.Prime.dvd_of_dvd_pow Nat.prime_three h1) (by decide)
    · exact absurd (Nat.Prime.dvd_of_dvd_pow Nat.prime_three h1) (by decide)
  have n5 : ¬ 5 ∣ 7 ^ d * 1 := by
    intro hdiv
    rw [Nat.mul_one] at hdiv
    exact absurd (Nat.Prime.dvd_of_dvd_pow Nat.prime_five hdiv) (by decide)
  have n7 : ¬ 7 ∣ 1 := by decide
  have le7 : 7 ^ d ≤ 2 ^ a * 3 ^ b * 5 ^ c * 7 ^ d := Nat.le_mul_of_pos_left _ (by positivity)
  have le5 : 5 ^ c ≤ 2 ^ a * 3 ^ b * 5 ^ c * 7 ^ d :=
    le_trans (Nat.le_mul_of_pos_left _ (by positivity)) (Nat.le_mul_of_pos_right _ p7)
  have le3 : 3 ^ b ≤ 2 ^ a * 3 ^ b * 5 ^ c * 7 ^ d :=
    le_trans (le_trans (Nat.le_mul_of_pos_left _ p2) (Nat.le_mul_of_pos_right _ p5))
      (Nat.le_mul_of_pos_right _ p7)
  have le2 : 2 ^ a ≤ 2 ^ a * 3 ^ b * 5 ^ c * 7 ^ d :=
    le_trans (le_trans (Nat.le_mul_of_pos_right _ p3) (Nat.le_mul_of_pos_right _ p5))
      (Nat.le_mul_of_pos_right _ p7)
  have s2 : strip_factor 2 (2 ^ a * 3 ^ b * 5 ^ c * 7 ^ d) (2 ^ a * 3 ^ b * 5 ^ c * 7 ^ d) =
      3 ^ b * 5 ^ c * 7 ^ d := by
    have e : 2 ^ a * 3 ^ b * 5 ^ c * 7 ^ d = 2 ^ a * (3 ^ b * 5 ^ c * 7 ^ d) := by ring
    have := strip_factor_pow 2 (3 ^ b * 5 ^ c * 7 ^ d) (le_refl 2) n2 a
      (2 ^ a * 3 ^ b * 5 ^ c * 7 ^ d) (exponent_le (le_refl 2) le2)
    rw [← e] at this
    exact this
  have s3 : strip_factor 3 (2 ^ a * 3 ^ b * 5 ^ c * 7 ^ d) (3 ^ b * 5 ^ c * 7 ^ d) =
      5 ^ c * 7 ^ d := by
    have e : 3 ^ b * 5 ^ c * 7 ^ d = 3 ^ b * (5 ^ c * 7 ^ d) := by ring
    rw [e]
    exact strip_factor_pow 3 (5 ^ c * 7 ^ d) (by norm_num) n3 b _ (exponent_le (by norm_num) le3)
  have s5 : strip_factor 5 (2 ^ a * 3 ^ b * 5 ^ c * 7 ^ d) (5 ^ c * 7 ^ d) = 7 ^ d * 1 := by
    have e : 5 ^ c * 7 ^ d = 5 ^ c * (7 ^ d * 1) := by ring
    rw [e]
    exact strip_factor_pow 5 (7 ^ d * 1) (by norm_num) n5 c _ (exponent_le (by norm_num) le5)
  have s7 : strip_factor 7 (2 ^ a * 3 ^ b * 5 ^ c * 7 ^ d) (7 ^ d * 1) = 1 :=
    strip_factor_pow 7 1 (by norm_num) n7 d _ (exponent_le (by norm_num) le7)
  unfold smooth7_test
  rw [s2, s3, s5, s7]
  rfl

/-- No number from 4051 to 4095 is of the form `2^a * 3^b * 5^c * 7^d`. -/
theorem not_smooth7_above_4050 (m : ℕ) (h1 : 4050 < m) (h2 : m ≤ 4095) : ¬ smooth7 m := by
  intro hs
  have ht := smooth7_test_of_smooth7 hs
  have hall : ∀ k ∈ List.range 45, smooth7_test (4051 + k) = false := by decide
  have := hall (m - 4051) (List.mem_range.mpr (by omega))
  rw [show 4051 + (m - 4051) = m by omega, ht] at this
  exact absurd this (by simp)

/-- The largest marked size: the table stops at 4095, and 4050 is the last
    number of the form `2^a * 3^b * 5^c * 7^d` below it. -/
theorem get_optimal_size_down_top : get_optimal_size_down (lut_size - 1) = 4050 := by
  have hlut : lut_size = 4096 := rfl
  obtain ⟨h1, _, h3, _, h5⟩ := get_optimal_size_down_spec (lut_size - 1) (by rw [hlut]; norm_num)
  have hge : 4050 ≤ get_optimal_size_down (lut_size - 1) :=
    h5 4050 ⟨1, 4, 2, 0, by norm_num⟩ (by rw [hlut]; norm_num) (by rw [hlut]; norm_num)
  have hle : get_optimal_size_down (lut_size - 1) ≤ 4050 := by
    by_contra hgt
    exact not_smooth7_above_4050 _ (by omega) (by rw [hlut] at h3; omega) h1
  omega

end fft

/-- C7 (amended): for every `n >= 1`, `get_optimal_size_down(n)` is the largest
    number of the form `2^a * 3^b * 5^c * 7^d` that is at most `min(n, 4095)`;
    the table does not hold 4096, and the dimensions 4096 and 4097 are both
    cropped to 4050. -/
theorem get_optimal_size_down_largest (n : ℕ) (hn : 1 ≤ n) :
    (smooth7 (fft.get_optimal_size_down n) ∧ fft.get_optimal_size_down n ≤ min n 4095 ∧
      ∀ m, smooth7 m → m ≤ min n 4095 → m ≤ fft.get_optimal_size_down n) ∧
    fft.get_optimal_table.getD 4096 false = false ∧
    fft.get_optimal_size_down 4096 = 4050 ∧ fft.get_optimal_size_down 4097 = 4050 := by
  obtain ⟨h1, _, h3, h4, h5⟩ := fft.get_optimal_size_down_spec n hn
  have hlut : fft.lut_size = 4096 := rfl
  refine ⟨⟨h1, ?_, ?_⟩, ?_, ?_, ?_⟩
  · rw [hlut] at h4
    exact le_min h3 (by omega)
  · intro m hm hle
    have := le_min_iff.mp hle
    exact h5 m hm this.1 (by rw [hlut]; omega)
  · cases h : fft.get_optimal_table.getD 4096 false
    · rfl
    · have := (fft.table_sound 4096 h).2
      rw [hlut] at this
      omega
  · rw [fft.get_optimal_size_down_clamp 4096 (by rw [hlut]), fft.get_optimal_size_down_top]
  · rw [fft.get_optimal_size_down_clamp 4097 (by rw [hlut]; norm_num), fft.get_optimal_size_down_top]

theorem get_optimal_size_down_largest_witness :
    smooth7 (fft.get_optimal_size_down 4097) ∧ fft.get_optimal_size_down 4097 ≤ min 4097 4095 :=
  ⟨(get_optimal_size_down_largest 4097 (by norm_num)).1.1,
    (get_optimal_size_down_largest 4097 (by norm_num)).1.2.1⟩

/-- C7 (as stated) fails: `get_optimal_size_down(4096)` is not 4096, and an
    input dimension of 4097 is not cropped to 4096. -/
theorem get_optimal_size_down_counterexample :
    fft.get_optimal_size_down 4096 ≠ 4096 ∧ fft.get_optimal_size_down 4097 ≠ 4096 := by
  have hlut : fft.lut_size = 4096 := rfl
  constructor
  · rw [fft.get_optimal_size_down_clamp 4096 (by rw [hlut]), fft.get_optimal_size_down_top]
    norm_num
  · rw [fft.get_optimal_size_down_clamp 4097 (by rw [hlut]; norm_num), fft.get_optimal_size_down_top]
    norm_num

theorem img_t.resize_spec {α : Type} [Zero α] (im : img_t α) (hwf : im.wf) (w h d : ℕ) :
    (im.resize w h d).w = w ∧ (im.resize w h d).h = h ∧ (im.resize w h d).d = d ∧
    (im.resize w h d).wf := by
  unfold img_t.resize
  by_cases hc : im.w ≠ w ∨ im.h ≠ h ∨ im.d ≠ d
  · rw [if_pos hc]
    refine ⟨rfl, rfl, rfl, ?_⟩
    unfold img_t.wf img_t.size
    simp only [List.length_append, List.length_take, List.length_replicate]
    omega
  · rw [if_neg hc]
    have h1 : im.w = w := by by_contra h; exact hc (Or.inl h)
    have h2 : im.h = h := by by_contra h; exact hc (Or.inr (Or.inl h))
    have h3 : im.d = d := by by_contra h; exact hc (Or.inr (Or.inr h))
    exact ⟨h1, h2, h3, hwf⟩

/-- C8: for an input of size `N x M` with `N, M >= 1` (in particular with
    `N, M <= 4096`), the crop of `preprocess_image` produces an image whose
    width `nw` and height `nh` are of the form `2^a * 3^b * 5^c * 7^d`, with
    `nw <= N` and `nh <= M`, and every pixel it reads, at offset
    `((N-nw)/2, (M-nh)/2)`, lies inside the original image. -/
theorem preprocess_crop_sizes (v : img_t ℚ) (hwf : v.wf) (hw : 1 ≤ v.w) (hh : 1 ≤ v.h) :
    (preprocess_crop v).w = fft.get_optimal_size_down v.w ∧
    (preprocess_crop v).h = fft.get_optimal_size_down v.h ∧
    smooth7 (preprocess_crop v).w ∧ smooth7 (preprocess_crop v).h ∧
    (preprocess_crop v).w ≤ v.w ∧ (preprocess_crop v).h ≤ v.h ∧
    ∀ x y, x < (preprocess_crop v).w → y < (preprocess_crop v).h →
      x + (v.w - (preprocess_crop v).w) / 2 < v.w ∧ y + (v.h - (preprocess_crop v).h) / 2 < v.h ∧
      (preprocess_crop v).get x y 0 =
        v.get (x + (v.w - (preprocess_crop v).w) / 2) (y + (v.h - (preprocess_crop v).h) / 2) 0 := by
  obtain ⟨sw, _, lw, _, _⟩ := fft.get_optimal_size_down_spec v.w hw
  obtain ⟨sh, _, lh, _, _⟩ := fft.get_optimal_size_down_spec v.h hh
  obtain ⟨rw_, rh, rd, rwf⟩ := img_t.resize_spec v hwf (fft.get_optimal_size_down v.w)
    (fft.get_optimal_size_down v.h) 1
  obtain ⟨cs, cg⟩ := img_t.copy_block_spec
    (v.resize (fft.get_optimal_size_down v.w) (fft.get_optimal_size_down v.h) 1) v
    (fft.get_optimal_size_down v.w) (fft.get_optimal_size_down v.h) 0 0
    ((v.w - fft.get_optimal_size_down v.w) / 2) ((v.h - fft.get_optimal_size_down v.h) / 2) 0 0
    rwf (by rw [rw_]; omega) (by rw [rh]; omega) (by rw [rd]; omega)
  have hdef : preprocess_crop v = img_t.copy_block
      (v.resize (fft.get_optimal_size_down v.w) (fft.get_optimal_size_down v.h) 1) v
      (fft.get_optimal_size_down v.w) (fft.get_optimal_size_down v.h) 0 0
      ((v.w - fft.get_optimal_size_down v.w) / 2) ((v.h - fft.get_optimal_size_down v.h) / 2) 0 0 :=
    rfl
  have ew : (preprocess_crop v).w = fft.get_optimal_size_down v.w := by
    rw [hdef]; exact cs.1.trans rw_
  have eh : (preprocess_crop v).h = fft.get_optimal_size_down v.h := by
    rw [hdef]; exact cs.2.1.trans rh
  refine ⟨ew, eh, by rw [ew]; exact sw, by rw [eh]; exact sh, by rw [ew]; exact lw,
    by rw [eh]; exact lh, ?_⟩
  intro x y hx hy
  rw [ew] at hx ⊢
  rw [eh] at hy ⊢
  refine ⟨by omega, by omega, ?_⟩
  have := cg x y 0 (by rw [rw_]; exact hx) (by rw [rh]; exact hy) (by rw [rd]; omega)
  rw [if_pos ⟨rfl, by omega, by omega, by omega, by omega⟩] at this
  rw [hdef, this]
  simp only [Nat.sub_zero]

theorem preprocess_crop_sizes_witness :
    (⟨11, 1, 1, [0, 1, 2, 3, 4, 5, 6, 7, 8, 9, 10]⟩ : img_t ℚ).wf ∧
    smooth7 (preprocess_crop ⟨11, 1, 1, [0, 1, 2, 3, 4, 5, 6, 7, 8, 9, 10]⟩).w ∧
    (preprocess_crop ⟨11, 1, 1, [0, 1, 2, 3, 4, 5, 6, 7, 8, 9, 10]⟩).w ≤ 11 :=
  ⟨by decide,
    (preprocess_crop_sizes ⟨11, 1, 1, [0, 1, 2, 3, 4, 5, 6, 7, 8, 9, 10]⟩ (by decide)
      (by decide) (by decide)).2.2.1,
    (preprocess_crop_sizes ⟨11, 1, 1, [0, 1, 2, 3, 4, 5, 6, 7, 8, 9, 10]⟩ (by decide)
      (by decide) (by decide)).2.2.2.2.1⟩

/-! ## The pyramid of the multiscale driver -/

theorem pyramid_loop_succ (sf : ℚ) (fuel : ℕ) (st : pyramid_state) :
    pyramid_loop sf (fuel + 1) st =
      if (pyramid_body sf st).vv.1 > 1 ∧ (pyramid_body sf st).vv.2 > 1 ∧ (pyramid_body sf st).ks ≥ 3
      then pyramid_loop sf fuel (pyramid_body sf st) else some (pyramid_body sf st) := rfl

/-- More fuel does not change the result of a loop that has left. -/
theorem pyramid_loop_fuel (sf : ℚ) (fuel : ℕ) :
    ∀ (k : ℕ) (st r : pyramid_state), pyramid_loop sf fuel st = some r →
      pyramid_loop sf (fuel + k) st = some r := by
  induction fuel with
  | zero => intro k st r h; exact absurd h (by simp [pyramid_loop])
  | succ n ih =>
    intro k st r h
    rw [show n + 1 + k = (n + k) + 1 by omega, pyramid_loop_succ]
    rw [pyramid_loop_succ] at h
    split
    · rename_i hc
      rw [if_pos hc] at h
      exact ih k _ r h
    · rename_i hc
      rw [if_neg hc] at h
      exact h

theorem ctrunc_of_nonneg {x : ℚ} (h : 0 ≤ x) : ctrunc x = ⌊x⌋ := by
  unfold ctrunc; rw [if_pos h]

/-- The kernel size after one level, for a non-negative size and scale factor. -/
theorem pyramid_body_ks (sf : ℚ) (st : pyramid_state) (hsf : 0 ≤ sf) (hks : 0 ≤ st.ks) :
    (pyramid_body sf st).ks = next_kernel_size sf st.ks ∧ 0 ≤ (pyramid_body sf st).ks ∧
    (pyramid_body sf st).ks ≤ ctrunc (st.ks * sf) + 1 := by
  have hx : (0 : ℚ) ≤ (st.ks : ℚ) * sf := mul_nonneg (by exact_mod_cast hks) hsf
  have ht : 0 ≤ ctrunc ((st.ks : ℚ) * sf) := by
    rw [ctrunc_of_nonneg hx]; exact Int.floor_nonneg.mpr hx
  show ctrunc ((st.ks : ℚ) * sf) + Int.tmod (ctrunc ((st.ks : ℚ) * sf) + 1) 2 = _ ∧
    0 ≤ ctrunc ((st.ks : ℚ) * sf) + Int.tmod (ctrunc ((st.ks : ℚ) * sf) + 1) 2 ∧
    ctrunc ((st.ks : ℚ) * sf) + Int.tmod (ctrunc ((st.ks : ℚ) * sf) + 1) 2 ≤ _
  unfold next_kernel_size
  generalize ctrunc ((st.ks : ℚ) * sf) = t at ht ⊢
  have hmod : Int.tmod (t + 1) 2 = (t + 1) % 2 := Int.tmod_eq_emod (by omega) (by norm_num)
  rw [hmod]
  refine ⟨?_, by omega, by omega⟩
  split <;> omega

/-- With a scale factor below 2/3 the kernel size strictly decreases at each
    level as long as it is at least 3. -/
theorem pyramid_body_ks_lt (sf : ℚ) (st : pyramid_state) (h0 : 0 < sf) (h1 : sf < 2 / 3)
    (hks : 3 ≤ st.ks) : (pyramid_body sf st).ks < st.ks := by
  obtain ⟨_, _, hle⟩ := pyramid_body_ks sf st (le_of_lt h0) (by omega)
  have hkq : (3 : ℚ) ≤ (st.ks : ℚ) := by exact_mod_cast hks
  have hx : (0 : ℚ) ≤ (st.ks : ℚ) * sf := mul_nonneg (by linarith) (le_of_lt h0)
  have hfl : ((ctrunc ((st.ks : ℚ) * sf) : ℤ) : ℚ) ≤ (st.ks : ℚ) * sf := by
    rw [ctrunc_of_nonneg hx]; exact Int.floor_le _
  have hlt : (st.ks : ℚ) * sf < (st.ks : ℚ) - 1 := by nlinarith
  have : ((ctrunc ((st.ks : ℚ) * sf) : ℤ) : ℚ) < ((st.ks - 1 : ℤ) : ℚ) := by
    push_cast; linarith
  have hint : ctrunc ((st.ks : ℚ) * sf) < st.ks - 1 := by exact_mod_cast this
  omega

theorem pyramid_body_chain (sf : ℚ) (ks0 : ℤ) (st : pyramid_state) (hsf : 0 ≤ sf)
    (h : pyramid_chain sf ks0 st) : pyramid_chain sf ks0 (pyramid_body sf st) := by
  obtain ⟨hc, hh, hk⟩ := h
  obtain ⟨e, hn, _⟩ := pyramid_body_ks sf st hsf hk
  have e1 : (pyramid_body sf st).kernelSizes = st.kernelSizes ++ [st.ks] := rfl
  refine ⟨?_, ?_, hn⟩
  · rw [e1, List.chain'_append]
    refine ⟨hc, List.chain'_singleton _, ?_⟩
    intro x hx y hy
    have hx' : st.ks = x := by simpa [List.getLast?_append] using hx
    have hy' : (pyramid_body sf st).ks = y := by simpa using hy
    rw [← hx', ← hy']
    exact e
  · rw [e1]
    cases hl : st.kernelSizes ++ [st.ks] with
    | nil => simp at hl
    | cons a t =>
      rw [hl] at hh
      simpa using hh

theorem pyramid_loop_chain (sf : ℚ) (ks0 : ℤ) (hsf : 0 ≤ sf) (fuel : ℕ) :
    ∀ (st r : pyramid_state), pyramid_chain sf ks0 st → pyramid_loop sf fuel st = some r →
      pyramid_chain sf ks0 r := by
  induction fuel with
  | zero => intro st r _ h; exact absurd h (by simp [pyramid_loop])
  | succ n ih =>
    intro st r hst h
    rw [pyramid_loop_succ] at h
    have hb := pyramid_body_chain sf ks0 st hsf hst
    split at h
    · exact ih _ r hb h
    · simp only [Option.some.injEq] at h
      rw [← h]; exact hb

/-- C10 (amended): in the pyramid built by `multiscale_l0_kernel_estimation`,
    for a non-negative scale factor and kernel size, each next kernel size is
    `ks_i * scalefactor` truncated to an integer and increased by one when that
    integer is even, the first being `ks`; for an input of `1024 x 512` with
    `ks = 31` and `scalefactor = 0.5` the kernel sizes are `(31, 15, 7, 3)`. -/
theorem pyramid_kernel_sizes (opts : options) (w h fuel : ℕ) (st : pyramid_state)
    (hsf : 0 ≤ opts.scalefactor) (hks : 0 ≤ opts.ks)
    (hst : build_pyramid fuel w h opts = some st) :
    (List.Chain' (fun a b => b = next_kernel_size opts.scalefactor a) st.kernelSizes ∧
      st.kernelSizes.head? = some opts.ks) ∧
    (build_pyramid 4 1024 512 { default_options with ks := 31 }).map (fun s => s.kernelSizes) =
      some [31, 15, 7, 3] := by
  constructor
  · unfold build_pyramid at hst
    have h0 : pyramid_chain opts.scalefactor opts.ks
        { vs := [], kernelSizes := [], vv := (w, h), ks := opts.ks } :=
      ⟨List.chain'_singleton _, rfl, hks⟩
    obtain ⟨hc, hh, _⟩ := pyramid_loop_chain opts.scalefactor opts.ks hsf fuel _ st h0 hst
    have hne : st.kernelSizes ≠ [] := by
      cases fuel with
      | zero => exact absurd hst (by simp [pyramid_loop])
      | succ n =>
        have grow : ∀ (m : ℕ) (s r : pyramid_state), pyramid_loop opts.scalefactor (m + 1) s = some r →
            r.kernelSizes ≠ [] := by
          intro m
          induction m with
          | zero =>
            intro s r hr
            rw [pyramid_loop_succ] at hr
            split at hr
            · exact absurd hr (by simp [pyramid_loop])
            · simp only [Option.some.injEq] at hr
              rw [← hr]
              show s.kernelSizes ++ [s.ks] ≠ []
              simp
          | succ k ihk =>
            intro s r hr
            rw [pyramid_loop_succ] at hr
            split at hr
            · exact ihk _ r hr
            · simp only [Option.some.injEq] at hr
              rw [← hr]
              show s.kernelSizes ++ [s.ks] ≠ []
              simp
        exact grow n _ st hst
    refine ⟨(List.chain'_append.mp hc).1, ?_⟩
    cases hl : st.kernelSizes with
    | nil => exact absurd hl hne
    | cons a t =>
      rw [hl] at hh
      simpa using hh
  · decide!

theorem pyramid_kernel_sizes_witness :
    ∃ st, build_pyramid 4 1024 512 { default_options with ks := 31 } = some st ∧
      List.Chain' (fun a b => b = next_kernel_size (1 / 2) a) st.kernelSizes ∧
      st.kernelSizes.head? = some 31 := by
  have hsome : ∃ st, build_pyramid 4 1024 512 { default_options with ks := 31 } = some st := by
    cases h : build_pyramid 4 1024 512 { default_options with ks := 31 } with
    | none => exact absurd h (by decide!)
    | some st => exact ⟨st, rfl⟩
  obtain ⟨st, hst⟩ := hsome
  exact ⟨st, hst, (pyramid_kernel_sizes { default_options with ks := 31 } 1024 512 4 st
    (by decide!) (by decide) hst).1⟩

/-- C10 (as stated) fails: for an input of `1024 x 512` with `ks = 31` and
    `scalefactor = 0.5` the pyramid has four levels with kernel sizes
    `(31, 15, 7, 3)`, not `(31, 17, 9, 5, 3)`; 31 is followed by 15, while
    `31 * 0.5 = 15.5` rounded up to the next odd integer is 17. -/
theorem pyramid_kernel_sizes_counterexample :
    (∀ fuel st, build_pyramid fuel 1024 512 { default_options with ks := 31 } = some st →
      st.kernelSizes = [31, 15, 7, 3] ∧ st.kernelSizes ≠ [31, 17, 9, 5, 3]) ∧
    ∃ st, build_pyramid 4 1024 512 { default_options with ks := 31 } = some st := by
  have h4 : build_pyramid 4 1024 512 { default_options with ks := 31 } =
      some { vs := [(1024, 512), (512, 256), (256, 128), (128, 64)],
             kernelSizes := [31, 15, 7, 3], vv := (64, 32), ks := 1 } := by
    decide!
  refine ⟨?_, ⟨_, h4⟩⟩
  intro fuel st hst
  have hst' := pyramid_loop_fuel _ fuel 4 _ st hst
  have h4' := pyramid_loop_fuel _ 4 fuel _ _ h4
  rw [Nat.add_comm] at hst'
  have e := Option.some.inj (hst'.symm.trans h4')
  rw [e]
  exact ⟨rfl, by decide⟩

/-! ## The recursion of `getroot` -/

namespace labeling

theorem getI_le_of_bound {im : img_t ℕ} {n : ℕ} (h : ∀ v ∈ im.data, v ≤ n) (i : ℕ) :
    im.getI i ≤ n := by
  rw [img_t.getI_eq]
  cases hi : im.data[i]? with
  | none => exact Nat.zero_le n
  | some v => exact h v (List.mem_iff_getElem?.mpr ⟨i, hi⟩)

theorem set_bound {im : img_t ℕ} {n : ℕ} (h : ∀ v ∈ im.data, v ≤ n) (x y d v : ℕ) (hv : v ≤ n) :
    ∀ u ∈ (im.set x y d v).data, u ≤ n := by
  intro u hu
  rcases List.mem_or_eq_of_mem_set hu with h1 | h1
  · exact h u h1
  · rw [h1]; exact hv

theorem getD_set_nat (e : List ℕ) (j v i : ℕ) :
    (e.set j v).getD i 0 = if j = i ∧ j < e.length then v else e.getD i 0 := by
  rw [List.getD_eq_getElem?_getD, List.getD_eq_getElem?_getD, List.getElem?_set]
  by_cases hji : j = i
  · subst hji
    by_cases hl : j < e.length
    · simp [hl]
    · simp [hl, List.getElem?_eq_none (Nat.le_of_not_lt hl)]
  · simp [hji]

/-- Redirecting the entry `j` to a label `v` with `j <= v <= nb` keeps the
    table pointing upwards. -/
theorem table_set {e : List ℕ} {nb : ℕ}
    (h : ∀ i, i < e.length → i ≤ e.getD i 0 ∧ e.getD i 0 ≤ nb) (j v : ℕ) (hjv : j ≤ v)
    (hv : v ≤ nb) :
    ∀ i, i < (e.set j v).length → i ≤ (e.set j v).getD i 0 ∧ (e.set j v).getD i 0 ≤ nb := by
  intro i hi
  rw [List.length_set] at hi
  rw [getD_set_nat]
  by_cases hc : j = i ∧ j < e.length
  · rw [if_pos hc, ← hc.1]; exact ⟨hjv, hv⟩
  · rw [if_neg hc]; exact h i hi

theorem table_set_if {e : List ℕ} {nb : ℕ}
    (h : ∀ i, i < e.length → i ≤ e.getD i 0 ∧ e.getD i 0 ≤ nb) (c : Prop) [Decidable c]
    (j v : ℕ) (hjv : j ≤ v) (hv : v ≤ nb) :
    (if c then e.set j v else e).length = e.length ∧
    ∀ i, i < (if c then e.set j v else e).length →
      i ≤ (if c then e.set j v else e).getD i 0 ∧ (if c then e.set j v else e).getD i 0 ≤ nb := by
  by_cases hc : c
  · rw [if_pos hc]; exact ⟨List.length_set _ _ _, table_set h j v hjv hv⟩
  · rw [if_neg hc]; exact ⟨rfl, h⟩

/-- The body of the pixel loop keeps the state consistent. -/
theorem visit_table_ok {α : Type} [Zero α] [DecidableEq α] (img : img_t α) (x y d : ℕ)
    (st : scan_state) (h : table_ok st) : table_ok (visit img x y d st) := by
  obtain ⟨hlen, htab, hlab⟩ := h
  unfold visit
  dsimp only
  by_cases hval : img.get x y d = 0
  · rw [if_pos hval]; exact ⟨hlen, htab, hlab⟩
  · rw [if_neg hval]
    generalize htl : (if y > 0 ∧ x > 0 then st.labels.get (x - 1) (y - 1) d else 0) = tl
    generalize ht : (if y > 0 then st.labels.get x (y - 1) d else 0) = t
    generalize htr : (if y > 0 ∧ x < img.w - 1 then st.labels.get (x + 1) (y - 1) d else 0) = tr
    generalize hl : (if x > 0 then st.labels.get (x - 1) y d else 0) = l
    have btl : tl ≤ st.nblabels := by
      rw [← htl]; split
      · exact getI_le_of_bound hlab _
      · exact Nat.zero_le _
    have bt : t ≤ st.nblabels := by
      rw [← ht]; split
      · exact getI_le_of_bound hlab _
      · exact Nat.zero_le _
    have btr : tr ≤ st.nblabels := by
      rw [← htr]; split
      · exact getI_le_of_bound hlab _
      · exact Nat.zero_le _
    have bl : l ≤ st.nblabels := by
      rw [← hl]; split
      · exact getI_le_of_bound hlab _
      · exact Nat.zero_le _
    by_cases hz : tl + t + tr + l = 0
    · rw [if_pos hz]
      refine ⟨by simp [hlen], ?_, ?_⟩
      · intro i hi
        show i ≤ (st.equiv ++ [st.nblabels + 1]).getD i 0 ∧
          (st.equiv ++ [st.nblabels + 1]).getD i 0 ≤ st.nblabels + 1
        rw [List.length_append, List.length_singleton] at hi
        rw [List.getD_eq_getElem?_getD]
        by_cases hlt : i < st.equiv.length
        · rw [List.getElem?_append_left hlt, ← List.getD_eq_getElem?_getD]
          obtain ⟨h1, h2⟩ := htab i hlt
          exact ⟨h1, by omega⟩
        · have hi' : i = st.equiv.length := by omega
          rw [hi', List.getElem?_append_right (le_refl _)]
          simp [hlen]
      · exact set_bound (fun v hv => Nat.le_succ_of_le (hlab v hv)) _ _ _ _ (le_refl _)
    · rw [if_neg hz]
      have hmx : Nat.max tl (Nat.max t (Nat.max tr l)) ≤ st.nblabels :=
        Nat.max_le.mpr ⟨btl, Nat.max_le.mpr ⟨bt, Nat.max_le.mpr ⟨btr, bl⟩⟩⟩
      have l1 : tl ≤ Nat.max tl (Nat.max t (Nat.max tr l)) := Nat.le_max_left _ _
      have l2 : t ≤ Nat.max tl (Nat.max t (Nat.max tr l)) :=
        le_trans (Nat.le_max_left _ _) (Nat.le_max_right _ _)
      have l3 : tr ≤ Nat.max tl (Nat.max t (Nat.max tr l)) :=
        le_trans (le_trans (Nat.le_max_left _ _) (Nat.le_max_right _ _)) (Nat.le_max_right _ _)
      have l4 : l ≤ Nat.max tl (Nat.max t (Nat.max tr l)) :=
        le_trans (le_trans (Nat.le_max_right _ _) (Nat.le_max_right _ _)) (Nat.le_max_right _ _)
      generalize Nat.max tl (Nat.max t (Nat.max tr l)) = mx at hmx l1 l2 l3 l4 ⊢
      obtain ⟨n1, t1⟩ := table_set_if htab (tl ≠ 0 ∧ tl ≠ mx) tl mx l1 hmx
      obtain ⟨n2, t2⟩ := table_set_if t1 (t ≠ 0 ∧ t ≠ mx) t mx l2 hmx
      obtain ⟨n3, t3⟩ := table_set_if t2 (tr ≠ 0 ∧ tr ≠ mx) tr mx l3 hmx
      obtain ⟨n4, t4⟩ := table_set_if t3 (l ≠ 0 ∧ l ≠ mx) l mx l4 hmx
      exact ⟨by rw [n4, n3, n2, n1]; exact hlen, t4, set_bound hlab _ _ _ _ hmx⟩

/-- The state after the first pass is consistent. -/
theorem first_pass_table_ok {α : Type} [Zero α] [DecidableEq α] (img : img_t α) :
    table_ok (first_pass img) := by
  unfold first_pass
  apply loop_preserves table_ok
  · refine ⟨rfl, ?_, ?_⟩
    · intro i hi
      have : i = 0 := by simpa using hi
      subst this
      exact ⟨le_refl 0, le_refl 0⟩
    · intro v hv
      have := (List.mem_replicate.mp hv).2
      omega
  · intro d _ t ht
    apply loop_preserves table_ok _ _ _ ht
    intro y _ t2 ht2
    apply loop_preserves table_ok _ _ _ ht2
    intro x _ t3 ht3
    exact visit_table_ok img x y d t3 ht3

theorem getroot_succ (e : List ℕ) (n l : ℕ) :
    getroot e (n + 1) l = if l = e.getD l 0 then l else getroot e n (e.getD l 0) := by
  rw [getroot]

/-- On a table that points upwards the recursion of `getroot` ends at a fixed
    point of the table before its depth bound is used up. -/
theorem getroot_fixed {e : List ℕ} {nb : ℕ} (hlen : e.length = nb + 1)
    (h : ∀ i, i < e.length → i ≤ e.getD i 0 ∧ e.getD i 0 ≤ nb) (fuel : ℕ) :
    ∀ l, l ≤ nb → nb - l < fuel →
      e.getD (getroot e fuel l) 0 = getroot e fuel l ∧ getroot e fuel l ≤ nb ∧
      ∀ k, getroot e (fuel + k) l = getroot e fuel l := by
  induction fuel with
  | zero => intro l _ hf; omega
  | succ n ih =>
    intro l hl hf
    obtain ⟨h1, h2⟩ := h l (by omega)
    by_cases hfix : l = e.getD l 0
    · have e1 : getroot e (n + 1) l = l := by rw [getroot_succ, if_pos hfix]
      refine ⟨by rw [e1]; exact hfix.symm, by rw [e1]; exact hl, ?_⟩
      intro k
      rw [e1, show n + 1 + k = (n + k) + 1 by omega, getroot_succ, if_pos hfix]
    · have e1 : getroot e (n + 1) l = getroot e n (e.getD l 0) := by
        rw [getroot_succ, if_neg hfix]
      obtain ⟨r1, r2, r3⟩ := ih (e.getD l 0) h2 (by omega)
      refine ⟨by rw [e1]; exact r1, by rw [e1]; exact r2, ?_⟩
      intro k
      rw [e1, show n + 1 + k = (n + k) + 1 by omega]
      have : getroot e (n + k + 1) l = getroot e (n + k) (e.getD l 0) := by
        rw [getroot_succ, if_neg hfix]
      rw [this]
      exact r3 k

/-- In `labels` the recursion of `getroot` terminates for every label of the
    image: with the depth of the model it returns a fixed point of `equiv`, and
    a larger depth returns the same label. -/
theorem getroot_terminates {α : Type} [Zero α] [DecidableEq α] (img : img_t α) (l : ℕ)
    (hl : l ∈ (first_pass img).labels.data) :
    (first_pass img).equiv.getD (getroot (first_pass img).equiv (first_pass img).equiv.length l) 0 =
      getroot (first_pass img).equiv (first_pass img).equiv.length l ∧
    ∀ k, getroot (first_pass img).equiv ((first_pass img).equiv.length + k) l =
      getroot (first_pass img).equiv (first_pass img).equiv.length l := by
  obtain ⟨hlen, htab, hlab⟩ := first_pass_table_ok img
  obtain ⟨r1, _, r3⟩ := getroot_fixed hlen htab (first_pass img).equiv.length l (hlab l hl)
    (by rw [hlen]; omega)
  exact ⟨r1, r3⟩

end labeling

/-! ## The multiscale driver on a one-pixel image -/

/-- C11: for a 1 x 1 input image, every kernel size (in particular every
    `ks >= 3`) and scalefactor 0.5, the do-while loop of
    `multiscale_l0_kernel_estimation` leaves after its first pass with a pyramid
    of exactly one level, so the scale loop calls `l0_kernel_estimation` exactly
    once, at level 0, which is the input, with the original `ks`. -/
theorem one_level_pyramid (opts : options) (fuel : ℕ) (hsf : opts.scalefactor = 1 / 2) :
    ∃ st, build_pyramid (fuel + 1) 1 1 opts = some st ∧ st.vs = [(1, 1)] ∧
      st.kernelSizes = [opts.ks] ∧ multiscale_calls st = [(0, (1, 1), opts.ks)] := by
  have hvv : (pyramid_body opts.scalefactor
      { vs := [], kernelSizes := [], vv := (1, 1), ks := opts.ks }).vv = (1, 1) := by
    show utils.gaussian_downsample_size 1 1 (1 / opts.scalefactor) = (1, 1)
    rw [hsf]
    unfold utils.gaussian_downsample_size
    rw [if_neg (by norm_num)]
    have h1 : ⌈((1 : ℕ) : ℚ) / (1 / (1 / 2))⌉₊ = 1 := by
      rw [Nat.ceil_eq_iff (by norm_num)]
      norm_num
    rw [h1]
  refine ⟨pyramid_body opts.scalefactor
    { vs := [], kernelSizes := [], vv := (1, 1), ks := opts.ks }, ?_, rfl, rfl, rfl⟩
  unfold build_pyramid
  rw [pyramid_loop_succ, if_neg]
  rw [hvv]
  intro h
  exact absurd h.1 (by decide)

theorem one_level_pyramid_witness :
    ∃ st, build_pyramid 1 1 1 default_options = some st ∧ st.vs = [(1, 1)] ∧
      st.kernelSizes = [default_options.ks] ∧
      multiscale_calls st = [(0, (1, 1), default_options.ks)] :=
  one_level_pyramid default_options 0 rfl

/-! ## The schedule of `lambda` -/

/-- One update of `lambda` applied to the closed form of the previous value. -/
theorem lambda_update (a r m : ℚ) (hr0 : 0 < r) (hr1 : r ≤ 1) (hm : 0 < m) (n : ℕ) :
    max (max (a * r ^ n) m * r) m = max (a * r ^ (n + 1)) m := by
  rw [max_mul_of_nonneg _ _ hr0.le, pow_succ, mul_assoc, max_assoc,
    max_eq_right (show m * r ≤ m by nlinarith)]

/-- The state of the loop of `l0_kernel_estimation`: the options keep their
    other fields, `lambda` is in closed form after every iteration, and the
    values handed to the sharp predictor are the closed forms of the earlier
    iterations. -/
theorem l0_kernel_estimation_spec {K U : Type} (ke : K → U → options → K)
    (sp : U → K → ℚ → ℚ → U) (k : K) (u : U) (opts : options)
    (hr0 : 0 < opts.lambda_ratio) (hr1 : opts.lambda_ratio ≤ 1) (hm : 0 < opts.lambda_min) :
    (l0_kernel_estimation ke sp k u opts).opts.lambda =
      max (max opts.lambda opts.lambda_min * opts.lambda_ratio ^ opts.iterations)
        opts.lambda_min ∧
    (l0_kernel_estimation ke sp k u opts).passed =
      (List.range opts.iterations).map (fun i =>
        max (max opts.lambda opts.lambda_min * opts.lambda_ratio ^ i) opts.lambda_min) := by
  unfold l0_kernel_estimation
  dsimp only
  have key := loop_invariant
    (fun n (s : l0_state K U) =>
      s.opts.lambda_ratio = opts.lambda_ratio ∧ s.opts.lambda_min = opts.lambda_min ∧
      s.opts.lambda =
        max (max opts.lambda opts.lambda_min * opts.lambda_ratio ^ n) opts.lambda_min ∧
      s.passed = (List.range n).map (fun i =>
        max (max opts.lambda opts.lambda_min * opts.lambda_ratio ^ i) opts.lambda_min))
    opts.iterations
    (fun _ s =>
      { k := ke s.k s.u s.opts, u := sp s.u (ke s.k s.u s.opts) s.opts.lambda (2 * s.opts.lambda),
        opts := { s.opts with
          lambda := max (s.opts.lambda * s.opts.lambda_ratio) s.opts.lambda_min },
        passed := s.passed ++ [s.opts.lambda] })
    { k := k, u := u, opts := { opts with lambda := max opts.lambda opts.lambda_min },
      passed := [] }
    ⟨rfl, rfl, by
      show max opts.lambda opts.lambda_min = _
      rw [pow_zero, mul_one, max_eq_left (le_max_right _ _)], rfl⟩
    (by
      intro i _ t ht
      obtain ⟨h1, h2, h3, h4⟩ := ht
      refine ⟨h1, h2, ?_, ?_⟩
      · show max (t.opts.lambda * t.opts.lambda_ratio) t.opts.lambda_min = _
        rw [h1, h2, h3, lambda_update _ _ _ hr0 hr1 hm]
      · show t.passed ++ [t.opts.lambda] = _
        rw [h4, h3, List.range_succ, List.map_append, List.map_singleton])
  exact ⟨key.2.2.1, key.2.2.2⟩

/-- C12: for `lambda_min > 0` and `lambda_ratio` in (0,1], after
    `l0_kernel_estimation` with `n` iterations the value of `opts.lambda` is
    `max(max(lambda, lambda_min) * lambda_ratio^n, lambda_min)`; with
    `lambda = 1e-2`, `lambda_ratio = 0.5`, `lambda_min = 1e-3` and 10 iterations
    the final value is `1e-3`, and the value left by the update of iteration `j`
    is the floor exactly from iteration 4 on. -/
theorem lambda_schedule_final {K U : Type} (ke : K → U → options → K)
    (sp : U → K → ℚ → ℚ → U) (k : K) (u : U) (opts : options)
    (hr0 : 0 < opts.lambda_ratio) (hr1 : opts.lambda_ratio ≤ 1) (hm : 0 < opts.lambda_min) :
    (l0_kernel_estimation ke sp k u opts).opts.lambda =
      max (max opts.lambda opts.lambda_min * opts.lambda_ratio ^ opts.iterations)
        opts.lambda_min ∧
    (opts.lambda = 1 / 100 → opts.lambda_ratio = 1 / 2 → opts.lambda_min = 1 / 1000 →
      opts.iterations = 10 →
      (l0_kernel_estimation ke sp k u opts).opts.lambda = 1 / 1000 ∧
      ∀ j, 1 ≤ j → j ≤ 10 →
        (((l0_kernel_estimation ke sp k u opts).passed ++
          [(l0_kernel_estimation ke sp k u opts).opts.lambda]).getD j 0 = 1 / 1000 ↔ 4 ≤ j)) := by
  obtain ⟨h1, h2⟩ := l0_kernel_estimation_spec ke sp k u opts hr0 hr1 hm
  refine ⟨h1, ?_⟩
  intro e1 e2 e3 e4
  rw [h1, h2, e1, e2, e3, e4]
  constructor
  · norm_num
  · intro j hj1 hj2
    have hl : (List.range 10).map (fun i => max (max (1 / 100 : ℚ) (1 / 1000) * (1 / 2) ^ i)
        (1 / 1000)) ++ [max (max (1 / 100 : ℚ) (1 / 1000) * (1 / 2) ^ 10) (1 / 1000)] =
        (List.range 11).map (fun i => max (max (1 / 100 : ℚ) (1 / 1000) * (1 / 2) ^ i)
          (1 / 1000)) := by
      conv_rhs => rw [List.range_succ, List.map_append, List.map_singleton]
    rw [hl, List.getD_eq_getElem?_getD, List.getElem?_map,
      List.getElem?_range (show j < 11 by omega)]
    show max (max (1 / 100 : ℚ) (1 / 1000) * (1 / 2) ^ j) (1 / 1000) = 1 / 1000 ↔ 4 ≤ j
    interval_cases j <;> norm_num

theorem lambda_schedule_final_witness :
    (l0_kernel_estimation (fun (k : Unit) (_ : Unit) _ => k) (fun u _ _ _ => u) () ()
      schedule_options).opts.lambda = 1 / 1000 :=
  ((lambda_schedule_final (fun (k : Unit) (_ : Unit) _ => k) (fun u _ _ _ => u) () ()
    schedule_options (by decide!) (by decide!) (by decide!)).2 rfl rfl rfl rfl).1

/-- C13: for `lambda_ratio` in (0,1] and `lambda_min > 0`, the values of
    `lambda` handed to the sharp predictor over the iterations of
    `l0_kernel_estimation`, one per iteration, are non-increasing and each is at
    least `lambda_min`. -/
theorem lambda_schedule_monotone {K U : Type} (ke : K → U → options → K)
    (sp : U → K → ℚ → ℚ → U) (k : K) (u : U) (opts : options)
    (hr0 : 0 < opts.lambda_ratio) (hr1 : opts.lambda_ratio ≤ 1) (hm : 0 < opts.lambda_min) :
    (l0_kernel_estimation ke sp k u opts).passed.length = opts.iterations ∧
    List.Chain' (fun a b => b ≤ a) (l0_kernel_estimation ke sp k u opts).passed ∧
    ∀ v ∈ (l0_kernel_estimation ke sp k u opts).passed, opts.lambda_min ≤ v := by
  obtain ⟨_, h2⟩ := l0_kernel_estimation_spec ke sp k u opts hr0 hr1 hm
  rw [h2]
  refine ⟨by simp, ?_, ?_⟩
  · rw [List.chain'_map]
    have hmono : ∀ i : ℕ,
        max (max opts.lambda opts.lambda_min * opts.lambda_ratio ^ (i + 1)) opts.lambda_min ≤
        max (max opts.lambda opts.lambda_min * opts.lambda_ratio ^ i) opts.lambda_min := by
      intro i
      apply max_le_max _ (le_refl _)
      have ha : 0 ≤ max opts.lambda opts.lambda_min := le_trans hm.le (le_max_right _ _)
      have hp : 0 ≤ opts.lambda_ratio ^ i := pow_nonneg hr0.le i
      rw [pow_succ, ← mul_assoc]
      exact mul_le_of_le_one_right (mul_nonneg ha hp) hr1
    have hch : ∀ n : ℕ, List.Chain' (fun a b : ℕ => b = a + 1) (List.range n) := by
      intro n
      induction n with
      | zero => exact List.chain'_nil
      | succ n ih =>
        rw [List.range_succ]
        apply List.Chain'.append ih (List.chain'_singleton n)
        intro x hx y hy
        simp only [List.head?_cons, Option.mem_def, Option.some.injEq] at hy
        subst hy
        cases n with
        | zero => simp at hx
        | succ m =>
          rw [List.range_succ, List.getLast?_append_of_ne_nil _ (by simp)] at hx
          simp only [List.getLast?_singleton, Option.mem_def, Option.some.injEq] at hx
          omega
    exact (hch opts.iterations).imp (fun {a b} hab => by rw [hab]; exact hmono a)
  · intro v hv
    obtain ⟨i, _, rfl⟩ := List.mem_map.mp hv
    exact le_max_right _ _

theorem lambda_schedule_monotone_witness :
    (l0_kernel_estimation (fun (k : Unit) (_ : Unit) _ => k) (fun u _ _ _ => u) () ()
      schedule_options).passed.length = schedule_options.iterations ∧
    List.Chain' (fun a b => b ≤ a)
      (l0_kernel_estimation (fun (k : Unit) (_ : Unit) _ => k) (fun u _ _ _ => u) () ()
        schedule_options).passed ∧
    ∀ v ∈ (l0_kernel_estimation (fun (k : Unit) (_ : Unit) _ => k) (fun u _ _ _ => u) () ()
        schedule_options).passed, schedule_options.lambda_min ≤ v :=
  lambda_schedule_monotone (fun (k : Unit) (_ : Unit) _ => k) (fun u _ _ _ => u) () ()
    schedule_options (by decide!) (by decide!) (by decide!)

/-! ## The normalization of `preprocess_image` -/

namespace img_t

/-- The method `min()` returns the smallest of 0 and the samples. -/
theorem min_spec (im : img_t ℚ) :
    (∀ v ∈ im.data, im.min ≤ v) ∧ im.min ≤ 0 ∧ (im.min = 0 ∨ im.min ∈ im.data) := by
  unfold min fold
  suffices H : ∀ (l : List ℚ) (a : ℚ),
      (∀ v ∈ l, l.foldl (fun a b => if a < b then a else b) a ≤ v) ∧
      l.foldl (fun a b => if a < b then a else b) a ≤ a ∧
      (l.foldl (fun a b => if a < b then a else b) a = a ∨
        l.foldl (fun a b => if a < b then a else b) a ∈ l) by
    obtain ⟨h1, h2, h3⟩ := H im.data 0
    exact ⟨h1, h2, h3⟩
  intro l
  induction l with
  | nil => intro a; simp
  | cons b t ih =>
    intro a
    obtain ⟨h1, h2, h3⟩ := ih (if a < b then a else b)
    simp only [List.foldl_cons]
    have hb : (if a < b then a else b) ≤ b := by
      by_cases hab : a < b
      · rw [if_pos hab]; exact le_of_lt hab
      · rw [if_neg hab]
    have ha : (if a < b then a else b) ≤ a := by
      by_cases hab : a < b
      · rw [if_pos hab]
      · rw [if_neg hab]; exact not_lt.mp hab
    refine ⟨?_, le_trans h2 ha, ?_⟩
    · intro v hv
      rcases List.mem_cons.mp hv with hv | hv
      · rw [hv]; exact le_trans h2 hb
      · exact h1 v hv
    · rcases h3 with h3 | h3
      · rw [h3]
        by_cases hab : a < b
        · left; rw [if_pos hab]
        · right; rw [if_neg hab]; exact List.mem_cons_self _ _
      · right; exact List.mem_cons_of_mem _ h3

end img_t

/-- The grayscale conversion returns a well-formed single-channel image of the
    width and height of its input. -/
theorem preprocess_gray_wf {v g : img_t ℚ} (h : preprocess_gray v = some g) :
    g.w = v.w ∧ g.h = v.h ∧ g.d = 1 ∧ g.wf := by
  unfold preprocess_gray at h
  dsimp only at h
  split at h
  · exact absurd h (by simp)
  · have hs : img_t.same_shape g ((img_t.make v.w v.h 1 : img_t ℚ).set_value 0) := by
      rw [← Option.some.inj h]
      apply loop_preserves (fun t => img_t.same_shape t ((img_t.make v.w v.h 1 : img_t ℚ).set_value 0))
      · exact img_t.same_shape_refl _
      · intro i _ t ht
        refine img_t.same_shape_trans (img_t.same_shape_setI _ _ _) ?_
        apply loop_preserves (fun t => img_t.same_shape t
          ((img_t.make v.w v.h 1 : img_t ℚ).set_value 0)) _ _ _ ht
        intro d _ t2 ht2
        exact img_t.same_shape_trans (img_t.same_shape_setI _ _ _) ht2
    have hm := img_t.make_spec (α := ℚ) v.w v.h 1
    have hv := img_t.set_value_same_shape (img_t.make v.w v.h 1 : img_t ℚ) 0
    have hsm := img_t.same_shape_trans hs hv
    refine ⟨hsm.1.trans hm.1, hsm.2.1.trans hm.2.1, hsm.2.2.1.trans hm.2.2.1, ?_⟩
    exact img_t.same_shape_wf hsm hm.2.2.2

/-- The normalization on a well-formed image that is not constant: the buffer
    is shifted by `min()` and divided by the `max()` of the shifted buffer,
    which is positive. -/
theorem preprocess_normalize_spec (g : img_t ℚ) (hwf : g.wf)
    (hnc : ∃ a ∈ g.data, ∃ b ∈ g.data, a ≠ b) :
    ∃ M : ℚ, 0 < M ∧ (∀ x ∈ g.data, x - g.min ≤ M) ∧ (∃ x ∈ g.data, x - g.min = M) ∧
      ∃ out, preprocess_normalize g = some out ∧
        out.data = g.data.map (fun x => (x - g.min) / M) := by
  obtain ⟨hmin, _, _⟩ := img_t.min_spec g
  have hd1 : (img_t.update_each g.size (fun _ x => x - g.min) g).data =
      g.data.map (fun x => x - g.min) := img_t.update_each_map (fun x => x - g.min) g hwf
  have hs1 := img_t.update_each_same_shape g.size (fun _ x => x - g.min) g
  have hwf1 := img_t.same_shape_wf hs1 hwf
  obtain ⟨hmax, hM0, hMmem⟩ := img_t.max_spec (img_t.update_each g.size (fun _ x => x - g.min) g)
  generalize hMdef : (img_t.update_each g.size (fun _ x => x - g.min) g).max = M at hmax hM0 hMmem
  have hpos : 0 < M := by
    obtain ⟨a, ha, b, hb, hab⟩ := hnc
    have h1 : a - g.min ≤ M := hmax _ (by rw [hd1]; exact List.mem_map.mpr ⟨a, ha, rfl⟩)
    have h2 : b - g.min ≤ M := hmax _ (by rw [hd1]; exact List.mem_map.mpr ⟨b, hb, rfl⟩)
    have h3 := hmin a ha
    have h4 := hmin b hb
    rcases lt_or_gt_of_ne hab with h | h
    · linarith
    · linarith
  refine ⟨M, hpos, ?_, ?_, ?_⟩
  · intro x hx
    exact hmax _ (by rw [hd1]; exact List.mem_map.mpr ⟨x, hx, rfl⟩)
  · rcases hMmem with h | h
    · exact absurd h (ne_of_gt hpos)
    · rw [hd1] at h
      obtain ⟨x, hx, hxe⟩ := List.mem_map.mp h
      exact ⟨x, hx, hxe⟩
  · unfold preprocess_normalize
    dsimp only
    rw [hMdef, if_neg (by intro h; exact absurd h.1 (ne_of_gt hpos))]
    refine ⟨_, rfl, ?_⟩
    rw [img_t.update_each_map (fun x => x / M) _ hwf1, hd1, List.map_map]
    rfl

/-- What the normalization step of `preprocess_image` computes on a gray image
    that is not constant: the values lie in [0,1], the largest of them is 1,
    and 0 is among them exactly when some gray value is not positive, since
    `min()` folds from 0. -/
theorem normalization_range (v g : img_t ℚ) (hg : preprocess_gray v = some g)
    (hnc : ∃ a ∈ g.data, ∃ b ∈ g.data, a ≠ b) :
    ∃ out, preprocess_normalize g = some out ∧ (∀ x ∈ out.data, 0 ≤ x ∧ x ≤ 1) ∧
      1 ∈ out.data ∧ (0 ∈ out.data ↔ ∃ a ∈ g.data, a ≤ 0) := by
  obtain ⟨_, _, _, hwf⟩ := preprocess_gray_wf hg
  obtain ⟨hmin, hmin0, hminmem⟩ := img_t.min_spec g
  obtain ⟨M, hpos, hle, ⟨xm, hxm, hxme⟩, out, hout, hdata⟩ := preprocess_normalize_spec g hwf hnc
  refine ⟨out, hout, ?_, ?_, ?_⟩
  · intro x hx
    rw [hdata] at hx
    obtain ⟨y, hy, rfl⟩ := List.mem_map.mp hx
    have h1 := hmin y hy
    have h2 := hle y hy
    exact ⟨div_nonneg (by linarith) hpos.le, (div_le_one hpos).mpr h2⟩
  · rw [hdata]
    exact List.mem_map.mpr ⟨xm, hxm, by rw [hxme]; exact div_self (ne_of_gt hpos)⟩
  · rw [hdata]
    constructor
    · intro h
      obtain ⟨y, hy, hye⟩ := List.mem_map.mp h
      refine ⟨y, hy, ?_⟩
      have h0 : y - g.min = 0 := by
        rcases div_eq_zero_iff.mp hye with h1 | h1
        · exact h1
        · exact absurd h1 (ne_of_gt hpos)
      linarith
    · rintro ⟨a, ha, ha0⟩
      have hmem : g.min ∈ g.data := by
        rcases hminmem with h | h
        · have h1 := hmin a ha
          have : a = g.min := by linarith
          rw [← this]; exact ha
        · exact h
      exact List.mem_map.mpr ⟨g.min, hmem, by rw [sub_self, zero_div]⟩

/-- C20: on the gray image with the values 1 and 2, which is not constant,
    `min()` returns 0 although the least value is 1, so nothing is subtracted:
    the normalization of `preprocess_image` returns the values 1/2 and 1, and
    the smallest of them is 1/2 and not 0. -/
theorem normalization_keeps_positive_minimum :
    preprocess_gray two_positive_pixels = some two_positive_pixels ∧
    (∃ a ∈ two_positive_pixels.data, ∃ b ∈ two_positive_pixels.data, a ≠ b) ∧
    (∀ x ∈ two_positive_pixels.data, 1 ≤ x) ∧ 1 ∈ two_positive_pixels.data ∧
    two_positive_pixels.min = 0 ∧
    ∃ out, preprocess_normalize two_positive_pixels = some out ∧
      out.data = [1 / 2, 1] ∧ 0 ∉ out.data ∧ ∀ x ∈ out.data, 1 / 2 ≤ x := by
  refine ⟨by decide!, ⟨1, by decide!, 2, by decide!, by decide!⟩, by decide!, by decide!,
    by decide!, ⟨2, 1, 1, [1 / 2, 1]⟩, by decide!, rfl, by decide!, by decide!⟩

theorem normalization_range_witness :
    ∃ out, preprocess_normalize signed_pixels = some out ∧ (∀ x ∈ out.data, 0 ≤ x ∧ x ≤ 1) ∧
      1 ∈ out.data ∧ (0 ∈ out.data ↔ ∃ a ∈ signed_pixels.data, a ≤ 0) :=
  normalization_range signed_pixels signed_pixels (by decide!)
    ⟨-1, by decide!, 3, by decide!, by decide!⟩

/-! ## `padcirc` -/

/-- A row loop that writes the value `V x` at the column `a + x` of the row `Y`. -/
theorem write_row_spec {α : Type} [Zero α] (out : img_t α) (nx a Y l : ℕ) (X : ℕ → ℕ)
    (V : ℕ → α) (hX : ∀ x, x < nx → X x = a + x) (hwf : out.wf) (hx : a + nx ≤ out.w)
    (hY : Y < out.h) (hl : l < out.d) :
    img_t.same_shape (loop nx (fun x o => o.set (X x) Y l (V x)) out) out ∧
    ∀ p q c, p < out.w → q < out.h → c < out.d →
      (loop nx (fun x o => o.set (X x) Y l (V x)) out).get p q c =
        if c = l ∧ q = Y ∧ a ≤ p ∧ p < a + nx then V (p - a) else out.get p q c := by
  have key := loop_invariant
    (fun i (o : img_t α) => i ≤ nx → (img_t.same_shape o out ∧
      ∀ p q c, p < out.w → q < out.h → c < out.d →
        o.get p q c = if c = l ∧ q = Y ∧ a ≤ p ∧ p < a + i then V (p - a) else out.get p q c))
    nx (fun x o => o.set (X x) Y l (V x)) out
    (by
      intro _
      refine ⟨img_t.same_shape_refl out, ?_⟩
      intro p q c _ _ _
      have : ¬ (c = l ∧ q = Y ∧ a ≤ p ∧ p < a + 0) := by omega
      rw [if_neg this])
    (by
      intro i hi t ht hle
      obtain ⟨hs, hg⟩ := ht (Nat.le_of_lt hi)
      refine ⟨img_t.same_shape_trans (img_t.same_shape_set t _ _ _ _) hs, ?_⟩
      intro p q c hp hq hc
      have twf : t.wf := img_t.same_shape_wf hs hwf
      show (t.set (X i) Y l (V i)).get p q c = _
      rw [hX i hi, img_t.get_set t twf _ (by rw [hs.1]; omega) (by rw [hs.2.1]; exact hY)
        (by rw [hs.2.2.1]; exact hl) (by rw [hs.1]; exact hp) (by rw [hs.2.2.1]; exact hc),
        hg p q c hp hq hc]
      by_cases h1 : p = a + i ∧ q = Y ∧ c = l
      · have h3 : c = l ∧ q = Y ∧ a ≤ p ∧ p < a + (i + 1) := by omega
        have h4 : p - a = i := by omega
        rw [if_pos h1, if_pos h3, h4]
      · by_cases h2 : c = l ∧ q = Y ∧ a ≤ p ∧ p < a + i
        · have h3 : c = l ∧ q = Y ∧ a ≤ p ∧ p < a + (i + 1) := by omega
          rw [if_neg h1, if_pos h2, if_pos h3]
        · have h3 : ¬ (c = l ∧ q = Y ∧ a ≤ p ∧ p < a + (i + 1)) := by omega
          rw [if_neg h1, if_neg h2, if_neg h3])
  exact key (Nat.le_refl nx)

/-- A loop over rows whose body is two row loops: the first writes `V1 x y` at
    the columns `a1 + x`, the second `V2 x y` at the columns `a2 + x`, both in
    the row `b + y`. -/
theorem write_band_spec {α : Type} [Zero α] (out : img_t α) (n1 n2 a1 a2 ny b l : ℕ)
    (X1 X2 T : ℕ → ℕ) (V1 V2 : ℕ → ℕ → α)
    (hX1 : ∀ x, x < n1 → X1 x = a1 + x) (hX2 : ∀ x, x < n2 → X2 x = a2 + x)
    (hT : ∀ y, y < ny → T y = b + y) (hwf : out.wf) (h1 : a1 + n1 ≤ out.w)
    (h2 : a2 + n2 ≤ out.w) (hb : b + ny ≤ out.h) (hl : l < out.d) :
    img_t.same_shape (loop ny (fun y o =>
      loop n2 (fun x o => o.set (X2 x) (T y) l (V2 x y))
        (loop n1 (fun x o => o.set (X1 x) (T y) l (V1 x y)) o)) out) out ∧
    ∀ p q c, p < out.w → q < out.h → c < out.d →
      (loop ny (fun y o =>
        loop n2 (fun x o => o.set (X2 x) (T y) l (V2 x y))
          (loop n1 (fun x o => o.set (X1 x) (T y) l (V1 x y)) o)) out).get p q c =
        if c = l ∧ b ≤ q ∧ q < b + ny ∧ a2 ≤ p ∧ p < a2 + n2 then V2 (p - a2) (q - b)
        else if c = l ∧ b ≤ q ∧ q < b + ny ∧ a1 ≤ p ∧ p < a1 + n1 then V1 (p - a1) (q - b)
        else out.get p q c := by
  have key := loop_invariant
    (fun j (o : img_t α) => j ≤ ny → (img_t.same_shape o out ∧
      ∀ p q c, p < out.w → q < out.h → c < out.d →
        o.get p q c =
          if c = l ∧ b ≤ q ∧ q < b + j ∧ a2 ≤ p ∧ p < a2 + n2 then V2 (p - a2) (q - b)
          else if c = l ∧ b ≤ q ∧ q < b + j ∧ a1 ≤ p ∧ p < a1 + n1 then V1 (p - a1) (q - b)
          else out.get p q c))
    ny (fun y o =>
      loop n2 (fun x o => o.set (X2 x) (T y) l (V2 x y))
        (loop n1 (fun x o => o.set (X1 x) (T y) l (V1 x y)) o)) out
    (by
      intro _
      refine ⟨img_t.same_shape_refl out, ?_⟩
      intro p q c _ _ _
      have e1 : ¬ (c = l ∧ b ≤ q ∧ q < b + 0 ∧ a2 ≤ p ∧ p < a2 + n2) := by omega
      have e2 : ¬ (c = l ∧ b ≤ q ∧ q < b + 0 ∧ a1 ≤ p ∧ p < a1 + n1) := by omega
      rw [if_neg e1, if_neg e2])
    (by
      intro j hj t ht hle
      obtain ⟨hs, hg⟩ := ht (Nat.le_of_lt hj)
      have twf : t.wf := img_t.same_shape_wf hs hwf
      obtain ⟨r1s, r1g⟩ := write_row_spec t n1 a1 (T j) l X1 (fun x => V1 x j) hX1 twf
        (by rw [hs.1]; exact h1) (by rw [hs.2.1, hT j hj]; omega) (by rw [hs.2.2.1]; exact hl)
      have r1wf := img_t.same_shape_wf r1s twf
      obtain ⟨r2s, r2g⟩ := write_row_spec _ n2 a2 (T j) l X2 (fun x => V2 x j) hX2 r1wf
        (by rw [r1s.1, hs.1]; exact h2) (by rw [r1s.2.1, hs.2.1, hT j hj]; omega)
        (by rw [r1s.2.2.1, hs.2.2.1]; exact hl)
      refine ⟨img_t.same_shape_trans r2s (img_t.same_shape_trans r1s hs), ?_⟩
      intro p q c hp hq hc
      show (loop n2 (fun x o => o.set (X2 x) (T j) l (V2 x j))
        (loop n1 (fun x o => o.set (X1 x) (T j) l (V1 x j)) t)).get p q c = _
      rw [r2g p q c (by rw [r1s.1, hs.1]; exact hp) (by rw [r1s.2.1, hs.2.1]; exact hq)
          (by rw [r1s.2.2.1, hs.2.2.1]; exact hc),
        r1g p q c (by rw [hs.1]; exact hp) (by rw [hs.2.1]; exact hq)
          (by rw [hs.2.2.1]; exact hc),
        hg p q c hp hq hc, hT j hj]
      by_cases hq1 : q = b + j
      · have hqb : q - b = j := by omega
        by_cases c2 : c = l ∧ a2 ≤ p ∧ p < a2 + n2
        · rw [if_pos (show c = l ∧ q = b + j ∧ a2 ≤ p ∧ p < a2 + n2 by omega),
            if_pos (show c = l ∧ b ≤ q ∧ q < b + (j + 1) ∧ a2 ≤ p ∧ p < a2 + n2 by omega), hqb]
        · rw [if_neg (show ¬ (c = l ∧ q = b + j ∧ a2 ≤ p ∧ p < a2 + n2) by omega),
            if_neg (show ¬ (c = l ∧ b ≤ q ∧ q < b + (j + 1) ∧ a2 ≤ p ∧ p < a2 + n2) by omega)]
          by_cases c1 : c = l ∧ a1 ≤ p ∧ p < a1 + n1
          · rw [if_pos (show c = l ∧ q = b + j ∧ a1 ≤ p ∧ p < a1 + n1 by omega),
              if_pos (show c = l ∧ b ≤ q ∧ q < b + (j + 1) ∧ a1 ≤ p ∧ p < a1 + n1 by omega), hqb]
          · rw [if_neg (show ¬ (c = l ∧ q = b + j ∧ a1 ≤ p ∧ p < a1 + n1) by omega),
              if_neg (show ¬ (c = l ∧ b ≤ q ∧ q < b + (j + 1) ∧ a1 ≤ p ∧ p < a1 + n1) by omega),
              if_neg (show ¬ (c = l ∧ b ≤ q ∧ q < b + j ∧ a2 ≤ p ∧ p < a2 + n2) by omega),
              if_neg (show ¬ (c = l ∧ b ≤ q ∧ q < b + j ∧ a1 ≤ p ∧ p < a1 + n1) by omega)]
      · rw [if_neg (show ¬ (c = l ∧ q = b + j ∧ a2 ≤ p ∧ p < a2 + n2) by omega),
          if_neg (show ¬ (c = l ∧ q = b + j ∧ a1 ≤ p ∧ p < a1 + n1) by omega)]
        by_cases c2 : c = l ∧ b ≤ q ∧ q < b + j ∧ a2 ≤ p ∧ p < a2 + n2
        · rw [if_pos c2,
            if_pos (show c = l ∧ b ≤ q ∧ q < b + (j + 1) ∧ a2 ≤ p ∧ p < a2 + n2 by omega)]
        · rw [if_neg c2,
            if_neg (show ¬ (c = l ∧ b ≤ q ∧ q < b + (j + 1) ∧ a2 ≤ p ∧ p < a2 + n2) by omega)]
          by_cases c1 : c = l ∧ b ≤ q ∧ q < b + j ∧ a1 ≤ p ∧ p < a1 + n1
          · rw [if_pos c1,
              if_pos (show c = l ∧ b ≤ q ∧ q < b + (j + 1) ∧ a1 ≤ p ∧ p < a1 + n1 by omega)]
          · rw [if_neg c1,
              if_neg (show ¬ (c = l ∧ b ≤ q ∧ q < b + (j + 1) ∧ a1 ≤ p ∧ p < a1 + n1) by omega)])
  exact key (Nat.le_refl ny)

/-- What `padcirc` leaves behind for a kernel no larger than the image: the
    written columns and rows hold the converted kernel samples, every other
    sample is zero. -/
theorem img_t.padcirc_get {α β : Type} [Zero α] [Zero β] (conv : β → α) (self : img_t α)
    (o : img_t β) (hwf : self.wf) (hw : o.w ≤ self.w) (hh : o.h ≤ self.h)
    (hd : self.d = o.d ∨ o.d = 1) :
    ∃ r, img_t.padcirc conv self o = some r ∧ img_t.same_shape r self ∧
      ∀ p q c, p < self.w → q < self.h → c < self.d →
        r.get p q c =
          if padcirc_written self.w o.w p ∧ padcirc_written self.h o.h q then
            conv (o.get (padcirc_source self.w o.w p) (padcirc_source self.h o.h q)
              (if self.d = o.d then c else 0))
          else 0 := by
  unfold img_t.padcirc
  dsimp only
  rw [if_neg (by
    rintro ⟨_, h1, h2⟩
    rcases hd with h | h
    · exact h1 h
    · exact h2 h)]
  refine ⟨_, rfl, ?_⟩
  have h0s := img_t.set_value_same_shape self (0 : α)
  have h0wf := img_t.same_shape_wf h0s hwf
  have key := loop_invariant
    (fun n (t : img_t α) => n ≤ self.d → (img_t.same_shape t self ∧
      ∀ p q c, p < self.w → q < self.h → c < self.d →
        t.get p q c =
          if c < n then
            (if padcirc_written self.w o.w p ∧ padcirc_written self.h o.h q then
              conv (o.get (padcirc_source self.w o.w p) (padcirc_source self.h o.h q)
                (if self.d = o.d then c else 0))
            else 0)
          else 0))
    self.d _ (self.set_value 0)
    (by
      intro _
      refine ⟨h0s, ?_⟩
      intro p q c _ _ _
      rw [if_neg (Nat.not_lt_zero c), img_t.set_value_get])
    (by
      intro dd hdd t ht hle
      obtain ⟨hs, hg⟩ := ht (Nat.le_of_lt hdd)
      have twf : t.wf := img_t.same_shape_wf hs hwf
      obtain ⟨b1s, b1g⟩ := write_band_spec t (o.w / 2) (o.w - o.w / 2) (self.w - o.w / 2) 0
        (o.h / 2) (self.h - o.h / 2) dd (fun x => self.w - o.w / 2 + x)
        (fun i => o.w / 2 + i - o.w / 2) (fun y => self.h - o.h / 2 + y)
        (fun x y => conv (o.get x y (if self.d = o.d then dd else 0)))
        (fun i y => conv (o.get (o.w / 2 + i) y (if self.d = o.d then dd else 0)))
        (fun _ _ => rfl) (fun i _ => by dsimp only; omega) (fun _ _ => rfl) twf
        (by rw [hs.1]; omega) (by rw [hs.1]; omega) (by rw [hs.2.1]; omega)
        (by rw [hs.2.2.1]; exact hdd)
      have b1wf := img_t.same_shape_wf b1s twf
      obtain ⟨b2s, b2g⟩ := write_band_spec _ (o.w / 2) (o.w - o.w / 2) (self.w - o.w / 2) 0
        (o.h - o.h / 2) 0 dd (fun x => self.w - o.w / 2 + x)
        (fun i => o.w / 2 + i - o.w / 2) (fun j => o.h / 2 + j - o.h / 2)
        (fun x j => conv (o.get x (o.h / 2 + j) (if self.d = o.d then dd else 0)))
        (fun i j => conv (o.get (o.w / 2 + i) (o.h / 2 + j) (if self.d = o.d then dd else 0)))
        (fun _ _ => rfl) (fun i _ => by dsimp only; omega) (fun j _ => by dsimp only; omega) b1wf
        (by rw [b1s.1, hs.1]; omega) (by rw [b1s.1, hs.1]; omega) (by rw [b1s.2.1, hs.2.1]; omega)
        (by rw [b1s.2.2.1, hs.2.2.1]; exact hdd)
      refine ⟨img_t.same_shape_trans b2s (img_t.same_shape_trans b1s hs), ?_⟩
      intro p q c hp hq hc
      have e := b2g p q c (by rw [b1s.1, hs.1]; exact hp) (by rw [b1s.2.1, hs.2.1]; exact hq)
        (by rw [b1s.2.2.1, hs.2.2.1]; exact hc)
      rw [b1g p q c (by rw [hs.1]; exact hp) (by rw [hs.2.1]; exact hq)
        (by rw [hs.2.2.1]; exact hc), hg p q c hp hq hc] at e
      refine Eq.trans e ?_
      unfold padcirc_written padcirc_source
      by_cases hcd : c = dd
      · subst hcd
        rw [if_neg (Nat.lt_irrefl c), if_pos (Nat.lt_succ_self c)]
        by_cases hq2 : q < o.h - o.h / 2
        · by_cases hp2 : p < o.w - o.w / 2
          · rw [if_pos (show c = c ∧ 0 ≤ q ∧ q < 0 + (o.h - o.h / 2) ∧ 0 ≤ p ∧
                p < 0 + (o.w - o.w / 2) by omega),
              if_pos (show (p < o.w - o.w / 2 ∨ self.w - o.w / 2 ≤ p) ∧
                  (q < o.h - o.h / 2 ∨ self.h - o.h / 2 ≤ q) from ⟨Or.inl hp2, Or.inl hq2⟩), if_pos hp2, if_pos hq2]
            simp only [Nat.sub_zero]
          · rw [if_neg (show ¬ (c = c ∧ 0 ≤ q ∧ q < 0 + (o.h - o.h / 2) ∧ 0 ≤ p ∧
                p < 0 + (o.w - o.w / 2)) by omega)]
            by_cases hp1 : self.w - o.w / 2 ≤ p
            · rw [if_pos (show c = c ∧ 0 ≤ q ∧ q < 0 + (o.h - o.h / 2) ∧ self.w - o.w / 2 ≤ p ∧
                  p < self.w - o.w / 2 + o.w / 2 by omega),
                if_pos (show (p < o.w - o.w / 2 ∨ self.w - o.w / 2 ≤ p) ∧
                  (q < o.h - o.h / 2 ∨ self.h - o.h / 2 ≤ q) from ⟨Or.inr hp1, Or.inl hq2⟩), if_neg hp2, if_pos hq2]
              simp only [Nat.sub_zero]
            · rw [if_neg (show ¬ (c = c ∧ 0 ≤ q ∧ q < 0 + (o.h - o.h / 2) ∧
                  self.w - o.w / 2 ≤ p ∧ p < self.w - o.w / 2 + o.w / 2) by omega),
                if_neg (show ¬ (c = c ∧ self.h - o.h / 2 ≤ q ∧ q < self.h - o.h / 2 + o.h / 2 ∧
                  0 ≤ p ∧ p < 0 + (o.w - o.w / 2)) by omega),
                if_neg (show ¬ (c = c ∧ self.h - o.h / 2 ≤ q ∧ q < self.h - o.h / 2 + o.h / 2 ∧
                  self.w - o.w / 2 ≤ p ∧ p < self.w - o.w / 2 + o.w / 2) by omega),
                if_neg (show ¬ ((p < o.w - o.w / 2 ∨ self.w - o.w / 2 ≤ p) ∧
                  (q < o.h - o.h / 2 ∨ self.h - o.h / 2 ≤ q)) by omega)]
        · rw [if_neg (show ¬ (c = c ∧ 0 ≤ q ∧ q < 0 + (o.h - o.h / 2) ∧ 0 ≤ p ∧
              p < 0 + (o.w - o.w / 2)) by omega),
            if_neg (show ¬ (c = c ∧ 0 ≤ q ∧ q < 0 + (o.h - o.h / 2) ∧ self.w - o.w / 2 ≤ p ∧
              p < self.w - o.w / 2 + o.w / 2) by omega)]
          by_cases hq1 : self.h - o.h / 2 ≤ q
          · by_cases hp2 : p < o.w - o.w / 2
            · rw [if_pos (show c = c ∧ self.h - o.h / 2 ≤ q ∧ q < self.h - o.h / 2 + o.h / 2 ∧
                  0 ≤ p ∧ p < 0 + (o.w - o.w / 2) by omega),
                if_pos (show (p < o.w - o.w / 2 ∨ self.w - o.w / 2 ≤ p) ∧
                  (q < o.h - o.h / 2 ∨ self.h - o.h / 2 ≤ q) from ⟨Or.inl hp2, Or.inr hq1⟩), if_pos hp2, if_neg hq2]
              simp only [Nat.sub_zero]
            · rw [if_neg (show ¬ (c = c ∧ self.h - o.h / 2 ≤ q ∧
                  q < self.h - o.h / 2 + o.h / 2 ∧ 0 ≤ p ∧ p < 0 + (o.w - o.w / 2)) by omega)]
              by_cases hp1 : self.w - o.w / 2 ≤ p
              · rw [if_pos (show c = c ∧ self.h - o.h / 2 ≤ q ∧
                    q < self.h - o.h / 2 + o.h / 2 ∧ self.w - o.w / 2 ≤ p ∧
                    p < self.w - o.w / 2 + o.w / 2 by omega),
                  if_pos (show (p < o.w - o.w / 2 ∨ self.w - o.w / 2 ≤ p) ∧
                  (q < o.h - o.h / 2 ∨ self.h - o.h / 2 ≤ q) from ⟨Or.inr hp1, Or.inr hq1⟩), if_neg hp2, if_neg hq2]
              · rw [if_neg (show ¬ (c = c ∧ self.h - o.h / 2 ≤ q ∧
                    q < self.h - o.h / 2 + o.h / 2 ∧ self.w - o.w / 2 ≤ p ∧
                    p < self.w - o.w / 2 + o.w / 2) by omega),
                  if_neg (show ¬ ((p < o.w - o.w / 2 ∨ self.w - o.w / 2 ≤ p) ∧
                    (q < o.h - o.h / 2 ∨ self.h - o.h / 2 ≤ q)) by omega)]
          · rw [if_neg (show ¬ (c = c ∧ self.h - o.h / 2 ≤ q ∧ q < self.h - o.h / 2 + o.h / 2 ∧
                0 ≤ p ∧ p < 0 + (o.w - o.w / 2)) by omega),
              if_neg (show ¬ (c = c ∧ self.h - o.h / 2 ≤ q ∧ q < self.h - o.h / 2 + o.h / 2 ∧
                self.w - o.w / 2 ≤ p ∧ p < self.w - o.w / 2 + o.w / 2) by omega),
              if_neg (show ¬ ((p < o.w - o.w / 2 ∨ self.w - o.w / 2 ≤ p) ∧
                (q < o.h - o.h / 2 ∨ self.h - o.h / 2 ≤ q)) by omega)]
      · rw [if_neg (show ¬ (c = dd ∧ 0 ≤ q ∧ q < 0 + (o.h - o.h / 2) ∧ 0 ≤ p ∧
            p < 0 + (o.w - o.w / 2)) by omega),
          if_neg (show ¬ (c = dd ∧ 0 ≤ q ∧ q < 0 + (o.h - o.h / 2) ∧ self.w - o.w / 2 ≤ p ∧
            p < self.w - o.w / 2 + o.w / 2) by omega),
          if_neg (show ¬ (c = dd ∧ self.h - o.h / 2 ≤ q ∧ q < self.h - o.h / 2 + o.h / 2 ∧
            0 ≤ p ∧ p < 0 + (o.w - o.w / 2)) by omega),
          if_neg (show ¬ (c = dd ∧ self.h - o.h / 2 ≤ q ∧ q < self.h - o.h / 2 + o.h / 2 ∧
            self.w - o.w / 2 ≤ p ∧ p < self.w - o.w / 2 + o.w / 2) by omega)]
        by_cases hlt : c < dd
        · rw [if_pos hlt, if_pos (Nat.lt_succ_of_lt hlt)]
        · rw [if_neg hlt, if_neg (show ¬ c < dd + 1 by omega)])
  obtain ⟨ks, kg⟩ := key (Nat.le_refl _)
  refine ⟨ks, ?_⟩
  intro p q c hp hq hc
  rw [kg p q c hp hq hc, if_pos hc]

/-- The wrap-around target in closed form. -/
theorem padcirc_target_eq (n kn x : ℕ) (hkn : kn ≤ n) (hx : x < kn) :
    padcirc_target n kn x = if x < kn / 2 then n - kn / 2 + x else x - kn / 2 := by
  unfold padcirc_target
  by_cases h : x < kn / 2
  · rw [if_pos h]
    have e : ((x : ℤ) - ((kn / 2 : ℕ) : ℤ)) % (n : ℤ) = (x : ℤ) - ((kn / 2 : ℕ) : ℤ) + n := by
      rw [← Int.add_emod_self]
      exact Int.emod_eq_of_lt (by omega) (by omega)
    rw [e]
    omega
  · rw [if_neg h]
    have e : ((x : ℤ) - ((kn / 2 : ℕ) : ℤ)) % (n : ℤ) = (x : ℤ) - ((kn / 2 : ℕ) : ℤ) :=
      Int.emod_eq_of_lt (by omega) (by omega)
    rw [e]
    omega

/-- The target of a kernel column is a written column, and its source is that
    kernel column. -/
theorem padcirc_target_spec (n kn x : ℕ) (hkn : kn ≤ n) (hx : x < kn) :
    padcirc_target n kn x < n ∧ padcirc_written n kn (padcirc_target n kn x) ∧
    padcirc_source n kn (padcirc_target n kn x) = x := by
  rw [padcirc_target_eq n kn x hkn hx]
  unfold padcirc_written padcirc_source
  by_cases h : x < kn / 2
  · rw [if_pos h]
    refine ⟨by omega, Or.inr (by omega), ?_⟩
    rw [if_neg (by omega)]
    omega
  · rw [if_neg h]
    refine ⟨by omega, Or.inl (by omega), ?_⟩
    rw [if_pos (by omega)]
    omega

/-- A written column is the target of its source column. -/
theorem padcirc_source_spec (n kn p : ℕ) (hkn : kn ≤ n) (hp : p < n)
    (hw : padcirc_written n kn p) :
    padcirc_source n kn p < kn ∧ padcirc_target n kn (padcirc_source n kn p) = p := by
  unfold padcirc_written at hw
  have hs : padcirc_source n kn p < kn := by
    unfold padcirc_source
    by_cases h : p < kn - kn / 2
    · rw [if_pos h]; omega
    · rw [if_neg h]; omega
  refine ⟨hs, ?_⟩
  rw [padcirc_target_eq n kn _ hkn hs]
  unfold padcirc_source
  by_cases h : p < kn - kn / 2
  · rw [if_pos h, if_neg (by omega)]; omega
  · rw [if_neg h, if_pos (by omega)]; omega

/-- Summing over the written columns is summing over the kernel columns. -/
theorem padcirc_sum_line (n kn : ℕ) (hkn : kn ≤ n) (f : ℕ → ℚ) :
    ∑ p in Finset.range n, (if padcirc_written n kn p then f (padcirc_source n kn p) else 0) =
      ∑ x in Finset.range kn, f x := by
  have hn : n = (kn - kn / 2) + (n - kn) + kn / 2 := by omega
  have hk : kn = kn / 2 + (kn - kn / 2) := by omega
  have hl : ∑ p in Finset.range n,
      (if padcirc_written n kn p then f (padcirc_source n kn p) else 0) =
      ∑ p in Finset.range ((kn - kn / 2) + (n - kn) + kn / 2),
        (if padcirc_written n kn p then f (padcirc_source n kn p) else 0) := by rw [← hn]
  have hr : ∑ x in Finset.range kn, f x =
      ∑ x in Finset.range (kn / 2 + (kn - kn / 2)), f x := by rw [← hk]
  rw [hl, hr, Finset.sum_range_add, Finset.sum_range_add, Finset.sum_range_add]
  have e1 : ∑ p in Finset.range (kn - kn / 2),
      (if padcirc_written n kn p then f (padcirc_source n kn p) else 0) =
      ∑ i in Finset.range (kn - kn / 2), f (kn / 2 + i) := by
    apply Finset.sum_congr rfl
    intro p hp
    have hp' := Finset.mem_range.mp hp
    unfold padcirc_written padcirc_source
    rw [if_pos (Or.inl hp'), if_pos hp']
  have e2 : ∑ j in Finset.range (n - kn),
      (if padcirc_written n kn (kn - kn / 2 + j) then
        f (padcirc_source n kn (kn - kn / 2 + j)) else 0) = 0 := by
    apply Finset.sum_eq_zero
    intro j hj
    have hj' := Finset.mem_range.mp hj
    unfold padcirc_written
    rw [if_neg (by omega)]
  have e3 : ∑ i in Finset.range (kn / 2),
      (if padcirc_written n kn (kn - kn / 2 + (n - kn) + i) then
        f (padcirc_source n kn (kn - kn / 2 + (n - kn) + i)) else 0) =
      ∑ i in Finset.range (kn / 2), f i := by
    apply Finset.sum_congr rfl
    intro i hi
    have hi' := Finset.mem_range.mp hi
    unfold padcirc_written padcirc_source
    rw [if_pos (Or.inr (by omega)), if_neg (by omega)]
    congr 1
    omega
  rw [e1, e2, e3, add_zero, add_comm]

/-- C17: for every single-channel kernel of size `kw x kh` and every
    single-channel output image of size `W x H` with `kw <= W` and `kh <= H`,
    after `out.padcirc(kernel)` the entry
    `out((x - floor(kw/2)) mod W, (y - floor(kh/2)) mod H)` equals
    `kernel(x, y)` for all `x < kw`, `y < kh`, every other entry is 0, the
    kernel's geometric center lands at `(0, 0)`, and the sum of all entries is
    that of the kernel. -/
theorem padcirc_placement (out k : img_t ℚ) (hwf : out.wf) (hkwf : k.wf) (hd : out.d = 1)
    (hkd : k.d = 1) (hw : k.w ≤ out.w) (hh : k.h ≤ out.h) :
    ∃ r, img_t.padcirc id out k = some r ∧ r.w = out.w ∧ r.h = out.h ∧ r.d = 1 ∧ r.wf ∧
      (∀ x y, x < k.w → y < k.h →
        r.get (padcirc_target out.w k.w x) (padcirc_target out.h k.h y) 0 = k.get x y 0) ∧
      (∀ p q, p < out.w → q < out.h →
        (¬ ∃ x y, x < k.w ∧ y < k.h ∧ p = padcirc_target out.w k.w x ∧
          q = padcirc_target out.h k.h y) → r.get p q 0 = 0) ∧
      (0 < k.w → 0 < k.h → r.get 0 0 0 = k.get (k.w / 2) (k.h / 2) 0) ∧
      r.sum = k.sum := by
  obtain ⟨r, hr, hs, hg⟩ := img_t.padcirc_get id out k hwf hw hh (Or.inl (hd.trans hkd.symm))
  have rwf := img_t.same_shape_wf hs hwf
  have hod : (if out.d = k.d then 0 else 0) = 0 := by split <;> rfl
  have hentry : ∀ x y, x < k.w → y < k.h →
      r.get (padcirc_target out.w k.w x) (padcirc_target out.h k.h y) 0 = k.get x y 0 := by
    intro x y hx hy
    obtain ⟨tx1, tx2, tx3⟩ := padcirc_target_spec out.w k.w x hw hx
    obtain ⟨ty1, ty2, ty3⟩ := padcirc_target_spec out.h k.h y hh hy
    rw [hg _ _ 0 tx1 ty1 (by omega), if_pos ⟨tx2, ty2⟩, tx3, ty3, hod]
    rfl
  refine ⟨r, hr, hs.1, hs.2.1, hs.2.2.1.trans hd, rwf, hentry, ?_, ?_, ?_⟩
  · intro p q hp hq hne
    rw [hg p q 0 hp hq (by omega)]
    by_cases hc : padcirc_written out.w k.w p ∧ padcirc_written out.h k.h q
    · exfalso
      obtain ⟨sx1, sx2⟩ := padcirc_source_spec out.w k.w p hw hp hc.1
      obtain ⟨sy1, sy2⟩ := padcirc_source_spec out.h k.h q hh hq hc.2
      exact hne ⟨_, _, sx1, sy1, sx2.symm, sy2.symm⟩
    · rw [if_neg hc]
  · intro h1 h2
    have e := hentry (k.w / 2) (k.h / 2) (Nat.div_lt_self h1 (by decide))
      (Nat.div_lt_self h2 (by decide))
    have z1 : padcirc_target out.w k.w (k.w / 2) = 0 := by
      rw [padcirc_target_eq _ _ _ hw (Nat.div_lt_self h1 (by decide)), if_neg (lt_irrefl _)]
      omega
    have z2 : padcirc_target out.h k.h (k.h / 2) = 0 := by
      rw [padcirc_target_eq _ _ _ hh (Nat.div_lt_self h2 (by decide)), if_neg (lt_irrefl _)]
      omega
    rw [z1, z2] at e
    exact e
  · rw [img_t.sum_eq_sum_grid r rwf (hs.2.2.1.trans hd), img_t.sum_eq_sum_grid k hkwf hkd,
      hs.1, hs.2.1]
    have e1 : ∀ q ∈ Finset.range out.h, ∑ p in Finset.range out.w, r.get p q 0 =
        if padcirc_written out.h k.h q then
          (fun y => ∑ x in Finset.range k.w, k.get x y 0) (padcirc_source out.h k.h q)
        else 0 := by
      intro q hq
      have hq' := Finset.mem_range.mp hq
      by_cases hwq : padcirc_written out.h k.h q
      · rw [if_pos hwq]
        refine Eq.trans ?_ (padcirc_sum_line out.w k.w hw
          (fun x => k.get x (padcirc_source out.h k.h q) 0))
        apply Finset.sum_congr rfl
        intro p hp
        rw [hg p q 0 (Finset.mem_range.mp hp) hq' (by omega), hod]
        by_cases hwp : padcirc_written out.w k.w p
        · rw [if_pos ⟨hwp, hwq⟩, if_pos hwp]; rfl
        · rw [if_neg (fun h => hwp h.1), if_neg hwp]
      · rw [if_neg hwq]
        apply Finset.sum_eq_zero
        intro p hp
        rw [hg p q 0 (Finset.mem_range.mp hp) hq' (by omega), if_neg (fun h => hwq h.2)]
    exact (Finset.sum_congr rfl e1).trans
      (padcirc_sum_line out.h k.h hh (fun y => ∑ x in Finset.range k.w, k.get x y 0))

theorem padcirc_placement_witness :
    ∃ r, img_t.padcirc id scratch_image counting_kernel = some r ∧ r.w = scratch_image.w ∧
      r.h = scratch_image.h ∧ r.d = 1 ∧ r.wf ∧
      (∀ x y, x < counting_kernel.w → y < counting_kernel.h →
        r.get (padcirc_target scratch_image.w counting_kernel.w x)
          (padcirc_target scratch_image.h counting_kernel.h y) 0 = counting_kernel.get x y 0) ∧
      (∀ p q, p < scratch_image.w → q < scratch_image.h →
        (¬ ∃ x y, x < counting_kernel.w ∧ y < counting_kernel.h ∧
          p = padcirc_target scratch_image.w counting_kernel.w x ∧
          q = padcirc_target scratch_image.h counting_kernel.h y) → r.get p q 0 = 0) ∧
      (0 < counting_kernel.w → 0 < counting_kernel.h →
        r.get 0 0 0 = counting_kernel.get (counting_kernel.w / 2) (counting_kernel.h / 2) 0) ∧
      r.sum = counting_kernel.sum :=
  padcirc_placement scratch_image counting_kernel (by decide) (by decide) rfl rfl
    (by decide) (by decide)

/-! ## The labeling: what the first pass keeps -/

theorem adj8_symm {p q : ℕ × ℕ} (h : adj8 p q) : adj8 q p :=
  ⟨⟨h.1.2, h.1.1⟩, ⟨h.2.2, h.2.1⟩⟩

theorem connected8_trans {k : img_t ℚ} {p q r : ℕ × ℕ} (h1 : connected8 k p q)
    (h2 : connected8 k q r) : connected8 k p r :=
  Relation.ReflTransGen.trans h1 h2

/-- A path of support pixels that starts in the support can be walked back. -/
theorem connected8_symm {k : img_t ℚ} {p q : ℕ × ℕ} (hp : in_support k p)
    (h : connected8 k p q) : connected8 k q p ∧ in_support k q := by
  induction h with
  | refl => exact ⟨Relation.ReflTransGen.refl, hp⟩
  | @tail b c _ hstep ih =>
    refine ⟨?_, hstep.2⟩
    exact Relation.ReflTransGen.head ⟨adj8_symm hstep.1, ih.2⟩ ih.1

theorem linked_refl {k : img_t ℚ} {p : ℕ × ℕ} (hp : in_support k p) : linked k p p :=
  ⟨hp, hp, Relation.ReflTransGen.refl⟩

theorem linked_symm {k : img_t ℚ} {p q : ℕ × ℕ} (h : linked k p q) : linked k q p :=
  ⟨h.2.1, h.1, (connected8_symm h.1 h.2.2).1⟩

theorem linked_trans {k : img_t ℚ} {p q r : ℕ × ℕ} (h1 : linked k p q) (h2 : linked k q r) :
    linked k p r :=
  ⟨h1.1, h2.2.1, connected8_trans h1.2.2 h2.2.2⟩

theorem linked_adj {k : img_t ℚ} {p q : ℕ × ℕ} (hp : in_support k p) (hq : in_support k q)
    (h : adj8 p q) : linked k p q :=
  ⟨hp, hq, Relation.ReflTransGen.single ⟨h, hq⟩⟩

/-- A conditional write to the table `equiv` leaves an entry as it was or sets
    it to the written value. -/
theorem labeling.getD_set_if (e : List ℕ) (c : Prop) [Decidable c] (j v i : ℕ) :
    (if c then e.set j v else e).getD i 0 = e.getD i 0 ∨
    ((if c then e.set j v else e).getD i 0 = v ∧ c ∧ j = i) := by
  by_cases hc : c
  · rw [if_pos hc, labeling.getD_set_nat]
    by_cases h : j = i ∧ j < e.length
    · rw [if_pos h]; exact Or.inr ⟨rfl, hc, h.1⟩
    · rw [if_neg h]; exact Or.inl rfl
  · rw [if_neg hc]; exact Or.inl rfl

/-- The label image of the first pass starts well-formed, with the dimensions
    of the input. -/
theorem labeling.initial_labels_spec (w h d : ℕ) :
    (((img_t.empty : img_t ℕ).resize w h d).set_value 0).w = w ∧
    (((img_t.empty : img_t ℕ).resize w h d).set_value 0).h = h ∧
    (((img_t.empty : img_t ℕ).resize w h d).set_value 0).d = d ∧
    (((img_t.empty : img_t ℕ).resize w h d).set_value 0).wf := by
  have he : (img_t.empty : img_t ℕ).wf := by decide
  obtain ⟨h1, h2, h3, h4⟩ := img_t.resize_spec (img_t.empty : img_t ℕ) he w h d
  have hs := img_t.set_value_same_shape ((img_t.empty : img_t ℕ).resize w h d) 0
  exact ⟨hs.1.trans h1, hs.2.1.trans h2, hs.2.2.1.trans h3, img_t.same_shape_wf hs h4⟩

/-- Reading the label image after the write of the pixel loop at `(x, y)`. -/
theorem labeling.get_after_write (img : img_t ℚ) (hd : img.d = 1) {vis : ℕ → ℕ → Prop}
    {st : labeling.scan_state} (h : labeling.scan_inv img vis st) {x y : ℕ} (hx : x < img.w)
    (hy : y < img.h) (v a b : ℕ) (ha : a < img.w) :
    (st.labels.set x y 0 v).get a b 0 = if a = x ∧ b = y then v else st.labels.get a b 0 := by
  obtain ⟨i1, i2, i3, i4⟩ := labeling.initial_labels_spec img.w img.h img.d
  have hs := h.shape
  have lwf : st.labels.wf := img_t.same_shape_wf hs i4
  have e := img_t.get_set st.labels lwf (p := a) (q := b) (c := 0) v
    (by rw [hs.1, i1]; exact hx) (by rw [hs.2.1, i2]; exact hy)
    (by rw [hs.2.2.1, i3, hd]; exact Nat.one_pos) (by rw [hs.1, i1]; exact ha)
    (by rw [hs.2.2.1, i3, hd]; exact Nat.one_pos)
  rw [e]
  by_cases c : a = x ∧ b = y
  · rw [if_pos c, if_pos ⟨c.1, c.2, rfl⟩]
  · rw [if_neg c, if_neg (fun hh => c ⟨hh.1, hh.2.1⟩)]

/-- The pixel loop at a support pixel without labelled neighbour: the new
    label is carried by that pixel alone. -/
theorem labeling.scan_inv_new (img : img_t ℚ) (hd : img.d = 1) {vis : ℕ → ℕ → Prop}
    {st : labeling.scan_state} (h : labeling.scan_inv img vis st) {x y : ℕ} (hx : x < img.w)
    (hy : y < img.h) (hnv : ¬ vis x y) (hval : img.get x y 0 ≠ 0)
    (htab : labeling.table_ok (labeling.scan_state.mk (st.labels.set x y 0 (st.nblabels + 1))
      (st.equiv ++ [st.nblabels + 1]) (st.nblabels + 1))) :
    labeling.scan_inv img (fun a b => vis a b ∨ (a = x ∧ b = y))
      (labeling.scan_state.mk (st.labels.set x y 0 (st.nblabels + 1))
      (st.equiv ++ [st.nblabels + 1]) (st.nblabels + 1)) := by
  have hg := labeling.get_after_write img hd h hx hy (st.nblabels + 1)
  have hp : in_support img (x, y) := ⟨hx, hy, hval⟩
  have h0 : st.labels.get x y 0 = 0 := h.fresh x y hx hy hnv
  have hle : ∀ a b, st.labels.get a b 0 ≤ st.nblabels := fun a b =>
    labeling.getI_le_of_bound h.table.2.2 _
  have hlen : st.equiv.length = st.nblabels + 1 := h.table.1
  refine ⟨img_t.same_shape_trans (img_t.same_shape_set _ _ _ _ _) h.shape, htab, ?_, ?_, ?_, ?_,
    ?_, ?_, ?_⟩
  · show (st.equiv ++ [st.nblabels + 1]).getD 0 0 = 0
    rw [List.getD_eq_getElem?_getD, List.getElem?_append_left (by omega),
      ← List.getD_eq_getElem?_getD]
    exact h.zero
  · intro a b ha hb hv
    show (st.labels.set x y 0 (st.nblabels + 1)).get a b 0 = 0
    rw [hg a b ha, if_neg (fun c => hv (Or.inr c))]
    exact h.fresh a b ha hb (fun c => hv (Or.inl c))
  · intro a b ha hb hv hne
    show (st.labels.set x y 0 (st.nblabels + 1)).get a b 0 ≠ 0
    rw [hg a b ha]
    by_cases c : a = x ∧ b = y
    · rw [if_pos c]; exact Nat.succ_ne_zero _
    · rw [if_neg c]
      rcases hv with hv | hv
      · exact h.marked a b ha hb hv hne
      · exact absurd hv c
  · intro a b ha hb hne
    change (st.labels.set x y 0 (st.nblabels + 1)).get a b 0 ≠ 0 at hne
    rw [hg a b ha] at hne
    by_cases c : a = x ∧ b = y
    · rw [c.1, c.2]; exact hval
    · rw [if_neg c] at hne; exact h.support a b ha hb hne
  · intro a b a' b' ha hb ha' hb' hne heq
    change (st.labels.set x y 0 (st.nblabels + 1)).get a b 0 ≠ 0 at hne
    change (st.labels.set x y 0 (st.nblabels + 1)).get a b 0 =
      (st.labels.set x y 0 (st.nblabels + 1)).get a' b' 0 at heq
    rw [hg a b ha] at hne heq
    rw [hg a' b' ha'] at heq
    by_cases c : a = x ∧ b = y
    · by_cases c' : a' = x ∧ b' = y
      · rw [c.1, c.2, c'.1, c'.2]; exact linked_refl hp
      · rw [if_pos c, if_neg c'] at heq
        have := hle a' b'
        omega
    · by_cases c' : a' = x ∧ b' = y
      · rw [if_neg c, if_pos c'] at heq
        have := hle a b
        omega
      · rw [if_neg c] at hne heq
        rw [if_neg c'] at heq
        exact h.same a b a' b' ha hb ha' hb' hne heq
  · intro l hl1 hl2
    change l ≤ st.nblabels + 1 at hl2
    by_cases hl : l = st.nblabels + 1
    · refine ⟨x, y, hx, hy, ?_⟩
      show (st.labels.set x y 0 (st.nblabels + 1)).get x y 0 = l
      rw [hg x y hx, if_pos ⟨rfl, rfl⟩, hl]
    · obtain ⟨a, b, ha, hb, hab⟩ := h.carried l hl1 (by omega)
      refine ⟨a, b, ha, hb, ?_⟩
      show (st.labels.set x y 0 (st.nblabels + 1)).get a b 0 = l
      rw [hg a b ha, if_neg]
      · exact hab
      · intro c
        rw [c.1, c.2, h0] at hab
        omega
  · intro l hl1 hl2 a b a' b' ha hb ha' hb' hab hab'
    change l ≤ st.nblabels + 1 at hl2
    change (st.labels.set x y 0 (st.nblabels + 1)).get a b 0 = l at hab
    change (st.labels.set x y 0 (st.nblabels + 1)).get a' b' 0 =
      (st.equiv ++ [st.nblabels + 1]).getD l 0 at hab'
    rw [hg a b ha] at hab
    rw [hg a' b' ha'] at hab'
    by_cases hl : l = st.nblabels + 1
    · have e1 : (st.equiv ++ [st.nblabels + 1]).getD l 0 = st.nblabels + 1 := by
        rw [List.getD_eq_getElem?_getD, hl, ← hlen, List.getElem?_append_right (le_refl _)]
        simp
      rw [e1] at hab'
      have c : a = x ∧ b = y := by
        by_contra c
        rw [if_neg c] at hab
        have := hle a b
        omega
      have c' : a' = x ∧ b' = y := by
        by_contra c'
        rw [if_neg c'] at hab'
        have := hle a' b'
        omega
      rw [c.1, c.2, c'.1, c'.2]
      exact linked_refl hp
    · have e1 : (st.equiv ++ [st.nblabels + 1]).getD l 0 = st.equiv.getD l 0 := by
        rw [List.getD_eq_getElem?_getD, List.getD_eq_getElem?_getD,
          List.getElem?_append_left (by omega)]
      rw [e1] at hab'
      have hb2 := (h.table.2.1 l (by omega)).2
      have c : ¬ (a = x ∧ b = y) := by
        intro c
        rw [if_pos c] at hab
        omega
      have c' : ¬ (a' = x ∧ b' = y) := by
        intro c'
        rw [if_pos c'] at hab'
        omega
      rw [if_neg c] at hab
      rw [if_neg c'] at hab'
      exact h.parent l hl1 (by omega) a b a' b' ha hb ha' hb' hab hab'

/-- The pixel loop at a support pixel with a labelled neighbour: the pixel
    takes the label `mx` of a neighbour, and the entries of `equiv` that change
    are those of labels of other neighbours, which now point to `mx`. -/
theorem labeling.scan_inv_join (img : img_t ℚ) (hd : img.d = 1) {vis : ℕ → ℕ → Prop}
    {st : labeling.scan_state} (h : labeling.scan_inv img vis st) {x y : ℕ} (hx : x < img.w)
    (hy : y < img.h) (hnv : ¬ vis x y) (hval : img.get x y 0 ≠ 0) (mx : ℕ) (E : List ℕ)
    (hmx : mx ≠ 0)
    (hn : ∃ a b, a < img.w ∧ b < img.h ∧ adj8 (a, b) (x, y) ∧ st.labels.get a b 0 = mx)
    (hE : ∀ i, E.getD i 0 = st.equiv.getD i 0 ∨
      (E.getD i 0 = mx ∧ i ≠ mx ∧ i ≠ 0 ∧
        ∃ a b, a < img.w ∧ b < img.h ∧ adj8 (a, b) (x, y) ∧ st.labels.get a b 0 = i))
    (htab : labeling.table_ok (labeling.scan_state.mk (st.labels.set x y 0 mx) E st.nblabels)) :
    labeling.scan_inv img (fun a b => vis a b ∨ (a = x ∧ b = y))
      (labeling.scan_state.mk (st.labels.set x y 0 mx) E st.nblabels) := by
  have hg := labeling.get_after_write img hd h hx hy mx
  have hp : in_support img (x, y) := ⟨hx, hy, hval⟩
  have h0 : st.labels.get x y 0 = 0 := h.fresh x y hx hy hnv
  obtain ⟨na, nb, hna, hnb, hnadj, hnl⟩ := hn
  have hnsupp : in_support img (na, nb) :=
    ⟨hna, hnb, h.support na nb hna hnb (by rw [hnl]; exact hmx)⟩
  have hnp : linked img (na, nb) (x, y) := linked_adj hnsupp hp hnadj
  have hmxle : mx ≤ st.nblabels := by
    rw [← hnl]; exact labeling.getI_le_of_bound h.table.2.2 _
  refine ⟨img_t.same_shape_trans (img_t.same_shape_set _ _ _ _ _) h.shape, htab, ?_, ?_, ?_, ?_,
    ?_, ?_, ?_⟩
  · show E.getD 0 0 = 0
    rcases hE 0 with e | ⟨_, _, e, _⟩
    · rw [e]; exact h.zero
    · exact absurd rfl e
  · intro a b ha hb hv
    show (st.labels.set x y 0 mx).get a b 0 = 0
    rw [hg a b ha, if_neg (fun c => hv (Or.inr c))]
    exact h.fresh a b ha hb (fun c => hv (Or.inl c))
  · intro a b ha hb hv hne
    show (st.labels.set x y 0 mx).get a b 0 ≠ 0
    rw [hg a b ha]
    by_cases c : a = x ∧ b = y
    · rw [if_pos c]; exact hmx
    · rw [if_neg c]
      rcases hv with hv | hv
      · exact h.marked a b ha hb hv hne
      · exact absurd hv c
  · intro a b ha hb hne
    change (st.labels.set x y 0 mx).get a b 0 ≠ 0 at hne
    rw [hg a b ha] at hne
    by_cases c : a = x ∧ b = y
    · rw [c.1, c.2]; exact hval
    · rw [if_neg c] at hne; exact h.support a b ha hb hne
  · intro a b a' b' ha hb ha' hb' hne heq
    change (st.labels.set x y 0 mx).get a b 0 ≠ 0 at hne
    change (st.labels.set x y 0 mx).get a b 0 = (st.labels.set x y 0 mx).get a' b' 0 at heq
    rw [hg a b ha] at hne heq
    rw [hg a' b' ha'] at heq
    by_cases c : a = x ∧ b = y
    · by_cases c' : a' = x ∧ b' = y
      · rw [c.1, c.2, c'.1, c'.2]; exact linked_refl hp
      · rw [if_pos c, if_neg c'] at heq
        rw [c.1, c.2]
        exact linked_trans (linked_symm hnp)
          (h.same na nb a' b' hna hnb ha' hb' (by rw [hnl]; exact hmx) (by rw [hnl]; exact heq))
    · by_cases c' : a' = x ∧ b' = y
      · rw [if_neg c, if_pos c'] at heq
        rw [if_neg c] at hne
        rw [c'.1, c'.2]
        exact linked_trans
          (h.same a b na nb ha hb hna hnb hne (by rw [hnl]; exact heq)) hnp
      · rw [if_neg c] at hne heq
        rw [if_neg c'] at heq
        exact h.same a b a' b' ha hb ha' hb' hne heq
  · intro l hl1 hl2
    obtain ⟨a, b, ha, hb, hab⟩ := h.carried l hl1 hl2
    refine ⟨a, b, ha, hb, ?_⟩
    show (st.labels.set x y 0 mx).get a b 0 = l
    rw [hg a b ha, if_neg]
    · exact hab
    · intro c
      rw [c.1, c.2, h0] at hab
      omega
  · intro l hl1 hl2 a b a' b' ha hb ha' hb' hab hab'
    change l ≤ st.nblabels at hl2
    change (st.labels.set x y 0 mx).get a b 0 = l at hab
    change (st.labels.set x y 0 mx).get a' b' 0 = E.getD l 0 at hab'
    rw [hg a b ha] at hab
    rw [hg a' b' ha'] at hab'
    rcases hE l with e | ⟨e, hlm, hl0, ma, mb, hma, hmb, hmadj, hml⟩
    · rw [e] at hab'
      by_cases c : a = x ∧ b = y
      · rw [if_pos c] at hab
        rw [c.1, c.2]
        by_cases c' : a' = x ∧ b' = y
        · rw [c'.1, c'.2]; exact linked_refl hp
        · rw [if_neg c'] at hab'
          exact linked_trans (linked_symm hnp)
            (h.parent mx (Nat.one_le_iff_ne_zero.mpr hmx) hmxle na nb a' b' hna hnb ha' hb' hnl
              (by rw [hab', hab]))
      · rw [if_neg c] at hab
        by_cases c' : a' = x ∧ b' = y
        · rw [if_pos c'] at hab'
          rw [c'.1, c'.2]
          exact linked_trans
            (h.parent l hl1 hl2 a b na nb ha hb hna hnb hab (by rw [hnl, hab'])) hnp
        · rw [if_neg c'] at hab'
          exact h.parent l hl1 hl2 a b a' b' ha hb ha' hb' hab hab'
    · rw [e] at hab'
      have hmsupp : in_support img (ma, mb) :=
        ⟨hma, hmb, h.support ma mb hma hmb (by rw [hml]; exact hl0)⟩
      have hmp : linked img (ma, mb) (x, y) := linked_adj hmsupp hp hmadj
      have c : ¬ (a = x ∧ b = y) := by
        intro c
        rw [if_pos c] at hab
        exact hlm hab.symm
      rw [if_neg c] at hab
      have hap : linked img (a, b) (x, y) :=
        linked_trans (h.same a b ma mb ha hb hma hmb (by rw [hab]; exact hl0)
          (by rw [hab, hml])) hmp
      by_cases c' : a' = x ∧ b' = y
      · rw [c'.1, c'.2]; exact hap
      · rw [if_neg c'] at hab'
        exact linked_trans hap (linked_trans (linked_symm hnp)
          (h.same na nb a' b' hna hnb ha' hb' (by rw [hnl]; exact hmx) (by rw [hnl, hab'])))

/-- The body of the pixel loop keeps the state of the first pass sound on a
    single-channel image. -/
theorem labeling.visit_scan_inv (img : img_t ℚ) (hd : img.d = 1) {vis : ℕ → ℕ → Prop}
    {st : labeling.scan_state} (h : labeling.scan_inv img vis st) {x y : ℕ} (hx : x < img.w)
    (hy : y < img.h) (hnv : ¬ vis x y) :
    labeling.scan_inv img (fun a b => vis a b ∨ (a = x ∧ b = y))
      (labeling.visit img x y 0 st) := by
  have htab := labeling.visit_table_ok img x y 0 st h.table
  have ntl : (if y > 0 ∧ x > 0 then st.labels.get (x - 1) (y - 1) 0 else 0) = 0 ∨
      ∃ a b, a < img.w ∧ b < img.h ∧ adj8 (a, b) (x, y) ∧ st.labels.get a b 0 =
        (if y > 0 ∧ x > 0 then st.labels.get (x - 1) (y - 1) 0 else 0) := by
    by_cases c : y > 0 ∧ x > 0
    · rw [if_pos c]
      exact Or.inr ⟨x - 1, y - 1, by omega, by omega,
        by show (x - 1 ≤ x + 1 ∧ x ≤ x - 1 + 1) ∧ (y - 1 ≤ y + 1 ∧ y ≤ y - 1 + 1); omega, rfl⟩
    · rw [if_neg c]; exact Or.inl rfl
  have nt : (if y > 0 then st.labels.get x (y - 1) 0 else 0) = 0 ∨
      ∃ a b, a < img.w ∧ b < img.h ∧ adj8 (a, b) (x, y) ∧ st.labels.get a b 0 =
        (if y > 0 then st.labels.get x (y - 1) 0 else 0) := by
    by_cases c : y > 0
    · rw [if_pos c]
      exact Or.inr ⟨x, y - 1, hx, by omega,
        by show (x ≤ x + 1 ∧ x ≤ x + 1) ∧ (y - 1 ≤ y + 1 ∧ y ≤ y - 1 + 1); omega, rfl⟩
    · rw [if_neg c]; exact Or.inl rfl
  have ntr : (if y > 0 ∧ x < img.w - 1 then st.labels.get (x + 1) (y - 1) 0 else 0) = 0 ∨
      ∃ a b, a < img.w ∧ b < img.h ∧ adj8 (a, b) (x, y) ∧ st.labels.get a b 0 =
        (if y > 0 ∧ x < img.w - 1 then st.labels.get (x + 1) (y - 1) 0 else 0) := by
    by_cases c : y > 0 ∧ x < img.w - 1
    · rw [if_pos c]
      exact Or.inr ⟨x + 1, y - 1, by omega, by omega,
        by show (x + 1 ≤ x + 1 ∧ x ≤ x + 1 + 1) ∧ (y - 1 ≤ y + 1 ∧ y ≤ y - 1 + 1); omega, rfl⟩
    · rw [if_neg c]; exact Or.inl rfl
  have nl : (if x > 0 then st.labels.get (x - 1) y 0 else 0) = 0 ∨
      ∃ a b, a < img.w ∧ b < img.h ∧ adj8 (a, b) (x, y) ∧ st.labels.get a b 0 =
        (if x > 0 then st.labels.get (x - 1) y 0 else 0) := by
    by_cases c : x > 0
    · rw [if_pos c]
      exact Or.inr ⟨x - 1, y, by omega, hy,
        by show (x - 1 ≤ x + 1 ∧ x ≤ x - 1 + 1) ∧ (y ≤ y + 1 ∧ y ≤ y + 1); omega, rfl⟩
    · rw [if_neg c]; exact Or.inl rfl
  unfold labeling.visit at htab ⊢
  dsimp only at htab ⊢
  by_cases hval : img.get x y 0 = 0
  · rw [if_pos hval]
    exact ⟨h.shape, h.table, h.zero,
      fun a b ha hb hv => h.fresh a b ha hb (fun c => hv (Or.inl c)),
      fun a b ha hb hv hne => by
        rcases hv with hv | hv
        · exact h.marked a b ha hb hv hne
        · rw [hv.1, hv.2] at hne; exact absurd hval hne,
      h.support, h.same, h.carried, h.parent⟩
  · rw [if_neg hval] at htab ⊢
    generalize (if y > 0 ∧ x > 0 then st.labels.get (x - 1) (y - 1) 0 else 0) = tl
      at htab ntl ⊢
    generalize (if y > 0 then st.labels.get x (y - 1) 0 else 0) = t at htab nt ⊢
    generalize (if y > 0 ∧ x < img.w - 1 then st.labels.get (x + 1) (y - 1) 0 else 0) = tr
      at htab ntr ⊢
    generalize (if x > 0 then st.labels.get (x - 1) y 0 else 0) = l at htab nl ⊢
    by_cases hz : tl + t + tr + l = 0
    · rw [if_pos hz] at htab ⊢
      exact labeling.scan_inv_new img hd h hx hy hnv hval htab
    · rw [if_neg hz] at htab ⊢
      have hmax : Nat.max tl (Nat.max t (Nat.max tr l)) = tl ∨
          Nat.max tl (Nat.max t (Nat.max tr l)) = t ∨
          Nat.max tl (Nat.max t (Nat.max tr l)) = tr ∨
          Nat.max tl (Nat.max t (Nat.max tr l)) = l := by
        show max tl (max t (max tr l)) = tl ∨ max tl (max t (max tr l)) = t ∨
          max tl (max t (max tr l)) = tr ∨ max tl (max t (max tr l)) = l
        omega
      have hmx0 : Nat.max tl (Nat.max t (Nat.max tr l)) ≠ 0 := by
        show max tl (max t (max tr l)) ≠ 0
        omega
      generalize Nat.max tl (Nat.max t (Nat.max tr l)) = mx at htab hmax hmx0 ⊢
      have hn : ∃ a b, a < img.w ∧ b < img.h ∧ adj8 (a, b) (x, y) ∧ st.labels.get a b 0 = mx := by
        rcases hmax with e | e | e | e
        · rcases ntl with z | z
          · exact absurd (e.trans z) hmx0
          · rw [e]; exact z
        · rcases nt with z | z
          · exact absurd (e.trans z) hmx0
          · rw [e]; exact z
        · rcases ntr with z | z
          · exact absurd (e.trans z) hmx0
          · rw [e]; exact z
        · rcases nl with z | z
          · exact absurd (e.trans z) hmx0
          · rw [e]; exact z
      have step : ∀ (E : List ℕ) (v : ℕ),
          (v = 0 ∨ ∃ a b, a < img.w ∧ b < img.h ∧ adj8 (a, b) (x, y) ∧
            st.labels.get a b 0 = v) →
          (∀ i, E.getD i 0 = st.equiv.getD i 0 ∨
            (E.getD i 0 = mx ∧ i ≠ mx ∧ i ≠ 0 ∧
              ∃ a b, a < img.w ∧ b < img.h ∧ adj8 (a, b) (x, y) ∧ st.labels.get a b 0 = i)) →
          ∀ i, (if v ≠ 0 ∧ v ≠ mx then E.set v mx else E).getD i 0 = st.equiv.getD i 0 ∨
            ((if v ≠ 0 ∧ v ≠ mx then E.set v mx else E).getD i 0 = mx ∧ i ≠ mx ∧ i ≠ 0 ∧
              ∃ a b, a < img.w ∧ b < img.h ∧ adj8 (a, b) (x, y) ∧
                st.labels.get a b 0 = i) := by
        intro E v hv hE i
        rcases labeling.getD_set_if E (v ≠ 0 ∧ v ≠ mx) v mx i with e | ⟨e, hc, hvi⟩
        · rw [e]; exact hE i
        · refine Or.inr ⟨e, by rw [← hvi]; exact hc.2, by rw [← hvi]; exact hc.1, ?_⟩
          rcases hv with z | z
          · exact absurd z hc.1
          · rw [← hvi]; exact z
      exact labeling.scan_inv_join img hd h hx hy hnv hval mx _ hmx0 hn
        (step _ l nl (step _ tr ntr (step _ t nt (step _ tl ntl (fun i => Or.inl rfl))))) htab

/-- The invariant of the first pass depends on the visited pixels inside the
    image only. -/
theorem labeling.scan_inv_congr (img : img_t ℚ) {vis vis' : ℕ → ℕ → Prop}
    {st : labeling.scan_state} (h : labeling.scan_inv img vis st)
    (hv : ∀ a b, a < img.w → b < img.h → (vis a b ↔ vis' a b)) :
    labeling.scan_inv img vis' st :=
  ⟨h.shape, h.table, h.zero,
    fun a b ha hb hn => h.fresh a b ha hb (fun c => hn ((hv a b ha hb).mp c)),
    fun a b ha hb hc => h.marked a b ha hb ((hv a b ha hb).mpr hc),
    h.support, h.same, h.carried, h.parent⟩

/-- After the first pass on a single-channel image every pixel has been
    visited and the state is sound. -/
theorem labeling.first_pass_scan_inv (img : img_t ℚ) (hd : img.d = 1) :
    labeling.scan_inv img (fun _ _ => True) (labeling.first_pass img) := by
  unfold labeling.first_pass
  rw [hd]
  show labeling.scan_inv img (fun _ _ => True)
    (loop img.h (fun y st => loop img.w (fun x st => labeling.visit img x y 0 st) st)
      { labels := ((img_t.empty : img_t ℕ).resize img.w img.h 1).set_value 0,
        equiv := [0], nblabels := 0 })
  have key := loop_invariant
    (fun y (st : labeling.scan_state) => labeling.scan_inv img (fun _ b => b < y) st)
    img.h (fun y st => loop img.w (fun x st => labeling.visit img x y 0 st) st)
    { labels := ((img_t.empty : img_t ℕ).resize img.w img.h 1).set_value 0,
      equiv := [0], nblabels := 0 }
    (by
      have hz : ∀ a b, (((img_t.empty : img_t ℕ).resize img.w img.h 1).set_value 0).get a b 0
          = 0 := fun a b => img_t.set_value_get _ a b 0
      refine ⟨by rw [hd]; exact img_t.same_shape_refl _, ⟨rfl, ?_, ?_⟩, rfl, ?_, ?_, ?_, ?_, ?_, ?_⟩
      · intro i hi
        have : i = 0 := by simpa using hi
        subst this
        exact ⟨le_refl 0, le_refl 0⟩
      · intro v hv
        have := (List.mem_replicate.mp hv).2
        omega
      · intro a b _ _ _; exact hz a b
      · intro a b _ _ hv _; exact absurd hv (Nat.not_lt_zero b)
      · intro a b _ _ hne; exact absurd (hz a b) hne
      · intro a b a' b' _ _ _ _ hne _; exact absurd (hz a b) hne
      · intro l h1 h2
        change l ≤ 0 at h2
        omega
      · intro l h1 h2
        change l ≤ 0 at h2
        omega)
    (by
      intro y hy t ht
      have inner := loop_invariant
        (fun x (st : labeling.scan_state) =>
          labeling.scan_inv img (fun a b => b < y ∨ (b = y ∧ a < x)) st)
        img.w (fun x st => labeling.visit img x y 0 st) t
        (labeling.scan_inv_congr img ht (fun a b _ _ => by omega))
        (by
          intro x hx t2 ht2
          have hv := labeling.visit_scan_inv img hd ht2 hx hy (by omega)
          exact labeling.scan_inv_congr img hv (fun a b _ _ => by omega))
      exact labeling.scan_inv_congr img inner (fun a b ha _ => by omega))
  exact labeling.scan_inv_congr img key (fun a b _ hb => by simp [hb])

/-- The loop `for (i < size) im[i] = f(im[i])` pixel by pixel, for any sample type. -/
theorem img_t.update_each_read {α : Type} [Zero α] (f : α → α) (im : img_t α) (hwf : im.wf)
    (x y dd : ℕ) (hx : x < im.w) (hy : y < im.h) (hd : dd < im.d) :
    (img_t.update_each im.size (fun _ v => f v) im).get x y dd = f (im.get x y dd) := by
  have hs := img_t.update_each_same_shape im.size (fun _ v => f v) im
  unfold img_t.get
  rw [img_t.same_shape_idx hs, img_t.getI_eq, img_t.getI_eq,
    (img_t.update_each_getElem? _ _ _).2 _, if_pos (img_t.idx_lt im hx hy hd),
    List.getElem?_eq_getElem (by rw [hwf]; exact img_t.idx_lt im hx hy hd)]
  rfl

/-- Following the table from a label: the label returned by `getroot` lies
    between the label and `nblabels`, and its pixels are linked to the pixels
    of the label. -/
theorem labeling.getroot_linked (img : img_t ℚ) {vis : ℕ → ℕ → Prop}
    {st : labeling.scan_state} (h : labeling.scan_inv img vis st) (fuel : ℕ) :
    ∀ l, 1 ≤ l → l ≤ st.nblabels →
      l ≤ labeling.getroot st.equiv fuel l ∧ labeling.getroot st.equiv fuel l ≤ st.nblabels ∧
      ∀ x y x' y', x < img.w → y < img.h → x' < img.w → y' < img.h →
        st.labels.get x y 0 = l → st.labels.get x' y' 0 = labeling.getroot st.equiv fuel l →
        linked img (x, y) (x', y') := by
  induction fuel with
  | zero =>
    intro l hl1 hl2
    refine ⟨le_refl _, hl2, ?_⟩
    intro x y x' y' hx hy hx' hy' e1 e2
    exact h.same x y x' y' hx hy hx' hy' (by rw [e1]; omega) (by rw [e1, e2]; rfl)
  | succ n ih =>
    intro l hl1 hl2
    rw [labeling.getroot_succ]
    by_cases hfix : l = st.equiv.getD l 0
    · rw [if_pos hfix]
      refine ⟨le_refl _, hl2, ?_⟩
      intro x y x' y' hx hy hx' hy' e1 e2
      exact h.same x y x' y' hx hy hx' hy' (by rw [e1]; omega) (by rw [e1, e2])
    · rw [if_neg hfix]
      obtain ⟨t1, t2⟩ := h.table.2.1 l (by rw [h.table.1]; omega)
      obtain ⟨r1, r2, r3⟩ := ih (st.equiv.getD l 0) (by omega) t2
      refine ⟨le_trans t1 r1, r2, ?_⟩
      intro x y x' y' hx hy hx' hy' e1 e2
      obtain ⟨a, b, ha, hb, hab⟩ := h.carried (st.equiv.getD l 0) (by omega) t2
      exact linked_trans (h.parent l hl1 hl2 x y a b hx hy ha hb e1 hab)
        (r3 a b x' y' ha hb hx' hy' hab e2)

/-- What `labeling::labels` guarantees on a single-channel image: the label
    image has the dimensions of the input, a pixel carries a non-zero label
    exactly when it is non-zero in the input, and two pixels with the same
    non-zero label are joined by a path of 8-adjacent support pixels. -/
theorem labeling.labels_sound (img : img_t ℚ) (hd : img.d = 1) :
    (labeling.labels img).1.w = img.w ∧ (labeling.labels img).1.h = img.h ∧
    (labeling.labels img).1.d = 1 ∧ (labeling.labels img).1.wf ∧
    (∀ x y, x < img.w → y < img.h →
      ((labeling.labels img).1.get x y 0 ≠ 0 ↔ img.get x y 0 ≠ 0)) ∧
    (∀ x y x' y', x < img.w → y < img.h → x' < img.w → y' < img.h →
      (labeling.labels img).1.get x y 0 ≠ 0 →
      (labeling.labels img).1.get x y 0 = (labeling.labels img).1.get x' y' 0 →
      linked img (x, y) (x', y')) := by
  have h := labeling.first_pass_scan_inv img hd
  obtain ⟨i1, i2, i3, i4⟩ := labeling.initial_labels_spec img.w img.h img.d
  have hs := h.shape
  have lwf : (labeling.first_pass img).labels.wf := img_t.same_shape_wf hs i4
  have lw : (labeling.first_pass img).labels.w = img.w := hs.1.trans i1
  have lh : (labeling.first_pass img).labels.h = img.h := hs.2.1.trans i2
  have ld : (labeling.first_pass img).labels.d = 1 := (hs.2.2.1.trans i3).trans hd
  have hus := img_t.update_each_same_shape (labeling.first_pass img).labels.size
    (fun _ l => labeling.getroot (labeling.first_pass img).equiv
      (labeling.first_pass img).equiv.length l) (labeling.first_pass img).labels
  have hget : ∀ x y, x < img.w → y < img.h → (labeling.labels img).1.get x y 0 =
      labeling.getroot (labeling.first_pass img).equiv (labeling.first_pass img).equiv.length
        ((labeling.first_pass img).labels.get x y 0) := by
    intro x y hx hy
    exact img_t.update_each_read _ _ lwf x y 0 (by rw [lw]; exact hx) (by rw [lh]; exact hy)
      (by rw [ld]; exact Nat.one_pos)
  have hroot0 : ∀ fuel, labeling.getroot (labeling.first_pass img).equiv fuel 0 = 0 := by
    intro fuel
    cases fuel with
    | zero => rfl
    | succ n => rw [labeling.getroot_succ, if_pos h.zero.symm]
  have hle : ∀ a b, (labeling.first_pass img).labels.get a b 0 ≤
      (labeling.first_pass img).nblabels := fun a b => labeling.getI_le_of_bound h.table.2.2 _
  have hnz : ∀ x y, x < img.w → y < img.h →
      ((labeling.labels img).1.get x y 0 ≠ 0 ↔
        (labeling.first_pass img).labels.get x y 0 ≠ 0) := by
    intro x y hx hy
    rw [hget x y hx hy]
    constructor
    · intro hne h0
      rw [h0, hroot0] at hne
      exact hne rfl
    · intro hne
      have := (labeling.getroot_linked img h (labeling.first_pass img).equiv.length _
        (Nat.one_le_iff_ne_zero.mpr hne) (hle x y)).1
      omega
  refine ⟨hus.1.trans lw, hus.2.1.trans lh, hus.2.2.1.trans ld, img_t.same_shape_wf hus lwf,
    ?_, ?_⟩
  · intro x y hx hy
    rw [hnz x y hx hy]
    exact ⟨h.support x y hx hy, h.marked x y hx hy trivial⟩
  · intro x y x' y' hx hy hx' hy' hne heq
    have n1 := (hnz x y hx hy).mp hne
    have n2 := (hnz x' y' hx' hy').mp (by rw [← heq]; exact hne)
    rw [hget x y hx hy, hget x' y' hx' hy'] at heq
    obtain ⟨r1, r2, r3⟩ := labeling.getroot_linked img h (labeling.first_pass img).equiv.length _
      (Nat.one_le_iff_ne_zero.mpr n1) (hle x y)
    obtain ⟨_, _, s3⟩ := labeling.getroot_linked img h (labeling.first_pass img).equiv.length _
      (Nat.one_le_iff_ne_zero.mpr n2) (hle x' y')
    obtain ⟨a, b, ha, hb, hab⟩ := h.carried _ (by omega) r2
    exact linked_trans (r3 x y a b hx hy ha hb rfl hab)
      (linked_symm (s3 x' y' a b hx' hy' ha hb rfl (by rw [hab, heq])))

/-! ## Pruning and the components of the support -/

/-- Dividing a kernel by a non-zero number keeps its support. -/
theorem in_support_scaled (k : img_t ℚ) (hwf : k.wf) (hd : k.d = 1) (s : ℚ) (hs : s ≠ 0)
    (q : ℕ × ℕ) :
    in_support (img_t.update_each k.size (fun _ v => v / s) k) q ↔ in_support k q := by
  have hsh := img_t.update_each_same_shape k.size (fun _ v => v / s) k
  unfold in_support
  rw [hsh.1, hsh.2.1]
  constructor
  · rintro ⟨h1, h2, h3⟩
    refine ⟨h1, h2, ?_⟩
    rw [img_t.update_each_get (fun v => v / s) k hwf q.1 q.2 0 h1 h2
      (by rw [hd]; exact Nat.one_pos)] at h3
    intro h0
    rw [h0, zero_div] at h3
    exact h3 rfl
  · rintro ⟨h1, h2, h3⟩
    refine ⟨h1, h2, ?_⟩
    rw [img_t.update_each_get (fun v => v / s) k hwf q.1 q.2 0 h1 h2
      (by rw [hd]; exact Nat.one_pos)]
    exact div_ne_zero h3 hs

/-- A path in the support of the divided kernel is a path in the support of
    the kernel. -/
theorem connected8_scaled (k : img_t ℚ) (hwf : k.wf) (hd : k.d = 1) (s : ℚ) (hs : s ≠ 0)
    {p q : ℕ × ℕ} (h : connected8 (img_t.update_each k.size (fun _ v => v / s) k) p q) :
    connected8 k p q :=
  Relation.ReflTransGen.mono
    (fun _ b hab => ⟨hab.1, (in_support_scaled k hwf hd s hs b).mp hab.2⟩) h

/-- The mass that `labeling::sum` gives a label is at most the mass of any set
    of pixels that contains the pixels of the label. -/
theorem labeling.class_mass_le (k : img_t ℚ) (hd : k.d = 1) (hn : k.nonneg) (lab : img_t ℕ)
    (hlw : lab.w = k.w) (hld : lab.d = 1) (L : ℕ) (C : Finset (ℕ × ℕ))
    (hC : ∀ x y, x < k.w → y < k.h → lab.get x y 0 = L → (x, y) ∈ C) :
    labeling.sum lab k L ≤ ∑ q in C, k.get q.1 q.2 0 := by
  rw [labeling.sum_spec, ← Finset.sum_filter]
  have hsize : k.size = k.w * k.h := by unfold img_t.size; rw [hd, Nat.mul_one]
  have hidx : ∀ i, i < k.size → i % k.w < k.w ∧ i / k.w < k.h ∧
      k.idx (i % k.w) (i / k.w) 0 = i ∧ lab.idx (i % k.w) (i / k.w) 0 = i := by
    intro i hi
    rw [hsize] at hi
    have hw : 0 < k.w := by
      rcases Nat.eq_zero_or_pos k.w with h0 | h0
      · rw [h0, Nat.zero_mul] at hi; exact absurd hi (Nat.not_lt_zero _)
      · exact h0
    refine ⟨Nat.mod_lt _ hw, (Nat.div_lt_iff_lt_mul hw).mpr (by rw [Nat.mul_comm]; exact hi),
      ?_, ?_⟩
    · unfold img_t.idx
      rw [hd, Nat.one_mul, Nat.zero_add, Nat.mul_comm]
      exact Nat.mod_add_div i k.w
    · unfold img_t.idx
      rw [hld, hlw, Nat.one_mul, Nat.zero_add, Nat.mul_comm]
      exact Nat.mod_add_div i k.w
  have e1 : ∑ i in (Finset.range k.size).filter (fun i => lab.getI i = L), k.getI i =
      ∑ i in (Finset.range k.size).filter (fun i => lab.getI i = L),
        (fun q : ℕ × ℕ => k.get q.1 q.2 0) (i % k.w, i / k.w) := by
    apply Finset.sum_congr rfl
    intro i hi
    obtain ⟨_, _, h3, _⟩ := hidx i (Finset.mem_range.mp (Finset.mem_filter.mp hi).1)
    show k.getI i = k.getI (k.idx (i % k.w) (i / k.w) 0)
    rw [h3]
  have hinj : ∀ i ∈ (Finset.range k.size).filter (fun i => lab.getI i = L),
      ∀ j ∈ (Finset.range k.size).filter (fun i => lab.getI i = L),
      (fun i : ℕ => (i % k.w, i / k.w)) i = (fun i : ℕ => (i % k.w, i / k.w)) j → i = j := by
    intro i _ j _ hij
    have h1 : i % k.w = j % k.w := congrArg Prod.fst hij
    have h2 : i / k.w = j / k.w := congrArg Prod.snd hij
    rw [← Nat.mod_add_div i k.w, ← Nat.mod_add_div j k.w, h1, h2]
  have e2 := Finset.sum_image (f := fun q : ℕ × ℕ => k.get q.1 q.2 0) hinj
  rw [e1, ← e2]
  apply Finset.sum_le_sum_of_subset_of_nonneg
  · intro q hq
    obtain ⟨i, hi, rfl⟩ := Finset.mem_image.mp hq
    obtain ⟨hir, hil⟩ := Finset.mem_filter.mp hi
    obtain ⟨h1, h2, _, h4⟩ := hidx i (Finset.mem_range.mp hir)
    apply hC _ _ h1 h2
    show lab.getI (lab.idx (i % k.w) (i / k.w) 0) = L
    rw [h4]; exact hil
  · intro q _ _
    exact img_t.getI_nonneg hn _

/-- A set of pixels that is closed under the steps to adjacent support pixels
    contains every pixel reached from one of its pixels. -/
theorem connected8_mem_of_closed (k : img_t ℚ) (C : Finset (ℕ × ℕ)) {p q : ℕ × ℕ} (hp : p ∈ C)
    (hcl : ∀ a ∈ C, ∀ b, adj8 a b → in_support k b → b ∈ C) (h : connected8 k p q) :
    q ∈ C := by
  induction h with
  | refl => exact hp
  | @tail b c _ hstep ih => exact hcl b ih c hstep.1 hstep.2

/-- C15: for every non-negative single-channel kernel with positive sum,
    `remove_isolated_cc` sets to zero every pixel `p` of the support whose
    8-connected component holds less than 0.1 of the total kernel mass; `C` is
    that component, or any set of pixels that contains it. -/
theorem prune_zeroes_light_components (k : img_t ℚ) (hwf : k.wf) (hd : k.d = 1)
    (hn : ∀ v ∈ k.data, 0 ≤ v) (hpos : 0 < k.sum) (p : ℕ × ℕ) (hp : in_support k p)
    (C : Finset (ℕ × ℕ)) (hC : ∀ q, connected8 k p q → q ∈ C)
    (hmass : (∑ q in C, k.get q.1 q.2 0) / k.sum < 1 / 10) :
    ∃ out, utils.remove_isolated_cc k = some out ∧ out.w = k.w ∧ out.h = k.h ∧
      out.get p.1 p.2 0 = 0 := by
  have hs0 : k.sum ≠ 0 := ne_of_gt hpos
  have hdef : ∃ out, utils.remove_isolated_cc k = some out := by
    unfold utils.remove_isolated_cc
    dsimp only
    rw [if_neg (fun c => hs0 c.1)]
    exact ⟨_, rfl⟩
  obtain ⟨out, hout⟩ := hdef
  obtain ⟨_, hsh⟩ := utils.remove_isolated_cc_nonneg hn hout
  refine ⟨out, hout, hsh.1, hsh.2.1, ?_⟩
  have hsc := img_t.update_each_same_shape k.size (fun _ v => v / k.sum) k
  have swf : (img_t.update_each k.size (fun _ v => v / k.sum) k).wf :=
    img_t.same_shape_wf hsc hwf
  have sd : (img_t.update_each k.size (fun _ v => v / k.sum) k).d = 1 := hsc.2.2.1.trans hd
  have snn : (img_t.update_each k.size (fun _ v => v / k.sum) k).nonneg :=
    img_t.update_each_nonneg hn _ _ (fun _ v hv => div_nonneg hv hpos.le)
  obtain ⟨lw, lh, ld, lwf, lnz, lsame⟩ :=
    labeling.labels_sound (img_t.update_each k.size (fun _ v => v / k.sum) k) sd
  rw [hsc.1] at lw lnz lsame
  rw [hsc.2.1] at lh lnz lsame
  have hpx : p.1 < k.w := hp.1
  have hpy : p.2 < k.h := hp.2.1
  have hps : in_support (img_t.update_each k.size (fun _ v => v / k.sum) k) p :=
    (in_support_scaled k hwf hd k.sum hs0 p).mpr hp
  have hlp := (lnz p.1 p.2 hpx hpy).mpr hps.2.2
  have hi : k.idx p.1 p.2 0 < k.size := img_t.idx_lt k hpx hpy (by rw [hd]; exact Nat.one_pos)
  have hli : (labeling.labels (img_t.update_each k.size (fun _ v => v / k.sum) k)).1.idx p.1 p.2 0
      = k.idx p.1 p.2 0 := by
    unfold img_t.idx
    rw [lw, ld, hd]
  have hget := utils.remove_isolated_cc_getI hwf hout (k.idx p.1 p.2 0) hi
  have hoi : out.get p.1 p.2 0 = out.getI (k.idx p.1 p.2 0) := by
    unfold img_t.get
    rw [img_t.same_shape_idx hsh]
  rw [hoi, hget, if_pos]
  rw [← hli]
  show labeling.sum _ _
    ((labeling.labels (img_t.update_each k.size (fun _ v => v / k.sum) k)).1.get p.1 p.2 0)
      < 1 / 10
  refine lt_of_le_of_lt (labeling.class_mass_le _ sd snn _ (lw.trans hsc.1.symm) ld _ C ?_) ?_
  · intro x y hx hy hxy
    rw [hsc.1] at hx
    rw [hsc.2.1] at hy
    have hl := lsame p.1 p.2 x y hpx hpy hx hy hlp hxy.symm
    exact hC (x, y) (connected8_scaled k hwf hd k.sum hs0 hl.2.2)
  · have e : ∑ q in C, (img_t.update_each k.size (fun _ v => v / k.sum) k).get q.1 q.2 0 ≤
        ∑ q in C, k.get q.1 q.2 0 / k.sum := by
      apply Finset.sum_le_sum
      intro q _
      by_cases hq : k.idx q.1 q.2 0 < k.size
      · have e1 : (img_t.update_each k.size (fun _ v => v / k.sum) k).get q.1 q.2 0 =
            k.get q.1 q.2 0 / k.sum := by
          unfold img_t.get
          rw [img_t.same_shape_idx hsc, img_t.getI_eq, img_t.getI_eq,
            (img_t.update_each_getElem? _ _ _).2 _, if_pos hq,
            List.getElem?_eq_getElem (by rw [hwf]; exact hq)]
          rfl
        rw [e1]
      · have e1 : (img_t.update_each k.size (fun _ v => v / k.sum) k).get q.1 q.2 0 = 0 := by
          unfold img_t.get
          rw [img_t.same_shape_idx hsc, img_t.getI_eq,
            List.getElem?_eq_none (by rw [swf, img_t.same_shape_size hsc]; omega)]
          rfl
        rw [e1]
        exact div_nonneg (img_t.getI_nonneg hn _) hpos.le
    rw [← Finset.sum_div] at e
    exact lt_of_le_of_lt e hmass

theorem prune_zeroes_light_components_witness :
    ∃ out, utils.remove_isolated_cc two_cluster_window = some out ∧
      out.w = two_cluster_window.w ∧ out.h = two_cluster_window.h ∧
      out.get (4, 4).1 (4, 4).2 0 = 0 :=
  prune_zeroes_light_components two_cluster_window (by decide) rfl (by decide!) (by decide!)
    (4, 4) ⟨by decide, by decide, by decide!⟩ {(4, 4)}
    (fun q hq => connected8_mem_of_closed two_cluster_window {(4, 4)}
      (Finset.mem_singleton_self _)
      (by
        intro a ha b hadj hsup
        rw [Finset.mem_singleton] at ha ⊢
        subst ha
        obtain ⟨bx, bz⟩ := b
        have h1 : bx < 5 := hsup.1
        have h2 : bz < 5 := hsup.2.1
        have h3 : 3 ≤ bx := Nat.le_of_succ_le_succ hadj.1.1
        have h4 : 3 ≤ bz := Nat.le_of_succ_le_succ hadj.2.1
        have h5 : two_cluster_window.get bx bz 0 ≠ 0 := hsup.2.2
        interval_cases bx <;> interval_cases bz <;>
          first
          | rfl
          | exact absurd (by decide!) h5) hq)
    (by decide!)

/-- The two light pixels of the zigzag window are joined to its heavy pixel
    `(2, 1)` by a path of support pixels. -/
theorem zigzag_path : connected8 zigzag_window (0, 1) (2, 1) :=
  Relation.ReflTransGen.tail
    (Relation.ReflTransGen.single
      (⟨⟨⟨by decide, by decide⟩, ⟨by decide, by decide⟩⟩, ⟨by decide, by decide, by decide!⟩⟩ :
        adj8 (0, 1) (1, 2) ∧ in_support zigzag_window (1, 2)))
    (⟨⟨⟨by decide, by decide⟩, ⟨by decide, by decide⟩⟩, ⟨by decide, by decide, by decide!⟩⟩ :
      adj8 (1, 2) (2, 1) ∧ in_support zigzag_window (2, 1))

/-- C14: on the zigzag window, whose seven non-zero pixels form one
    8-connected component, `labeling::labels` gives the pixel `(0, 1)` the label
    3 and the pixel `(2, 1)` the label 2, although a path of non-zero pixels
    joins them: the entry `equiv[1]`, first set to 3, is overwritten by 2. -/
theorem labels_split_component :
    (labeling.first_pass zigzag_window).equiv = [0, 2, 2, 3] ∧
    (labeling.labels zigzag_window).1.get 0 1 0 = 3 ∧
    (labeling.labels zigzag_window).1.get 2 1 0 = 2 ∧
    zigzag_window.get 0 1 0 ≠ 0 ∧ zigzag_window.get 2 1 0 ≠ 0 ∧
    connected8 zigzag_window (0, 1) (2, 1) :=
  ⟨by decide!, by decide!, by decide!, by decide!, by decide!, zigzag_path⟩

/-- C16: on the zigzag window `remove_isolated_cc` zeroes the non-zero pixel
    `(0, 1)`, although its 8-connected component contains the pixel `(2, 1)`,
    which alone holds 10/52 of the kernel mass: the labeling has split the
    component and the two light pixels are summed on their own. -/
theorem prune_zeroes_heavy_component :
    ∃ out, utils.remove_isolated_cc zigzag_window = some out ∧ out.get 0 1 0 = 0 ∧
      zigzag_window.get 0 1 0 ≠ 0 ∧ (∀ v ∈ zigzag_window.data, 0 ≤ v) ∧
      0 < zigzag_window.sum ∧ connected8 zigzag_window (0, 1) (2, 1) ∧
      1 / 10 ≤ zigzag_window.get 2 1 0 / zigzag_window.sum :=
  ⟨⟨5, 5, 1, [0, 0, 10 / 52, 0, 10 / 52, 0, 0, 10 / 52, 0, 10 / 52, 0, 0, 0, 10 / 52, 0,
      0, 0, 0, 0, 0, 0, 0, 0, 0, 0]⟩,
    by decide!, by decide!, by decide!, by decide!, by decide!, zigzag_path, by decide!⟩

/-! ## The transforms -/

/-- The transform keeps the dimensions, and its sample at `(u, v, c)` is the
    DFT sum over the channel `c`. -/
theorem dft2_spec {F : Type} [Field F] (ωw ωh : F) (o : img_t F) :
    (dft2 ωw ωh o).w = o.w ∧ (dft2 ωw ωh o).h = o.h ∧ (dft2 ωw ωh o).d = o.d ∧
    (dft2 ωw ωh o).wf ∧
    ∀ u v c, u < o.w → v < o.h → c < o.d →
      (dft2 ωw ωh o).get u v c =
        ∑ y in Finset.range o.h, ∑ x in Finset.range o.w,
          o.get x y c * ωw ^ (u * x) * ωh ^ (v * y) := by
  refine ⟨rfl, rfl, rfl, ?_, ?_⟩
  · show ((List.range o.size).map _).length = o.w * o.h * o.d
    rw [List.length_map, List.length_range]
    rfl
  · intro u v c hu hv hc
    have hi : o.idx u v c < o.size := img_t.idx_lt o hu hv hc
    have h1 : (c + o.d * (u + v * o.w)) % o.d = c := by
      rw [Nat.add_mul_mod_self_left, Nat.mod_eq_of_lt hc]
    have h2 : (c + o.d * (u + v * o.w)) / o.d = u + v * o.w := by
      rw [Nat.add_mul_div_left _ _ (by omega : 0 < o.d), Nat.div_eq_of_lt hc, Nat.zero_add]
    have h3 : (u + v * o.w) % o.w = u := by
      rw [Nat.add_mul_mod_self_right, Nat.mod_eq_of_lt hu]
    have h4 : (u + v * o.w) / o.w = v := by
      rw [Nat.add_mul_div_right _ _ (by omega : 0 < o.w), Nat.div_eq_of_lt hu, Nat.zero_add]
    show ((List.range o.size).map _).getD (c + o.d * (u + v * o.w)) 0 = _
    have hi' : c + o.d * (u + v * o.w) < o.size := hi
    rw [List.getD_eq_getElem?_getD, List.getElem?_map, List.getElem?_range hi']
    simp only [Option.map_some', Option.getD_some]
    rw [h1, h2, h3, h4]

/-- The powers of a root of unity of order `n` against the powers of its
    inverse: the sum over a full period is `n` on the diagonal and 0 elsewhere. -/
theorem root_orthogonal {F : Type} [Field F] (ζ : F) (n : ℕ) (hζ : IsPrimitiveRoot ζ n)
    (x u : ℕ) (hx : x < n) (hu : u < n) :
    ∑ j in Finset.range n, ζ ^ (j * x) * ζ⁻¹ ^ (u * j) = if x = u then (n : F) else 0 := by
  have hζ0 : ζ ≠ 0 := hζ.ne_zero (by omega)
  have e : ∀ j, ζ ^ (j * x) * ζ⁻¹ ^ (u * j) = (ζ ^ x * ζ⁻¹ ^ u) ^ j := by
    intro j
    rw [mul_pow, ← pow_mul, ← pow_mul, Nat.mul_comm j x]
  rw [Finset.sum_congr rfl (fun j _ => e j)]
  by_cases hxu : x = u
  · rw [if_pos hxu, hxu, inv_pow, mul_inv_cancel₀ (pow_ne_zero u hζ0)]
    simp
  · rw [if_neg hxu]
    have hne : ζ ^ x * ζ⁻¹ ^ u ≠ 1 := by
      intro h1
      rw [inv_pow, ← div_eq_mul_inv, div_eq_one_iff_eq (pow_ne_zero u hζ0)] at h1
      exact hxu (hζ.pow_inj hx hu h1)
    have hpow : (ζ ^ x * ζ⁻¹ ^ u) ^ n = 1 := by
      rw [mul_pow, ← pow_mul, ← pow_mul, Nat.mul_comm x n, Nat.mul_comm u n, pow_mul, pow_mul,
        inv_pow, hζ.pow_eq_one]
      simp
    have hg := geom_sum_mul (ζ ^ x * ζ⁻¹ ^ u) n
    rw [hpow, sub_self] at hg
    rcases mul_eq_zero.mp hg with h0 | h0
    · exact h0
    · exact absurd (sub_eq_zero.mp h0) hne

/-- The inversion of the transform along one axis. -/
theorem dft_inv_line {F : Type} [Field F] (ζ : F) (n : ℕ) (hζ : IsPrimitiveRoot ζ n)
    (f : ℕ → F) (u : ℕ) (hu : u < n) :
    ∑ j in Finset.range n, (∑ x in Finset.range n, f x * ζ ^ (j * x)) * ζ⁻¹ ^ (u * j) =
      (n : F) * f u := by
  have e1 : ∀ j ∈ Finset.range n,
      (∑ x in Finset.range n, f x * ζ ^ (j * x)) * ζ⁻¹ ^ (u * j) =
      ∑ x in Finset.range n, f x * (ζ ^ (j * x) * ζ⁻¹ ^ (u * j)) := by
    intro j _
    rw [Finset.sum_mul]
    exact Finset.sum_congr rfl (fun x _ => mul_assoc _ _ _)
  rw [Finset.sum_congr rfl e1, Finset.sum_comm]
  have e2 : ∀ x ∈ Finset.range n,
      ∑ j in Finset.range n, f x * (ζ ^ (j * x) * ζ⁻¹ ^ (u * j)) =
      if x = u then f x * (n : F) else 0 := by
    intro x hx
    rw [← Finset.mul_sum, root_orthogonal ζ n hζ x u (Finset.mem_range.mp hx) hu]
    by_cases hxu : x = u
    · rw [if_pos hxu, if_pos hxu]
    · rw [if_neg hxu, if_neg hxu, mul_zero]
  rw [Finset.sum_congr rfl e2, Finset.sum_ite_eq' (Finset.range n) u (fun x => f x * (n : F)),
    if_pos (Finset.mem_range.mpr hu), mul_comm]

/-- The backward transform of the forward transform, before the division:
    every sample is multiplied by `w * h`. -/
theorem dft2_inv_dft2 {F : Type} [Field F] (ωw ωh : F) (o : img_t F)
    (hw : IsPrimitiveRoot ωw o.w) (hh : IsPrimitiveRoot ωh o.h) (u v c : ℕ) (hu : u < o.w)
    (hv : v < o.h) (hc : c < o.d) :
    (dft2 ωw⁻¹ ωh⁻¹ (dft2 ωw ωh o)).get u v c = ((o.w * o.h : ℕ) : F) * o.get u v c := by
  obtain ⟨y1, y2, y3, _, yg⟩ := dft2_spec ωw ωh o
  obtain ⟨_, _, _, _, zg⟩ := dft2_spec ωw⁻¹ ωh⁻¹ (dft2 ωw ωh o)
  rw [zg u v c (by rw [y1]; exact hu) (by rw [y2]; exact hv) (by rw [y3]; exact hc), y1, y2]
  have stepA : ∀ y' ∈ Finset.range o.h,
      ∑ x' in Finset.range o.w,
        (dft2 ωw ωh o).get x' y' c * ωw⁻¹ ^ (u * x') * ωh⁻¹ ^ (v * y') =
      (∑ y in Finset.range o.h, ((o.w : F) * o.get u y c) * ωh ^ (y' * y)) *
        ωh⁻¹ ^ (v * y') := by
    intro y' hy'
    rw [← Finset.sum_mul]
    congr 1
    have e1 : ∀ x' ∈ Finset.range o.w,
        (dft2 ωw ωh o).get x' y' c * ωw⁻¹ ^ (u * x') =
        ∑ y in Finset.range o.h,
          ((∑ x in Finset.range o.w, o.get x y c * ωw ^ (x' * x)) * ωw⁻¹ ^ (u * x')) *
            ωh ^ (y' * y) := by
      intro x' hx'
      rw [yg x' y' c (Finset.mem_range.mp hx') (Finset.mem_range.mp hy') hc, Finset.sum_mul]
      apply Finset.sum_congr rfl
      intro y _
      rw [← Finset.sum_mul, mul_right_comm]
    rw [Finset.sum_congr rfl e1, Finset.sum_comm]
    apply Finset.sum_congr rfl
    intro y _
    rw [← Finset.sum_mul, dft_inv_line ωw o.w hw (fun x => o.get x y c) u hu]
  rw [Finset.sum_congr rfl stepA, dft_inv_line ωh o.h hh (fun y => (o.w : F) * o.get u y c) v hv]
  push_cast
  ring

/-- C18: with the plan execution modelled as the exact unnormalized 2D DFT of
    every channel, `ifft::c2c(fft::c2c(x)) = x` for every image `x` of size
    `W x H x D` over a field with roots of unity of order `W` and `H` (the
    complex numbers): the division by `W * H` is the normalization of the
    per-channel transform. -/
theorem ifft_c2c_fft_c2c {F : Type} [Field F] (ωw ωh : F) (x : img_t F) (hwf : x.wf)
    (hw : IsPrimitiveRoot ωw x.w) (hh : IsPrimitiveRoot ωh x.h) :
    ifft.c2c ωw ωh (fft.c2c ωw ωh x) = x := by
  unfold ifft.c2c fft.c2c
  dsimp only
  obtain ⟨y1, y2, y3, _, _⟩ := dft2_spec ωw ωh x
  obtain ⟨z1, z2, z3, zwf, _⟩ := dft2_spec ωw⁻¹ ωh⁻¹ (dft2 ωw ωh x)
  have hs := img_t.update_each_same_shape (dft2 ωw⁻¹ ωh⁻¹ (dft2 ωw ωh x)).size
    (fun _ v => v / (((dft2 ωw⁻¹ ωh⁻¹ (dft2 ωw ωh x)).w *
      (dft2 ωw⁻¹ ωh⁻¹ (dft2 ωw ωh x)).h : ℕ) : F)) (dft2 ωw⁻¹ ωh⁻¹ (dft2 ωw ωh x))
  apply img_t.ext_get (img_t.same_shape_wf hs zwf) hwf (hs.1.trans (z1.trans y1))
    (hs.2.1.trans (z2.trans y2)) (hs.2.2.1.trans (z3.trans y3))
  intro u v c hu hv hc
  rw [hs.1, z1, y1] at hu
  rw [hs.2.1, z2, y2] at hv
  rw [hs.2.2.1, z3, y3] at hc
  rw [img_t.update_each_read _ _ zwf u v c (by rw [z1, y1]; exact hu) (by rw [z2, y2]; exact hv)
    (by rw [z3, y3]; exact hc), dft2_inv_dft2 ωw ωh x hw hh u v c hu hv hc, z1, z2, y1, y2]
  have hw0 : ((x.w : ℕ) : F) ≠ 0 := by
    haveI : NeZero x.w := ⟨by omega⟩
    exact (hw.neZero').out
  have hh0 : ((x.h : ℕ) : F) ≠ 0 := by
    haveI : NeZero x.h := ⟨by omega⟩
    exact (hh.neZero').out
  have hn : ((x.w * x.h : ℕ) : F) ≠ 0 := by
    rw [Nat.cast_mul]
    exact mul_ne_zero hw0 hh0
  rw [mul_div_assoc, mul_comm, div_mul_cancel₀ _ hn]

theorem ifft_c2c_fft_c2c_witness :
    ifft.c2c (-1) (-1) (fft.c2c (-1) (-1) two_channel_image) = two_channel_image :=
  ifft_c2c_fft_c2c (-1) (-1) two_channel_image (by decide)
    (IsPrimitiveRoot.neg_one 0 (by decide)) (IsPrimitiveRoot.neg_one 0 (by decide))

/-! ## The transfer function of a kernel -/

/-- The samples of the shifted transfer function of a single-channel kernel no
    larger than the image: the DFT sum of the padded kernel at the frequency
    that `fft::shift` moves to the sample. -/
theorem otf_shift_get (k : img_t ℚ) (out : img_t ℂ) (W H d : ℕ) (ωw ωh : ℂ) (hkd : k.d = 1)
    (hout : out.wf) (hw : k.w ≤ W) (hh : k.h ≤ H) :
    ∃ S, (fft.psf2otf (fun q : ℚ => (q : ℂ)) ωw ωh out k W H d).map fft.shift = some S ∧
      S.w = W ∧ S.h = H ∧ S.d = d ∧
      ∀ p q c, p < W → q < H → c < d →
        S.get p q c = ∑ y in Finset.range H, ∑ x in Finset.range W,
          ((padded_kernel k W H x y : ℚ) : ℂ) * ωw ^ (shift_source W p * x) *
            ωh ^ (shift_source H q * y) := by
  obtain ⟨r1, r2, r3, rwf⟩ := img_t.resize_spec out hout W H d
  obtain ⟨r, hr, hs, hg⟩ := img_t.padcirc_get (fun q : ℚ => (q : ℂ)) (out.resize W H d) k rwf
    (by rw [r1]; exact hw) (by rw [r2]; exact hh) (Or.inr hkd)
  rw [r1, r2, r3] at hg
  have pw : r.w = W := hs.1.trans r1
  have ph : r.h = H := hs.2.1.trans r2
  have pd : r.d = d := hs.2.2.1.trans r3
  obtain ⟨y1, y2, y3, _, yg⟩ := dft2_spec ωw ωh r
  rw [pw, ph, pd] at yg
  obtain ⟨s1, s2, s3, _, sg⟩ := fft_shift_spec (dft2 ωw ωh r)
  rw [y1, pw] at s1 sg
  rw [y2, ph] at s2 sg
  rw [y3, pd] at s3 sg
  refine ⟨fft.shift (dft2 ωw ωh r), ?_, s1, s2, s3, ?_⟩
  · unfold fft.psf2otf fft.c2c
    dsimp only
    rw [hr]
    rfl
  · intro p q c hp hq hc
    have hsp : shift_source W p < W := by unfold shift_source; split <;> omega
    have hsq : shift_source H q < H := by unfold shift_source; split <;> omega
    rw [sg p q c hp hq hc]
    show (dft2 ωw ωh r).get (shift_source W p) (shift_source H q) c = _
    rw [yg _ _ c hsp hsq hc]
    apply Finset.sum_congr rfl
    intro y hy
    apply Finset.sum_congr rfl
    intro x hx
    rw [hg x y c (Finset.mem_range.mp hx) (Finset.mem_range.mp hy) hc]
    have hod : (if d = k.d then c else 0) = 0 := by
      by_cases h1 : d = k.d
      · rw [if_pos h1]; omega
      · rw [if_neg h1]
    rw [hod]
    unfold padded_kernel
    by_cases hwr : padcirc_written W k.w x ∧ padcirc_written H k.h y
    · rw [if_pos hwr, if_pos hwr]
    · rw [if_neg hwr, if_neg hwr, Rat.cast_zero]

/-- The padded kernel has the sum of the kernel. -/
theorem padded_kernel_sum (k : img_t ℚ) (hkwf : k.wf) (hkd : k.d = 1) (W H : ℕ) (hw : k.w ≤ W)
    (hh : k.h ≤ H) :
    ∑ y in Finset.range H, ∑ x in Finset.range W, padded_kernel k W H x y = k.sum := by
  rw [img_t.sum_eq_sum_grid k hkwf hkd]
  have e1 : ∀ y ∈ Finset.range H, ∑ x in Finset.range W, padded_kernel k W H x y =
      if padcirc_written H k.h y then
        (fun y' => ∑ x in Finset.range k.w, k.get x y' 0) (padcirc_source H k.h y)
      else 0 := by
    intro y _
    by_cases hwy : padcirc_written H k.h y
    · rw [if_pos hwy]
      refine Eq.trans ?_ (padcirc_sum_line W k.w hw (fun x => k.get x (padcirc_source H k.h y) 0))
      apply Finset.sum_congr rfl
      intro x _
      unfold padded_kernel
      by_cases hwx : padcirc_written W k.w x
      · rw [if_pos ⟨hwx, hwy⟩, if_pos hwx]
      · rw [if_neg (fun c => hwx c.1), if_neg hwx]
    · rw [if_neg hwy]
      apply Finset.sum_eq_zero
      intro x _
      unfold padded_kernel
      rw [if_neg (fun c => hwy c.2)]
  exact (Finset.sum_congr rfl e1).trans
    (padcirc_sum_line H k.h hh (fun y => ∑ x in Finset.range k.w, k.get x y 0))

theorem padded_kernel_nonneg (k : img_t ℚ) (hn : ∀ v ∈ k.data, 0 ≤ v) (W H x y : ℕ) :
    0 ≤ padded_kernel k W H x y := by
  unfold padded_kernel
  split
  · exact img_t.getI_nonneg hn _
  · exact le_refl 0

theorem shift_source_center (n : ℕ) : shift_source n (n / 2) = 0 := by
  unfold shift_source
  rw [if_neg (by omega)]
  omega

/-- C19 (amended): for every single-channel kernel with non-negative entries
    that is no larger than the `W x H` image, `padcirc` followed by the forward
    FFT (`psf2otf`) and `fft::shift` yields a spectrum whose sample at the image
    center `(floor(W/2), floor(H/2))` is the kernel sum, and no sample has a
    larger magnitude. -/
theorem otf_peak_at_center (k : img_t ℚ) (out : img_t ℂ) (W H d : ℕ) (ωw ωh : ℂ)
    (hkd : k.d = 1) (hkwf : k.wf) (hn : ∀ v ∈ k.data, 0 ≤ v) (hout : out.wf) (hw : k.w ≤ W)
    (hh : k.h ≤ H) (hW : 0 < W) (hH : 0 < H) (hωw : IsPrimitiveRoot ωw W)
    (hωh : IsPrimitiveRoot ωh H) :
    ∃ S, (fft.psf2otf (fun q : ℚ => (q : ℂ)) ωw ωh out k W H d).map fft.shift = some S ∧
      ∀ c, c < d → S.get (W / 2) (H / 2) c = ((k.sum : ℚ) : ℂ) ∧
        ∀ p q, p < W → q < H → ‖S.get p q c‖ ≤ ‖S.get (W / 2) (H / 2) c‖ := by
  obtain ⟨S, hS, _, _, _, hg⟩ := otf_shift_get k out W H d ωw ωh hkd hout hw hh
  refine ⟨S, hS, ?_⟩
  intro c hc
  have hsum := padded_kernel_sum k hkwf hkd W H hw hh
  have hcenter : S.get (W / 2) (H / 2) c = ((k.sum : ℚ) : ℂ) := by
    rw [hg _ _ c (Nat.div_lt_self hW (by decide)) (Nat.div_lt_self hH (by decide)) hc,
      shift_source_center, shift_source_center, ← hsum]
    push_cast
    apply Finset.sum_congr rfl
    intro y _
    apply Finset.sum_congr rfl
    intro x _
    rw [Nat.zero_mul, Nat.zero_mul, pow_zero, pow_zero, mul_one, mul_one]
  refine ⟨hcenter, ?_⟩
  intro p q hp hq
  have nw : ‖ωw‖ = 1 := Complex.norm_eq_one_of_pow_eq_one hωw.pow_eq_one (by omega)
  have nh : ‖ωh‖ = 1 := Complex.norm_eq_one_of_pow_eq_one hωh.pow_eq_one (by omega)
  have hk0 : 0 ≤ k.sum := by
    rw [← hsum]
    exact Finset.sum_nonneg (fun y _ => Finset.sum_nonneg (fun x _ =>
      padded_kernel_nonneg k hn W H x y))
  rw [hcenter, hg p q c hp hq hc, Complex.norm_ratCast,
    abs_of_nonneg (by exact_mod_cast hk0), ← hsum]
  push_cast
  refine le_trans (norm_sum_le _ _) (Finset.sum_le_sum (fun y _ => ?_))
  refine le_trans (norm_sum_le _ _) (Finset.sum_le_sum (fun x _ => ?_))
  rw [norm_mul, norm_mul, norm_pow, norm_pow, nw, nh, one_pow, one_pow, mul_one, mul_one,
    Complex.norm_ratCast, abs_of_nonneg (by exact_mod_cast padded_kernel_nonneg k hn W H x y)]

/-- C19 (as stated) fails for a kernel with a negative entry: for the kernel
    `(1, -1)` in an image of size 2 x 1 the shifted spectrum is `(-2, 0)`, so
    the sample at the center `(1, 0)` is 0 and the sample of largest magnitude
    is at `(0, 0)`. -/
theorem otf_peak_counterexample :
    ∃ S, (fft.psf2otf (fun q : ℚ => (q : ℂ)) (-1) 1 (img_t.empty : img_t ℂ) difference_kernel
        2 1 1).map fft.shift = some S ∧
      S.get 0 0 0 = -2 ∧ S.get (2 / 2) (1 / 2) 0 = 0 ∧
      ‖S.get (2 / 2) (1 / 2) 0‖ < ‖S.get 0 0 0‖ := by
  obtain ⟨S, hS, _, _, _, hg⟩ := otf_shift_get difference_kernel (img_t.empty : img_t ℂ) 2 1 1
    (-1) 1 rfl rfl (by decide) (by decide)
  have p0 : padded_kernel difference_kernel 2 1 0 0 = -1 := by decide!
  have p1 : padded_kernel difference_kernel 2 1 1 0 = 1 := by decide!
  have s0 : shift_source 2 0 = 1 := by decide
  have s1 : shift_source 2 1 = 0 := by decide
  have s2 : shift_source 1 0 = 0 := by decide
  have v0 : S.get 0 0 0 = -2 := by
    rw [hg 0 0 0 (by decide) (by decide) (by decide)]
    simp only [Finset.sum_range_succ, Finset.sum_range_zero, p0, p1, s0, s2]
    norm_num
  have v1 : S.get (2 / 2) (1 / 2) 0 = 0 := by
    rw [hg (2 / 2) (1 / 2) 0 (by decide) (by decide) (by decide)]
    simp only [Finset.sum_range_succ, Finset.sum_range_zero, p0, p1, s1, s2,
      show (2 / 2 : ℕ) = 1 from rfl, show (1 / 2 : ℕ) = 0 from rfl]
    norm_num
  refine ⟨S, hS, v0, v1, ?_⟩
  rw [v0, v1]
  norm_num

theorem otf_peak_at_center_witness :
    ∃ S, (fft.psf2otf (fun q : ℚ => (q : ℂ)) (-1) 1 (img_t.empty : img_t ℂ) average_kernel
        2 1 1).map fft.shift = some S ∧
      ∀ c, c < 1 → S.get (2 / 2) (1 / 2) c = ((average_kernel.sum : ℚ) : ℂ) ∧
        ∀ p q, p < 2 → q < 1 → ‖S.get p q c‖ ≤ ‖S.get (2 / 2) (1 / 2) c‖ :=
  otf_peak_at_center average_kernel (img_t.empty : img_t ℂ) 2 1 1 (-1) 1 rfl (by decide)
    (by decide!) rfl (by decide) (by decide) (by decide) (by decide)
    (IsPrimitiveRoot.neg_one 0 (by decide)) IsPrimitiveRoot.one

/-! ## `fft::shift` as a rotation -/

/-- The sample that `fft::shift` moves to the wrapped column `(x + n/2) mod n`
    is the column `x`. -/
theorem shift_source_target (n x : ℕ) (hx : x < n) :
    (x + n / 2) % n < n ∧ shift_source n ((x + n / 2) % n) = x := by
  refine ⟨Nat.mod_lt _ (by omega), ?_⟩
  unfold shift_source
  by_cases h : x + n / 2 < n
  · rw [Nat.mod_eq_of_lt h, if_neg (by omega)]
    omega
  · have e : (x + n / 2) % n = x + n / 2 - n := by
      rw [Nat.mod_eq_sub_mod (by omega), Nat.mod_eq_of_lt (by omega)]
    rw [e, if_pos (by omega)]
    omega

/-- C29: for every image of size `W x H` with `W, H >= 1`, `fft::shift` moves
    the sample at `(0, 0)` to `(floor(W/2), floor(H/2))`, and
    `fft::shift(in)((x + floor(W/2)) mod W, (y + floor(H/2)) mod H, l) = in(x, y, l)`
    for all pixels and channels. -/
theorem fft_shift_rotation {α : Type} [Zero α] (inp : img_t α) (hW : 1 ≤ inp.w) (hH : 1 ≤ inp.h) :
    (∀ l, l < inp.d → (fft.shift inp).get (inp.w / 2) (inp.h / 2) l = inp.get 0 0 l) ∧
    ∀ x y l, x < inp.w → y < inp.h → l < inp.d →
      (fft.shift inp).get ((x + inp.w / 2) % inp.w) ((y + inp.h / 2) % inp.h) l =
        inp.get x y l := by
  obtain ⟨_, _, _, _, hg⟩ := fft_shift_spec inp
  have main : ∀ x y l, x < inp.w → y < inp.h → l < inp.d →
      (fft.shift inp).get ((x + inp.w / 2) % inp.w) ((y + inp.h / 2) % inp.h) l =
        inp.get x y l := by
    intro x y l hx hy hl
    obtain ⟨tx, sx⟩ := shift_source_target inp.w x hx
    obtain ⟨ty, sy⟩ := shift_source_target inp.h y hy
    rw [hg _ _ l tx ty hl]
    show inp.get (shift_source inp.w ((x + inp.w / 2) % inp.w))
      (shift_source inp.h ((y + inp.h / 2) % inp.h)) l = _
    rw [sx, sy]
  refine ⟨?_, main⟩
  intro l hl
  have e := main 0 0 l (by omega) (by omega) hl
  rw [Nat.zero_add, Nat.zero_add, Nat.mod_eq_of_lt (Nat.div_lt_self (by omega) (by decide)),
    Nat.mod_eq_of_lt (Nat.div_lt_self (by omega) (by decide))] at e
  exact e

theorem fft_shift_rotation_witness :
    (∀ l, l < two_channel_image.d →
      (fft.shift two_channel_image).get (two_channel_image.w / 2) (two_channel_image.h / 2) l =
        two_channel_image.get 0 0 l) ∧
    ∀ x y l, x < two_channel_image.w → y < two_channel_image.h → l < two_channel_image.d →
      (fft.shift two_channel_image).get ((x + two_channel_image.w / 2) % two_channel_image.w)
        ((y + two_channel_image.h / 2) % two_channel_image.h) l = two_channel_image.get x y l :=
  fft_shift_rotation two_channel_image (by decide) (by decide)

/-! ## The sharp image predictor -/

/-- C24: the result of `L0ImagePredictor::operator()` does not depend on the
    incoming value of its argument `u`: two calls that differ only in the
    contents or the dimensions of `u` return the same state, since `u` is
    overwritten with `v` before the loop and nothing reads it before. -/
theorem predictor_ignores_incoming_u (step : img_t ℚ → ℚ → ℚ → img_t ℚ → img_t ℚ)
    (v : img_t ℚ) (fuel : ℕ) (u1 u2 K : img_t ℚ) (lambda beta_init beta_rate beta_max : ℚ) :
    L0ImagePredictor.call step v fuel u1 K lambda beta_init beta_rate beta_max =
      L0ImagePredictor.call step v fuel u2 K lambda beta_init beta_rate beta_max := by
  unfold L0ImagePredictor.call
  rfl

namespace L0ImagePredictor

/-- The loop leaves after `n` passes when `beta * beta_rate^n` is the first
    value of the schedule that is not below `beta_max`. -/
theorem while_loop_exit (step : img_t ℚ → ℚ → ℚ → img_t ℚ → img_t ℚ) (K : img_t ℚ)
    (lambda beta_rate beta_max : ℚ) (n : ℕ) :
    ∀ (fuel : ℕ) (st : state), n ≤ fuel →
      (∀ m, m < n → st.beta * beta_rate ^ m < beta_max) →
      beta_max ≤ st.beta * beta_rate ^ n →
      ∃ out, while_loop step K lambda beta_rate beta_max fuel st = some out ∧
        out.iterations = st.iterations + n ∧ out.beta = st.beta * beta_rate ^ n ∧
        (n = 0 → out.u = st.u) := by
  induction n with
  | zero =>
    intro fuel st _ _ hge
    rw [pow_zero, mul_one] at hge
    refine ⟨st, ?_, rfl, by rw [pow_zero, mul_one], fun _ => rfl⟩
    cases fuel with
    | zero => unfold while_loop; rw [if_neg (not_lt.mpr hge)]
    | succ f => unfold while_loop; rw [if_neg (not_lt.mpr hge)]
  | succ n ih =>
    intro fuel st hfuel hlt hge
    cases fuel with
    | zero => omega
    | succ f =>
      have h0 : st.beta < beta_max := by
        have := hlt 0 (Nat.succ_pos n)
        rwa [pow_zero, mul_one] at this
      obtain ⟨out, ho, hi, hb, _⟩ := ih f
        { u := step K lambda st.beta st.u, beta := st.beta * beta_rate,
          iterations := st.iterations + 1 } (by omega)
        (by
          intro m hm
          have := hlt (m + 1) (by omega)
          rw [pow_succ'] at this
          rw [mul_assoc]
          exact this)
        (by
          rw [pow_succ'] at hge
          rw [mul_assoc]
          exact hge)
      refine ⟨out, ?_, ?_, ?_, fun h => absurd h (Nat.succ_ne_zero n)⟩
      · rw [while_loop, if_pos h0]
        exact ho
      · rw [hi]
        show st.iterations + 1 + n = st.iterations + (n + 1)
        omega
      · rw [hb]
        show st.beta * beta_rate * beta_rate ^ n = st.beta * beta_rate ^ (n + 1)
        rw [pow_succ']
        ring

end L0ImagePredictor

/-- C30: for every `beta_init > 0`, `beta_rate > 1` and `beta_max` (and an odd
    kernel, which the assertions ask for), the `while` loop of
    `L0ImagePredictor::operator()` terminates after exactly `n` passes, where `n`
    is the least number with `beta_init * beta_rate^n >= beta_max`; for
    `beta_init >= beta_max` it makes no pass and returns `u = v`; with
    `beta_init = 2*lambda`, rate 2, `beta_max = 1e5` and `lambda = 4e-3` it makes
    24 passes. -/
theorem predictor_iterations (step : img_t ℚ → ℚ → ℚ → img_t ℚ → img_t ℚ) (v u K : img_t ℚ)
    (lambda beta_init beta_rate beta_max : ℚ) (hK : K.w % 2 = 1 ∧ K.h % 2 = 1)
    (hb : 0 < beta_init) (hr : 1 < beta_rate) :
    ∃ n, beta_max ≤ beta_init * beta_rate ^ n ∧
      (∀ m, m < n → beta_init * beta_rate ^ m < beta_max) ∧
      (∀ fuel, n ≤ fuel → ∃ out,
        L0ImagePredictor.call step v fuel u K lambda beta_init beta_rate beta_max = some out ∧
        out.iterations = n ∧ (n = 0 → out.u = v)) ∧
      (beta_max ≤ beta_init → n = 0) ∧
      (lambda = 4 / 1000 → beta_init = 2 * lambda → beta_rate = 2 → beta_max = 100000 →
        n = 24) := by
  have hex : ∃ n, beta_max ≤ beta_init * beta_rate ^ n := by
    obtain ⟨n, hn⟩ := pow_unbounded_of_one_lt (beta_max / beta_init) hr
    refine ⟨n, le_of_lt ?_⟩
    rw [div_lt_iff₀ hb] at hn
    rw [mul_comm]
    exact hn
  classical
  have hmin : ∀ m, m < Nat.find hex → beta_init * beta_rate ^ m < beta_max :=
    fun m hm => not_le.mp (Nat.find_min hex hm)
  refine ⟨Nat.find hex, Nat.find_spec hex, hmin, ?_, ?_, ?_⟩
  · intro fuel hfuel
    obtain ⟨out, ho, hi, _, hu⟩ := L0ImagePredictor.while_loop_exit step K lambda beta_rate
      beta_max (Nat.find hex) fuel { u := v, beta := beta_init, iterations := 0 } hfuel hmin
      (Nat.find_spec hex)
    refine ⟨out, ?_, by rw [hi]; exact Nat.zero_add _, hu⟩
    unfold L0ImagePredictor.call
    rw [if_neg (by omega)]
    exact ho
  · intro hge
    by_contra hne
    have := hmin 0 (Nat.pos_of_ne_zero hne)
    rw [pow_zero, mul_one] at this
    exact absurd hge (not_le.mpr this)
  · intro e1 e2 e3 e4
    have hle : Nat.find hex ≤ 24 := by
      apply Nat.find_min' hex
      rw [e2, e1, e3, e4]
      norm_num
    have hge : 24 ≤ Nat.find hex := by
      by_contra hlt
      have h1 := Nat.find_spec hex
      have h2 : beta_rate ^ Nat.find hex ≤ beta_rate ^ 23 :=
        pow_le_pow_right₀ hr.le (by omega)
      have h3 : beta_init * beta_rate ^ 23 < beta_max := by
        rw [e2, e1, e3, e4]
        norm_num
      have h4 : beta_init * beta_rate ^ Nat.find hex ≤ beta_init * beta_rate ^ 23 :=
        mul_le_mul_of_nonneg_left h2 hb.le
      linarith
    omega

theorem predictor_iterations_witness :
    ∃ n, (100000 : ℚ) ≤ 2 * (4 / 1000) * 2 ^ n ∧
      (∀ m, m < n → 2 * (4 / 1000) * 2 ^ m < (100000 : ℚ)) ∧
      (∀ fuel, n ≤ fuel → ∃ out,
        L0ImagePredictor.call (fun _ _ _ x => x) mixed_window fuel lopsided_window corner_window
          (4 / 1000) (2 * (4 / 1000)) 2 100000 = some out ∧
        out.iterations = n ∧ (n = 0 → out.u = mixed_window)) ∧
      ((100000 : ℚ) ≤ 2 * (4 / 1000) → n = 0) ∧
      ((4 / 1000 : ℚ) = 4 / 1000 → (2 * (4 / 1000) : ℚ) = 2 * (4 / 1000) → (2 : ℚ) = 2 →
        (100000 : ℚ) = 100000 → n = 24) :=
  predictor_iterations (fun _ _ _ x => x) mixed_window lopsided_window corner_window
    (4 / 1000) (2 * (4 / 1000)) 2 100000 ⟨by decide, by decide⟩ (by norm_num) (by norm_num)

/-! ## The command line -/

/-- C23 (amended): `parse_args` and `main` end with the exit code 1 exactly
    when the argument parser throws a `ParseError` or a `ValidationError`; every
    `ks` that the parser accepts, odd or even, is handed on unchanged to
    `preprocess_image` and to the estimation. -/
theorem main_passes_ks_on :
    (∀ cli, estimate_kernel.main cli = Except.error 1 ↔
      (cli = parse_outcome.parse_error ∨ cli = parse_outcome.validation_error)) ∧
    ∀ o : options, estimate_kernel.main (parse_outcome.values o) =
      Except.ok { preprocess_ks := o.ks, estimation_ks := o.ks, multiscale := o.multiscale } := by
  constructor
  · intro cli
    cases cli with
    | help =>
      constructor
      · intro h
        have : (0 : ℕ) = 1 := Except.error.inj h
        omega
      · rintro (h | h) <;> cases h
    | parse_error => exact ⟨fun _ => Or.inl rfl, fun _ => rfl⟩
    | validation_error => exact ⟨fun _ => Or.inr rfl, fun _ => rfl⟩
    | values o =>
      constructor
      · intro h
        cases h
      · rintro (h | h) <;> cases h
  · intro o
    rfl

/-- C23 (as stated) fails: the command line with `ks = 4` is no error for
    `parse_args` and `main`, which hand the even `ks` on to `preprocess_image`
    and to the estimation. -/
theorem even_ks_counterexample :
    even_options.ks % 2 = 0 ∧
    parse_args (parse_outcome.values even_options) = Except.ok even_options ∧
    estimate_kernel.main (parse_outcome.values even_options) =
      Except.ok { preprocess_ks := 4, estimation_ks := 4, multiscale := true } ∧
    estimate_kernel.main (parse_outcome.values even_options) ≠ Except.error 1 := by
  refine ⟨by decide, rfl, rfl, ?_⟩
  intro h
  cases h

/-! ## The upsampling in the scale loop -/

theorem img_t.resize_dims {α : Type} [Zero α] (im : img_t α) (w h d : ℕ) :
    (im.resize w h d).w = w ∧ (im.resize w h d).h = h ∧ (im.resize w h d).d = d := by
  unfold img_t.resize
  by_cases hc : im.w ≠ w ∨ im.h ≠ h ∨ im.d ≠ d
  · rw [if_pos hc]
    exact ⟨rfl, rfl, rfl⟩
  · rw [if_neg hc]
    have h1 : im.w = w := by by_contra h; exact hc (Or.inl h)
    have h2 : im.h = h := by by_contra h; exact hc (Or.inr (Or.inl h))
    have h3 : im.d = d := by by_contra h; exact hc (Or.inr (Or.inr h))
    exact ⟨h1, h2, h3⟩

/-- The image returned by `utils::upsample` has the target width and height
    and the channels of its input, whatever `zoom2` writes. -/
theorem utils.upsample_dims
    (zoom2 : ℕ → ℕ → ℕ → ℕ → ℕ → ℚ → ℕ → List ℚ → List ℚ → List ℚ) (out inp : img_t ℚ)
    (factor : ℚ) (targetw targeth interp : ℕ) :
    (utils.upsample zoom2 out inp factor targetw targeth interp).w = targetw ∧
    (utils.upsample zoom2 out inp factor targetw targeth interp).h = targeth ∧
    (utils.upsample zoom2 out inp factor targetw targeth interp).d = inp.d := by
  obtain ⟨h1, h2, h3⟩ := img_t.resize_dims out targetw targeth inp.d
  exact ⟨h1, h2, h3⟩

/-- The calls of `upsample` made by the first `i` passes of the scale loop. -/
theorem multiscale_upsamples_prefix (sf : ℚ) (st : pyramid_state) (i : ℕ) :
    loop i (fun i calls =>
      if st.vs.length - 1 - i > 0 then
        calls ++ [({ s := st.vs.length - 1 - i, factor := 1 / sf,
                     targetw := (st.vs.getD (st.vs.length - 1 - i - 1) (0, 0)).1,
                     targeth := (st.vs.getD (st.vs.length - 1 - i - 1) (0, 0)).2,
                     interp := 3 } : upsample_call)]
      else calls) [] =
    ((List.range i).filter (fun j => st.vs.length - 1 - j > 0)).map (fun j =>
      ({ s := st.vs.length - 1 - j, factor := 1 / sf,
         targetw := (st.vs.getD (st.vs.length - 1 - j - 1) (0, 0)).1,
         targeth := (st.vs.getD (st.vs.length - 1 - j - 1) (0, 0)).2,
         interp := 3 } : upsample_call)) := by
  induction i with
  | zero => rfl
  | succ n ih =>
    rw [loop_succ, ih, List.range_succ, List.filter_append, List.map_append]
    by_cases hc : st.vs.length - 1 - n > 0
    · have hf : List.filter (fun j => decide (st.vs.length - 1 - j > 0)) [n] = [n] :=
        List.filter_cons_of_pos (by simpa using hc)
      rw [if_pos hc, hf, List.map_singleton]
    · have hf : List.filter (fun j => decide (st.vs.length - 1 - j > 0)) [n] = [] :=
        List.filter_cons_of_neg (by simpa using hc)
      rw [if_neg hc, hf, List.map_nil, List.append_nil]

/-- C26 (amended): at every level `s > 0` of `multiscale_l0_kernel_estimation`,
    and only there, the sharp estimate `u` is upsampled with the method code 3,
    which is not the code 2 that `utils::upsample` documents as bilinear, by the
    factor `1/scalefactor`, and the result has exactly the width and height of
    the image of level `s - 1`. -/
theorem upsample_method_and_size (sf : ℚ) (st : pyramid_state) :
    (multiscale_upsamples sf st).map (fun c => c.s) =
      ((List.range st.vs.length).filter (fun j => st.vs.length - 1 - j > 0)).map
        (fun j => st.vs.length - 1 - j) ∧
    ∀ c ∈ multiscale_upsamples sf st,
      0 < c.s ∧ c.s < st.vs.length ∧ c.interp = 3 ∧ c.interp ≠ utils.upsample_default_interp ∧
      c.factor = 1 / sf ∧ (c.targetw, c.targeth) = st.vs.getD (c.s - 1) (0, 0) ∧
      ∀ (zoom2 : ℕ → ℕ → ℕ → ℕ → ℕ → ℚ → ℕ → List ℚ → List ℚ → List ℚ) (u : img_t ℚ),
        (utils.upsample zoom2 u u c.factor c.targetw c.targeth c.interp).w =
          (st.vs.getD (c.s - 1) (0, 0)).1 ∧
        (utils.upsample zoom2 u u c.factor c.targetw c.targeth c.interp).h =
          (st.vs.getD (c.s - 1) (0, 0)).2 := by
  have hdef : multiscale_upsamples sf st =
      ((List.range st.vs.length).filter (fun j => st.vs.length - 1 - j > 0)).map (fun j =>
        ({ s := st.vs.length - 1 - j, factor := 1 / sf,
           targetw := (st.vs.getD (st.vs.length - 1 - j - 1) (0, 0)).1,
           targeth := (st.vs.getD (st.vs.length - 1 - j - 1) (0, 0)).2,
           interp := 3 } : upsample_call)) :=
    multiscale_upsamples_prefix sf st st.vs.length
  rw [hdef]
  constructor
  · rw [List.map_map]
    rfl
  · intro c hc
    obtain ⟨j, hj, rfl⟩ := List.mem_map.mp hc
    have hj' := List.mem_filter.mp hj
    have hpos : st.vs.length - 1 - j > 0 := by simpa using hj'.2
    refine ⟨hpos, by show st.vs.length - 1 - j < st.vs.length; omega, rfl,
      (show (3 : ℕ) ≠ utils.upsample_default_interp by decide), rfl, rfl, ?_⟩
    intro zoom2 u
    obtain ⟨h1, h2, _⟩ := utils.upsample_dims zoom2 u u (1 / sf)
      (st.vs.getD (st.vs.length - 1 - j - 1) (0, 0)).1
      (st.vs.getD (st.vs.length - 1 - j - 1) (0, 0)).2 3
    exact ⟨h1, h2⟩

/-- C26 (as stated) fails: in the pyramid of a 1024 x 512 image with `ks = 31`
    the first call of `upsample`, at level 3, is made with the method code 3,
    while the code that `utils::upsample` documents as bilinear is 2. -/
theorem upsample_method_counterexample :
    build_pyramid 5 1024 512 { default_options with ks := 31 } = some four_level_pyramid ∧
    (multiscale_upsamples (1 / 2) four_level_pyramid).head? =
      some { s := 3, factor := 2, targetw := 256, targeth := 128, interp := 3 } ∧
    utils.upsample_default_interp = 2 ∧ (3 : ℕ) ≠ utils.upsample_default_interp := by
  refine ⟨by decide!, by decide!, rfl, by decide⟩

/-! ## Degenerate kernels, the taper weights, number parsing -/

/-- C22: on a window whose entries are all zero after clamping and
    thresholding, the sum is 0 and both `remove_isolated_cc` and
    `center_kernel` divide by it: the post-processing has no value, with and
    without the pruning step; only the final normalization leaves the zero
    kernel as it is. -/
theorem degenerate_kernel_divides :
    FourierKernelEstimator.threshold default_options (FourierKernelEstimator.clamp dark_window)
        = img_t.make 3 3 1 ∧
      (img_t.make 3 3 1 : img_t ℚ).sum = 0 ∧
      utils.remove_isolated_cc (img_t.make 3 3 1 : img_t ℚ) = none ∧
      utils.center_kernel (img_t.make 3 3 1 : img_t ℚ) = none ∧
      FourierKernelEstimator.normalize (img_t.make 3 3 1) = img_t.make 3 3 1 ∧
      FourierKernelEstimator.postprocess default_options dark_window = none ∧
      FourierKernelEstimator.postprocess { default_options with remove_isolated := false }
        dark_window = none ∧
      FourierKernelEstimator.postprocess default_options (img_t.make 3 3 1) = none ∧
      FourierKernelEstimator.postprocess { default_options with remove_isolated := false }
        (img_t.make 3 3 1) = none := by
  refine ⟨by decide!, by decide!, by decide!, by decide!, by decide!, by decide!, by decide!,
    by decide!, by decide!⟩

/-- C21: for an image of width 6 and a kernel of width 3, the column 2 has
    the weight `sin(2π/5)^2 < 1` while its mirror column 3 has the weight 1:
    the right ramp starts at `x > in.w - kernel.w`, one column late. -/
theorem edgetaper_weight_asymmetric :
    edgetaper.wx (fun t k => Real.sin ((t : ℝ) * Real.pi / ((k : ℝ) * 2 - 1)) ^ 2) 6 3 2 < 1 ∧
      edgetaper.wx (fun t k => Real.sin ((t : ℝ) * Real.pi / ((k : ℝ) * 2 - 1)) ^ 2) 6 3
        (6 - 1 - 2) = 1 := by
  unfold edgetaper.wx
  constructor
  · rw [if_pos (by norm_num)]
    have hpi := Real.pi_pos
    have hc : 0 < Real.cos (((2 : ℤ) : ℝ) * Real.pi / (((3 : ℤ) : ℝ) * 2 - 1)) := by
      apply Real.cos_pos_of_mem_Ioo
      constructor
      · push_cast
        have : (0 : ℝ) ≤ 2 * Real.pi / (3 * 2 - 1) := by positivity
        linarith
      · push_cast
        rw [div_lt_iff₀ (by norm_num)]
        linarith
    show Real.sin (((2 : ℤ) : ℝ) * Real.pi / (((3 : ℤ) : ℝ) * 2 - 1)) ^ 2 < 1
    rw [Real.sin_sq]
    nlinarith
  · rw [if_neg (by norm_num), if_neg (by norm_num)]

/-- C28: on the string `1e` the function `ParseDouble` returns 2 and stores 1,
    although `1e` is no number and its longest prefix that is one is `1`;
    `CliGetNum` accepts `1e` with the value 1. -/
theorem ParseDouble_dangling_exponent :
    cliio.ParseDouble ['1', 'e'] = (2, some 1) ∧
      cliio.is_number ['1', 'e'] = false ∧
      cliio.is_number ['1'] = true ∧
      cliio.is_number [] = false ∧
      cliio.CliGetNum ['1', 'e'] = some 1 := by
  refine ⟨by decide!, by decide, by decide, by decide, by decide!⟩

/-! ## cliio.c: the layouts of a parameter and its value -/

theorem cliio.strcspn_stop (p rest : List Char) (hp : ':' ∉ p) :
    cliio.strcspn (p ++ ':' :: rest) [':'] = p.length := by
  unfold cliio.strcspn
  induction p with
  | nil => simp
  | cons c t ih =>
    have hc : c ≠ ':' := fun h => hp (by simp [h])
    have ht : ':' ∉ t := fun h => hp (List.mem_cons_of_mem _ h)
    have h1 : (!([':'].contains c)) = true := by simp [hc]
    rw [List.cons_append, List.takeWhile_cons_of_pos (p := fun c => !([':'].contains c)) h1,
      List.length_cons, List.length_cons, ih ht]

theorem cliio.strcspn_all (p : List Char) (hp : ':' ∉ p) :
    cliio.strcspn p [':'] = p.length := by
  unfold cliio.strcspn
  induction p with
  | nil => simp
  | cons c t ih =>
    have hc : c ≠ ':' := fun h => hp (by simp [h])
    have ht : ':' ∉ t := fun h => hp (List.mem_cons_of_mem _ h)
    have h1 : (!([':'].contains c)) = true := by simp [hc]
    rw [List.takeWhile_cons_of_pos (p := fun c => !([':'].contains c)) h1, List.length_cons,
      List.length_cons, ih ht]

theorem cliio.scan_ahead_value (argv : List (List Char)) (argc : ℕ) (D : List Char)
    (fuel kread : ℕ) (arg : List Char) (h : kread < argc) (harg : argv.getD kread [] = arg)
    (h0 : cliio.char_at arg 0 ≠ cliio.NUL) (h1 : cliio.strchr D (cliio.char_at arg 0) = false) :
    cliio.scan_ahead argv argc D (fuel + 1) kread = (some arg, kread) := by
  rw [cliio.scan_ahead, if_pos h]
  simp only [harg]
  rw [if_neg h0, if_pos h1]

theorem cliio.scan_ahead_skip (argv : List (List Char)) (argc : ℕ) (D : List Char)
    (fuel kread : ℕ) (arg : List Char) (h : kread < argc) (harg : argv.getD kread [] = arg)
    (hs : cliio.char_at arg 0 = cliio.NUL ∨
      (cliio.strchr D (cliio.char_at arg 0) = true ∧ cliio.char_at arg 1 = cliio.NUL)) :
    cliio.scan_ahead argv argc D (fuel + 1) kread
      = cliio.scan_ahead argv argc D fuel (kread + 1) := by
  rw [cliio.scan_ahead, if_pos h]
  simp only [harg]
  rcases hs with h0 | ⟨h1, h2⟩
  · rw [if_pos h0]
  · by_cases h0 : cliio.char_at arg 0 = cliio.NUL
    · rw [if_pos h0]
    · rw [if_neg h0, if_neg (by simp [h1]), if_neg (by simp [h2])]

theorem cliio.getD_layout (pre layout post : List (List Char)) (j : ℕ) (hj : j < layout.length) :
    (pre ++ layout ++ post).getD (pre.length + j) [] = layout.getD j [] := by
  rw [List.getD_eq_getElem?_getD, List.getD_eq_getElem?_getD, List.append_assoc,
    List.getElem?_append_right (by omega), Nat.add_sub_cancel_left,
    List.getElem?_append_left hj]

theorem cliio.value_start (value : List Char) (hv : value ≠ []) (hv0 : value.head? ≠ some ':')
    (hvn : cliio.NUL ∉ value) :
    cliio.char_at value 0 ≠ cliio.NUL ∧ cliio.strchr [':'] (cliio.char_at value 0) = false := by
  cases value with
  | nil => exact absurd rfl hv
  | cons c t =>
    have hc : c ≠ cliio.NUL := fun h => hvn (by simp [h])
    have hc2 : c ≠ ':' := fun h => hv0 (by simp [h])
    simp [cliio.char_at, cliio.strchr, hc, hc2]

theorem cliio.char_at_append_right (p r : List Char) (j : ℕ) :
    cliio.char_at (p ++ r) (p.length + j) = cliio.char_at r j := by
  unfold cliio.char_at
  rw [List.getD_eq_getElem?_getD, List.getD_eq_getElem?_getD,
    List.getElem?_append_right (by omega), Nat.add_sub_cancel_left]

theorem cliio.char_at_end (p : List Char) (j : ℕ) :
    cliio.char_at p (p.length + j) = cliio.NUL := by
  unfold cliio.char_at
  rw [List.getD_eq_getElem?_getD, List.getElem?_eq_none (by omega)]
  rfl

/-- C27: with the delimiter `:`, a parameter name without `:` that is
    shorter than `MaxLength` and a non-empty value that does not start with
    `:`, `CliParseArglist` at the first arg of each of the five layouts
    `param:value`, `param value`, `param: value`, `param : value` and
    `param :` followed by an empty arg and `value` stores the name in `*Param`
    and the value in `*Value` and returns the index of the arg that holds the
    value, the last arg of the layout. -/
theorem CliParseArglist_layouts (MaxLength : ℕ) (param value : List Char)
    (pre post layout : List (List Char))
    (hp : ':' ∉ param) (hlen : param.length < MaxLength)
    (hv : value ≠ []) (hv0 : value.head? ≠ some ':') (hvn : cliio.NUL ∉ value)
    (hl : layout ∈ [[param ++ ':' :: value], [param, value], [param ++ [':'], value],
      [param, [':'], value], [param, [':'], [], value]]) :
    cliio.CliParseArglist MaxLength pre.length (layout.headD [])
        (pre ++ layout ++ post).length (pre ++ layout ++ post) [':']
      = (some param, some value, pre.length + layout.length - 1) := by
  obtain ⟨hs0, hs1⟩ := cliio.value_start value hv hv0 hvn
  have hcolon0 : cliio.char_at [':'] 0 ≠ cliio.NUL := by decide
  have hcolon1 : cliio.strchr [':'] (cliio.char_at [':'] 0) = true ∧
      cliio.char_at [':'] 1 = cliio.NUL := by decide
  have hempty : cliio.char_at [] 0 = cliio.NUL := by decide
  have htake : param.take (if param.length ≤ MaxLength then param.length else MaxLength)
      = param := by
    rw [if_pos (by omega), List.take_length]
  have htake2 : ∀ r : List Char,
      (param ++ r).take (if param.length ≤ MaxLength then param.length else MaxLength)
        = param := by
    intro r
    rw [if_pos (by omega), List.take_left]
  simp only [List.mem_cons, List.mem_singleton, List.not_mem_nil, or_false] at hl
  unfold cliio.CliParseArglist cliio.GetStrToken
  rcases hl with rfl | rfl | rfl | rfl | rfl
  · -- param:value
    simp only [List.headD_cons, cliio.strcspn_stop param value hp]
    rw [if_neg (by omega), htake2]
    have h1 : cliio.char_at (param ++ ':' :: value) param.length ≠ cliio.NUL := by
      have := cliio.char_at_append_right param (':' :: value) 0
      rw [Nat.add_zero] at this
      rw [this]
      exact (show (':' : Char) ≠ cliio.NUL by decide)
    have h2 : cliio.char_at (param ++ ':' :: value) (param.length + 1) ≠ cliio.NUL := by
      rw [cliio.char_at_append_right param (':' :: value) 1]
      exact hs0
    rw [if_pos (show _ ∧ _ from ⟨h1, h2⟩)]
    have hd : List.drop (param.length + 1) (param ++ ':' :: value) = value := by
      rw [List.drop_append]
      rfl
    rw [hd]
    rfl
  · -- param value
    simp only [List.headD_cons, cliio.strcspn_all param hp]
    rw [if_neg (by omega), htake]
    have h1 : ¬ (cliio.char_at param param.length ≠ cliio.NUL ∧
        cliio.char_at param (param.length + 1) ≠ cliio.NUL) := by
      intro h
      exact h.1 (cliio.char_at_end param 0)
    rw [if_neg h1]
    have hf : (pre ++ [param, value] ++ post).length - (pre.length + 1) = post.length + 1 := by
      simp only [List.length_append, List.length_cons, List.length_nil]
      omega
    have hg := cliio.getD_layout pre [param, value] post 1 (by simp)
    rw [hf, cliio.scan_ahead_value _ _ _ _ _ value
      (by simp only [List.length_append, List.length_cons, List.length_nil]; omega) hg hs0 hs1]
    rfl
  · -- param: value
    have hst := cliio.strcspn_stop param [] hp
    simp only [List.headD_cons, hst]
    rw [if_neg (by omega), htake2]
    have h1 : ¬ (cliio.char_at (param ++ [':']) param.length ≠ cliio.NUL ∧
        cliio.char_at (param ++ [':']) (param.length + 1) ≠ cliio.NUL) := by
      intro h
      apply h.2
      rw [cliio.char_at_append_right param [':'] 1]
      rfl
    rw [if_neg h1]
    have hf : (pre ++ [param ++ [':'], value] ++ post).length - (pre.length + 1)
        = post.length + 1 := by
      simp only [List.length_append, List.length_cons, List.length_nil]
      omega
    have hg := cliio.getD_layout pre [param ++ [':'], value] post 1 (by simp)
    rw [hf, cliio.scan_ahead_value _ _ _ _ _ value
      (by simp only [List.length_append, List.length_cons, List.length_nil]; omega) hg hs0 hs1]
    rfl
  · -- param : value
    simp only [List.headD_cons, cliio.strcspn_all param hp]
    rw [if_neg (by omega), htake]
    have h1 : ¬ (cliio.char_at param param.length ≠ cliio.NUL ∧
        cliio.char_at param (param.length + 1) ≠ cliio.NUL) := by
      intro h
      exact h.1 (cliio.char_at_end param 0)
    rw [if_neg h1]
    have hf : (pre ++ [param, [':'], value] ++ post).length - (pre.length + 1)
        = post.length + 1 + 1 := by
      simp only [List.length_append, List.length_cons, List.length_nil]
      omega
    have hg1 := cliio.getD_layout pre [param, [':'], value] post 1 (by simp)
    have hg2 := cliio.getD_layout pre [param, [':'], value] post 2 (by simp)
    rw [hf, cliio.scan_ahead_skip _ _ _ _ _ [':']
        (by simp only [List.length_append, List.length_cons, List.length_nil]; omega) hg1
        (Or.inr hcolon1),
      cliio.scan_ahead_value _ _ _ _ _ value
        (by simp only [List.length_append, List.length_cons, List.length_nil]; omega) hg2 hs0 hs1]
    rfl
  · -- param : "" value
    simp only [List.headD_cons, cliio.strcspn_all param hp]
    rw [if_neg (by omega), htake]
    have h1 : ¬ (cliio.char_at param param.length ≠ cliio.NUL ∧
        cliio.char_at param (param.length + 1) ≠ cliio.NUL) := by
      intro h
      exact h.1 (cliio.char_at_end param 0)
    rw [if_neg h1]
    have hf : (pre ++ [param, [':'], [], value] ++ post).length - (pre.length + 1)
        = post.length + 1 + 1 + 1 := by
      simp only [List.length_append, List.length_cons, List.length_nil]
      omega
    have hg1 := cliio.getD_layout pre [param, [':'], [], value] post 1 (by simp)
    have hg2 := cliio.getD_layout pre [param, [':'], [], value] post 2 (by simp)
    have hg3 := cliio.getD_layout pre [param, [':'], [], value] post 3 (by simp)
    rw [hf, cliio.scan_ahead_skip _ _ _ _ _ [':']
        (by simp only [List.length_append, List.length_cons, List.length_nil]; omega) hg1
        (Or.inr hcolon1),
      cliio.scan_ahead_skip _ _ _ _ _ []
        (by simp only [List.length_append, List.length_cons, List.length_nil]; omega) hg2
        (Or.inl hempty),
      cliio.scan_ahead_value _ _ _ _ _ value
        (by simp only [List.length_append, List.length_cons, List.length_nil]; omega) hg3 hs0 hs1]
    rfl

theorem CliParseArglist_layouts_witness :
    cliio.CliParseArglist 255 1 ("-D".toList) 6
        ["prog".toList, "-D".toList, ":".toList, [], "tv".toList, "in.png".toList] [':']
      = (some "-D".toList, some "tv".toList, 4) :=
  CliParseArglist_layouts 255 "-D".toList "tv".toList ["prog".toList] ["in.png".toList]
    ["-D".toList, ":".toList, [], "tv".toList] (by decide) (by decide) (by decide) (by decide)
    (by decide) (by decide)

/-! ## `add_padding` mirrors the image -/

theorem img_t.gathered_mono {α : Type} [Zero α] {tgt : ℕ → ℕ → Prop} {srcx srcy : ℕ → ℕ → ℕ}
    {vis vis2 : ℕ → ℕ → ℕ → Prop} {o0 o : img_t α}
    (h : img_t.gathered tgt srcx srcy vis o0 o)
    (hv : ∀ X Y c, X < o0.w → Y < o0.h → c < o0.d → tgt X Y → vis2 X Y c → vis X Y c) :
    img_t.gathered tgt srcx srcy vis2 o0 o :=
  ⟨h.1, h.2.1, fun X Y c hX hY hc ht hv2 => h.2.2 X Y c hX hY hc ht (hv X Y c hX hY hc ht hv2)⟩

/-- One pass of the body of a border loop: two samples of the channel `l`
    are fetched from pixels that are never written. -/
theorem img_t.gathered_step {α : Type} [Zero α] {tgt : ℕ → ℕ → Prop} {srcx srcy : ℕ → ℕ → ℕ}
    {vis vis2 : ℕ → ℕ → ℕ → Prop} {o0 o : img_t α} (hwf : o0.wf)
    (h : img_t.gathered tgt srcx srcy vis o0 o) (t1x t1y s1x s1y t2x t2y s2x s2y l : ℕ)
    (hl : l < o0.d)
    (ht1 : t1x < o0.w ∧ t1y < o0.h ∧ tgt t1x t1y ∧ srcx t1x t1y = s1x ∧ srcy t1x t1y = s1y)
    (ht2 : t2x < o0.w ∧ t2y < o0.h ∧ tgt t2x t2y ∧ srcx t2x t2y = s2x ∧ srcy t2x t2y = s2y)
    (hs1 : s1x < o0.w ∧ s1y < o0.h ∧ ¬ tgt s1x s1y)
    (hs2 : s2x < o0.w ∧ s2y < o0.h ∧ ¬ tgt s2x s2y)
    (hv : ∀ X Y c, X < o0.w → Y < o0.h → c < o0.d → tgt X Y → vis2 X Y c →
      vis X Y c ∨ (c = l ∧ ((X = t1x ∧ Y = t1y) ∨ (X = t2x ∧ Y = t2y)))) :
    img_t.gathered tgt srcx srcy vis2 o0
      ((o.set t1x t1y l (o.get s1x s1y l)).set t2x t2y l
        ((o.set t1x t1y l (o.get s1x s1y l)).get s2x s2y l)) := by
  obtain ⟨hs, hn, hg⟩ := h
  have owf := img_t.same_shape_wf hs hwf
  have s1 := img_t.same_shape_set o t1x t1y l (o.get s1x s1y l)
  have wf1 := img_t.same_shape_wf s1 owf
  have e1 : ∀ X Y c, X < o0.w → Y < o0.h → c < o0.d →
      (o.set t1x t1y l (o.get s1x s1y l)).get X Y c
        = if X = t1x ∧ Y = t1y ∧ c = l then o.get s1x s1y l else o.get X Y c := by
    intro X Y c hX _ hc
    exact img_t.get_set o owf _ (by rw [hs.1]; exact ht1.1) (by rw [hs.2.1]; exact ht1.2.1)
      (by rw [hs.2.2.1]; exact hl) (by rw [hs.1]; exact hX) (by rw [hs.2.2.1]; exact hc)
  have e2 : ∀ X Y c, X < o0.w → Y < o0.h → c < o0.d →
      ((o.set t1x t1y l (o.get s1x s1y l)).set t2x t2y l
        ((o.set t1x t1y l (o.get s1x s1y l)).get s2x s2y l)).get X Y c
        = if X = t2x ∧ Y = t2y ∧ c = l then o.get s2x s2y l
          else if X = t1x ∧ Y = t1y ∧ c = l then o.get s1x s1y l else o.get X Y c := by
    intro X Y c hX hY hc
    rw [img_t.get_set _ wf1 _ (by rw [s1.1, hs.1]; exact ht2.1)
      (by rw [s1.2.1, hs.2.1]; exact ht2.2.1) (by rw [s1.2.2.1, hs.2.2.1]; exact hl)
      (by rw [s1.1, hs.1]; exact hX) (by rw [s1.2.2.1, hs.2.2.1]; exact hc),
      e1 X Y c hX hY hc, e1 s2x s2y l hs2.1 hs2.2.1 hl]
    have : ¬ (s2x = t1x ∧ s2y = t1y ∧ l = l) := by
      intro he
      apply hs2.2.2
      rw [he.1, he.2.1]
      exact ht1.2.2.1
    rw [if_neg this]
  refine ⟨img_t.same_shape_trans (img_t.same_shape_set _ _ _ _ _)
    (img_t.same_shape_trans s1 hs), ?_, ?_⟩
  · intro X Y c hX hY hc hnt
    rw [e2 X Y c hX hY hc, if_neg, if_neg]
    · exact hn X Y c hX hY hc hnt
    · intro he
      apply hnt
      rw [he.1, he.2.1]
      exact ht1.2.2.1
    · intro he
      apply hnt
      rw [he.1, he.2.1]
      exact ht2.2.2.1
  · intro X Y c hX hY hc ht hv2
    rw [e2 X Y c hX hY hc]
    by_cases h2 : X = t2x ∧ Y = t2y ∧ c = l
    · rw [if_pos h2, h2.1, h2.2.1, h2.2.2, ht2.2.2.2.1, ht2.2.2.2.2]
      exact hn s2x s2y l hs2.1 hs2.2.1 hl hs2.2.2
    · rw [if_neg h2]
      by_cases h1 : X = t1x ∧ Y = t1y ∧ c = l
      · rw [if_pos h1, h1.1, h1.2.1, h1.2.2, ht1.2.2.2.1, ht1.2.2.2.2]
        exact hn s1x s1y l hs1.1 hs1.2.1 hl hs1.2.2
      · rw [if_neg h1]
        rcases hv X Y c hX hY hc ht hv2 with hvis | ⟨hcl, hxy⟩
        · exact hg X Y c hX hY hc ht hvis
        · rcases hxy with hxy | hxy
          · exact absurd ⟨hxy.1, hxy.2, hcl⟩ h1
          · exact absurd ⟨hxy.1, hxy.2, hcl⟩ h2

/-- A border loop nest `for (a < na) for (b < nb) for (l < nd)` whose body
    fetches the two border pixels of `(a, b)` from pixels that are never
    written: in the end every border pixel holds its source of the image the
    nest started from. -/
theorem img_t.gathered_loops {α : Type} [Zero α] (o0 : img_t α) (hwf : o0.wf) (na nb nd : ℕ)
    (hnd : nd = o0.d) (tgt : ℕ → ℕ → Prop) (srcx srcy : ℕ → ℕ → ℕ)
    (T1x T1y S1x S1y T2x T2y S2x S2y itA itB : ℕ → ℕ → ℕ)
    (hT1 : ∀ a b, a < na → b < nb → T1x a b < o0.w ∧ T1y a b < o0.h ∧
      tgt (T1x a b) (T1y a b) ∧ srcx (T1x a b) (T1y a b) = S1x a b ∧
      srcy (T1x a b) (T1y a b) = S1y a b)
    (hT2 : ∀ a b, a < na → b < nb → T2x a b < o0.w ∧ T2y a b < o0.h ∧
      tgt (T2x a b) (T2y a b) ∧ srcx (T2x a b) (T2y a b) = S2x a b ∧
      srcy (T2x a b) (T2y a b) = S2y a b)
    (hS1 : ∀ a b, a < na → b < nb → S1x a b < o0.w ∧ S1y a b < o0.h ∧
      ¬ tgt (S1x a b) (S1y a b))
    (hS2 : ∀ a b, a < na → b < nb → S2x a b < o0.w ∧ S2y a b < o0.h ∧
      ¬ tgt (S2x a b) (S2y a b))
    (hit : ∀ X Y, X < o0.w → Y < o0.h → tgt X Y → itA X Y < na ∧ itB X Y < nb ∧
      ((X = T1x (itA X Y) (itB X Y) ∧ Y = T1y (itA X Y) (itB X Y)) ∨
        (X = T2x (itA X Y) (itB X Y) ∧ Y = T2y (itA X Y) (itB X Y)))) :
    img_t.gathered tgt srcx srcy (fun _ _ _ => True) o0
      (loop na (fun a o => loop nb (fun b o => loop nd (fun l o =>
        (o.set (T1x a b) (T1y a b) l (o.get (S1x a b) (S1y a b) l)).set (T2x a b) (T2y a b) l
          ((o.set (T1x a b) (T1y a b) l (o.get (S1x a b) (S1y a b) l)).get
            (S2x a b) (S2y a b) l)) o) o) o0) := by
  subst hnd
  have outer := loop_invariant
    (fun a (o : img_t α) => img_t.gathered tgt srcx srcy (fun X Y _ => itA X Y < a) o0 o)
    na (fun a o => loop nb (fun b o => loop o0.d (fun l o =>
        (o.set (T1x a b) (T1y a b) l (o.get (S1x a b) (S1y a b) l)).set (T2x a b) (T2y a b) l
          ((o.set (T1x a b) (T1y a b) l (o.get (S1x a b) (S1y a b) l)).get
            (S2x a b) (S2y a b) l)) o) o) o0
    ⟨img_t.same_shape_refl o0, fun _ _ _ _ _ _ _ => rfl,
      fun X Y c _ _ _ _ hv => absurd hv (Nat.not_lt_zero _)⟩
    (by
      intro a ha t ht
      have middle := loop_invariant
        (fun b (o : img_t α) => img_t.gathered tgt srcx srcy
          (fun X Y _ => itA X Y < a ∨ (itA X Y = a ∧ itB X Y < b)) o0 o)
        nb (fun b o => loop o0.d (fun l o =>
          (o.set (T1x a b) (T1y a b) l (o.get (S1x a b) (S1y a b) l)).set (T2x a b) (T2y a b) l
            ((o.set (T1x a b) (T1y a b) l (o.get (S1x a b) (S1y a b) l)).get
              (S2x a b) (S2y a b) l)) o) t
        (img_t.gathered_mono ht (by
          intro X Y c _ _ _ _ hv
          rcases hv with hv | hv
          · exact hv
          · exact absurd hv.2 (Nat.not_lt_zero _)))
        (by
          intro b hb t2 ht2
          have inner := loop_invariant
            (fun l (o : img_t α) => img_t.gathered tgt srcx srcy
              (fun X Y c => itA X Y < a ∨ (itA X Y = a ∧ itB X Y < b) ∨
                (itA X Y = a ∧ itB X Y = b ∧ c < l)) o0 o)
            o0.d (fun l o =>
              (o.set (T1x a b) (T1y a b) l (o.get (S1x a b) (S1y a b) l)).set
                (T2x a b) (T2y a b) l
                ((o.set (T1x a b) (T1y a b) l (o.get (S1x a b) (S1y a b) l)).get
                  (S2x a b) (S2y a b) l)) t2
            (img_t.gathered_mono ht2 (by
              intro X Y c _ _ _ _ hv
              rcases hv with hv | hv | hv
              · exact Or.inl hv
              · exact Or.inr hv
              · exact absurd hv.2.2 (Nat.not_lt_zero _)))
            (by
              intro l hl t3 ht3
              apply img_t.gathered_step hwf ht3 _ _ _ _ _ _ _ _ l hl (hT1 a b ha hb)
                (hT2 a b ha hb) (hS1 a b ha hb) (hS2 a b ha hb)
              intro X Y c hX hY _ htg hv
              rcases hv with hv | hv | hv
              · exact Or.inl (Or.inl hv)
              · exact Or.inl (Or.inr (Or.inl hv))
              · by_cases hcl : c = l
                · right
                  refine ⟨hcl, ?_⟩
                  have := (hit X Y hX hY htg).2.2
                  rw [hv.1, hv.2.1] at this
                  exact this
                · exact Or.inl (Or.inr (Or.inr ⟨hv.1, hv.2.1, by omega⟩)))
          apply img_t.gathered_mono inner
          intro X Y c _ _ hc _ hv
          rcases hv with hv | hv
          · exact Or.inl hv
          · by_cases hb2 : itB X Y = b
            · exact Or.inr (Or.inr ⟨hv.1, hb2, hc⟩)
            · exact Or.inr (Or.inl ⟨hv.1, by omega⟩))
      apply img_t.gathered_mono middle
      intro X Y c hX hY _ htg hv
      show itA X Y < a ∨ (itA X Y = a ∧ itB X Y < nb)
      by_cases ha2 : itA X Y = a
      · exact Or.inr ⟨ha2, (hit X Y hX hY htg).2.1⟩
      · left
        have : itA X Y < a + 1 := hv
        omega)
  apply img_t.gathered_mono outer
  intro X Y c hX hY _ htg _
  exact (hit X Y hX hY htg).1

/-- Every sample of the image `add_padding` builds, for a kernel of odd width
    and height whose half sizes are smaller than the image: the sample of `f`
    at the mirrored coordinates. -/
theorem utils.add_padding_mirror {α : Type} [Zero α] (f K : img_t α)
    (hw : K.w % 2 = 1) (hh : K.h % 2 = 1) (hW : K.w / 2 < f.w) (hH : K.h / 2 < f.h) :
    (utils.add_padding f K).w = f.w + K.w - 1 ∧ (utils.add_padding f K).h = f.h + K.h - 1 ∧
    (utils.add_padding f K).d = f.d ∧
    ∀ X Y l, X < f.w + K.w - 1 → Y < f.h + K.h - 1 → l < f.d →
      (utils.add_padding f K).get X Y l
        = f.get (utils.mirror X (K.w / 2) f.w) (utils.mirror Y (K.h / 2) f.h) l := by
  obtain ⟨mw, mh, md, mwf⟩ := img_t.make_spec (α := α) (f.w + K.w - 1) (f.h + K.h - 1) f.d
  have s0 := img_t.set_value_same_shape (img_t.make (f.w + K.w - 1) (f.h + K.h - 1) f.d : img_t α) 0
  have w0 := img_t.same_shape_wf s0 mwf
  -- the copy of `_f`
  obtain ⟨s1, g1⟩ := copy_pixels_spec
    ((img_t.make (f.w + K.w - 1) (f.h + K.h - 1) f.d : img_t α).set_value 0) f
    f.w f.h f.d (K.w / 2) (K.h / 2) 0 0 w0
    (by rw [s0.1, mw]; omega) (by rw [s0.2.1, mh]; omega) (by rw [s0.2.2.1, md])
  have s1' := img_t.same_shape_trans s1 s0
  generalize hB : loop f.h (fun y o => loop f.w (fun x o => loop f.d (fun l o =>
      o.set (x + K.w / 2) (y + K.h / 2) l (f.get (x + 0) (y + 0) l)) o) o)
      ((img_t.make (f.w + K.w - 1) (f.h + K.h - 1) f.d : img_t α).set_value 0) = B at s1 g1 s1'
  have hBw : B.w = f.w + K.w - 1 := s1'.1.trans mw
  have hBh : B.h = f.h + K.h - 1 := s1'.2.1.trans mh
  have hBd : B.d = f.d := s1'.2.2.1.trans md
  have wfB : B.wf := img_t.same_shape_wf s1' mwf
  -- the rows above and below
  have hrow := img_t.gathered_loops B wfB (K.h / 2) (f.w + K.w - 1) f.d hBd.symm
    (fun _ Y => Y < K.h / 2 ∨ K.h / 2 + f.h ≤ Y) (fun X _ => X)
    (fun _ Y => if Y < K.h / 2 then 2 * (K.h / 2) - Y
      else f.h + K.h - 1 - 1 - 2 * (K.h / 2) + (f.h + K.h - 1 - 1 - Y))
    (fun _ b => b) (fun a _ => a) (fun _ b => b) (fun a _ => 2 * (K.h / 2) - a)
    (fun _ b => b) (fun a _ => f.h + K.h - 1 - 1 - a) (fun _ b => b)
    (fun a _ => f.h + K.h - 1 - 1 - 2 * (K.h / 2) + a)
    (fun _ Y => if Y < K.h / 2 then Y else f.h + K.h - 1 - 1 - Y) (fun X _ => X)
    (by
      intro a b ha hb
      dsimp only
      rw [hBw, hBh, if_pos ha]
      exact ⟨hb, by omega, Or.inl ha, rfl, rfl⟩)
    (by
      intro a b ha hb
      dsimp only
      rw [hBw, hBh, if_neg (by omega)]
      exact ⟨hb, by omega, Or.inr (by omega), rfl, by omega⟩)
    (by
      intro a b ha hb
      dsimp only
      rw [hBw, hBh]
      exact ⟨hb, by omega, by omega⟩)
    (by
      intro a b ha hb
      dsimp only
      rw [hBw, hBh]
      exact ⟨hb, by omega, by omega⟩)
    (by
      intro X Y hX hY ht
      dsimp only at ht ⊢
      rw [hBw] at hX
      rw [hBh] at hY
      by_cases hy : Y < K.h / 2
      · rw [if_pos hy]
        exact ⟨hy, hX, Or.inl ⟨rfl, rfl⟩⟩
      · rw [if_neg hy]
        exact ⟨by omega, hX, Or.inr ⟨rfl, by omega⟩⟩)
  dsimp only at hrow
  generalize hC : (loop (K.h / 2) (fun y f' => loop (f.w + K.w - 1) (fun x f' => loop f.d (fun l f' =>
        (f'.set x y l (f'.get x (2 * (K.h / 2) - y) l)).set x (f.h + K.h - 1 - 1 - y) l
          ((f'.set x y l (f'.get x (2 * (K.h / 2) - y) l)).get x
            (f.h + K.h - 1 - 1 - 2 * (K.h / 2) + y) l)) f') f') B) = Cimg at hrow
  obtain ⟨sC, nC, gC⟩ := hrow
  dsimp only at nC gC
  have hCw : Cimg.w = f.w + K.w - 1 := sC.1.trans hBw
  have hCh : Cimg.h = f.h + K.h - 1 := sC.2.1.trans hBh
  have hCd : Cimg.d = f.d := sC.2.2.1.trans hBd
  have wfC : Cimg.wf := img_t.same_shape_wf sC wfB
  -- the columns left and right
  have hcol := img_t.gathered_loops Cimg wfC (f.h + K.h - 1) (K.w / 2) f.d hCd.symm
    (fun X _ => X < K.w / 2 ∨ K.w / 2 + f.w ≤ X)
    (fun X _ => if X < K.w / 2 then 2 * (K.w / 2) - X
      else f.w + K.w - 1 - 1 - 2 * (K.w / 2) + (f.w + K.w - 1 - 1 - X))
    (fun _ Y => Y)
    (fun _ b => b) (fun a _ => a) (fun _ b => 2 * (K.w / 2) - b) (fun a _ => a)
    (fun _ b => f.w + K.w - 1 - 1 - b) (fun a _ => a)
    (fun _ b => f.w + K.w - 1 - 1 - 2 * (K.w / 2) + b) (fun a _ => a)
    (fun _ Y => Y) (fun X _ => if X < K.w / 2 then X else f.w + K.w - 1 - 1 - X)
    (by
      intro a b ha hb
      dsimp only
      rw [hCw, hCh, if_pos hb]
      exact ⟨by omega, ha, Or.inl hb, rfl, rfl⟩)
    (by
      intro a b ha hb
      dsimp only
      rw [hCw, hCh, if_neg (by omega)]
      exact ⟨by omega, ha, Or.inr (by omega), by omega, rfl⟩)
    (by
      intro a b ha hb
      dsimp only
      rw [hCw, hCh]
      exact ⟨by omega, ha, by omega⟩)
    (by
      intro a b ha hb
      dsimp only
      rw [hCw, hCh]
      exact ⟨by omega, ha, by omega⟩)
    (by
      intro X Y hX hY ht
      dsimp only at ht ⊢
      rw [hCw] at hX
      rw [hCh] at hY
      by_cases hx : X < K.w / 2
      · rw [if_pos hx]
        exact ⟨hY, hx, Or.inl ⟨rfl, rfl⟩⟩
      · rw [if_neg hx]
        exact ⟨hY, by omega, Or.inr ⟨by omega, rfl⟩⟩)
  dsimp only at hcol
  have hdef : utils.add_padding f K =
      (loop (f.h + K.h - 1) (fun y f' => loop (K.w / 2) (fun x f' => loop f.d (fun l f' =>
        (f'.set x y l (f'.get (2 * (K.w / 2) - x) y l)).set (f.w + K.w - 1 - 1 - x) y l
          ((f'.set x y l (f'.get (2 * (K.w / 2) - x) y l)).get
            (f.w + K.w - 1 - 1 - 2 * (K.w / 2) + x) y l)) f') f') Cimg) := by
    rw [← hC, ← hB]
    rfl
  rw [hdef]
  obtain ⟨sD, nD, gD⟩ := hcol
  dsimp only at nD gD
  refine ⟨sD.1.trans hCw, sD.2.1.trans hCh, sD.2.2.1.trans hCd, ?_⟩
  intro X Y l hX hY hl
  -- the sample of `B` behind a sample of the result
  have hB2 : ∀ P Q, K.w / 2 ≤ P → P < K.w / 2 + f.w → K.h / 2 ≤ Q → Q < K.h / 2 + f.h →
      B.get P Q l = f.get (P - K.w / 2) (Q - K.h / 2) l := by
    intro P Q h1 h2 h3 h4
    rw [g1 P Q l (by rw [s0.1, mw]; omega) (by rw [s0.2.1, mh]; omega)
      (by rw [s0.2.2.1, md]; exact hl)]
    rw [if_pos ⟨⟨by omega, by omega⟩, ⟨by omega, by omega⟩, hl⟩]
    rfl
  have hC2 : ∀ P, K.w / 2 ≤ P → P < K.w / 2 + f.w →
      Cimg.get P Y l = f.get (P - K.w / 2) (utils.mirror Y (K.h / 2) f.h) l := by
    intro P h1 h2
    unfold utils.mirror
    by_cases hy1 : Y < K.h / 2
    · rw [gC P Y l (by rw [hBw]; omega) (by rw [hBh]; exact hY) (by rw [hBd]; exact hl)
        (Or.inl hy1) trivial, if_pos hy1, if_pos hy1,
        hB2 P _ h1 h2 (by omega) (by omega)]
      congr 1
      omega
    · by_cases hy2 : Y < K.h / 2 + f.h
      · rw [nC P Y l (by rw [hBw]; omega) (by rw [hBh]; exact hY) (by rw [hBd]; exact hl)
          (by omega), if_neg hy1, if_pos hy2, hB2 P Y h1 h2 (by omega) hy2]
      · rw [gC P Y l (by rw [hBw]; omega) (by rw [hBh]; exact hY) (by rw [hBd]; exact hl)
          (Or.inr (by omega)) trivial, if_neg hy1, if_neg hy1, if_neg hy2,
          hB2 P _ h1 h2 (by omega) (by omega)]
        congr 1
        omega
  by_cases hx1 : X < K.w / 2
  · rw [gD X Y l (by rw [hCw]; exact hX) (by rw [hCh]; exact hY) (by rw [hCd]; exact hl)
      (Or.inl hx1) trivial, if_pos hx1, hC2 _ (by omega) (by omega)]
    unfold utils.mirror
    rw [if_pos hx1]
    congr 1
    omega
  · by_cases hx2 : X < K.w / 2 + f.w
    · rw [nD X Y l (by rw [hCw]; exact hX) (by rw [hCh]; exact hY) (by rw [hCd]; exact hl)
        (by omega), hC2 X (by omega) hx2]
      unfold utils.mirror
      rw [if_neg hx1, if_pos hx2]
    · rw [gD X Y l (by rw [hCw]; exact hX) (by rw [hCh]; exact hY) (by rw [hCd]; exact hl)
        (Or.inr (by omega)) trivial, if_neg hx1, hC2 _ (by omega) (by omega)]
      unfold utils.mirror
      rw [if_neg hx1, if_neg hx2]
      congr 1
      omega

/-- C25 (amended): for every image `f` and every kernel `K` of odd width and
    height whose half sizes are smaller than the image, `add_padding(f, K)`
    has the size `(W + kw - 1) x (H + kh - 1)`, holds `f` at the offset
    `(kw/2, kh/2)`, and is a mirror padding: every pixel holds the pixel of `f`
    at its coordinates reflected about the first or last row and column of
    `f`, the border row or column itself not being repeated. -/
theorem add_padding_mirrors {α : Type} [Zero α] (f K : img_t α)
    (hw : K.w % 2 = 1) (hh : K.h % 2 = 1) (hW : K.w / 2 < f.w) (hH : K.h / 2 < f.h) :
    ((utils.add_padding f K).w = f.w + K.w - 1 ∧ (utils.add_padding f K).h = f.h + K.h - 1) ∧
    (∀ x y l, x < f.w → y < f.h → l < f.d →
      (utils.add_padding f K).get (x + K.w / 2) (y + K.h / 2) l = f.get x y l) ∧
    ∀ X Y l, X < f.w + K.w - 1 → Y < f.h + K.h - 1 → l < f.d →
      (utils.add_padding f K).get X Y l
        = f.get (utils.mirror X (K.w / 2) f.w) (utils.mirror Y (K.h / 2) f.h) l := by
  obtain ⟨h1, h2, _, h4⟩ := utils.add_padding_mirror f K hw hh hW hH
  refine ⟨⟨h1, h2⟩, ?_, h4⟩
  intro x y l hx hy hl
  rw [h4 _ _ l (by omega) (by omega) hl]
  unfold utils.mirror
  rw [if_neg (by omega), if_pos (by omega), if_neg (by omega), if_pos (by omega),
    Nat.add_sub_cancel, Nat.add_sub_cancel]

theorem add_padding_mirrors_witness :
    ((utils.add_padding six_samples (img_t.make 3 3 1)).w
        = six_samples.w + (img_t.make 3 3 1 : img_t ℚ).w - 1 ∧
      (utils.add_padding six_samples (img_t.make 3 3 1)).h
        = six_samples.h + (img_t.make 3 3 1 : img_t ℚ).h - 1) ∧
    (∀ x y l, x < six_samples.w → y < six_samples.h → l < six_samples.d →
      (utils.add_padding six_samples (img_t.make 3 3 1)).get
        (x + (img_t.make 3 3 1 : img_t ℚ).w / 2) (y + (img_t.make 3 3 1 : img_t ℚ).h / 2) l
          = six_samples.get x y l) ∧
    ∀ X Y l, X < six_samples.w + (img_t.make 3 3 1 : img_t ℚ).w - 1 →
      Y < six_samples.h + (img_t.make 3 3 1 : img_t ℚ).h - 1 → l < six_samples.d →
      (utils.add_padding six_samples (img_t.make 3 3 1)).get X Y l
        = six_samples.get (utils.mirror X ((img_t.make 3 3 1 : img_t ℚ).w / 2) six_samples.w)
            (utils.mirror Y ((img_t.make 3 3 1 : img_t ℚ).h / 2) six_samples.h) l :=
  add_padding_mirrors six_samples (img_t.make 3 3 1) (by decide) (by decide) (by decide)
    (by decide)

/-- C25 (counterexample): for the row `1 2 3` and a kernel of size `3 x 1` the
    padded row is `2 1 2 3 2`: its first pixel, outside the interior, holds 2
    and not the nearest border pixel 1. For a single pixel 7 and the same
    kernel the padded row is `0 7 0`. -/
theorem add_padding_replication_counterexample :
    ((img_t.make 3 1 1 : img_t ℚ).w % 2 = 1 ∧ (img_t.make 3 1 1 : img_t ℚ).h % 2 = 1) ∧
      (utils.add_padding three_samples (img_t.make 3 1 1)).data = [2, 1, 2, 3, 2] ∧
      (utils.add_padding three_samples (img_t.make 3 1 1)).get 0 0 0 = 2 ∧
      three_samples.get (utils.clamped 0 ((img_t.make 3 1 1 : img_t ℚ).w / 2) three_samples.w)
        (utils.clamped 0 ((img_t.make 3 1 1 : img_t ℚ).h / 2) three_samples.h) 0 = 1 ∧
      (utils.add_padding (⟨1, 1, 1, [7]⟩ : img_t ℚ) (img_t.make 3 1 1)).data = [0, 7, 0] := by
  refine ⟨⟨by decide, by decide⟩, by decide!, by decide!, by decide!, by decide!⟩

/-! ## The folds `min()` and `max()`, the table of `labels` -/

/-- C38: for every image, `min()` is the minimum of 0 and all elements and
    `max()` is the maximum of 0 and all elements: each bounds 0 and every
    element and is 0 or an element. So `min()` of an image whose elements are
    all positive is 0, and `max()` of an image whose elements are all negative
    is 0; the image `(1, 2)` has `min() = 0` and `(-1, -3)` has `max() = 0`. -/
theorem min_max_fold_from_zero (im : img_t ℚ) :
    ((∀ v ∈ im.data, im.min ≤ v) ∧ im.min ≤ 0 ∧ (im.min = 0 ∨ im.min ∈ im.data)) ∧
    ((∀ v ∈ im.data, v ≤ im.max) ∧ 0 ≤ im.max ∧ (im.max = 0 ∨ im.max ∈ im.data)) ∧
    ((∀ v ∈ im.data, 0 < v) → im.min = 0) ∧
    ((∀ v ∈ im.data, v < 0) → im.max = 0) ∧
    two_positive_pixels.min = 0 ∧ (⟨2, 1, 1, [-1, -3]⟩ : img_t ℚ).max = 0 := by
  refine ⟨img_t.min_spec im, img_t.max_spec im, ?_, ?_, by decide!, by decide!⟩
  · intro hpos
    rcases (img_t.min_spec im).2.2 with h | h
    · exact h
    · exact absurd (img_t.min_spec im).2.1 (not_le.mpr (hpos _ h))
  · intro hneg
    rcases (img_t.max_spec im).2.2 with h | h
    · exact h
    · exact absurd (img_t.max_spec im).2.1 (not_le.mpr (hneg _ h))

/-- C39: after the first pass of `labeling::labels` the table `equiv` has the
    entries `0..nblabels`, and every entry satisfies `l <= equiv[l] <= nblabels`:
    the parent pointers only go up, so they form a forest. For every label
    `l <= nblabels`, among them every label that occurs in the image, the
    recursion of `getroot` ends within `nblabels - l + 1` calls, with the same
    result for every larger bound on its depth, and the label it returns is a
    fixed point of `equiv`. -/
theorem equiv_table_forest {α : Type} [Zero α] [DecidableEq α] (img : img_t α) :
    (labeling.first_pass img).equiv.length = (labeling.first_pass img).nblabels + 1 ∧
    (∀ l, l ≤ (labeling.first_pass img).nblabels →
      l ≤ (labeling.first_pass img).equiv.getD l 0 ∧
      (labeling.first_pass img).equiv.getD l 0 ≤ (labeling.first_pass img).nblabels) ∧
    (∀ l ∈ (labeling.first_pass img).labels.data, l ≤ (labeling.first_pass img).nblabels) ∧
    ∀ l, l ≤ (labeling.first_pass img).nblabels →
      (∀ k, labeling.getroot (labeling.first_pass img).equiv
          ((labeling.first_pass img).nblabels - l + 1 + k) l =
        labeling.getroot (labeling.first_pass img).equiv
          ((labeling.first_pass img).nblabels - l + 1) l) ∧
      (labeling.first_pass img).equiv.getD
          (labeling.getroot (labeling.first_pass img).equiv
            ((labeling.first_pass img).nblabels - l + 1) l) 0 =
        labeling.getroot (labeling.first_pass img).equiv
          ((labeling.first_pass img).nblabels - l + 1) l ∧
      labeling.getroot (labeling.first_pass img).equiv
          ((labeling.first_pass img).nblabels - l + 1) l ≤ (labeling.first_pass img).nblabels := by
  obtain ⟨hlen, hent, hlab⟩ := labeling.first_pass_table_ok img
  refine ⟨hlen, ?_, hlab, ?_⟩
  · intro l hl
    exact hent l (by omega)
  · intro l hl
    obtain ⟨h1, h2, h3⟩ := labeling.getroot_fixed hlen hent
      ((labeling.first_pass img).nblabels - l + 1) l hl (by omega)
    exact ⟨h3, h1, h2⟩

/-! ## The options across the scales -/

/-- The loop of `l0_kernel_estimation` changes no field of the options but
    `lambda`. -/
theorem l0_kernel_estimation_frame {K U : Type} (ke : K → U → options → K)
    (sp : U → K → ℚ → ℚ → U) (k : K) (u : U) (opts : options) :
    (l0_kernel_estimation ke sp k u opts).opts =
      { opts with lambda := (l0_kernel_estimation ke sp k u opts).opts.lambda } := by
  unfold l0_kernel_estimation
  dsimp only
  apply loop_invariant
    (fun _ (s : l0_state K U) => s.opts = { opts with lambda := s.opts.lambda })
  · rfl
  · intro i _ t ht
    show ({ t.opts with lambda := max (t.opts.lambda * t.opts.lambda_ratio) t.opts.lambda_min }
      : options) = _
    rw [ht]

/-- The closed form of `lambda` after `n` further updates. -/
theorem lambda_update_pow (a r m : ℚ) (hr0 : 0 < r) (hr1 : r ≤ 1) (hm : 0 < m) (j n : ℕ) :
    max (max (max (a * r ^ j) m) m * r ^ n) m = max (a * r ^ (j + n)) m := by
  rw [max_eq_left (le_max_right _ _)]
  induction n with
  | zero => rw [pow_zero, mul_one, max_eq_left (le_max_right _ _), Nat.add_zero]
  | succ n ih =>
    have hrn : 0 ≤ r ^ n := pow_nonneg hr0.le n
    have hle : m * r ^ (n + 1) ≤ m := by
      have : r ^ (n + 1) ≤ 1 := pow_le_one₀ hr0.le hr1
      nlinarith
    rw [max_mul_of_nonneg _ _ (pow_nonneg hr0.le _), max_assoc, max_eq_right hle, mul_assoc,
      ← pow_add]

/-- A rule for the do-while loop of the pyramid: `P` holds when the body is
    entered, `Q` when it is left. -/
theorem pyramid_loop_rule (sf : ℚ) (P Q : pyramid_state → Prop)
    (hbody : ∀ st, P st → Q (pyramid_body sf st))
    (hcont : ∀ st, Q st → st.vv.1 > 1 ∧ st.vv.2 > 1 ∧ st.ks ≥ 3 → P st) (fuel : ℕ) :
    ∀ (st r : pyramid_state), P st → pyramid_loop sf fuel st = some r → Q r := by
  induction fuel with
  | zero => intro st r _ h; exact absurd h (by simp [pyramid_loop])
  | succ n ih =>
    intro st r hst h
    rw [pyramid_loop_succ] at h
    have hb := hbody st hst
    split at h
    · rename_i hc
      exact ih _ r (hcont _ hb hc) h
    · simp only [Option.some.injEq] at h
      rw [← h]; exact hb

/-- The pyramid has as many kernel sizes as images, at least one, and the
    first kernel size is the one the loop was entered with. -/
theorem build_pyramid_head (fuel w h : ℕ) (opts : options) (st : pyramid_state)
    (hb : build_pyramid fuel w h opts = some st) :
    st.vs.length = st.kernelSizes.length ∧ st.kernelSizes.head? = some opts.ks ∧
    0 < st.vs.length ∧ st.kernelSizes.getD 0 0 = opts.ks := by
  have key := pyramid_loop_rule opts.scalefactor
    (fun s => s.vs.length = s.kernelSizes.length ∧
      (s.kernelSizes ++ [s.ks]).head? = some opts.ks)
    (fun s => s.vs.length = s.kernelSizes.length ∧ s.kernelSizes.head? = some opts.ks)
    (by
      intro s hs
      constructor
      · show (s.vs ++ [s.vv]).length = (s.kernelSizes ++ [s.ks]).length
        rw [List.length_append, List.length_append, hs.1]
        rfl
      · exact hs.2)
    (by
      intro s hs _
      refine ⟨hs.1, ?_⟩
      cases hk : s.kernelSizes with
      | nil => rw [hk] at hs; exact absurd hs.2 (by simp)
      | cons a t => rw [hk] at hs; simpa using hs.2)
    fuel { vs := [], kernelSizes := [], vv := (w, h), ks := opts.ks } st ⟨rfl, rfl⟩ hb
  obtain ⟨h1, h2⟩ := key
  cases hk : st.kernelSizes with
  | nil => rw [hk] at h2; exact absurd h2 (by simp)
  | cons a t =>
    rw [hk] at h1 h2
    have ha : a = opts.ks := by simpa using h2
    refine ⟨h1, by rw [ha]; rfl, by rw [h1]; simp, ?_⟩
    rw [ha]
    rfl

/-- One level of the scale loop: the options and the record it leaves. -/
theorem multiscale_level_spec {K U : Type} (vs : ℕ → U)
    (ke : ℕ → K → U → options → K) (sp : ℕ → U → K → ℚ → ℚ → U)
    (up : U → ℚ → ℕ → ℕ → ℕ → U) (st : pyramid_state) (i : ℕ) (m : multiscale_state K U)
    (hr0 : 0 < m.opts.lambda_ratio) (hr1 : m.opts.lambda_ratio ≤ 1)
    (hm : 0 < m.opts.lambda_min) :
    (multiscale_level vs ke sp up st i m).opts =
      { m.opts with
        ks := st.kernelSizes.getD (st.vs.length - 1 - i) 0,
        lambda := max (max m.opts.lambda m.opts.lambda_min *
          m.opts.lambda_ratio ^ m.opts.iterations) m.opts.lambda_min } ∧
    (multiscale_level vs ke sp up st i m).passed =
      m.passed ++ (List.range m.opts.iterations).map (fun j =>
        max (max m.opts.lambda m.opts.lambda_min * m.opts.lambda_ratio ^ j)
          m.opts.lambda_min) := by
  generalize hu0 : (if st.vs.length - 1 - i = st.vs.length - 1 then
    vs (st.vs.length - 1 - i) else m.u) = u0
  have hfr := l0_kernel_estimation_frame (ke (st.vs.length - 1 - i))
    (sp (st.vs.length - 1 - i)) m.k u0
    { m.opts with ks := st.kernelSizes.getD (st.vs.length - 1 - i) 0 }
  obtain ⟨hl, hpass⟩ := l0_kernel_estimation_spec (ke (st.vs.length - 1 - i))
    (sp (st.vs.length - 1 - i)) m.k u0
    { m.opts with ks := st.kernelSizes.getD (st.vs.length - 1 - i) 0 } hr0 hr1 hm
  constructor
  · show (l0_kernel_estimation (ke (st.vs.length - 1 - i)) (sp (st.vs.length - 1 - i))
      m.k (if st.vs.length - 1 - i = st.vs.length - 1 then vs (st.vs.length - 1 - i) else m.u)
      { m.opts with ks := st.kernelSizes.getD (st.vs.length - 1 - i) 0 }).opts = _
    rw [hu0, hfr, hl]
  · show m.passed ++ (l0_kernel_estimation (ke (st.vs.length - 1 - i))
      (sp (st.vs.length - 1 - i)) m.k
      (if st.vs.length - 1 - i = st.vs.length - 1 then vs (st.vs.length - 1 - i) else m.u)
      { m.opts with ks := st.kernelSizes.getD (st.vs.length - 1 - i) 0 }).passed = _
    rw [hu0, hpass]

/-- The state of the scale loop after all levels. -/
theorem multiscale_scale_loop_spec {K U : Type} (vs : ℕ → U)
    (ke : ℕ → K → U → options → K) (sp : ℕ → U → K → ℚ → ℚ → U)
    (up : U → ℚ → ℕ → ℕ → ℕ → U) (st : pyramid_state) (k : K) (u : U) (opts : options)
    (hr0 : 0 < opts.lambda_ratio) (hr1 : opts.lambda_ratio ≤ 1) (hm : 0 < opts.lambda_min) :
    (multiscale_scale_loop vs ke sp up st k u opts).opts =
      { opts with
        lambda := if st.vs.length = 0 then opts.lambda
          else max (max opts.lambda opts.lambda_min *
            opts.lambda_ratio ^ (st.vs.length * opts.iterations)) opts.lambda_min,
        ks := if st.vs.length = 0 then opts.ks else st.kernelSizes.getD 0 0 } ∧
    (multiscale_scale_loop vs ke sp up st k u opts).passed =
      (List.range (st.vs.length * opts.iterations)).map (fun j =>
        max (max opts.lambda opts.lambda_min * opts.lambda_ratio ^ j) opts.lambda_min) := by
  unfold multiscale_scale_loop
  have key := loop_invariant
    (fun i (m : multiscale_state K U) => i ≤ st.vs.length →
      m.opts = { opts with
        lambda := if i = 0 then opts.lambda
          else max (max opts.lambda opts.lambda_min *
            opts.lambda_ratio ^ (i * opts.iterations)) opts.lambda_min,
        ks := if i = 0 then opts.ks else st.kernelSizes.getD (st.vs.length - i) 0 } ∧
      m.passed = (List.range (i * opts.iterations)).map (fun j =>
        max (max opts.lambda opts.lambda_min * opts.lambda_ratio ^ j) opts.lambda_min))
    st.vs.length (fun i m => multiscale_level vs ke sp up st i m)
    { k := k, u := u, opts := opts, passed := [] }
    (by
      intro _
      refine ⟨rfl, ?_⟩
      rw [Nat.zero_mul]
      rfl)
    (by
      intro i hi m hmi _
      obtain ⟨ho, hp⟩ := hmi (Nat.le_of_lt hi)
      have hratio : m.opts.lambda_ratio = opts.lambda_ratio := by rw [ho]
      have hmin : m.opts.lambda_min = opts.lambda_min := by rw [ho]
      have hit : m.opts.iterations = opts.iterations := by rw [ho]
      have hlam : max m.opts.lambda opts.lambda_min =
          max (max opts.lambda opts.lambda_min * opts.lambda_ratio ^ (i * opts.iterations))
            opts.lambda_min := by
        rw [ho]
        show max (if i = 0 then opts.lambda else _) opts.lambda_min = _
        by_cases hi0 : i = 0
        · rw [if_pos hi0, hi0, Nat.zero_mul, pow_zero, mul_one,
            max_eq_left (le_max_right _ _)]
        · rw [if_neg hi0, max_eq_left (le_max_right _ _)]
      have hstep : ∀ j, max (max m.opts.lambda m.opts.lambda_min * m.opts.lambda_ratio ^ j)
          m.opts.lambda_min =
          max (max opts.lambda opts.lambda_min * opts.lambda_ratio ^ (i * opts.iterations + j))
            opts.lambda_min := by
        intro j
        rw [hratio, hmin, hlam]
        have := lambda_update_pow (max opts.lambda opts.lambda_min) opts.lambda_ratio
          opts.lambda_min hr0 hr1 hm (i * opts.iterations) j
        rw [max_eq_left (le_max_right _ _)] at this
        exact this
      obtain ⟨hl, hpass⟩ := multiscale_level_spec vs ke sp up st i m
        (by rw [hratio]; exact hr0) (by rw [hratio]; exact hr1) (by rw [hmin]; exact hm)
      show (multiscale_level vs ke sp up st i m).opts = _ ∧
        (multiscale_level vs ke sp up st i m).passed = _
      constructor
      · rw [hl, hstep, hit, if_neg (Nat.succ_ne_zero i), if_neg (Nat.succ_ne_zero i), ho,
          show st.vs.length - (i + 1) = st.vs.length - 1 - i by omega, Nat.add_mul, Nat.one_mul]
      · rw [hpass, hp, hit, Nat.add_mul, Nat.one_mul, List.range_add, List.map_append,
          List.map_map]
        congr 1
        apply List.map_congr_left
        intro j _
        exact hstep j)
  have h := key (Nat.le_refl _)
  rw [Nat.sub_self] at h
  exact h

/-- C37: `multiscale_l0_kernel_estimation` never resets `opts.lambda` between
    the scales. With `N` pyramid levels, `n` iterations per level,
    `lambda_ratio` in (0,1] and `lambda_min > 0`, the values of `lambda` handed
    to the sharp predictor over all levels are
    `max(max(lambda, lambda_min) * lambda_ratio^j, lambda_min)` for
    `j = 0 .. N*n - 1` in this order, so each level starts from the value the
    level before left; the value of `opts.lambda` on return is
    `max(max(lambda, lambda_min) * lambda_ratio^(N*n), lambda_min)`, and
    `opts.ks` on return is the `ks` passed in. -/
theorem lambda_carried_across_scales {K U : Type} (vs : ℕ → U)
    (ke : ℕ → K → U → options → K) (sp : ℕ → U → K → ℚ → ℚ → U)
    (up : U → ℚ → ℕ → ℕ → ℕ → U) (fuel w h : ℕ) (st : pyramid_state) (k : K) (u : U)
    (opts : options) (hb : build_pyramid fuel w h opts = some st)
    (hr0 : 0 < opts.lambda_ratio) (hr1 : opts.lambda_ratio ≤ 1) (hm : 0 < opts.lambda_min) :
    (multiscale_scale_loop vs ke sp up st k u opts).passed =
      (List.range (st.vs.length * opts.iterations)).map (fun j =>
        max (max opts.lambda opts.lambda_min * opts.lambda_ratio ^ j) opts.lambda_min) ∧
    (multiscale_scale_loop vs ke sp up st k u opts).opts.lambda =
      max (max opts.lambda opts.lambda_min * opts.lambda_ratio ^ (st.vs.length * opts.iterations))
        opts.lambda_min ∧
    (multiscale_scale_loop vs ke sp up st k u opts).opts.ks = opts.ks := by
  obtain ⟨ho, hp⟩ := multiscale_scale_loop_spec vs ke sp up st k u opts hr0 hr1 hm
  obtain ⟨_, _, hpos, hks⟩ := build_pyramid_head fuel w h opts st hb
  refine ⟨hp, ?_, ?_⟩
  · rw [ho]
    show (if st.vs.length = 0 then opts.lambda else _) = _
    rw [if_neg (by omega)]
  · rw [ho]
    show (if st.vs.length = 0 then opts.ks else st.kernelSizes.getD 0 0) = _
    rw [if_neg (by omega), hks]

theorem lambda_carried_across_scales_witness :
    (multiscale_scale_loop (fun _ => ()) (fun _ (k : Unit) _ _ => k) (fun _ u _ _ _ => u)
        (fun u _ _ _ _ => u) four_level_pyramid () ()
        { schedule_options with ks := 31 }).passed =
      (List.range (four_level_pyramid.vs.length *
          ({ schedule_options with ks := 31 } : options).iterations)).map (fun j =>
        max (max ({ schedule_options with ks := 31 } : options).lambda
            ({ schedule_options with ks := 31 } : options).lambda_min *
          ({ schedule_options with ks := 31 } : options).lambda_ratio ^ j)
          ({ schedule_options with ks := 31 } : options).lambda_min) ∧
    (multiscale_scale_loop (fun _ => ()) (fun _ (k : Unit) _ _ => k) (fun _ u _ _ _ => u)
        (fun u _ _ _ _ => u) four_level_pyramid () ()
        { schedule_options with ks := 31 }).opts.lambda =
      max (max ({ schedule_options with ks := 31 } : options).lambda
          ({ schedule_options with ks := 31 } : options).lambda_min *
        ({ schedule_options with ks := 31 } : options).lambda_ratio ^
          (four_level_pyramid.vs.length *
            ({ schedule_options with ks := 31 } : options).iterations))
        ({ schedule_options with ks := 31 } : options).lambda_min ∧
    (multiscale_scale_loop (fun _ => ()) (fun _ (k : Unit) _ _ => k) (fun _ u _ _ _ => u)
        (fun u _ _ _ _ => u) four_level_pyramid () ()
        { schedule_options with ks := 31 }).opts.ks =
      ({ schedule_options with ks := 31 } : options).ks :=
  lambda_carried_across_scales (fun _ => ()) (fun _ (k : Unit) _ _ => k) (fun _ u _ _ _ => u)
    (fun u _ _ _ _ => u) 5 1024 512 four_level_pyramid () () { schedule_options with ks := 31 }
    (by decide!) (by decide!) (by decide!) (by decide!)

/-! ## The kernel sizes of the pyramid stay inside the images -/

/-- With a scale factor in `(0, 2/3)` the do-while loop leaves within
    `ks - 2` passes. -/
theorem pyramid_loop_exits (sf : ℚ) (h0 : 0 < sf) (h1 : sf < 2 / 3) (n : ℕ) :
    ∀ st : pyramid_state, 3 ≤ st.ks → st.ks ≤ n + 3 →
      ∃ r, pyramid_loop sf (n + 1) st = some r := by
  induction n with
  | zero =>
    intro st h3 hle
    rw [pyramid_loop_succ]
    have hlt := pyramid_body_ks_lt sf st h0 h1 h3
    rw [if_neg (by push_cast at hle; omega)]
    exact ⟨_, rfl⟩
  | succ m ih =>
    intro st h3 hle
    rw [pyramid_loop_succ]
    have hlt := pyramid_body_ks_lt sf st h0 h1 h3
    split
    · rename_i hc
      exact ih _ hc.2.2 (by push_cast at hle ⊢; omega)
    · exact ⟨_, rfl⟩

/-- One level down with the scale factor 1/2: the next kernel size is odd and
    fits into the next image. -/
theorem pyramid_body_half (st : pyramid_state) (hodd : st.ks % 2 = 1) (h3 : 3 ≤ st.ks)
    (hw : st.ks ≤ (st.vv.1 : ℤ)) (hh : st.ks ≤ (st.vv.2 : ℤ)) :
    (pyramid_body (1 / 2) st).ks % 2 = 1 ∧
    (pyramid_body (1 / 2) st).ks ≤ ((pyramid_body (1 / 2) st).vv.1 : ℤ) ∧
    (pyramid_body (1 / 2) st).ks ≤ ((pyramid_body (1 / 2) st).vv.2 : ℤ) := by
  obtain ⟨hnext, hnn, hle⟩ := pyramid_body_ks (1 / 2) st (by norm_num) (by omega)
  have hkq : (0 : ℚ) ≤ (st.ks : ℚ) := by exact_mod_cast (show (0 : ℤ) ≤ st.ks by omega)
  have hx : (0 : ℚ) ≤ (st.ks : ℚ) * (1 / 2) := by linarith
  have ht0 : 0 ≤ ctrunc ((st.ks : ℚ) * (1 / 2)) := by
    rw [ctrunc_of_nonneg hx]; exact Int.floor_nonneg.mpr hx
  have ht1 : 2 * ctrunc ((st.ks : ℚ) * (1 / 2)) ≤ st.ks := by
    have := Int.floor_le ((st.ks : ℚ) * (1 / 2))
    rw [← ctrunc_of_nonneg hx] at this
    have h2 : ((2 * ctrunc ((st.ks : ℚ) * (1 / 2)) : ℤ) : ℚ) ≤ ((st.ks : ℤ) : ℚ) := by
      push_cast; linarith
    exact_mod_cast h2
  have hvv : (pyramid_body (1 / 2) st).vv =
      (⌈(st.vv.1 : ℚ) / 2⌉₊, ⌈(st.vv.2 : ℚ) / 2⌉₊) := by
    show utils.gaussian_downsample_size st.vv.1 st.vv.2 (1 / (1 / 2)) = _
    unfold utils.gaussian_downsample_size
    rw [if_neg (by norm_num)]
    norm_num
  have hceil : ∀ a : ℕ, st.ks ≤ (a : ℤ) →
      ctrunc ((st.ks : ℚ) * (1 / 2)) + 1 ≤ ((⌈(a : ℚ) / 2⌉₊ : ℕ) : ℤ) := by
    intro a ha
    have hlt : (ctrunc ((st.ks : ℚ) * (1 / 2))).toNat < ⌈(a : ℚ) / 2⌉₊ := by
      rw [Nat.lt_ceil]
      have h2 : 2 * (ctrunc ((st.ks : ℚ) * (1 / 2))).toNat < a := by omega
      have h3 : ((2 * (ctrunc ((st.ks : ℚ) * (1 / 2))).toNat : ℕ) : ℚ) < (a : ℚ) := by
        exact_mod_cast h2
      push_cast at h3
      linarith
    omega
  refine ⟨?_, ?_, ?_⟩
  · rw [hnext]
    unfold next_kernel_size
    split <;> omega
  · rw [hvv]
    exact le_trans hle (hceil _ hw)
  · rw [hvv]
    exact le_trans hle (hceil _ hh)

/-- C33: for the scale factor 0.5, every odd `ks >= 3` and every image with
    `ks <= min(W, H)`, the pyramid loop of `multiscale_l0_kernel_estimation`
    terminates (every fuel of at least `ks - 2` gives the same pyramid), and
    every level `s` of the pyramid has a kernel size that is odd, at least 3
    and at most `min(W_s, H_s)`; so the odd-size assertion of the predictor
    holds at every level, and the crop window `left + x`, `top + y` with
    `left = W_s/2 - ks_s/2`, `top = H_s/2 - ks_s/2` stays inside the image. -/
theorem pyramid_levels_safe (opts : options) (w h : ℕ) (hsf : opts.scalefactor = 1 / 2)
    (hodd : opts.ks % 2 = 1) (h3 : 3 ≤ opts.ks) (hw : opts.ks ≤ (w : ℤ))
    (hh : opts.ks ≤ (h : ℤ)) :
    ∃ st, (∀ fuel, (opts.ks - 2).toNat ≤ fuel → build_pyramid fuel w h opts = some st) ∧
      st.kernelSizes.length = st.vs.length ∧ 0 < st.vs.length ∧
      ∀ s, s < st.vs.length →
        st.kernelSizes.getD s 0 % 2 = 1 ∧ 3 ≤ st.kernelSizes.getD s 0 ∧
        st.kernelSizes.getD s 0 ≤ ((st.vs.getD s (0, 0)).1 : ℤ) ∧
        st.kernelSizes.getD s 0 ≤ ((st.vs.getD s (0, 0)).2 : ℤ) ∧
        ∀ x : ℤ, 0 ≤ x → x < st.kernelSizes.getD s 0 →
          (0 ≤ (((st.vs.getD s (0, 0)).1 / 2 : ℕ) : ℤ) - st.kernelSizes.getD s 0 / 2 + x ∧
            (((st.vs.getD s (0, 0)).1 / 2 : ℕ) : ℤ) - st.kernelSizes.getD s 0 / 2 + x
              < ((st.vs.getD s (0, 0)).1 : ℤ)) ∧
          (0 ≤ (((st.vs.getD s (0, 0)).2 / 2 : ℕ) : ℤ) - st.kernelSizes.getD s 0 / 2 + x ∧
            (((st.vs.getD s (0, 0)).2 / 2 : ℕ) : ℤ) - st.kernelSizes.getD s 0 / 2 + x
              < ((st.vs.getD s (0, 0)).2 : ℤ)) := by
  obtain ⟨n, hn⟩ : ∃ n : ℕ, opts.ks = n + 3 := ⟨(opts.ks - 3).toNat, by omega⟩
  obtain ⟨st, hst⟩ := pyramid_loop_exits (1 / 2) (by norm_num) (by norm_num) n
    { vs := [], kernelSizes := [], vv := (w, h), ks := opts.ks } h3
    (by show opts.ks ≤ _; omega)
  have hfuel : ∀ fuel, (opts.ks - 2).toNat ≤ fuel → build_pyramid fuel w h opts = some st := by
    intro fuel hf
    unfold build_pyramid
    rw [hsf]
    obtain ⟨k, hk⟩ : ∃ k, fuel = (n + 1) + k := ⟨fuel - (n + 1), by omega⟩
    rw [hk]
    exact pyramid_loop_fuel (1 / 2) (n + 1) k _ st hst
  have key := pyramid_loop_rule (1 / 2)
    (fun s => (s.kernelSizes.length = s.vs.length ∧
      ∀ i, i < s.vs.length →
        s.kernelSizes.getD i 0 % 2 = 1 ∧ 3 ≤ s.kernelSizes.getD i 0 ∧
        s.kernelSizes.getD i 0 ≤ ((s.vs.getD i (0, 0)).1 : ℤ) ∧
        s.kernelSizes.getD i 0 ≤ ((s.vs.getD i (0, 0)).2 : ℤ)) ∧
      s.ks % 2 = 1 ∧ 3 ≤ s.ks ∧ s.ks ≤ (s.vv.1 : ℤ) ∧ s.ks ≤ (s.vv.2 : ℤ))
    (fun s => (s.kernelSizes.length = s.vs.length ∧ 0 < s.vs.length ∧
      ∀ i, i < s.vs.length →
        s.kernelSizes.getD i 0 % 2 = 1 ∧ 3 ≤ s.kernelSizes.getD i 0 ∧
        s.kernelSizes.getD i 0 ≤ ((s.vs.getD i (0, 0)).1 : ℤ) ∧
        s.kernelSizes.getD i 0 ≤ ((s.vs.getD i (0, 0)).2 : ℤ)) ∧
      s.ks % 2 = 1 ∧ s.ks ≤ (s.vv.1 : ℤ) ∧ s.ks ≤ (s.vv.2 : ℤ))
    (by
      intro s hs
      obtain ⟨⟨hlen, hlev⟩, ho, hk3, hkw, hkh⟩ := hs
      obtain ⟨b1, b2, b3⟩ := pyramid_body_half s ho hk3 hkw hkh
      refine ⟨⟨?_, ?_, ?_⟩, b1, b2, b3⟩
      · show (s.kernelSizes ++ [s.ks]).length = (s.vs ++ [s.vv]).length
        rw [List.length_append, List.length_append, hlen]
        rfl
      · show 0 < (s.vs ++ [s.vv]).length
        rw [List.length_append]
        exact Nat.succ_pos _
      · intro i hi
        have hi' : i < s.vs.length + 1 := by
          have : (s.vs ++ [s.vv]).length = s.vs.length + 1 := by
            rw [List.length_append]; rfl
          exact this ▸ hi
        show (s.kernelSizes ++ [s.ks]).getD i 0 % 2 = 1 ∧ 3 ≤ (s.kernelSizes ++ [s.ks]).getD i 0 ∧
          (s.kernelSizes ++ [s.ks]).getD i 0 ≤ (((s.vs ++ [s.vv]).getD i (0, 0)).1 : ℤ) ∧
          (s.kernelSizes ++ [s.ks]).getD i 0 ≤ (((s.vs ++ [s.vv]).getD i (0, 0)).2 : ℤ)
        by_cases hlt : i < s.vs.length
        · rw [List.getD_append _ _ _ _ (by rw [hlen]; exact hlt),
            List.getD_append _ _ _ _ hlt]
          exact hlev i hlt
        · have hie : i = s.vs.length := by omega
          rw [List.getD_append_right _ _ _ _ (by rw [hlen]; omega),
            List.getD_append_right _ _ _ _ (by omega), hlen, hie, Nat.sub_self]
          exact ⟨ho, hk3, hkw, hkh⟩)
    (by
      intro s hs hc
      exact ⟨⟨hs.1.1, hs.1.2.2⟩, hs.2.1, hc.2.2, hs.2.2.1, hs.2.2.2⟩)
    (n + 1) { vs := [], kernelSizes := [], vv := (w, h), ks := opts.ks } st
    ⟨⟨rfl, fun i hi => absurd hi (Nat.not_lt_zero _)⟩, hodd, h3, hw, hh⟩ hst
  obtain ⟨⟨hlen, hpos, hlev⟩, _⟩ := key
  refine ⟨st, hfuel, hlen, hpos, ?_⟩
  intro s hs
  obtain ⟨l1, l2, l3, l4⟩ := hlev s hs
  refine ⟨l1, l2, l3, l4, ?_⟩
  intro x hx0 hx1
  constructor <;> constructor <;> omega

theorem pyramid_levels_safe_witness :
    ∃ st, (∀ fuel, (({ default_options with ks := 31 } : options).ks - 2).toNat ≤ fuel →
        build_pyramid fuel 1024 512 { default_options with ks := 31 } = some st) ∧
      st.kernelSizes.length = st.vs.length ∧ 0 < st.vs.length ∧
      ∀ s, s < st.vs.length →
        st.kernelSizes.getD s 0 % 2 = 1 ∧ 3 ≤ st.kernelSizes.getD s 0 ∧
        st.kernelSizes.getD s 0 ≤ ((st.vs.getD s (0, 0)).1 : ℤ) ∧
        st.kernelSizes.getD s 0 ≤ ((st.vs.getD s (0, 0)).2 : ℤ) ∧
        ∀ x : ℤ, 0 ≤ x → x < st.kernelSizes.getD s 0 →
          (0 ≤ (((st.vs.getD s (0, 0)).1 / 2 : ℕ) : ℤ) - st.kernelSizes.getD s 0 / 2 + x ∧
            (((st.vs.getD s (0, 0)).1 / 2 : ℕ) : ℤ) - st.kernelSizes.getD s 0 / 2 + x
              < ((st.vs.getD s (0, 0)).1 : ℤ)) ∧
          (0 ≤ (((st.vs.getD s (0, 0)).2 / 2 : ℕ) : ℤ) - st.kernelSizes.getD s 0 / 2 + x ∧
            (((st.vs.getD s (0, 0)).2 / 2 : ℕ) : ℤ) - st.kernelSizes.getD s 0 / 2 + x
              < ((st.vs.getD s (0, 0)).2 : ℤ)) :=
  pyramid_levels_safe { default_options with ks := 31 } 1024 512 rfl (by decide) (by decide)
    (by decide) (by decide)

/-! ## The crop of the estimator inverts the embedding of `psf2otf` -/

/-- The samples of the cropped window. -/
theorem FourierKernelEstimator.crop_spec (k otf : img_t ℚ) (hk : k.wf) (hd : 0 < k.d) :
    img_t.same_shape (FourierKernelEstimator.crop k otf) k ∧
    ∀ x y c, x < k.w → y < k.h → c < k.d →
      (FourierKernelEstimator.crop k otf).get x y c =
        if c = 0 then
          otf.get (((otf.w / 2 : ℕ) : ℤ) - ((k.w / 2 : ℕ) : ℤ) + (x : ℤ)).toNat
            (((otf.h / 2 : ℕ) : ℤ) - ((k.h / 2 : ℕ) : ℤ) + (y : ℤ)).toNat 0
        else k.get x y c := by
  obtain ⟨hs, hg⟩ := pixel_loop_spec
    (fun x y o => o.set x y 0
      (otf.get (((otf.w / 2 : ℕ) : ℤ) - ((k.w / 2 : ℕ) : ℤ) + (x : ℤ)).toNat
        (((otf.h / 2 : ℕ) : ℤ) - ((k.h / 2 : ℕ) : ℤ) + (y : ℤ)).toNat 0))
    (fun c => c = 0)
    (fun x y _ _ => otf.get (((otf.w / 2 : ℕ) : ℤ) - ((k.w / 2 : ℕ) : ℤ) + (x : ℤ)).toNat
        (((otf.h / 2 : ℕ) : ℤ) - ((k.h / 2 : ℕ) : ℤ) + (y : ℤ)).toNat 0)
    k k.w k.h 0 0
    (by
      intro x y o hx hy ho
      refine ⟨img_t.same_shape_set _ _ _ _ _, ?_⟩
      intro p q c hp _ hc
      have owf := img_t.same_shape_wf ho hk
      rw [img_t.get_set o owf _ (by rw [ho.1]; exact hx) (by rw [ho.2.1]; exact hy)
        (by rw [ho.2.2.1]; exact hd) (by rw [ho.1]; exact hp) (by rw [ho.2.2.1]; exact hc)]
      rfl)
  refine ⟨hs, ?_⟩
  intro x y c hx hy hc
  have := hg x y c hx hy hc
  rw [Nat.add_zero, Nat.add_zero] at this
  unfold FourierKernelEstimator.crop
  rw [this]
  by_cases h0 : c = 0
  · rw [if_pos ⟨⟨Nat.zero_le _, hx⟩, ⟨Nat.zero_le _, hy⟩, h0⟩, if_pos h0]
    rfl
  · rw [if_neg (fun h => h0 h.2.2), if_neg h0]

/-- The column that `fft::shift` reads for the column `left + x` of the crop
    is the column where `padcirc` has put the column `x` of the kernel. -/
theorem shift_source_crop (n kn x : ℕ) (hkn : kn ≤ n) (hx : x < kn) :
    0 ≤ ((n / 2 : ℕ) : ℤ) - ((kn / 2 : ℕ) : ℤ) + (x : ℤ) ∧
    (((n / 2 : ℕ) : ℤ) - ((kn / 2 : ℕ) : ℤ) + (x : ℤ)).toNat < n ∧
    shift_source n (((n / 2 : ℕ) : ℤ) - ((kn / 2 : ℕ) : ℤ) + (x : ℤ)).toNat
      = padcirc_target n kn x := by
  rw [padcirc_target_eq n kn x hkn hx]
  unfold shift_source
  refine ⟨by omega, by omega, ?_⟩
  split <;> split <;> omega

/-- C32: for every kernel `k` of size `kw x kh` (in particular `ks x ks` with
    an odd `ks`) no larger than the `W x H` image, cropping the centred window
    with `left = floor(W/2) - floor(kw/2)`, `top = floor(H/2) - floor(kh/2)` from
    `fft::shift(padcirc(k))` returns `k` exactly, and every index `left + x`,
    `top + y` read by the crop lies inside the image. -/
theorem crop_inverts_embedding (k k0 out : img_t ℚ) (hk : k.wf) (hkd : k.d = 1)
    (hk0 : k0.wf) (hk0w : k0.w = k.w) (hk0h : k0.h = k.h) (hk0d : k0.d = 1)
    (ho : out.wf) (hod : out.d = 1) (hw : k.w ≤ out.w) (hh : k.h ≤ out.h) :
    ∃ r, img_t.padcirc id out k = some r ∧ r.w = out.w ∧ r.h = out.h ∧
      FourierKernelEstimator.crop k0 (fft.shift r) = k ∧
      ∀ x y, x < k.w → y < k.h →
        (0 ≤ (((fft.shift r).w / 2 : ℕ) : ℤ) - ((k0.w / 2 : ℕ) : ℤ) + (x : ℤ) ∧
          (((fft.shift r).w / 2 : ℕ) : ℤ) - ((k0.w / 2 : ℕ) : ℤ) + (x : ℤ) < (out.w : ℤ)) ∧
        (0 ≤ (((fft.shift r).h / 2 : ℕ) : ℤ) - ((k0.h / 2 : ℕ) : ℤ) + (y : ℤ) ∧
          (((fft.shift r).h / 2 : ℕ) : ℤ) - ((k0.h / 2 : ℕ) : ℤ) + (y : ℤ) < (out.h : ℤ)) := by
  obtain ⟨r, hr, hrs, hrg⟩ := img_t.padcirc_get (id : ℚ → ℚ) out k ho hw hh
    (Or.inl (by rw [hod, hkd]))
  obtain ⟨sw, sh, sd, swf, sg⟩ := fft_shift_spec r
  obtain ⟨cs, cg⟩ := FourierKernelEstimator.crop_spec k0 (fft.shift r) hk0 (by omega)
  refine ⟨r, hr, hrs.1, hrs.2.1, ?_, ?_⟩
  · apply img_t.ext_get (img_t.same_shape_wf cs hk0) hk (cs.1.trans hk0w) (cs.2.1.trans hk0h)
      (cs.2.2.1.trans (hk0d.trans hkd.symm))
    intro x y dd hx hy hdd
    rw [cs.1] at hx
    rw [cs.2.1] at hy
    rw [cs.2.2.1, hk0d] at hdd
    have hdd0 : dd = 0 := by omega
    rw [hdd0, cg x y 0 hx hy (by omega), if_pos rfl, sw, sh, hrs.1, hrs.2.1, hk0w, hk0h]
    rw [hk0w] at hx
    rw [hk0h] at hy
    obtain ⟨_, bx, ex⟩ := shift_source_crop out.w k.w x hw hx
    obtain ⟨_, by_, ey⟩ := shift_source_crop out.h k.h y hh hy
    obtain ⟨tx1, tx2, tx3⟩ := padcirc_target_spec out.w k.w x hw hx
    obtain ⟨ty1, ty2, ty3⟩ := padcirc_target_spec out.h k.h y hh hy
    rw [sg _ _ 0 (by rw [hrs.1]; exact bx) (by rw [hrs.2.1]; exact by_)
      (by rw [hrs.2.2.1, hod]; omega)]
    have ex' : (if (((out.w / 2 : ℕ) : ℤ) - ((k.w / 2 : ℕ) : ℤ) + (x : ℤ)).toNat
          < r.w - (r.w + 1) / 2
        then (((out.w / 2 : ℕ) : ℤ) - ((k.w / 2 : ℕ) : ℤ) + (x : ℤ)).toNat + (r.w + 1) / 2
        else (((out.w / 2 : ℕ) : ℤ) - ((k.w / 2 : ℕ) : ℤ) + (x : ℤ)).toNat
          - (r.w - (r.w + 1) / 2)) = padcirc_target out.w k.w x := by
      rw [hrs.1]; exact ex
    have ey' : (if (((out.h / 2 : ℕ) : ℤ) - ((k.h / 2 : ℕ) : ℤ) + (y : ℤ)).toNat
          < r.h - (r.h + 1) / 2
        then (((out.h / 2 : ℕ) : ℤ) - ((k.h / 2 : ℕ) : ℤ) + (y : ℤ)).toNat + (r.h + 1) / 2
        else (((out.h / 2 : ℕ) : ℤ) - ((k.h / 2 : ℕ) : ℤ) + (y : ℤ)).toNat
          - (r.h - (r.h + 1) / 2)) = padcirc_target out.h k.h y := by
      rw [hrs.2.1]; exact ey
    rw [ex', ey', hrg _ _ 0 tx1 ty1 (by omega), if_pos ⟨tx2, ty2⟩, tx3, ty3,
      if_pos (by rw [hod, hkd])]
    rfl
  · intro x y hx hy
    rw [sw, sh, hrs.1, hrs.2.1, hk0w, hk0h]
    constructor <;> constructor <;> omega

theorem crop_inverts_embedding_witness :
    ∃ r, img_t.padcirc id scratch_image counting_kernel = some r ∧ r.w = scratch_image.w ∧
      r.h = scratch_image.h ∧
      FourierKernelEstimator.crop (img_t.make 3 3 1) (fft.shift r) = counting_kernel ∧
      ∀ x y, x < counting_kernel.w → y < counting_kernel.h →
        (0 ≤ (((fft.shift r).w / 2 : ℕ) : ℤ) - (((img_t.make 3 3 1 : img_t ℚ).w / 2 : ℕ) : ℤ)
            + (x : ℤ) ∧
          (((fft.shift r).w / 2 : ℕ) : ℤ) - (((img_t.make 3 3 1 : img_t ℚ).w / 2 : ℕ) : ℤ)
            + (x : ℤ) < (scratch_image.w : ℤ)) ∧
        (0 ≤ (((fft.shift r).h / 2 : ℕ) : ℤ) - (((img_t.make 3 3 1 : img_t ℚ).h / 2 : ℕ) : ℤ)
            + (y : ℤ) ∧
          (((fft.shift r).h / 2 : ℕ) : ℤ) - (((img_t.make 3 3 1 : img_t ℚ).h / 2 : ℕ) : ℤ)
            + (y : ℤ) < (scratch_image.h : ℤ)) :=
  crop_inverts_embedding counting_kernel (img_t.make 3 3 1) scratch_image (by decide) rfl
    (by decide) rfl rfl rfl (by decide) rfl (by decide) (by decide)

/-! ## The circular divergence is the negative adjoint of the circular gradient -/

theorem loop_prod {σ τ : Type} (n : ℕ) (f : ℕ → σ → σ) (g : ℕ → τ → τ) (a : σ) (b : τ) :
    loop n (fun i (s : σ × τ) => (f i s.1, g i s.2)) (a, b) = (loop n f a, loop n g b) := by
  induction n with
  | zero => rfl
  | succ k ih =>
    rw [loop_succ, loop_succ, loop_succ, ih]

/-- The loop nest `for (l < d) for (y < h) for (x < w) o(x, y, l) = V(x, y, l)`. -/
theorem fill_loop_spec (o0 : img_t ℚ) (hwf : o0.wf) (w h d : ℕ) (hw : o0.w = w) (hh : o0.h = h)
    (hd : o0.d = d) (V : ℕ → ℕ → ℕ → ℚ) :
    img_t.same_shape (loop d (fun l o => loop h (fun y o => loop w (fun x o =>
      o.set x y l (V x y l)) o) o) o0) o0 ∧
    ∀ p q c, p < w → q < h → c < d →
      (loop d (fun l o => loop h (fun y o => loop w (fun x o =>
        o.set x y l (V x y l)) o) o) o0).get p q c = V p q c := by
  have key := loop_invariant
    (fun l (o : img_t ℚ) => l ≤ d → (img_t.same_shape o o0 ∧
      ∀ p q c, p < w → q < h → c < l → o.get p q c = V p q c))
    d (fun l o => loop h (fun y o => loop w (fun x o => o.set x y l (V x y l)) o) o) o0
    (by
      intro _
      exact ⟨img_t.same_shape_refl o0, fun p q c _ _ hc => absurd hc (Nat.not_lt_zero _)⟩)
    (by
      intro l hl t ht _
      obtain ⟨hs, hg⟩ := ht (Nat.le_of_lt hl)
      have twf := img_t.same_shape_wf hs hwf
      obtain ⟨ps, pg⟩ := pixel_loop_spec (fun x y o => o.set x y l (V x y l))
        (fun c => c = l) (fun x y _ _ => V x y l) t w h 0 0
        (by
          intro x y o hx hy ho
          refine ⟨img_t.same_shape_set _ _ _ _ _, ?_⟩
          intro p q c hp _ hc
          have owf := img_t.same_shape_wf ho twf
          rw [img_t.get_set o owf _ (by rw [ho.1, hs.1, hw]; exact hx)
            (by rw [ho.2.1, hs.2.1, hh]; exact hy) (by rw [ho.2.2.1, hs.2.2.1, hd]; exact hl)
            (by rw [ho.1]; exact hp) (by rw [ho.2.2.1]; exact hc)]
          rfl)
      refine ⟨img_t.same_shape_trans ps hs, ?_⟩
      intro p q c hp hq hc
      show (loop h (fun y o => loop w (fun x o => o.set x y l (V x y l)) o) t).get p q c = _
      rw [pg p q c (by rw [hs.1, hw]; exact hp) (by rw [hs.2.1, hh]; exact hq)
        (by rw [hs.2.2.1, hd]; omega)]
      by_cases hcl : c = l
      · rw [if_pos ⟨⟨Nat.zero_le _, hp⟩, ⟨Nat.zero_le _, hq⟩, hcl⟩, hcl]
        rfl
      · rw [if_neg (fun h => hcl h.2.2)]
        exact hg p q c hp hq (by omega))
  obtain ⟨hs, hg⟩ := key (Nat.le_refl d)
  exact ⟨hs, fun p q c hp hq hc => hg p q c hp hq hc⟩

/-- The forward differences `circular_gradients` writes. -/
theorem utils.circular_gradients_spec (out0 out1 inp : img_t ℚ) (h0 : out0.wf) (h1 : out1.wf) :
    ∀ x y l, x < inp.w → y < inp.h → l < inp.d →
      (utils.circular_gradients out0 out1 inp).1.get x y l =
        inp.get ((x + 1) % inp.w) y l - inp.get x y l ∧
      (utils.circular_gradients out0 out1 inp).2.get x y l =
        inp.get x ((y + 1) % inp.h) l - inp.get x y l := by
  have hdef : utils.circular_gradients out0 out1 inp =
      (loop inp.d (fun l o => loop inp.h (fun y o => loop inp.w (fun x o =>
        o.set x y l (inp.get ((x + 1) % inp.w) y l - inp.get x y l)) o) o)
          (out0.resize inp.w inp.h inp.d),
       loop inp.d (fun l o => loop inp.h (fun y o => loop inp.w (fun x o =>
        o.set x y l (inp.get x ((y + 1) % inp.h) l - inp.get x y l)) o) o)
          (out1.resize inp.w inp.h inp.d)) :=
    loop_prod inp.d
      (fun l (o : img_t ℚ) => loop inp.h (fun y o => loop inp.w (fun x o =>
        o.set x y l (inp.get ((x + 1) % inp.w) y l - inp.get x y l)) o) o)
      (fun l (o : img_t ℚ) => loop inp.h (fun y o => loop inp.w (fun x o =>
        o.set x y l (inp.get x ((y + 1) % inp.h) l - inp.get x y l)) o) o)
      (out0.resize inp.w inp.h inp.d) (out1.resize inp.w inp.h inp.d)
  obtain ⟨a1, a2, a3, a4⟩ := img_t.resize_spec out0 h0 inp.w inp.h inp.d
  obtain ⟨b1, b2, b3, b4⟩ := img_t.resize_spec out1 h1 inp.w inp.h inp.d
  obtain ⟨_, g0⟩ := fill_loop_spec _ a4 inp.w inp.h inp.d a1 a2 a3
    (fun x y l => inp.get ((x + 1) % inp.w) y l - inp.get x y l)
  obtain ⟨_, g1⟩ := fill_loop_spec _ b4 inp.w inp.h inp.d b1 b2 b3
    (fun x y l => inp.get x ((y + 1) % inp.h) l - inp.get x y l)
  intro x y l hx hy hl
  rw [hdef]
  exact ⟨g0 x y l hx hy hl, g1 x y l hx hy hl⟩

/-- The backward differences `circular_divergence` writes. -/
theorem utils.circular_divergence_spec (out in0 in1 : img_t ℚ) (ho : out.wf) :
    (utils.circular_divergence out in0 in1).w = in0.w ∧
    (utils.circular_divergence out in0 in1).h = in0.h ∧
    (utils.circular_divergence out in0 in1).d = in0.d ∧
    (utils.circular_divergence out in0 in1).wf ∧
    ∀ x y l, x < in0.w → y < in0.h → l < in0.d →
      (utils.circular_divergence out in0 in1).get x y l =
        in0.get x y l - in0.get (utils.circular_pred x in0.w) y l
          + in1.get x y l - in1.get x (utils.circular_pred y in0.h) l := by
  obtain ⟨a1, a2, a3, a4⟩ := img_t.resize_spec out ho in0.w in0.h in0.d
  obtain ⟨fs, fg⟩ := fill_loop_spec _ a4 (out.resize in0.w in0.h in0.d).w
    (out.resize in0.w in0.h in0.d).h (out.resize in0.w in0.h in0.d).d rfl rfl rfl
    (fun x y l => in0.get x y l
        - in0.get (utils.circular_pred x (out.resize in0.w in0.h in0.d).w) y l
      + in1.get x y l - in1.get x (utils.circular_pred y (out.resize in0.w in0.h in0.d).h) l)
  refine ⟨fs.1.trans a1, fs.2.1.trans a2, fs.2.2.1.trans a3, img_t.same_shape_wf fs a4, ?_⟩
  intro x y l hx hy hl
  have := fg x y l (by rw [a1]; exact hx) (by rw [a2]; exact hy) (by rw [a3]; exact hl)
  refine Eq.trans this ?_
  show in0.get x y l - in0.get (utils.circular_pred x (out.resize in0.w in0.h in0.d).w) y l
      + in1.get x y l - in1.get x (utils.circular_pred y (out.resize in0.w in0.h in0.d).h) l = _
  rw [a1, a2]

/-- A sum over a cycle does not change under the rotation `x -> (x + 1) % w`. -/
theorem sum_rotate (f : ℕ → ℚ) (w : ℕ) (hw : 1 ≤ w) :
    ∑ x in Finset.range w, f ((x + 1) % w) = ∑ x in Finset.range w, f x := by
  obtain ⟨n, rfl⟩ : ∃ n, w = n + 1 := ⟨w - 1, by omega⟩
  rw [Finset.sum_range_succ, Finset.sum_range_succ', Nat.mod_self]
  congr 1
  apply Finset.sum_congr rfl
  intro x hx
  rw [Nat.mod_eq_of_lt (by have := Finset.mem_range.mp hx; omega)]

/-- The index `(x - 1 + w) % w` undoes the rotation. -/
theorem utils.circular_pred_rotate (x w : ℕ) (hx : x < w) :
    utils.circular_pred ((x + 1) % w) w = x := by
  unfold utils.circular_pred
  by_cases h : x + 1 < w
  · rw [Nat.mod_eq_of_lt h]
    have e : (((x + 1 : ℕ) : ℤ) - 1 + (w : ℤ)) = (x : ℤ) + (w : ℤ) := by push_cast; ring
    rw [e, Int.add_emod_self, Int.emod_eq_of_lt (by omega) (by omega)]
    rfl
  · have hw : x + 1 = w := by omega
    rw [← hw, Nat.mod_self]
    have e : (((0 : ℕ) : ℤ) - 1 + ((x + 1 : ℕ) : ℤ)) = (x : ℤ) := by push_cast; ring
    rw [e, Int.emod_eq_of_lt (by omega) (by push_cast; omega)]
    rfl

/-- Summation by parts on a cycle. -/
theorem sum_by_parts (u g : ℕ → ℚ) (w : ℕ) (hw : 1 ≤ w) :
    ∑ x in Finset.range w, ((u ((x + 1) % w) - u x) * g x
      + u x * (g x - g (utils.circular_pred x w))) = 0 := by
  have h1 := sum_rotate (fun x => u x * g (utils.circular_pred x w)) w hw
  have h2 : ∑ x in Finset.range w, u ((x + 1) % w) * g (utils.circular_pred ((x + 1) % w) w)
      = ∑ x in Finset.range w, u ((x + 1) % w) * g x := by
    apply Finset.sum_congr rfl
    intro x hx
    rw [utils.circular_pred_rotate x w (Finset.mem_range.mp hx)]
  have h3 : ∀ x, (u ((x + 1) % w) - u x) * g x + u x * (g x - g (utils.circular_pred x w))
      = u ((x + 1) % w) * g x - u x * g (utils.circular_pred x w) := by
    intro x; ring
  rw [Finset.sum_congr rfl (fun x _ => h3 x), Finset.sum_sub_distrib, ← h2]
  exact sub_eq_zero.mpr h1

/-- The differences along a cycle sum to zero. -/
theorem sum_backward_difference (g : ℕ → ℚ) (w : ℕ) (hw : 1 ≤ w) :
    ∑ x in Finset.range w, (g x - g (utils.circular_pred x w)) = 0 := by
  have h := sum_by_parts (fun _ => 1) g w hw
  simpa using h

/-- The method `sum()` of an image with channels, as a sum over channels,
    rows and columns. -/
theorem img_t.sum_eq_sum_channels (im : img_t ℚ) (hwf : im.wf) :
    im.sum = ∑ l in Finset.range im.d, ∑ y in Finset.range im.h, ∑ x in Finset.range im.w,
      im.get x y l := by
  rw [img_t.sum_eq_sum_range im hwf]
  have hsz : im.size = im.d * (im.w * im.h) := by unfold img_t.size; ring
  rw [hsz, sum_range_mul (fun i => im.getI i) im.d (im.w * im.h),
    sum_range_mul (fun p => ∑ dd in Finset.range im.d, im.getI (dd + p * im.d)) im.w im.h]
  have e : ∀ x y dd, im.getI (dd + (x + y * im.w) * im.d) = im.get x y dd := by
    intro x y dd
    unfold img_t.get img_t.idx
    rw [Nat.mul_comm]
  simp only [e]
  conv_rhs => rw [Finset.sum_comm]
  apply Finset.sum_congr rfl
  intro y _
  rw [Finset.sum_comm]

/-- C31: `circular_divergence` is the negative adjoint of
    `circular_gradients`: for every image `u` and every field `(g0, g1)` of the
    size of `u`, with `W, H >= 1`, the sum over all samples of
    `dx u * g0 + dy u * g1` is minus the sum of `u * div g`; and the divergence
    of every field sums to 0, as a sum over the samples and as `sum()`. -/
theorem divergence_negative_adjoint (a b c u g0 g1 : img_t ℚ) (ha : a.wf) (hb : b.wf)
    (hc : c.wf) (h0 : g0.w = u.w ∧ g0.h = u.h ∧ g0.d = u.d) (hW : 1 ≤ u.w) (hH : 1 ≤ u.h) :
    (∑ l in Finset.range u.d, ∑ y in Finset.range u.h, ∑ x in Finset.range u.w,
        ((utils.circular_gradients a b u).1.get x y l * g0.get x y l
          + (utils.circular_gradients a b u).2.get x y l * g1.get x y l)
      = - ∑ l in Finset.range u.d, ∑ y in Finset.range u.h, ∑ x in Finset.range u.w,
        u.get x y l * (utils.circular_divergence c g0 g1).get x y l) ∧
    (∑ l in Finset.range u.d, ∑ y in Finset.range u.h, ∑ x in Finset.range u.w,
        (utils.circular_divergence c g0 g1).get x y l = 0) ∧
    (utils.circular_divergence c g0 g1).sum = 0 := by
  obtain ⟨dw, dh, dd, dwf, dg⟩ := utils.circular_divergence_spec c g0 g1 hc
  have hg := utils.circular_gradients_spec a b u ha hb
  -- the two halves of every summand
  have hx : ∀ l y, ∑ x in Finset.range u.w,
      ((u.get ((x + 1) % u.w) y l - u.get x y l) * g0.get x y l
        + u.get x y l * (g0.get x y l - g0.get (utils.circular_pred x u.w) y l)) = 0 :=
    fun l y => sum_by_parts (fun x => u.get x y l) (fun x => g0.get x y l) u.w hW
  have hy : ∀ l x, ∑ y in Finset.range u.h,
      ((u.get x ((y + 1) % u.h) l - u.get x y l) * g1.get x y l
        + u.get x y l * (g1.get x y l - g1.get x (utils.circular_pred y u.h) l)) = 0 :=
    fun l x => sum_by_parts (fun y => u.get x y l) (fun y => g1.get x y l) u.h hH
  have hx1 : ∀ l y, ∑ x in Finset.range u.w,
      (g0.get x y l - g0.get (utils.circular_pred x u.w) y l) = 0 :=
    fun l y => sum_backward_difference (fun x => g0.get x y l) u.w hW
  have hy1 : ∀ l x, ∑ y in Finset.range u.h,
      (g1.get x y l - g1.get x (utils.circular_pred y u.h) l) = 0 :=
    fun l x => sum_backward_difference (fun y => g1.get x y l) u.h hH
  have first : ∑ l in Finset.range u.d, ∑ y in Finset.range u.h, ∑ x in Finset.range u.w,
        ((utils.circular_gradients a b u).1.get x y l * g0.get x y l
          + (utils.circular_gradients a b u).2.get x y l * g1.get x y l)
      = - ∑ l in Finset.range u.d, ∑ y in Finset.range u.h, ∑ x in Finset.range u.w,
        u.get x y l * (utils.circular_divergence c g0 g1).get x y l := by
    rw [eq_neg_iff_add_eq_zero, ← Finset.sum_add_distrib]
    apply Finset.sum_eq_zero
    intro l hl
    rw [← Finset.sum_add_distrib]
    have hsplit : ∀ y ∈ Finset.range u.h, (∑ x in Finset.range u.w,
          ((utils.circular_gradients a b u).1.get x y l * g0.get x y l
            + (utils.circular_gradients a b u).2.get x y l * g1.get x y l)
        + ∑ x in Finset.range u.w,
          u.get x y l * (utils.circular_divergence c g0 g1).get x y l)
        = ∑ x in Finset.range u.w,
          ((u.get ((x + 1) % u.w) y l - u.get x y l) * g0.get x y l
            + u.get x y l * (g0.get x y l - g0.get (utils.circular_pred x u.w) y l))
        + ∑ x in Finset.range u.w,
          ((u.get x ((y + 1) % u.h) l - u.get x y l) * g1.get x y l
            + u.get x y l * (g1.get x y l - g1.get x (utils.circular_pred y u.h) l)) := by
      intro y hy'
      rw [← Finset.sum_add_distrib, ← Finset.sum_add_distrib]
      apply Finset.sum_congr rfl
      intro x hx'
      have hxw := Finset.mem_range.mp hx'
      have hyh := Finset.mem_range.mp hy'
      have hld := Finset.mem_range.mp hl
      rw [(hg x y l hxw hyh hld).1, (hg x y l hxw hyh hld).2,
        dg x y l (by rw [h0.1]; exact hxw) (by rw [h0.2.1]; exact hyh)
          (by rw [h0.2.2]; exact hld), h0.1, h0.2.1]
      ring
    rw [Finset.sum_congr rfl hsplit, Finset.sum_add_distrib,
      Finset.sum_eq_zero (fun y _ => hx l y), Finset.sum_comm,
      Finset.sum_eq_zero (fun x _ => hy l x), add_zero]
  have second : ∑ l in Finset.range u.d, ∑ y in Finset.range u.h, ∑ x in Finset.range u.w,
        (utils.circular_divergence c g0 g1).get x y l = 0 := by
    apply Finset.sum_eq_zero
    intro l hl
    have hsplit : ∀ y ∈ Finset.range u.h, ∑ x in Finset.range u.w,
          (utils.circular_divergence c g0 g1).get x y l
        = ∑ x in Finset.range u.w,
            (g0.get x y l - g0.get (utils.circular_pred x u.w) y l)
          + ∑ x in Finset.range u.w,
            (g1.get x y l - g1.get x (utils.circular_pred y u.h) l) := by
      intro y hy'
      rw [← Finset.sum_add_distrib]
      apply Finset.sum_congr rfl
      intro x hx'
      have hxw := Finset.mem_range.mp hx'
      have hyh := Finset.mem_range.mp hy'
      have hld := Finset.mem_range.mp hl
      rw [dg x y l (by rw [h0.1]; exact hxw) (by rw [h0.2.1]; exact hyh)
          (by rw [h0.2.2]; exact hld), h0.1, h0.2.1]
      ring
    rw [Finset.sum_congr rfl hsplit, Finset.sum_add_distrib,
      Finset.sum_eq_zero (fun y _ => hx1 l y), Finset.sum_comm,
      Finset.sum_eq_zero (fun x _ => hy1 l x), add_zero]
  refine ⟨first, second, ?_⟩
  rw [img_t.sum_eq_sum_channels _ dwf, dw, dh, dd, h0.1, h0.2.1, h0.2.2]
  exact second

theorem divergence_negative_adjoint_witness :
    (∑ l in Finset.range twelve_samples.d, ∑ y in Finset.range twelve_samples.h,
        ∑ x in Finset.range twelve_samples.w,
        ((utils.circular_gradients img_t.empty img_t.empty twelve_samples).1.get x y l
            * twelve_samples.get x y l
          + (utils.circular_gradients img_t.empty img_t.empty twelve_samples).2.get x y l
            * twelve_samples.get x y l)
      = - ∑ l in Finset.range twelve_samples.d, ∑ y in Finset.range twelve_samples.h,
        ∑ x in Finset.range twelve_samples.w,
        twelve_samples.get x y l
          * (utils.circular_divergence img_t.empty twelve_samples twelve_samples).get x y l) ∧
    (∑ l in Finset.range twelve_samples.d, ∑ y in Finset.range twelve_samples.h,
        ∑ x in Finset.range twelve_samples.w,
        (utils.circular_divergence img_t.empty twelve_samples twelve_samples).get x y l = 0) ∧
    (utils.circular_divergence img_t.empty twelve_samples twelve_samples).sum = 0 :=
  divergence_negative_adjoint img_t.empty img_t.empty img_t.empty twelve_samples twelve_samples
    twelve_samples (by decide) (by decide) (by decide) ⟨rfl, rfl, rfl⟩ (by decide) (by decide)

/-! ## `center_kernel` as a translation -/

theorem img_t.get_nonneg {im : img_t ℚ} (h : im.nonneg) (x y dd : ℕ) : 0 ≤ im.get x y dd :=
  img_t.getI_nonneg h _

/-- A sum of a function of the samples, over the re-centred kernel and over
    the kernel, when no non-zero sample leaves the window. -/
theorem utils.recenter_map_sum (c : img_t ℚ) (dx dy : ℤ) (hwf : c.wf) (hd : c.d = 1)
    (F : ℚ → ℚ) (hF : F 0 = 0)
    (hkeep : ∀ u v, u < c.w → v < c.h → c.get u v 0 ≠ 0 →
      0 ≤ (u : ℤ) - dx + (c.w / 2 : ℕ) ∧ (u : ℤ) - dx + (c.w / 2 : ℕ) < c.w ∧
      0 ≤ (v : ℤ) - dy + (c.h / 2 : ℕ) ∧ (v : ℤ) - dy + (c.h / 2 : ℕ) < c.h) :
    ∑ y in Finset.range c.h, ∑ x in Finset.range c.w, F ((utils.recenter c dx dy).get x y 0) =
    ∑ v in Finset.range c.h, ∑ u in Finset.range c.w, F (c.get u v 0) := by
  have hs := img_t.update_each_same_shape c.size (fun _ v => F v) c
  have mwf := img_t.same_shape_wf hs hwf
  have md : (img_t.update_each c.size (fun _ v => F v) c).d = 1 := hs.2.2.1.trans hd
  have mg : ∀ u v, u < c.w → v < c.h →
      (img_t.update_each c.size (fun _ v => F v) c).get u v 0 = F (c.get u v 0) :=
    fun u v hu hv => img_t.update_each_get F c hwf u v 0 hu hv (by omega)
  have key := utils.recenter_sum (img_t.update_each c.size (fun _ v => F v) c) dx dy mwf md
    (fun _ _ => 1)
    (by
      intro u v hu hv hne
      rw [hs.1] at hu ⊢
      rw [hs.2.1] at hv ⊢
      rw [mg u v hu hv] at hne
      exact hkeep u v hu hv (fun h0 => hne (by rw [h0, hF])))
  rw [hs.1, hs.2.1] at key
  simp only [mul_one] at key
  have e1 : ∀ y ∈ Finset.range c.h, ∀ x ∈ Finset.range c.w,
      (utils.recenter (img_t.update_each c.size (fun _ v => F v) c) dx dy).get x y 0 =
        F ((utils.recenter c dx dy).get x y 0) := by
    intro y hy x hx
    rw [Finset.mem_range] at hx hy
    rw [utils.recenter_get _ dx dy mwf md x y (by rw [hs.1]; exact hx) (by rw [hs.2.1]; exact hy),
      utils.recenter_get c dx dy hwf hd x y hx hy, hs.1, hs.2.1]
    split
    · rename_i hc
      exact mg _ _ (by omega) (by omega)
    · exact hF.symm
  rw [← Finset.sum_congr rfl (fun y hy => Finset.sum_congr rfl (fun x hx => e1 y hy x hx)), key]
  exact Finset.sum_congr rfl (fun v hv => Finset.sum_congr rfl (fun u hu =>
    mg u v (Finset.mem_range.mp hu) (Finset.mem_range.mp hv)))

theorem list_count_eq_sum (l : List ℚ) (a : ℚ) :
    ((l.count a : ℕ) : ℚ) = (l.map (fun v => if v = a then (1 : ℚ) else 0)).sum := by
  induction l with
  | nil => simp
  | cons b t ih =>
    rw [List.map_cons, List.sum_cons, ← ih, List.count_cons]
    by_cases h : b = a
    · rw [if_pos h, if_pos (by rw [h]; exact beq_self_eq_true a)]
      push_cast
      ring
    · rw [if_neg h, if_neg (by simpa using h)]
      push_cast
      ring

/-- The number of samples of a kernel that equal `a`, as a sum over the grid. -/
theorem img_t.count_eq_sum_grid (im : img_t ℚ) (hwf : im.wf) (hd : im.d = 1) (a : ℚ) :
    ((im.data.count a : ℕ) : ℚ) =
      ∑ y in Finset.range im.h, ∑ x in Finset.range im.w,
        (if im.get x y 0 = a then (1 : ℚ) else 0) := by
  have hs := img_t.update_each_same_shape im.size (fun _ v => if v = a then (1 : ℚ) else 0) im
  have mwf := img_t.same_shape_wf hs hwf
  rw [list_count_eq_sum, ← img_t.update_each_map _ im hwf, ← img_t.sum_eq,
    img_t.sum_eq_sum_grid _ mwf (hs.2.2.1.trans hd), hs.1, hs.2.1]
  exact Finset.sum_congr rfl (fun y hy => Finset.sum_congr rfl (fun x hx =>
    img_t.update_each_get _ im hwf x y 0 (Finset.mem_range.mp hx) (Finset.mem_range.mp hy)
      (by omega)))

/-- The rounded centroid of a kernel that was shifted by its rounded centroid
    is the centre. -/
theorem cround_recentred (x : ℚ) (n : ℕ) (hx : 0 ≤ x) (hy : 0 ≤ x - (cround x : ℚ) + n) :
    cround (x - (cround x : ℚ) + n) = n := by
  have e : cround x = ⌊x + 1 / 2⌋ := by unfold cround; rw [if_pos hx]
  have h1 := Int.floor_le (x + 1 / 2)
  have h2 := Int.lt_floor_add_one (x + 1 / 2)
  rw [← e] at h1 h2
  generalize cround x = c at hy h1 h2 ⊢
  unfold cround
  rw [if_pos hy, Int.floor_eq_iff]
  constructor
  · push_cast; linarith
  · push_cast; linarith

/-- The first moments of a non-negative kernel are non-negative. -/
theorem utils.moments_nonneg {k : img_t ℚ} (hn : k.nonneg) :
    0 ≤ (utils.moments k).1 ∧ 0 ≤ (utils.moments k).2 := by
  rw [utils.moments_spec]
  constructor
  · exact Finset.sum_nonneg (fun y _ => Finset.sum_nonneg (fun x _ =>
      mul_nonneg (img_t.get_nonneg hn _ _ _) (Nat.cast_nonneg _)))
  · exact Finset.sum_nonneg (fun y _ => Finset.sum_nonneg (fun x _ =>
      mul_nonneg (img_t.get_nonneg hn _ _ _) (Nat.cast_nonneg _)))

/-- Re-centring by the centre itself changes nothing. -/
theorem utils.recenter_center (k : img_t ℚ) (hwf : k.wf) (hd : k.d = 1) :
    utils.recenter k ((k.w / 2 : ℕ) : ℤ) ((k.h / 2 : ℕ) : ℤ) = k := by
  have hs := utils.recenter_same_shape k ((k.w / 2 : ℕ) : ℤ) ((k.h / 2 : ℕ) : ℤ)
  apply img_t.ext_get (img_t.same_shape_wf hs hwf) hwf hs.1 hs.2.1 hs.2.2.1
  intro x y dd hx hy hdd
  rw [hs.1] at hx
  rw [hs.2.1] at hy
  rw [hs.2.2.1, hd] at hdd
  have h0 : dd = 0 := by omega
  rw [h0, utils.recenter_get k _ _ hwf hd x y hx hy, if_pos (by omega)]
  congr 1 <;> omega

/-- C35: for every non-negative single-channel kernel with positive sum
    whose non-zero entries all stay inside the window after the translation by
    `(floor(w/2) - round(cx), floor(h/2) - round(cy))`, `center_kernel` is a
    pure translation: every non-zero entry is found at its translated
    position, the sum is preserved and the samples of the result are a
    permutation of the samples of the kernel; and `center_kernel` applied a
    second time leaves the kernel unchanged. -/
theorem center_kernel_translation (k : img_t ℚ) (hwf : k.wf) (hd : k.d = 1) (hn : k.nonneg)
    (hpos : 0 < k.sum)
    (hkeep : ∀ u v, u < k.w → v < k.h → k.get u v 0 ≠ 0 →
      0 ≤ (u : ℤ) - cround ((utils.moments k).1 / k.sum) + (k.w / 2 : ℕ) ∧
      (u : ℤ) - cround ((utils.moments k).1 / k.sum) + (k.w / 2 : ℕ) < k.w ∧
      0 ≤ (v : ℤ) - cround ((utils.moments k).2 / k.sum) + (k.h / 2 : ℕ) ∧
      (v : ℤ) - cround ((utils.moments k).2 / k.sum) + (k.h / 2 : ℕ) < k.h) :
    ∃ out, utils.center_kernel k = some out ∧
      (∀ u v, u < k.w → v < k.h → k.get u v 0 ≠ 0 →
        out.get ((u : ℤ) - cround ((utils.moments k).1 / k.sum) + (k.w / 2 : ℕ)).toNat
          ((v : ℤ) - cround ((utils.moments k).2 / k.sum) + (k.h / 2 : ℕ)).toNat 0
          = k.get u v 0) ∧
      out.sum = k.sum ∧ List.Perm out.data k.data ∧
      utils.center_kernel out = some out := by
  have hs := utils.recenter_same_shape k (cround ((utils.moments k).1 / k.sum))
    (cround ((utils.moments k).2 / k.sum))
  have rwf := img_t.same_shape_wf hs hwf
  have rd := hs.2.2.1.trans hd
  obtain ⟨tsum, tm1, tm2⟩ := utils.recenter_totals k _ _ hwf hd hkeep
  have rn := utils.recenter_nonneg hn (cround ((utils.moments k).1 / k.sum))
    (cround ((utils.moments k).2 / k.sum))
  have hdef : utils.center_kernel k = some (utils.recenter k
      (cround ((utils.moments k).1 / k.sum)) (cround ((utils.moments k).2 / k.sum))) := by
    unfold utils.center_kernel
    dsimp only
    rw [if_neg (ne_of_gt hpos)]
  refine ⟨_, hdef, ?_, tsum, ?_, ?_⟩
  · intro u v hu hv hne
    obtain ⟨h1, h2, h3, h4⟩ := hkeep u v hu hv hne
    rw [utils.recenter_get k _ _ hwf hd _ _ (by omega) (by omega),
      if_pos (by rw [Int.toNat_of_nonneg h1, Int.toNat_of_nonneg h3]; omega)]
    congr 1
    · rw [Int.toNat_of_nonneg h1]; omega
    · rw [Int.toNat_of_nonneg h3]; omega
  · rw [List.perm_iff_count]
    intro a
    have h1 := img_t.count_eq_sum_grid _ rwf rd a
    have h2 := img_t.count_eq_sum_grid k hwf hd a
    have h3 := utils.recenter_map_sum k _ _ hwf hd
      (fun v => (if v = a then (1 : ℚ) else 0) - (if (0 : ℚ) = a then (1 : ℚ) else 0))
      (sub_self _) hkeep
    simp only [Finset.sum_sub_distrib] at h3
    rw [hs.1, hs.2.1] at h1
    have h4 : ((List.count a (utils.recenter k (cround ((utils.moments k).1 / k.sum))
        (cround ((utils.moments k).2 / k.sum))).data : ℕ) : ℚ) = ((List.count a k.data : ℕ) : ℚ) := by
      rw [h1, h2]
      linarith
    exact_mod_cast h4
  · -- the second application
    have hm := utils.moments_nonneg hn
    have hm2 := utils.moments_nonneg rn
    have hc1 : (utils.moments (utils.recenter k (cround ((utils.moments k).1 / k.sum))
        (cround ((utils.moments k).2 / k.sum)))).1 / k.sum =
        (utils.moments k).1 / k.sum - (cround ((utils.moments k).1 / k.sum) : ℚ)
          + ((k.w / 2 : ℕ) : ℚ) := by
      rw [tm1]
      field_simp
      ring
    have hc2 : (utils.moments (utils.recenter k (cround ((utils.moments k).1 / k.sum))
        (cround ((utils.moments k).2 / k.sum)))).2 / k.sum =
        (utils.moments k).2 / k.sum - (cround ((utils.moments k).2 / k.sum) : ℚ)
          + ((k.h / 2 : ℕ) : ℚ) := by
      rw [tm2]
      field_simp
      ring
    have r1 : cround ((utils.moments (utils.recenter k (cround ((utils.moments k).1 / k.sum))
        (cround ((utils.moments k).2 / k.sum)))).1 / k.sum) = ((k.w / 2 : ℕ) : ℤ) := by
      rw [hc1]
      apply cround_recentred _ _ (div_nonneg hm.1 hpos.le)
      rw [← hc1]
      exact div_nonneg hm2.1 hpos.le
    have r2 : cround ((utils.moments (utils.recenter k (cround ((utils.moments k).1 / k.sum))
        (cround ((utils.moments k).2 / k.sum)))).2 / k.sum) = ((k.h / 2 : ℕ) : ℤ) := by
      rw [hc2]
      apply cround_recentred _ _ (div_nonneg hm.2 hpos.le)
      rw [← hc2]
      exact div_nonneg hm2.2 hpos.le
    unfold utils.center_kernel
    dsimp only
    rw [tsum, if_neg (ne_of_gt hpos), r1, r2]
    have := utils.recenter_center _ rwf rd
    rw [hs.1, hs.2.1] at this
    rw [this]

theorem center_kernel_translation_witness :
    ∃ out, utils.center_kernel corner_mass = some out ∧
      (∀ u v, u < corner_mass.w → v < corner_mass.h → corner_mass.get u v 0 ≠ 0 →
        out.get ((u : ℤ) - cround ((utils.moments corner_mass).1 / corner_mass.sum)
            + (corner_mass.w / 2 : ℕ)).toNat
          ((v : ℤ) - cround ((utils.moments corner_mass).2 / corner_mass.sum)
            + (corner_mass.h / 2 : ℕ)).toNat 0
          = corner_mass.get u v 0) ∧
      out.sum = corner_mass.sum ∧ List.Perm out.data corner_mass.data ∧
      utils.center_kernel out = some out :=
  center_kernel_translation corner_mass (by decide) rfl (by unfold img_t.nonneg; decide!)
    (by decide!)
    (by
      have e1 : cround ((utils.moments corner_mass).1 / corner_mass.sum) = 0 := by decide!
      have e2 : cround ((utils.moments corner_mass).2 / corner_mass.sum) = 0 := by decide!
      intro u v hu hv hne
      rw [e1, e2]
      have hu3 : u < 3 := hu
      have hv3 : v < 3 := hv
      have hw : corner_mass.w = 3 := rfl
      have hh : corner_mass.h = 3 := rfl
      rw [hw, hh]
      interval_cases u <;> interval_cases v <;>
        first
        | (refine ⟨?_, ?_, ?_, ?_⟩ <;> decide)
        | exact absurd (by decide!) hne)

/-! ## `center_kernel` keeps a part of the mass -/

/-- The mass that a shift by the rounded centroid moves out of a window of
    `2*m + 1` samples along one axis is less than half of the total mass. -/
theorem discarded_mass_lt_half (s : Finset (ℕ × ℕ)) (k : ℕ × ℕ → ℚ) (pos : ℕ × ℕ → ℕ) (m : ℕ)
    (hk : ∀ i ∈ s, 0 ≤ k i) (hp : ∀ i ∈ s, pos i ≤ 2 * m) (hS : 0 < ∑ i in s, k i) :
    2 * ∑ i in s,
      (if (pos i : ℤ) < cround ((∑ i in s, k i * pos i) / ∑ i in s, k i) - m ∨
          cround ((∑ i in s, k i * pos i) / ∑ i in s, k i) + m < (pos i : ℤ)
        then k i else 0) < ∑ i in s, k i := by
  generalize hSdef : ∑ i in s, k i = S at hS ⊢
  generalize hMdef : ∑ i in s, k i * pos i = M
  have hM0 : 0 ≤ M := by
    rw [← hMdef]
    exact Finset.sum_nonneg (fun i hi => mul_nonneg (hk i hi) (Nat.cast_nonneg _))
  have hM2 : M ≤ 2 * m * S := by
    rw [← hMdef, ← hSdef, Finset.mul_sum]
    apply Finset.sum_le_sum
    intro i hi
    have h1 : ((pos i : ℕ) : ℚ) ≤ 2 * m := by exact_mod_cast hp i hi
    have h2 := hk i hi
    nlinarith
  have habs := cround_abs (M / S)
  rw [abs_le] at habs
  generalize hdx : cround (M / S) = dx at habs ⊢
  have hq : M / S * S = M := div_mul_cancel₀ M (ne_of_gt hS)
  have hlo : ((dx : ℚ) - 1 / 2) * S ≤ M := by nlinarith [habs.1, habs.2]
  have hhi : M ≤ ((dx : ℚ) + 1 / 2) * S := by nlinarith [habs.1, habs.2]
  have hdx0 : 0 ≤ dx := by
    have h1 : (-1 : ℚ) < (dx : ℚ) := by
      by_contra hc
      push_neg at hc
      nlinarith
    have h2 : ((-1 : ℤ) : ℚ) < (dx : ℚ) := by push_cast; exact h1
    have h3 : (-1 : ℤ) < dx := by exact_mod_cast h2
    omega
  have hdx2 : dx ≤ 2 * m := by
    have h1 : (dx : ℚ) < 2 * m + 1 := by
      by_contra hc
      push_neg at hc
      nlinarith
    have h2 : (dx : ℚ) < ((2 * m + 1 : ℤ) : ℚ) := by push_cast; exact h1
    have h3 : dx < 2 * m + 1 := by exact_mod_cast h2
    omega
  rcases lt_trichotomy dx (m : ℤ) with hlt | heq | hgt
  · -- the window has moved to the left: what is lost lies far to the right
    have hterm : ∀ i ∈ s, (if (pos i : ℤ) < dx - m ∨ dx + m < (pos i : ℤ) then k i else 0)
        * ((dx : ℚ) + m + 1) ≤ k i * pos i := by
      intro i hi
      have h0 := hk i hi
      split
      · rename_i hc
        have hge : dx + m + 1 ≤ (pos i : ℤ) := by omega
        have hgeq : ((dx + m + 1 : ℤ) : ℚ) ≤ ((pos i : ℤ) : ℚ) := by exact_mod_cast hge
        push_cast at hgeq
        exact mul_le_mul_of_nonneg_left hgeq h0
      · rw [zero_mul]
        exact mul_nonneg h0 (Nat.cast_nonneg _)
    have hA := Finset.sum_le_sum hterm
    rw [← Finset.sum_mul, hMdef] at hA
    have hd : (dx : ℚ) + 1 ≤ m := by
      have : ((dx + 1 : ℤ) : ℚ) ≤ ((m : ℤ) : ℚ) := by exact_mod_cast (show dx + 1 ≤ (m : ℤ) by omega)
      push_cast at this
      exact this
    have hd0 : (0 : ℚ) ≤ dx := by exact_mod_cast hdx0
    generalize ∑ i in s, (if (pos i : ℤ) < dx - m ∨ dx + m < (pos i : ℤ) then k i else 0) = A at hA ⊢
    have hc : 0 < (dx : ℚ) + m + 1 := by linarith
    have h1 : 2 * A * ((dx : ℚ) + m + 1) < S * ((dx : ℚ) + m + 1) := by nlinarith
    exact lt_of_mul_lt_mul_right h1 hc.le
  · -- the window has not moved along this axis
    have hz : ∀ i ∈ s, (if (pos i : ℤ) < dx - m ∨ dx + m < (pos i : ℤ) then k i else 0) = 0 := by
      intro i hi
      have := hp i hi
      rw [if_neg (by omega)]
    rw [Finset.sum_eq_zero hz, mul_zero]
    exact hS
  · -- the window has moved to the right: what is lost lies far to the left
    have hterm : ∀ i ∈ s, (if (pos i : ℤ) < dx - m ∨ dx + m < (pos i : ℤ) then k i else 0)
        * (3 * (m : ℚ) + 1 - dx) ≤ k i * (2 * m) - k i * pos i := by
      intro i hi
      have h0 := hk i hi
      have hpi := hp i hi
      have hpq : ((pos i : ℕ) : ℚ) ≤ 2 * m := by exact_mod_cast hpi
      split
      · rename_i hc
        have hge : (pos i : ℤ) + m + 1 ≤ dx := by omega
        have hgeq : (((pos i : ℤ) + m + 1 : ℤ) : ℚ) ≤ (dx : ℚ) := by exact_mod_cast hge
        push_cast at hgeq
        nlinarith
      · rw [zero_mul]
        nlinarith
    have hA := Finset.sum_le_sum hterm
    rw [← Finset.sum_mul, Finset.sum_sub_distrib, ← Finset.sum_mul, hMdef, hSdef] at hA
    have hd : (m : ℚ) + 1 ≤ dx := by
      have : (((m : ℤ) + 1 : ℤ) : ℚ) ≤ (dx : ℚ) := by exact_mod_cast (show (m : ℤ) + 1 ≤ dx by omega)
      push_cast at this
      exact this
    have hd2 : (dx : ℚ) ≤ 2 * m := by
      have : (dx : ℚ) ≤ ((2 * m : ℤ) : ℚ) := by exact_mod_cast hdx2
      push_cast at this
      exact this
    generalize ∑ i in s, (if (pos i : ℤ) < dx - m ∨ dx + m < (pos i : ℤ) then k i else 0) = A at hA ⊢
    have hc : 0 < 3 * (m : ℚ) + 1 - dx := by linarith
    have h1 : 2 * A * (3 * (m : ℚ) + 1 - dx) < S * (3 * (m : ℚ) + 1 - dx) := by nlinarith
    exact lt_of_mul_lt_mul_right h1 hc.le

/-- A non-negative kernel of odd dimensions with positive sum has a positive
    sample that the shift by the rounded centroid keeps inside the window. -/
theorem utils.recenter_keeps_sample (k : img_t ℚ) (hwf : k.wf) (hd : k.d = 1) (hn : k.nonneg)
    (hw : k.w % 2 = 1) (hh : k.h % 2 = 1) (hpos : 0 < k.sum) :
    ∃ u v, u < k.w ∧ v < k.h ∧ 0 < k.get u v 0 ∧
      0 ≤ (u : ℤ) - cround ((utils.moments k).1 / k.sum) + (k.w / 2 : ℕ) ∧
      (u : ℤ) - cround ((utils.moments k).1 / k.sum) + (k.w / 2 : ℕ) < k.w ∧
      0 ≤ (v : ℤ) - cround ((utils.moments k).2 / k.sum) + (k.h / 2 : ℕ) ∧
      (v : ℤ) - cround ((utils.moments k).2 / k.sum) + (k.h / 2 : ℕ) < k.h := by
  have hS : k.sum = ∑ a in Finset.range k.h ×ˢ Finset.range k.w, k.get a.2 a.1 0 := by
    rw [img_t.sum_eq_sum_grid k hwf hd,
      Finset.sum_product' (Finset.range k.h) (Finset.range k.w) (fun y x => k.get x y 0)]
  have hMx : (utils.moments k).1 =
      ∑ a in Finset.range k.h ×ˢ Finset.range k.w, k.get a.2 a.1 0 * ((a.2 : ℕ) : ℚ) := by
    rw [utils.moments_spec,
      Finset.sum_product' (Finset.range k.h) (Finset.range k.w)
        (fun y x => k.get x y 0 * ((x : ℕ) : ℚ))]
  have hMy : (utils.moments k).2 =
      ∑ a in Finset.range k.h ×ˢ Finset.range k.w, k.get a.2 a.1 0 * ((a.1 : ℕ) : ℚ) := by
    rw [utils.moments_spec,
      Finset.sum_product' (Finset.range k.h) (Finset.range k.w)
        (fun y x => k.get x y 0 * ((y : ℕ) : ℚ))]
  have hk0 : ∀ a ∈ Finset.range k.h ×ˢ Finset.range k.w, 0 ≤ k.get a.2 a.1 0 :=
    fun a _ => img_t.get_nonneg hn _ _ _
  have hpos' : 0 < ∑ a in Finset.range k.h ×ˢ Finset.range k.w, k.get a.2 a.1 0 := by
    rw [← hS]; exact hpos
  have hx := discarded_mass_lt_half (Finset.range k.h ×ˢ Finset.range k.w)
    (fun a => k.get a.2 a.1 0) (fun a => a.2) (k.w / 2) hk0
    (by
      intro a ha
      have := Finset.mem_range.mp (Finset.mem_product.mp ha).2
      show a.2 ≤ 2 * (k.w / 2)
      omega) hpos'
  have hy := discarded_mass_lt_half (Finset.range k.h ×ˢ Finset.range k.w)
    (fun a => k.get a.2 a.1 0) (fun a => a.1) (k.h / 2) hk0
    (by
      intro a ha
      have := Finset.mem_range.mp (Finset.mem_product.mp ha).1
      show a.1 ≤ 2 * (k.h / 2)
      omega) hpos'
  dsimp only at hx hy
  rw [← hMx, ← hS] at hx
  rw [← hMy, ← hS] at hy
  by_contra hnone
  push_neg at hnone
  have hle : ∀ a ∈ Finset.range k.h ×ˢ Finset.range k.w, k.get a.2 a.1 0 ≤
      (if (a.2 : ℤ) < cround ((utils.moments k).1 / k.sum) - (k.w / 2 : ℕ) ∨
          cround ((utils.moments k).1 / k.sum) + (k.w / 2 : ℕ) < (a.2 : ℤ)
        then k.get a.2 a.1 0 else 0) +
      (if (a.1 : ℤ) < cround ((utils.moments k).2 / k.sum) - (k.h / 2 : ℕ) ∨
          cround ((utils.moments k).2 / k.sum) + (k.h / 2 : ℕ) < (a.1 : ℤ)
        then k.get a.2 a.1 0 else 0) := by
    intro a ha
    have ha1 := Finset.mem_range.mp (Finset.mem_product.mp ha).1
    have ha2 := Finset.mem_range.mp (Finset.mem_product.mp ha).2
    have h0 := hk0 a ha
    by_cases hx1 : (a.2 : ℤ) < cround ((utils.moments k).1 / k.sum) - (k.w / 2 : ℕ) ∨
        cround ((utils.moments k).1 / k.sum) + (k.w / 2 : ℕ) < (a.2 : ℤ)
    · rw [if_pos hx1]
      split <;> linarith
    · rw [if_neg hx1]
      by_cases hy1 : (a.1 : ℤ) < cround ((utils.moments k).2 / k.sum) - (k.h / 2 : ℕ) ∨
          cround ((utils.moments k).2 / k.sum) + (k.h / 2 : ℕ) < (a.1 : ℤ)
      · rw [if_pos hy1]; linarith
      · rw [if_neg hy1]
        by_contra hgt
        push_neg at hgt
        have hp : 0 < k.get a.2 a.1 0 := by linarith
        have := hnone a.2 a.1 ha2 ha1 hp (by omega) (by omega) (by omega)
        omega
  have hsum := Finset.sum_le_sum hle
  rw [Finset.sum_add_distrib, ← hS] at hsum
  linarith

/-- C34: for every non-negative single-channel kernel of odd dimensions with
    positive sum, `center_kernel` does not discard all of the mass: the
    re-centred kernel has a positive entry and a positive sum, and the final
    normalization yields the sum 1. -/
theorem center_kernel_keeps_mass (k : img_t ℚ) (hwf : k.wf) (hd : k.d = 1) (hn : k.nonneg)
    (hw : k.w % 2 = 1) (hh : k.h % 2 = 1) (hpos : 0 < k.sum) :
    ∃ out, utils.center_kernel k = some out ∧
      (∃ x y, x < out.w ∧ y < out.h ∧ 0 < out.get x y 0) ∧ 0 < out.sum ∧
      (FourierKernelEstimator.normalize out).sum = 1 := by
  have hs := utils.recenter_same_shape k (cround ((utils.moments k).1 / k.sum))
    (cround ((utils.moments k).2 / k.sum))
  have rwf := img_t.same_shape_wf hs hwf
  have rd := hs.2.2.1.trans hd
  have rn := utils.recenter_nonneg hn (cround ((utils.moments k).1 / k.sum))
    (cround ((utils.moments k).2 / k.sum))
  have hdef : utils.center_kernel k = some (utils.recenter k
      (cround ((utils.moments k).1 / k.sum)) (cround ((utils.moments k).2 / k.sum))) := by
    unfold utils.center_kernel
    dsimp only
    rw [if_neg (ne_of_gt hpos)]
  obtain ⟨u, v, hu, hv, hp, h1, h2, h3, h4⟩ :=
    utils.recenter_keeps_sample k hwf hd hn hw hh hpos
  have hx : ((u : ℤ) - cround ((utils.moments k).1 / k.sum) + (k.w / 2 : ℕ)).toNat < k.w := by
    omega
  have hy : ((v : ℤ) - cround ((utils.moments k).2 / k.sum) + (k.h / 2 : ℕ)).toNat < k.h := by
    omega
  have hval : (utils.recenter k (cround ((utils.moments k).1 / k.sum))
      (cround ((utils.moments k).2 / k.sum))).get
        ((u : ℤ) - cround ((utils.moments k).1 / k.sum) + (k.w / 2 : ℕ)).toNat
        ((v : ℤ) - cround ((utils.moments k).2 / k.sum) + (k.h / 2 : ℕ)).toNat 0
        = k.get u v 0 := by
    rw [utils.recenter_get k _ _ hwf hd _ _ hx hy,
      if_pos (by rw [Int.toNat_of_nonneg h1, Int.toNat_of_nonneg h3]; omega)]
    congr 1
    · rw [Int.toNat_of_nonneg h1]; omega
    · rw [Int.toNat_of_nonneg h3]; omega
  have hsum : 0 < (utils.recenter k (cround ((utils.moments k).1 / k.sum))
      (cround ((utils.moments k).2 / k.sum))).sum := by
    rw [img_t.sum_eq_sum_grid _ rwf rd, hs.1, hs.2.1]
    apply Finset.sum_pos'
    · intro y _
      exact Finset.sum_nonneg (fun x _ => img_t.get_nonneg rn _ _ _)
    · refine ⟨_, Finset.mem_range.mpr hy, ?_⟩
      apply Finset.sum_pos'
      · intro x _
        exact img_t.get_nonneg rn _ _ _
      · exact ⟨_, Finset.mem_range.mpr hx, by rw [hval]; exact hp⟩
  refine ⟨_, hdef, ⟨_, _, by rw [hs.1]; exact hx, by rw [hs.2.1]; exact hy,
    by rw [hval]; exact hp⟩, hsum, (FourierKernelEstimator.normalize_sum rn rwf).1 hsum⟩

theorem center_kernel_keeps_mass_witness :
    ∃ out, utils.center_kernel lopsided_window = some out ∧
      (∃ x y, x < out.w ∧ y < out.h ∧ 0 < out.get x y 0) ∧ 0 < out.sum ∧
      (FourierKernelEstimator.normalize out).sum = 1 :=
  center_kernel_keeps_mass lopsided_window (by decide) rfl (by unfold img_t.nonneg; decide!)
    (by decide) (by decide) (by decide!)

/-! ## A kernel that is pruned away -/

theorem img_t.get_of_all_zero {k : img_t ℚ} (hz : ∀ v ∈ k.data, v = 0) (x y dd : ℕ) :
    k.get x y dd = 0 := by
  unfold img_t.get
  rw [img_t.getI_eq]
  cases hi : k.data[k.idx x y dd]? with
  | none => rfl
  | some v => exact hz v (List.mem_iff_getElem?.mpr ⟨_, hi⟩)

/-- The translation loop of `center_kernel` leaves an all-zero kernel as it
    is, for every shift. -/
theorem utils.recenter_all_zero (k : img_t ℚ) (hwf : k.wf) (hd : k.d = 1)
    (hz : ∀ v ∈ k.data, v = 0) (dx dy : ℤ) : utils.recenter k dx dy = k := by
  have hs := utils.recenter_same_shape k dx dy
  apply img_t.ext_get (img_t.same_shape_wf hs hwf) hwf hs.1 hs.2.1 hs.2.2.1
  intro x y dd hx hy hdd
  rw [hs.1] at hx
  rw [hs.2.1] at hy
  rw [hs.2.2.1, hd] at hdd
  have h0 : dd = 0 := by omega
  rw [h0, utils.recenter_get k dx dy hwf hd x y hx hy, img_t.get_of_all_zero hz x y 0]
  split
  · exact img_t.get_of_all_zero hz _ _ _
  · rfl

/-- Where `center_kernel` has a value, `center_kernel_with` is that value. -/
theorem utils.center_kernel_with_eq (nan : ℤ × ℤ) {kernel out : img_t ℚ}
    (h : utils.center_kernel kernel = some out) : utils.center_kernel_with nan kernel = out := by
  obtain ⟨hne, he⟩ := utils.center_kernel_some h
  unfold utils.center_kernel_with
  dsimp only
  rw [if_neg hne, he]

/-- Where the post-processing has a value, `postprocess_with` is that value. -/
theorem FourierKernelEstimator.postprocess_with_eq (nan : ℤ × ℤ) (opts : options)
    {k out : img_t ℚ} (h : FourierKernelEstimator.postprocess opts k = some out) :
    FourierKernelEstimator.postprocess_with nan opts k = some out := by
  unfold FourierKernelEstimator.postprocess FourierKernelEstimator.centered at h
  unfold FourierKernelEstimator.postprocess_with
  cases hp : FourierKernelEstimator.prune opts
      (FourierKernelEstimator.threshold opts (FourierKernelEstimator.clamp k)) with
  | none => rw [hp] at h; exact absurd h (by simp)
  | some c =>
    rw [hp] at h
    cases hc : utils.center_kernel c with
    | none => rw [Option.some_bind, hc] at h; exact absurd h (by simp)
    | some o =>
      rw [Option.some_bind, hc] at h
      rw [Option.map_some', utils.center_kernel_with_eq nan hc]
      exact h

/-- C36: the window `eleven_pixels` is non-negative with the positive sum 11
    and eleven pixels of which no two are 8-adjacent; clamping and thresholding
    leave it as it is, and `remove_isolated_cc` zeroes every entry of it, each
    pixel holding 1/11 of the mass. Whatever integers the re-centring then
    shifts by, the post-processing with `remove_isolated = true` returns the
    all-zero kernel, of sum 0. -/
theorem pruning_zeroes_eleven_pixels :
    (∀ v ∈ eleven_pixels.data, 0 ≤ v) ∧ eleven_pixels.sum = 11 ∧
    (∀ v ∈ eleven_pixels.data, v = 0 ∨ v = 1) ∧
    (∀ x y, x < 7 → y < 7 → eleven_pixels.get x y 0 ≠ 0 → x % 2 = 0 ∧ y % 2 = 0) ∧
    FourierKernelEstimator.threshold default_options (FourierKernelEstimator.clamp eleven_pixels)
      = eleven_pixels ∧
    utils.remove_isolated_cc eleven_pixels = some (img_t.make 7 7 1) ∧
    (∀ v ∈ (img_t.make 7 7 1 : img_t ℚ).data, v = 0) ∧
    (img_t.make 7 7 1 : img_t ℚ).sum = 0 ∧
    default_options.remove_isolated = true ∧
    ∀ nan : ℤ × ℤ,
      utils.center_kernel_with nan (img_t.make 7 7 1) = img_t.make 7 7 1 ∧
      FourierKernelEstimator.postprocess_with nan default_options eleven_pixels
        = some (img_t.make 7 7 1) := by
  have hz : ∀ v ∈ (img_t.make 7 7 1 : img_t ℚ).data, v = 0 := by decide!
  have hcw : ∀ nan : ℤ × ℤ,
      utils.center_kernel_with nan (img_t.make 7 7 1) = img_t.make 7 7 1 := by
    intro nan
    unfold utils.center_kernel_with
    dsimp only
    rw [if_pos (by decide!)]
    exact utils.recenter_all_zero _ (by decide) rfl hz _ _
  have hprune : FourierKernelEstimator.prune default_options
      (FourierKernelEstimator.threshold default_options
        (FourierKernelEstimator.clamp eleven_pixels)) = some (img_t.make 7 7 1) := by decide!
  have hnorm : FourierKernelEstimator.normalize (img_t.make 7 7 1) = img_t.make 7 7 1 := by
    decide!
  refine ⟨by decide!, by decide!, by decide!, ?_, by decide!, by decide!, hz, by decide!, rfl,
    ?_⟩
  · intro x y hx hy hne
    interval_cases x <;> interval_cases y <;>
      first
      | exact ⟨by decide, by decide⟩
      | exact absurd (by decide!) hne
  · intro nan
    refine ⟨hcw nan, ?_⟩
    unfold FourierKernelEstimator.postprocess_with
    rw [hprune, Option.map_some', hcw nan, hnorm]
